import Mathlib

/-!
# A reverse-mode autograd engine over dense matrices

Shallow embedding of `Matrix.cpp`, `ModelVariables.hpp`, `ModelContext.cpp` and `PRNG.cpp`.

* Scalars (`f32` in the source) are the elements of a linearly ordered field `α`
  (exact arithmetic) in the kernels and the graph engine; `std::exp` and `std::log` are
  passed as functions.
* `PRNG::randf` and `Matrix::fill_rand` are modelled in `f32` itself: an `f32` value is the
  rational it denotes and every operation is rounded once by `f32_round` (IEEE 754 binary32,
  to nearest with ties to even); a result that is not finite is `none`.
* A `std::vector` is a `List`; `v[i]` reads with `List.getD` and writes with `List.set`.
  Out-of-range accesses are undefined in the source and excluded by the hypotheses.
* Node pointers (`ModelVar*`) are positions in the arena `all_vars`; `nullptr` is `none`.
* Kernels that mutate `out` and return `bool` return the pair `(flag, out)`.
* The random generator is a sequence `rand : Nat → Nat` of outputs of `PRNG::rand`, read with
  the count of the outputs already used.
-/

set_option linter.unusedSectionVars false
set_option linter.unusedTactic false
set_option linter.unusedVariables false

namespace Autograd

/-! ## Dense matrix (`Matrix.hpp`, `Matrix.cpp`) -/

/-- Modelled from the spec: `Types.hpp` is not among the sources; `u32` is the unsigned
32-bit integer type, whose arithmetic is modulo `2 ^ 32`. -/
def U32_MOD : Nat := 4294967296

/-- The class `Matrix`: a shape and a flat row-major buffer. -/
structure Matrix (α : Type) where
  rows : Nat
  cols : Nat
  data : List α
  deriving DecidableEq

section Kernels

variable {α : Type} [LinearOrderedField α]

/-- The expression `m.data[i]` read. -/
def Matrix.get (m : Matrix α) (i : Nat) : α := m.data.getD i 0

/-- The assignment `m.data[i] = v`. -/
def Matrix.set (m : Matrix α) (i : Nat) (v : α) : Matrix α :=
  { m with data := m.data.set i v }

/-- `Matrix::at`: the element in row `r` and column `c`. -/
def Matrix.at (m : Matrix α) (r c : Nat) : α := m.get (c + r * m.cols)

/-- `Matrix::Matrix(r, c)` / `Matrix::create`: a zero-filled buffer of `r * c` elements. -/
def Matrix.create (rows cols : Nat) : Matrix α :=
  { rows := rows, cols := cols, data := List.replicate (rows * cols) 0 }

/-- `Matrix::size`. -/
def Matrix.size (m : Matrix α) : Nat := m.rows * m.cols

/-- `Matrix::clear`. -/
def Matrix.clear (m : Matrix α) : Matrix α :=
  { m with data := m.data.map (fun _ => 0) }

/-- `Matrix::fill`. -/
def Matrix.fill (m : Matrix α) (x : α) : Matrix α :=
  { m with data := m.data.map (fun _ => x) }

/-- `Matrix::scale`. -/
def Matrix.scale (m : Matrix α) (s : α) : Matrix α :=
  { m with data := m.data.map (fun v => v * s) }

/-- `Matrix::sum`. -/
def Matrix.sum (m : Matrix α) : α := m.data.foldl (fun s v => s + v) 0

/-- `Matrix::argmax`. -/
def Matrix.argmax (m : Matrix α) : Nat :=
  (List.range (m.data.length - 1)).foldl
    (fun max_i k => if m.get (k + 1) > m.get max_i then k + 1 else max_i) 0

/-- The buffer has exactly `rows * cols` elements (the invariant of the class). -/
def Matrix.WF (m : Matrix α) : Prop := m.data.length = m.rows * m.cols

instance (m : Matrix α) : Decidable m.WF := by
  unfold Matrix.WF
  infer_instance

/-- Two matrices have the same `rows` and `cols`. -/
def Matrix.SameShape (m m2 : Matrix α) : Prop := m.rows = m2.rows ∧ m.cols = m2.cols

instance (m m2 : Matrix α) : Decidable (m.SameShape m2) := by
  unfold Matrix.SameShape
  infer_instance

/-- The matrix `o2` has the shape of `o`, and element `p` of `o2` is `f p`
for the positions `p` of `P`, the other elements being those of `o`. -/
def Writes (P : Nat → Prop) (f : Nat → α) (o o2 : Matrix α) : Prop :=
  o2.rows = o.rows ∧ o2.cols = o.cols ∧ o2.data.length = o.data.length ∧
    ∀ p, p < o.data.length → (P p → o2.get p = f p) ∧ (¬ P p → o2.get p = o.get p)

/-- The matrix `o2` has the shape of `o`, and every element of `o2` is that of `o`
plus `f` of its position. -/
def Adds (f : Nat → α) (o o2 : Matrix α) : Prop :=
  o2.rows = o.rows ∧ o2.cols = o.cols ∧ o2.data.length = o.data.length ∧
    ∀ p, p < o.data.length → o2.get p = o.get p + f p

/-- The matrix `o2` has the shape of `o` and agrees with it outside the positions of `S`. -/
def Keeps (S : Nat → Prop) (o o2 : Matrix α) : Prop :=
  o2.rows = o.rows ∧ o2.cols = o.cols ∧ o2.data.length = o.data.length ∧
    ∀ p, ¬ S p → o2.get p = o.get p

namespace MatOps

/-- `MatOps::add`. When `out` is the same object as `a` (as in the backward pass) element `i`
is read before it is written and never read again, so reading from the value of `a` at the
call gives the same result. -/
def add (out a b : Matrix α) : Bool × Matrix α :=
  if a.rows ≠ b.rows ∨ a.cols ≠ b.cols then (false, out)
  else if out.rows ≠ a.rows ∨ out.cols ≠ a.cols then (false, out)
  else (true, (List.range out.size).foldl (fun o i => o.set i (a.get i + b.get i)) out)

/-- `MatOps::sub`. -/
def sub (out a b : Matrix α) : Bool × Matrix α :=
  if a.rows ≠ b.rows ∨ a.cols ≠ b.cols then (false, out)
  else if out.rows ≠ a.rows ∨ out.cols ≠ a.cols then (false, out)
  else (true, (List.range out.size).foldl (fun o i => o.set i (a.get i - b.get i)) out)

/-- `MatOps::mul_nn`: loops `i`, `k`, `j`. -/
def mul_nn (out a b : Matrix α) : Matrix α :=
  (List.range out.rows).foldl (fun o i =>
    (List.range a.cols).foldl (fun o k =>
      (List.range out.cols).foldl (fun o j =>
        o.set (j + i * out.cols)
          (o.get (j + i * out.cols) + a.get (k + i * a.cols) * b.get (j + k * b.cols))) o) o) out

/-- `MatOps::mul_nt`: loops `i`, `j`, `k`. -/
def mul_nt (out a b : Matrix α) : Matrix α :=
  (List.range out.rows).foldl (fun o i =>
    (List.range out.cols).foldl (fun o j =>
      (List.range a.cols).foldl (fun o k =>
        o.set (j + i * out.cols)
          (o.get (j + i * out.cols) + a.get (k + i * a.cols) * b.get (k + j * b.cols))) o) o) out

/-- `MatOps::mul_tn`: loops `k`, `i`, `j`. -/
def mul_tn (out a b : Matrix α) : Matrix α :=
  (List.range a.rows).foldl (fun o k =>
    (List.range out.rows).foldl (fun o i =>
      (List.range out.cols).foldl (fun o j =>
        o.set (j + i * out.cols)
          (o.get (j + i * out.cols) + a.get (i + k * a.cols) * b.get (j + k * b.cols))) o) o) out

/-- `MatOps::mul_tt`: loops `i`, `j`, `k`. -/
def mul_tt (out a b : Matrix α) : Matrix α :=
  (List.range out.rows).foldl (fun o i =>
    (List.range out.cols).foldl (fun o j =>
      (List.range a.rows).foldl (fun o k =>
        o.set (j + i * out.cols)
          (o.get (j + i * out.cols) + a.get (i + k * a.cols) * b.get (k + j * b.cols))) o) o) out

/-- `MatOps::mul`. -/
def mul (out a b : Matrix α) (zero_out transpose_a transpose_b : Bool) : Bool × Matrix α :=
  let a_rows := if transpose_a then a.cols else a.rows
  let a_cols := if transpose_a then a.rows else a.cols
  let b_rows := if transpose_b then b.cols else b.rows
  let b_cols := if transpose_b then b.rows else b.cols
  if a_cols ≠ b_rows then (false, out)
  else if out.rows ≠ a_rows ∨ out.cols ≠ b_cols then (false, out)
  else
    let out1 := if zero_out then out.clear else out
    match transpose_a, transpose_b with
    | false, false => (true, mul_nn out1 a b)
    | false, true => (true, mul_nt out1 a b)
    | true, false => (true, mul_tn out1 a b)
    | true, true => (true, mul_tt out1 a b)

/-- `MatOps::relu`. -/
def relu (out inp : Matrix α) : Bool × Matrix α :=
  if out.rows ≠ inp.rows ∨ out.cols ≠ inp.cols then (false, out)
  else (true, (List.range out.size).foldl (fun o i => o.set i (max 0 (inp.get i))) out)

/-- `MatOps::softmax`; `fexp` stands for `std::exp`. The loop carries `out` and `sum`. -/
def softmax (fexp : α → α) (out inp : Matrix α) : Bool × Matrix α :=
  if out.rows ≠ inp.rows ∨ out.cols ≠ inp.cols then (false, out)
  else
    let r := (List.range out.size).foldl
      (fun (st : Matrix α × α) i =>
        let o := st.1.set i (fexp (inp.get i))
        (o, st.2 + o.get i)) (out, 0)
    (true, r.1.scale (1 / r.2))

/-- `MatOps::cross_entropy`; `flog` stands for `std::log`. -/
def cross_entropy (flog : α → α) (out p q : Matrix α) : Bool × Matrix α :=
  if p.rows ≠ q.rows ∨ p.cols ≠ q.cols then (false, out)
  else if out.rows ≠ p.rows ∨ out.cols ≠ p.cols then (false, out)
  else (true, (List.range out.size).foldl
    (fun o i => o.set i (if p.get i = 0 then 0 else p.get i * -(flog (q.get i)))) out)

/-- `MatOps::relu_add_grad`. -/
def relu_add_grad (out inp grad : Matrix α) : Bool × Matrix α :=
  if out.rows ≠ inp.rows ∨ out.cols ≠ inp.cols then (false, out)
  else if out.rows ≠ grad.rows ∨ out.cols ≠ grad.cols then (false, out)
  else (true, (List.range out.size).foldl
    (fun o i => o.set i (o.get i + (if inp.get i > 0 then grad.get i else 0))) out)

/-- The Jacobian built by the two nested loops of `MatOps::softmax_add_grad`. The index
`j + i * size` is computed in `u32`, hence modulo `2 ^ 32`. -/
def softmax_jacobian (softmax_out : Matrix α) : Matrix α :=
  let size := max softmax_out.rows softmax_out.cols
  (List.range size).foldl (fun jac i =>
    (List.range size).foldl (fun jac j =>
      jac.set ((j + i * size) % U32_MOD)
        (softmax_out.get i * ((if i = j then 1 else 0) - softmax_out.get j))) jac)
    (Matrix.create size size)

/-- `MatOps::softmax_add_grad`. The result of the call to `mul` is discarded. -/
def softmax_add_grad (out softmax_out grad : Matrix α) : Bool × Matrix α :=
  if softmax_out.rows ≠ 1 ∧ softmax_out.cols ≠ 1 then (false, out)
  else (true, (mul out (softmax_jacobian softmax_out) grad false false false).2)

/-- First half of `MatOps::cross_entropy_add_grad`: the `p_grad` destination. -/
def cross_entropy_add_grad_p (flog : α → α) (p_grad p q grad : Matrix α) : Bool × Matrix α :=
  if p_grad.rows ≠ p.rows ∨ p_grad.cols ≠ p.cols then (false, p_grad)
  else (true, (List.range p.size).foldl
    (fun o i => o.set i (o.get i + -(flog (q.get i)) * grad.get i)) p_grad)

/-- Second half of `MatOps::cross_entropy_add_grad`: the `q_grad` destination. -/
def cross_entropy_add_grad_q (q_grad p q grad : Matrix α) : Bool × Matrix α :=
  if q_grad.rows ≠ q.rows ∨ q_grad.cols ≠ q.cols then (false, q_grad)
  else (true, (List.range p.size).foldl
    (fun o i => o.set i (o.get i + -(p.get i) / q.get i * grad.get i)) q_grad)

/-- `MatOps::cross_entropy_add_grad` with two distinct optional destinations (`none` is
`nullptr`). Returns the flag and the two destinations. -/
def cross_entropy_add_grad (flog : α → α) (p_grad q_grad : Option (Matrix α))
    (p q grad : Matrix α) : Bool × Option (Matrix α) × Option (Matrix α) :=
  if p.rows ≠ q.rows ∨ p.cols ≠ q.cols then (false, p_grad, q_grad)
  else
    let r1 : Bool × Option (Matrix α) :=
      match p_grad with
      | none => (true, none)
      | some pg => let r := cross_entropy_add_grad_p flog pg p q grad; (r.1, some r.2)
    if r1.1 = false then (false, r1.2, q_grad)
    else
      match q_grad with
      | none => (true, r1.2, none)
      | some qg => let r := cross_entropy_add_grad_q qg p q grad; (r.1, r1.2, some r.2)

end MatOps

end Kernels

/-! ## Graph nodes (`ModelVariables.hpp`) -/

/-- `MV_FLAG_REQUIRES_GRAD`. -/
def MV_FLAG_REQUIRES_GRAD : Nat := 1
/-- `MV_FLAG_PARAMETER`. -/
def MV_FLAG_PARAMETER : Nat := 2
/-- `MV_FLAG_INPUT`. -/
def MV_FLAG_INPUT : Nat := 4
/-- `MV_FLAG_OUTPUT`. -/
def MV_FLAG_OUTPUT : Nat := 8
/-- `MV_FLAG_DESIRED_OUTPUT`. -/
def MV_FLAG_DESIRED_OUTPUT : Nat := 16
/-- `MV_FLAG_COST`. -/
def MV_FLAG_COST : Nat := 32

/-- The test `flags & f` used as a condition. -/
def has_flag (flags f : Nat) : Bool := flags &&& f != 0

/-- `enum class ModelVarOp`. -/
inductive ModelVarOp where
  | Null | Create | UnaryStart | Relu | Softmax | BinaryStart | Add | Sub | Matmul | CrossEntropy
  deriving DecidableEq

/-- The numeric value of an enumerator. -/
def ModelVarOp.toNat : ModelVarOp → Nat
  | .Null => 0
  | .Create => 1
  | .UnaryStart => 2
  | .Relu => 3
  | .Softmax => 4
  | .BinaryStart => 5
  | .Add => 6
  | .Sub => 7
  | .Matmul => 8
  | .CrossEntropy => 9

/-- `mv_num_inputs`. -/
def mv_num_inputs (op : ModelVarOp) : Nat :=
  if op.toNat < ModelVarOp.UnaryStart.toNat then 0
  else if op.toNat < ModelVarOp.BinaryStart.toNat then 1
  else 2

/-- `struct ModelVar`. `val` is always allocated by `create_var`; `grad` is `none` when the
pointer is null; `input0`, `input1` are `inputs[0]`, `inputs[1]`. -/
structure ModelVar (α : Type) where
  index : Nat
  flags : Nat
  val : Matrix α
  grad : Option (Matrix α)
  op : ModelVarOp
  input0 : Option Nat
  input1 : Option Nat
  deriving DecidableEq

/-- The array access `v.inputs[i]`. -/
def ModelVar.inputs {α : Type} (v : ModelVar α) (i : Nat) : Option Nat :=
  if i = 0 then v.input0 else if i = 1 then v.input1 else none

/-- `struct ModelProgram`. -/
structure ModelProgram where
  vars : List Nat
  deriving DecidableEq

/-- `ModelProgram::size`. -/
def ModelProgram.size (p : ModelProgram) : Nat := p.vars.length

/-! ## The context (`ModelContext.hpp`, `ModelContext.cpp`) -/

/-- `class ModelContext`. -/
structure ModelContext (α : Type) where
  all_vars : List (ModelVar α)
  input : Option Nat
  output : Option Nat
  desired_output : Option Nat
  cost : Option Nat
  forward_prog : ModelProgram
  cost_prog : ModelProgram
  deriving DecidableEq

section Context

variable {α : Type} [LinearOrderedField α]

/-- A default-constructed `ModelVar`, with an empty value matrix. -/
def ModelVar.null : ModelVar α :=
  { index := 0, flags := 0, val := ⟨0, 0, []⟩, grad := none, op := .Null,
    input0 := none, input1 := none }

/-- A default-constructed `ModelContext`. -/
def ModelContext.empty : ModelContext α :=
  { all_vars := [], input := none, output := none, desired_output := none, cost := none,
    forward_prog := ⟨[]⟩, cost_prog := ⟨[]⟩ }

/-- `ModelContext::num_vars`: `static_cast<u32>(all_vars.size())`. The arena is taken to hold
fewer than `2 ^ 32` nodes, so that the cast is the identity. -/
def ModelContext.num_vars (ctx : ModelContext α) : Nat := ctx.all_vars.length

/-- Dereference of a node pointer. A pointer outside the arena (undefined in the source)
reads a default-constructed node. -/
def ModelContext.var (ctx : ModelContext α) (p : Nat) : ModelVar α :=
  ctx.all_vars.getD p ModelVar.null

/-- Overwrite the node a pointer refers to. -/
def ModelContext.set_var (ctx : ModelContext α) (p : Nat) (v : ModelVar α) : ModelContext α :=
  { ctx with all_vars := ctx.all_vars.set p v }

/-- `ModelContext::create_var`. Returns the context and the pointer to the new node. -/
def ModelContext.create_var (ctx : ModelContext α) (rows cols flags : Nat) :
    ModelContext α × Nat :=
  let var : ModelVar α :=
    { index := ctx.num_vars, flags := flags, op := .Create, val := Matrix.create rows cols,
      grad := if has_flag flags MV_FLAG_REQUIRES_GRAD then some (Matrix.create rows cols)
              else none,
      input0 := none, input1 := none }
  let ptr := ctx.all_vars.length
  let c0 := { ctx with all_vars := ctx.all_vars ++ [var] }
  let c1 := if has_flag flags MV_FLAG_INPUT then { c0 with input := some ptr } else c0
  let c2 := if has_flag flags MV_FLAG_OUTPUT then { c1 with output := some ptr } else c1
  let c3 := if has_flag flags MV_FLAG_DESIRED_OUTPUT then { c2 with desired_output := some ptr }
            else c2
  let c4 := if has_flag flags MV_FLAG_COST then { c3 with cost := some ptr } else c3
  (c4, ptr)

/-- `ModelContext::unary_impl`. -/
def ModelContext.unary_impl (ctx : ModelContext α) (input_var rows cols flags : Nat)
    (op : ModelVarOp) : ModelContext α × Nat :=
  let flags1 := if has_flag (ctx.var input_var).flags MV_FLAG_REQUIRES_GRAD
    then flags ||| MV_FLAG_REQUIRES_GRAD else flags
  let r := ctx.create_var rows cols flags1
  (r.1.set_var r.2 { r.1.var r.2 with op := op, input0 := some input_var }, r.2)

/-- `ModelContext::binary_impl`. -/
def ModelContext.binary_impl (ctx : ModelContext α) (a b rows cols flags : Nat)
    (op : ModelVarOp) : ModelContext α × Nat :=
  let flags1 := if has_flag (ctx.var a).flags MV_FLAG_REQUIRES_GRAD
      || has_flag (ctx.var b).flags MV_FLAG_REQUIRES_GRAD
    then flags ||| MV_FLAG_REQUIRES_GRAD else flags
  let r := ctx.create_var rows cols flags1
  (r.1.set_var r.2 { r.1.var r.2 with op := op, input0 := some a, input1 := some b }, r.2)

/-- `ModelContext::relu`. The second component is the returned pointer. -/
def ModelContext.relu (ctx : ModelContext α) (input_var flags : Nat) :
    ModelContext α × Option Nat :=
  let r := ctx.unary_impl input_var (ctx.var input_var).val.rows (ctx.var input_var).val.cols
    flags .Relu
  (r.1, some r.2)

/-- `ModelContext::softmax`. -/
def ModelContext.softmax (ctx : ModelContext α) (input_var flags : Nat) :
    ModelContext α × Option Nat :=
  let r := ctx.unary_impl input_var (ctx.var input_var).val.rows (ctx.var input_var).val.cols
    flags .Softmax
  (r.1, some r.2)

/-- `ModelContext::add`; `none` is the returned `nullptr`. -/
def ModelContext.add (ctx : ModelContext α) (a b flags : Nat) : ModelContext α × Option Nat :=
  if (ctx.var a).val.rows ≠ (ctx.var b).val.rows ∨ (ctx.var a).val.cols ≠ (ctx.var b).val.cols
  then (ctx, none)
  else
    let r := ctx.binary_impl a b (ctx.var a).val.rows (ctx.var a).val.cols flags .Add
    (r.1, some r.2)

/-- `ModelContext::sub`. -/
def ModelContext.sub (ctx : ModelContext α) (a b flags : Nat) : ModelContext α × Option Nat :=
  if (ctx.var a).val.rows ≠ (ctx.var b).val.rows ∨ (ctx.var a).val.cols ≠ (ctx.var b).val.cols
  then (ctx, none)
  else
    let r := ctx.binary_impl a b (ctx.var a).val.rows (ctx.var a).val.cols flags .Sub
    (r.1, some r.2)

/-- `ModelContext::matmul`. -/
def ModelContext.matmul (ctx : ModelContext α) (a b flags : Nat) :
    ModelContext α × Option Nat :=
  if (ctx.var a).val.cols ≠ (ctx.var b).val.rows then (ctx, none)
  else
    let r := ctx.binary_impl a b (ctx.var a).val.rows (ctx.var b).val.cols flags .Matmul
    (r.1, some r.2)

/-- `ModelContext::cross_entropy`. -/
def ModelContext.cross_entropy (ctx : ModelContext α) (p q flags : Nat) :
    ModelContext α × Option Nat :=
  if (ctx.var p).val.rows ≠ (ctx.var q).val.rows ∨ (ctx.var p).val.cols ≠ (ctx.var q).val.cols
  then (ctx, none)
  else
    let r := ctx.binary_impl p q (ctx.var p).val.rows (ctx.var p).val.cols flags .CrossEntropy
    (r.1, some r.2)

/-! ### The topological scheduler -/

/-- The local variables of `create_program`: `visited`, `stack` (a vector, its back is the
end of the list) and `out`. -/
structure ProgState where
  visited : List Bool
  stack : List Nat
  out : List Nat
  deriving DecidableEq

/-- The body of the inner `for` loop of `create_program` for a non-null input `inp`:
skip it when it is out of range or visited, otherwise erase its pending occurrence from the
stack and push it. -/
def push_input (ctx : ModelContext α) (visited : List Bool) (stk : List Nat) (inp : Nat) :
    List Nat :=
  if (ctx.var inp).index ≥ ctx.num_vars ∨ visited.getD (ctx.var inp).index false = true
  then stk
  else stk.erase inp ++ [inp]

/-- The inner `for` loop of `create_program` over the inputs of `cur`. A null input pointer
(undefined in the source) is skipped. -/
def create_program_inputs (ctx : ModelContext α) (cur : Nat) (visited : List Bool)
    (stack : List Nat) : List Nat :=
  (List.range (mv_num_inputs (ctx.var cur).op)).foldl (fun stk i =>
    match (ctx.var cur).inputs i with
    | none => stk
    | some inp => push_input ctx visited stk inp) stack

/-- One iteration of the `while` loop of `create_program` (the stack is non-empty). -/
def create_program_step (ctx : ModelContext α) (st : ProgState) : ProgState :=
  match st.stack.getLast? with
  | none => st
  | some cur =>
    let stack := st.stack.dropLast
    if (ctx.var cur).index ≥ ctx.num_vars then { st with stack := stack }
    else if st.visited.getD (ctx.var cur).index false = true then
      { st with stack := stack, out := st.out ++ [cur] }
    else
      let visited := st.visited.set (ctx.var cur).index true
      { visited := visited,
        stack := create_program_inputs ctx cur visited (stack ++ [cur]),
        out := st.out }

/-- The `while (!stack.empty())` loop, run for at most `fuel` iterations; `none` when the
fuel runs out before the stack is empty. -/
def create_program_loop (ctx : ModelContext α) : Nat → ProgState → Option (List Nat)
  | 0, _ => none
  | fuel + 1, st =>
    if st.stack = [] then some st.out
    else create_program_loop ctx fuel (create_program_step ctx st)

/-- `ModelContext::create_program`. The loop needs at most `3 * num_vars + 1` iterations
(see `create_program_loop_total`), so the fuel given here is never exhausted. -/
def ModelContext.create_program (ctx : ModelContext α) (out_var : Nat) : Option ModelProgram :=
  (create_program_loop ctx (3 * ctx.num_vars + 2)
    { visited := List.replicate ctx.num_vars false, stack := [out_var], out := [] }).map
    ModelProgram.mk

end Context

end Autograd

/-! ## Fixtures -/

namespace Autograd

/-- A 2-by-3 fixture. -/
def fixA : Matrix ℚ := ⟨2, 3, [1, 2, 3, 4, 5, 6]⟩

/-- A 3-by-2 fixture. -/
def fixB : Matrix ℚ := ⟨3, 2, [7, 8, 9, 10, 11, 12]⟩

/-- A 2-by-2 destination with prior content. -/
def fixOut : Matrix ℚ := ⟨2, 2, [100, 200, 300, 400]⟩

/-- The `n`-by-1 softmax output of a constant input: every entry is `1 / n`. -/
def uniformVec (n : Nat) : Matrix ℚ := ⟨n, 1, List.replicate n (1 / (n : ℚ))⟩

/-- The `n`-by-1 vector whose last entry is 1 and whose other entries are 0. -/
def lastUnitVec (n : Nat) : Matrix ℚ := ⟨n, 1, List.replicate (n - 1) 0 ++ [1]⟩

/-- A 2-by-1 destination with prior content. -/
def fixOut2 : Matrix ℚ := ⟨2, 1, [5, 7]⟩

/-- A 3-by-1 destination, of the wrong shape for a 2-by-1 softmax output. -/
def fixOut3 : Matrix ℚ := ⟨3, 1, [5, 7, 9]⟩

/-- A 1-by-2 softmax output (a row vector). -/
def fixRowS : Matrix ℚ := ⟨1, 2, [1 / 2, 1 / 2]⟩

/-- A 1-by-2 incoming gradient. -/
def fixRowG : Matrix ℚ := ⟨1, 2, [0, 1]⟩

/-- A 1-by-2 destination with prior content. -/
def fixRowOut : Matrix ℚ := ⟨1, 2, [5, 7]⟩

end Autograd

/-! ## Well-formedness and reachability -/

namespace Autograd

section Predicates

variable {α : Type} [LinearOrderedField α]

/-- Node `m` is an operand of node `n`: `inputs[0]` or `inputs[1]` of `n` points to `m`. -/
def ModelContext.IsOperand (ctx : ModelContext α) (m n : Nat) : Prop :=
  (ctx.var n).input0 = some m ∨ (ctx.var n).input1 = some m

instance (ctx : ModelContext α) (m n : Nat) : Decidable (ctx.IsOperand m n) := by
  unfold ModelContext.IsOperand
  infer_instance

/-- The operands the scheduler follows from node `p`: `inputs[i]` for `i < mv_num_inputs`. -/
def ModelContext.operands (ctx : ModelContext α) (p : Nat) : List Nat :=
  (List.range (mv_num_inputs (ctx.var p).op)).filterMap (fun i => (ctx.var p).inputs i)

/-- Node `x` is reachable from `root` by following operand references zero or more times. -/
def ModelContext.Reaches (ctx : ModelContext α) (root x : Nat) : Prop :=
  Relation.ReflTransGen (fun a b => ctx.IsOperand b a) root x

/-- Well-formedness of the arena: the node at position `p` has index `p`, each of its first
`mv_num_inputs` inputs points to an earlier node, and its other inputs are null. -/
structure ModelContext.ArenaWF (ctx : ModelContext α) : Prop where
  index_eq : ∀ p, p < ctx.num_vars → (ctx.var p).index = p
  inputs_lt : ∀ p, p < ctx.num_vars → ∀ i, i < mv_num_inputs (ctx.var p).op →
    ∃ m, (ctx.var p).inputs i = some m ∧ m < p
  inputs_none : ∀ p, p < ctx.num_vars → ∀ i, mv_num_inputs (ctx.var p).op ≤ i →
    (ctx.var p).inputs i = none

/-- The contexts built through the construction API: `create_var` and the composers, applied
to nodes of the context. -/
inductive Built : ModelContext α → Prop where
  | empty : Built ModelContext.empty
  | create_var (ctx : ModelContext α) (rows cols flags : Nat) :
      Built ctx → Built (ctx.create_var rows cols flags).1
  | relu (ctx : ModelContext α) (a flags : Nat) :
      Built ctx → a < ctx.num_vars → Built (ctx.relu a flags).1
  | softmax (ctx : ModelContext α) (a flags : Nat) :
      Built ctx → a < ctx.num_vars → Built (ctx.softmax a flags).1
  | add (ctx : ModelContext α) (a b flags : Nat) :
      Built ctx → a < ctx.num_vars → b < ctx.num_vars → Built (ctx.add a b flags).1
  | sub (ctx : ModelContext α) (a b flags : Nat) :
      Built ctx → a < ctx.num_vars → b < ctx.num_vars → Built (ctx.sub a b flags).1
  | matmul (ctx : ModelContext α) (a b flags : Nat) :
      Built ctx → a < ctx.num_vars → b < ctx.num_vars → Built (ctx.matmul a b flags).1
  | cross_entropy (ctx : ModelContext α) (a b flags : Nat) :
      Built ctx → a < ctx.num_vars → b < ctx.num_vars → Built (ctx.cross_entropy a b flags).1

/-- The termination measure of the loop of `create_program`. -/
def ProgState.measure (st : ProgState) : Nat := 3 * st.visited.count false + st.stack.length

/-- The loop invariant of `create_program` on a well-formed arena. -/
structure ProgInv (ctx : ModelContext α) (root : Nat) (st : ProgState) : Prop where
  vlen : st.visited.length = ctx.num_vars
  stack_lt : ∀ x, x ∈ st.stack → x < ctx.num_vars
  stack_nodup : st.stack.Nodup
  out_vis : ∀ x, x ∈ st.out → st.visited.getD x false = true
  out_not_stack : ∀ x, x ∈ st.out → x ∉ st.stack
  vis_cases : ∀ x, st.visited.getD x false = true → x ∈ st.out ∨ x ∈ st.stack
  out_nodup : st.out.Nodup
  ordA : st.stack.Pairwise (fun a b => st.visited.getD a false = true → b < a)
  ordB : st.stack.Pairwise (fun a b => st.visited.getD b false = true →
    ¬ st.visited.getD a false = true → a ∉ ctx.operands b)
  open_ops : ∀ x, x ∈ st.stack → st.visited.getD x false = true →
    ∀ y, y ∈ ctx.operands x → y ∈ st.out ∨ y ∈ st.stack
  out_closed : ∀ (i x : Nat), st.out[i]? = some x → ∀ y, y ∈ ctx.operands x →
    ∃ j : Nat, j < i ∧ st.out[j]? = some y
  reach : ∀ x, x ∈ st.stack ∨ x ∈ st.out → ctx.Reaches root x
  root_in : root ∈ st.stack ∨ root ∈ st.out
  bottom : st.stack.head? = some root ∨ (st.stack = [] ∧ st.out.getLast? = some root)
  root_vis : st.visited.getD root false = true ∨ st.stack = [root]

/-- The invariant of the inner loop of `create_program` while it handles the operands of
`cur`: `visited` already marks `cur`, `stack0` is the stack at the start of the inner loop
and `done` lists the operands handled so far. -/
structure PushInv (ctx : ModelContext α) (visited : List Bool) (stack0 : List Nat)
    (cur root : Nat) (done stk : List Nat) : Prop where
  nodup : stk.Nodup
  mem : ∀ x, x ∈ stk ↔ x ∈ stack0 ∨ (x ∈ done ∧ ¬ visited.getD x false = true)
  ordA : stk.Pairwise (fun a b => visited.getD a false = true → b < a)
  ordB : stk.Pairwise (fun a b => visited.getD b false = true →
    ¬ visited.getD a false = true →
      (b ≠ cur → a ∉ ctx.operands b) ∧ (b = cur → a ∉ done))
  head : stk.head? = some root

end Predicates

end Autograd


/-! ## The executors (`ModelContext.cpp`) -/

namespace Autograd

section Executors

variable {α : Type} [LinearOrderedField α]

/-- Store `m` into the value buffer `*p->val`. -/
def ModelContext.set_val (ctx : ModelContext α) (p : Nat) (m : Matrix α) : ModelContext α :=
  ctx.set_var p { ctx.var p with val := m }

/-- The gradient buffer `*p->grad`. A null `grad` (undefined to dereference in the source)
reads an empty matrix. -/
def ModelContext.grad (ctx : ModelContext α) (p : Nat) : Matrix α :=
  ((ctx.var p).grad).getD ⟨0, 0, []⟩

/-- Store `m` into the gradient buffer `*p->grad`; nothing is stored through a null `grad`. -/
def ModelContext.set_grad (ctx : ModelContext α) (p : Nat) (m : Matrix α) : ModelContext α :=
  match (ctx.var p).grad with
  | none => ctx
  | some _ => ctx.set_var p { ctx.var p with grad := some m }

/-- The test `p->flags & MV_FLAG_REQUIRES_GRAD` through a possibly null pointer. -/
def ModelContext.requires_grad (ctx : ModelContext α) (p : Option Nat) : Bool :=
  match p with
  | none => false
  | some a => has_flag (ctx.var a).flags MV_FLAG_REQUIRES_GRAD

/-- The body of the loop of `compute_program` (and of `feedforward`) for the node `cur`: the
`switch` on `cur->op`. Leaf operations, and a null operand (undefined in the source), leave
the state as it is. -/
def forward_node (fexp flog : α → α) (ctx : ModelContext α) (cur : Nat) : ModelContext α :=
  match (ctx.var cur).op, (ctx.var cur).input0, (ctx.var cur).input1 with
  | .Relu, some a, _ =>
    ctx.set_val cur (MatOps.relu (ctx.var cur).val (ctx.var a).val).2
  | .Softmax, some a, _ =>
    ctx.set_val cur (MatOps.softmax fexp (ctx.var cur).val (ctx.var a).val).2
  | .Add, some a, some b =>
    ctx.set_val cur (MatOps.add (ctx.var cur).val (ctx.var a).val (ctx.var b).val).2
  | .Sub, some a, some b =>
    ctx.set_val cur (MatOps.sub (ctx.var cur).val (ctx.var a).val (ctx.var b).val).2
  | .Matmul, some a, some b =>
    ctx.set_val cur
      (MatOps.mul (ctx.var cur).val (ctx.var a).val (ctx.var b).val true false false).2
  | .CrossEntropy, some a, some b =>
    ctx.set_val cur
      (MatOps.cross_entropy flog (ctx.var cur).val (ctx.var a).val (ctx.var b).val).2
  | _, _, _ => ctx

/-- `compute_program`: one forward pass over a program. -/
def compute_program (fexp flog : α → α) (prog : ModelProgram) (ctx : ModelContext α) :
    ModelContext α :=
  prog.vars.foldl (forward_node fexp flog) ctx

/-- `ModelContext::feedforward`: the same loop over `forward_prog`. -/
def ModelContext.feedforward (fexp flog : α → α) (ctx : ModelContext α) : ModelContext α :=
  ctx.forward_prog.vars.foldl (forward_node fexp flog) ctx

/-- `ModelContext::compile`. A program is stored when its root is set; `create_program`
always returns (see `create_program_loop_total`). -/
def ModelContext.compile (ctx : ModelContext α) : ModelContext α :=
  let c1 := match ctx.output with
    | none => ctx
    | some o => match ctx.create_program o with
      | some p => { ctx with forward_prog := p }
      | none => ctx
  match c1.cost with
  | none => c1
  | some c => match c1.create_program c with
    | some p => { c1 with cost_prog := p }
    | none => c1

/-- The body of the first loop of `compute_grads`: clear the gradient of a
requires-gradient node that is not a parameter. -/
def clear_grad_node (ctx : ModelContext α) (cur : Nat) : ModelContext α :=
  if has_flag (ctx.var cur).flags MV_FLAG_REQUIRES_GRAD = false then ctx
  else if has_flag (ctx.var cur).flags MV_FLAG_PARAMETER = true then ctx
  else ctx.set_grad cur (ctx.grad cur).clear

/-- The body of the backward loop of `compute_grads` for the node `cur`. The two halves of
`cross_entropy_add_grad` run one after the other through the state, which is what the
kernel does also when both destinations are the same buffer. -/
def backward_node (flog : α → α) (ctx : ModelContext α) (cur : Nat) : ModelContext α :=
  if has_flag (ctx.var cur).flags MV_FLAG_REQUIRES_GRAD = false then ctx
  else
    let a_req := ctx.requires_grad (ctx.var cur).input0
    let b_req := ctx.requires_grad (ctx.var cur).input1
    if mv_num_inputs (ctx.var cur).op = 1 ∧ a_req = false then ctx
    else if mv_num_inputs (ctx.var cur).op = 2 ∧ a_req = false ∧ b_req = false then ctx
    else
      match (ctx.var cur).op, (ctx.var cur).input0, (ctx.var cur).input1 with
      | .Relu, some a, _ =>
        ctx.set_grad a (MatOps.relu_add_grad (ctx.grad a) (ctx.var a).val (ctx.grad cur)).2
      | .Softmax, some a, _ =>
        ctx.set_grad a
          (MatOps.softmax_add_grad (ctx.grad a) (ctx.var cur).val (ctx.grad cur)).2
      | .Add, some a, some b =>
        let c1 := if a_req then
          ctx.set_grad a (MatOps.add (ctx.grad a) (ctx.grad a) (ctx.grad cur)).2 else ctx
        if b_req then
          c1.set_grad b (MatOps.add (c1.grad b) (c1.grad b) (c1.grad cur)).2 else c1
      | .Sub, some a, some b =>
        let c1 := if a_req then
          ctx.set_grad a (MatOps.add (ctx.grad a) (ctx.grad a) (ctx.grad cur)).2 else ctx
        if b_req then
          c1.set_grad b (MatOps.sub (c1.grad b) (c1.grad b) (c1.grad cur)).2 else c1
      | .Matmul, some a, some b =>
        let c1 := if a_req then
          ctx.set_grad a
            (MatOps.mul (ctx.grad a) (ctx.grad cur) (ctx.var b).val false false true).2
          else ctx
        if b_req then
          c1.set_grad b
            (MatOps.mul (c1.grad b) (c1.var a).val (c1.grad cur) false true false).2
          else c1
      | .CrossEntropy, some a, some b =>
        if (ctx.var a).val.rows ≠ (ctx.var b).val.rows ∨
            (ctx.var a).val.cols ≠ (ctx.var b).val.cols then ctx
        else
          let r1 := if a_req then
            MatOps.cross_entropy_add_grad_p flog (ctx.grad a) (ctx.var a).val
              (ctx.var b).val (ctx.grad cur)
            else (true, ctx.grad a)
          let c1 := if a_req then ctx.set_grad a r1.2 else ctx
          if r1.1 = false then c1
          else if b_req then
            c1.set_grad b (MatOps.cross_entropy_add_grad_q (c1.grad b) (c1.var a).val
              (c1.var b).val (c1.grad cur)).2
          else c1
      | _, _, _ => ctx

/-- The first two phases of `compute_grads`: clear the non-parameter gradients, then fill the
gradient of `prog.vars[prog.size() - 1]` with ones (the index is computed in `u32`; an
index outside the vector, undefined in the source, stores nothing). -/
def compute_grads_seed (prog : ModelProgram) (ctx : ModelContext α) : ModelContext α :=
  let c1 := prog.vars.foldl clear_grad_node ctx
  match prog.vars[(prog.size + U32_MOD - 1) % U32_MOD]? with
  | some last => c1.set_grad last ((c1.grad last).fill 1)
  | none => c1

/-- `compute_grads`: clear and seed, then run the backward loop from the last node of the
program to the first. -/
def compute_grads (flog : α → α) (prog : ModelProgram) (ctx : ModelContext α) :
    ModelContext α :=
  prog.vars.reverse.foldl (backward_node flog) (compute_grads_seed prog ctx)

end Executors

end Autograd


namespace Autograd

section WellFormed

variable {α : Type} [LinearOrderedField α]

/-- Consistency of one node `v` with its operands, read through `look`: buffer sizes, the
gradient buffer present exactly with the requires-gradient flag and shaped like the value,
the shapes the composers have validated, and the propagated requires-gradient flag. -/
structure NodeOK (look : Nat → ModelVar α) (v : ModelVar α) : Prop where
  val_wf : v.val.WF
  grad_some : has_flag v.flags MV_FLAG_REQUIRES_GRAD = true →
    ∃ g, v.grad = some g ∧ g.rows = v.val.rows ∧ g.cols = v.val.cols ∧ g.WF
  grad_none : has_flag v.flags MV_FLAG_REQUIRES_GRAD = false → v.grad = none
  unary_shape : ∀ a, mv_num_inputs v.op = 1 → v.input0 = some a →
    (look a).val.rows = v.val.rows ∧ (look a).val.cols = v.val.cols
  ew_shape : ∀ a b, (v.op = .Add ∨ v.op = .Sub ∨ v.op = .CrossEntropy) →
    v.input0 = some a → v.input1 = some b →
    ((look a).val.rows = v.val.rows ∧ (look a).val.cols = v.val.cols) ∧
    ((look b).val.rows = v.val.rows ∧ (look b).val.cols = v.val.cols)
  mm_shape : ∀ a b, v.op = .Matmul → v.input0 = some a → v.input1 = some b →
    (look a).val.cols = (look b).val.rows ∧ v.val.rows = (look a).val.rows ∧
      v.val.cols = (look b).val.cols
  req_prop : ∀ y, (v.input0 = some y ∨ v.input1 = some y) →
    has_flag (look y).flags MV_FLAG_REQUIRES_GRAD = true →
    has_flag v.flags MV_FLAG_REQUIRES_GRAD = true
  op_ok : v.op ≠ .Null ∧ v.op ≠ .UnaryStart ∧ v.op ≠ .BinaryStart

/-- A well-formed context: a well-formed arena all of whose nodes are consistent. What the
construction API builds, whatever the buffers then hold. -/
structure ModelContext.WF (ctx : ModelContext α) : Prop where
  arena : ctx.ArenaWF
  node : ∀ p, p < ctx.num_vars → NodeOK ctx.var (ctx.var p)

/-- The node `create_var` appends. -/
def new_var (n rows cols flags : Nat) : ModelVar α :=
  { index := n, flags := flags, op := .Create, val := Matrix.create rows cols,
    grad := if has_flag flags MV_FLAG_REQUIRES_GRAD then some (Matrix.create rows cols)
            else none,
    input0 := none, input1 := none }

/-- The part of a node that the executors never change: everything but the content of the
value and gradient buffers. -/
def ModelVar.skel (v : ModelVar α) :
    Nat × Nat × ModelVarOp × Option Nat × Option Nat × (Nat × Nat × Nat) ×
      Option (Nat × Nat × Nat) :=
  (v.index, v.flags, v.op, v.input0, v.input1, (v.val.rows, v.val.cols, v.val.data.length),
    v.grad.map (fun g => (g.rows, g.cols, g.data.length)))

/-- Two contexts with the same graph and the same buffer shapes. -/
def SameSkel (ctx ctx2 : ModelContext α) : Prop :=
  ctx2.all_vars.map ModelVar.skel = ctx.all_vars.map ModelVar.skel

end WellFormed

end Autograd


namespace Autograd

/-- The graph `r = add(x, relu(x))` on a 3-by-1 requires-gradient leaf `x`: nodes 0, 1, 2. -/
def fixGraph : ModelContext ℚ :=
  (((ModelContext.empty.create_var 3 1 MV_FLAG_REQUIRES_GRAD).1.relu 0 0).1.add 0 1
    MV_FLAG_COST).1

end Autograd


/-! ## Reference values of the operations -/

namespace Autograd

section Reference

variable {α : Type} [LinearOrderedField α]

/-- Reference: elementwise maximum with zero. -/
def relu_spec (inp : Matrix α) : Matrix α :=
  ⟨inp.rows, inp.cols, (List.range inp.size).map (fun i => max 0 (inp.get i))⟩

/-- Reference: elementwise sum. -/
def add_spec (a b : Matrix α) : Matrix α :=
  ⟨a.rows, a.cols, (List.range a.size).map (fun i => a.get i + b.get i)⟩

/-- Reference: elementwise difference. -/
def sub_spec (a b : Matrix α) : Matrix α :=
  ⟨a.rows, a.cols, (List.range a.size).map (fun i => a.get i - b.get i)⟩

/-- Reference: the plain matrix product, `out[i][j] = sum over k of a[i][k] * b[k][j]`. -/
def matmul_spec (a b : Matrix α) : Matrix α :=
  ⟨a.rows, b.cols, (List.range (a.rows * b.cols)).map (fun p =>
    ∑ k in Finset.range a.cols, a.at (p / b.cols) k * b.at k (p % b.cols))⟩

/-- Reference: elementwise exponential divided by the sum of the exponentials (as a
multiplication by the reciprocal of the sum). -/
def softmax_spec (fexp : α → α) (inp : Matrix α) : Matrix α :=
  ⟨inp.rows, inp.cols, (List.range inp.size).map (fun i =>
    fexp (inp.get i) * (1 / ∑ j in Finset.range inp.size, fexp (inp.get j)))⟩

/-- Reference: elementwise `p * -log q`, with `0` where `p` is `0`. -/
def cross_entropy_spec (flog : α → α) (p q : Matrix α) : Matrix α :=
  ⟨p.rows, p.cols, (List.range p.size).map (fun i =>
    if p.get i = 0 then 0 else p.get i * -(flog (q.get i)))⟩

/-- The reference value of an operation on the values `a`, `b` of the operands; `own`, the
node's own value, for a leaf (and when an operand is missing). -/
def node_spec (fexp flog : α → α) (op : ModelVarOp) (a b : Option (Matrix α))
    (own : Matrix α) : Matrix α :=
  match op, a, b with
  | .Relu, some a, _ => relu_spec a
  | .Softmax, some a, _ => softmax_spec fexp a
  | .Add, some a, some b => add_spec a b
  | .Sub, some a, some b => sub_spec a b
  | .Matmul, some a, some b => matmul_spec a b
  | .CrossEntropy, some a, some b => cross_entropy_spec flog a b
  | _, _, _ => own

/-- The value a node must hold after a forward pass: for a leaf its own value, for another
node the reference value of its operation on the values its operands hold. -/
def node_value (fexp flog : α → α) (ctx : ModelContext α) (cur : Nat) : Matrix α :=
  node_spec fexp flog (ctx.var cur).op
    ((ctx.var cur).input0.map (fun a => (ctx.var a).val))
    ((ctx.var cur).input1.map (fun b => (ctx.var b).val))
    (ctx.var cur).val

end Reference

end Autograd


namespace Autograd

/-- A program order for a context: no node twice, only nodes of the arena, and each operand
of a listed node listed before it. -/
structure ProgOrder {α : Type} [LinearOrderedField α] (ctx : ModelContext α) (l : List Nat) :
    Prop where
  nodup : l.Nodup
  lt : ∀ x, x ∈ l → x < ctx.num_vars
  topo : ∀ (i x : Nat), l[i]? = some x → ∀ y, ctx.IsOperand y x →
    ∃ j : Nat, j < i ∧ l[j]? = some y

end Autograd


/-! ## The backward pass as a list of gradient updates -/

namespace Autograd

section Updates

variable {α : Type} [LinearOrderedField α]

/-- The gradient kernels the backward step for `cur` runs on a well-formed context, in
order: each entry is the node whose gradient buffer is the destination, and the kernel as a
function of that buffer. -/
def node_updates (flog : α → α) (ctx : ModelContext α) (cur : Nat) :
    List (Nat × (Matrix α → Matrix α)) :=
  if has_flag (ctx.var cur).flags MV_FLAG_REQUIRES_GRAD = false then []
  else
    let a_req := ctx.requires_grad (ctx.var cur).input0
    let b_req := ctx.requires_grad (ctx.var cur).input1
    if mv_num_inputs (ctx.var cur).op = 1 ∧ a_req = false then []
    else if mv_num_inputs (ctx.var cur).op = 2 ∧ a_req = false ∧ b_req = false then []
    else
      match (ctx.var cur).op, (ctx.var cur).input0, (ctx.var cur).input1 with
      | .Relu, some a, _ =>
        [(a, fun g => (MatOps.relu_add_grad g (ctx.var a).val (ctx.grad cur)).2)]
      | .Softmax, some a, _ =>
        [(a, fun g => (MatOps.softmax_add_grad g (ctx.var cur).val (ctx.grad cur)).2)]
      | .Add, some a, some b =>
        (if a_req then [(a, fun g => (MatOps.add g g (ctx.grad cur)).2)] else []) ++
        (if b_req then [(b, fun g => (MatOps.add g g (ctx.grad cur)).2)] else [])
      | .Sub, some a, some b =>
        (if a_req then [(a, fun g => (MatOps.add g g (ctx.grad cur)).2)] else []) ++
        (if b_req then [(b, fun g => (MatOps.sub g g (ctx.grad cur)).2)] else [])
      | .Matmul, some a, some b =>
        (if a_req then
          [(a, fun g => (MatOps.mul g (ctx.grad cur) (ctx.var b).val false false true).2)]
          else []) ++
        (if b_req then
          [(b, fun g => (MatOps.mul g (ctx.var a).val (ctx.grad cur) false true false).2)]
          else [])
      | .CrossEntropy, some a, some b =>
        (if a_req then
          [(a, fun g => (MatOps.cross_entropy_add_grad_p flog g (ctx.var a).val
            (ctx.var b).val (ctx.grad cur)).2)]
          else []) ++
        (if b_req then
          [(b, fun g => (MatOps.cross_entropy_add_grad_q g (ctx.var a).val
            (ctx.var b).val (ctx.grad cur)).2)]
          else [])
      | _, _, _ => []

/-- Run a list of gradient updates through the state. -/
def apply_updates (us : List (Nat × (Matrix α → Matrix α))) (ctx : ModelContext α) :
    ModelContext α :=
  us.foldl (fun s u => s.set_grad u.1 (u.2 (s.grad u.1))) ctx

/-- What a list of gradient updates does to the gradient buffer `g` of the node `x`. -/
def grad_after (us : List (Nat × (Matrix α → Matrix α))) (x : Nat) (g : Matrix α) :
    Matrix α :=
  us.foldl (fun m u => if u.1 = x then u.2 m else m) g

/-- A kernel adds into its destination: on destinations of one shape it adds one and the
same amount to each entry, whatever the destination holds. -/
def ShapeAdditive (K : Matrix α → Matrix α) : Prop :=
  ∀ out1 out2 : Matrix α, out1.rows = out2.rows → out1.cols = out2.cols →
    out1.data.length = out2.data.length →
    ∃ d : Nat → α, Adds d out1 (K out1) ∧ Adds d out2 (K out2)

end Updates

end Autograd


namespace Autograd

/-- Two states of one graph that agree on everything but the content of the gradient
buffers, where entry `i` of the gradient of node `q` in `A` is the one in `B` plus
`H q i`. -/
structure RelH {α : Type} [LinearOrderedField α] (H : Nat → Nat → α) (A B : ModelContext α) :
    Prop where
  skel : SameSkel B A
  but_grad : ∀ q, ({ A.var q with grad := none } : ModelVar α) = { B.var q with grad := none }
  grad_off : ∀ q i, i < (B.grad q).data.length → (A.grad q).get i = (B.grad q).get i + H q i

end Autograd


namespace Autograd

/-- The linear model `y = matmul(W, x)`: `W` a 2-by-3 parameter (node 0), `x` a 3-by-1 input
without gradient holding 7, 8, 9 (node 1), `y` the 2-by-1 output (node 2). -/
def fixLinear : ModelContext ℚ :=
  ((((ModelContext.empty.create_var 2 3 (MV_FLAG_REQUIRES_GRAD ||| MV_FLAG_PARAMETER)).1.create_var
    3 1 MV_FLAG_INPUT).1.matmul 0 1 MV_FLAG_OUTPUT).1).set_val 1 ⟨3, 1, [7, 8, 9]⟩

/-- The graph `fixGraph` with the leaf `x` holding 2, -1, 0. -/
def fixAddRelu : ModelContext ℚ := fixGraph.set_val 0 ⟨3, 1, [2, -1, 0]⟩

/-- The graph `fixAddRelu` whose non-leaf value buffers hold stale content before the pass:
9, 9, 9 in the relu node and 7, 7, 7 in the add node. -/
def fixAddReluStale : ModelContext ℚ :=
  (fixAddRelu.set_val 1 ⟨3, 1, [9, 9, 9]⟩).set_val 2 ⟨3, 1, [7, 7, 7]⟩

/-- A context whose only node is a 1-by-1 parameter. -/
def fixParam : ModelContext ℚ :=
  (ModelContext.empty.create_var 1 1 (MV_FLAG_REQUIRES_GRAD ||| MV_FLAG_PARAMETER)).1

end Autograd


namespace Autograd

/-- The 1-by-4 matrix `[0.1, 0.9, 0.9, 0.2]`, whose maximum occurs at positions 1 and 2. -/
def fixArgmax : Matrix ℚ := ⟨1, 4, [1 / 10, 9 / 10, 9 / 10, 2 / 10]⟩

end Autograd


namespace Autograd

/-- A context whose only node is a 1-by-1 leaf without gradient. -/
def fixNoGrad : ModelContext ℚ := (ModelContext.empty.create_var 1 1 MV_FLAG_INPUT).1

end Autograd


/-! ## The training loop (`ModelContext::train`) -/

namespace Autograd

section TrainUpdate

variable {α : Type} [LinearOrderedField α]

/-- The body of the loop `// Update parameters` of `train` on one node: a node without the
parameter flag is skipped; otherwise the gradient is scaled by
`learning_rate / batch_size` and subtracted in place from the value. A null `grad`
(undefined to dereference in the source) is left null and read as an empty matrix. -/
def update_parameter_node (learning_rate : α) (batch_size : Nat) (v : ModelVar α) :
    ModelVar α :=
  if has_flag v.flags MV_FLAG_PARAMETER = false then v
  else
    let v1 : ModelVar α :=
      { v with grad := v.grad.map (fun g => g.scale (learning_rate / (batch_size : α))) }
    { v1 with val := (MatOps.sub v1.val v1.val (v1.grad.getD ⟨0, 0, []⟩)).2 }

/-- The loop `for (auto& var : all_vars)` of the parameter update. -/
def update_parameters (learning_rate : α) (batch_size : Nat) (ctx : ModelContext α) :
    ModelContext α :=
  { ctx with all_vars := ctx.all_vars.map (update_parameter_node learning_rate batch_size) }

end TrainUpdate

/-- A context like `fixLinear` whose parameter 0 holds the values 1 .. 6 and the accumulated
gradient 7, 8, 9, 7, 8, 9. -/
def fixTrained : ModelContext ℚ :=
  (fixLinear.set_val 0 ⟨2, 3, [1, 2, 3, 4, 5, 6]⟩).set_grad 0 ⟨2, 3, [7, 8, 9, 7, 8, 9]⟩

end Autograd


namespace Autograd

section TrainOrder

/-- The initial `training_order` of `train`: `training_order[i] = i`. -/
def training_order_init (num_examples : Nat) : List Nat := List.range num_examples

/-- `std::swap(training_order[a], training_order[b])`. -/
def swap_entries (order : List Nat) (a b : Nat) : List Nat :=
  (order.set a (order.getD b 0)).set b (order.getD a 0)

/-- The loop `// Shuffle training order` of one epoch. `rand k` is the `k`-th output of
`prng_rand` since the start of `train`, and `drawn` the number of outputs used before the
loop; each iteration draws `a`, then `b`. -/
def shuffle_order (rand : Nat → Nat) (drawn num_examples : Nat) (order : List Nat) :
    List Nat :=
  (List.range num_examples).foldl (fun o i =>
    swap_entries o (rand (drawn + 2 * i) % num_examples)
      (rand (drawn + 2 * i + 1) % num_examples)) order

/-- The values `order_index = batch * batch_size + i` of the batch loops of one epoch, in
`u32` arithmetic, for `num_batches = num_examples / batch_size`. -/
def epoch_order_indices (num_examples batch_size : Nat) : List Nat :=
  (List.range (num_examples / batch_size)).flatMap (fun batch =>
    (List.range batch_size).map (fun i => (batch * batch_size + i) % U32_MOD))

/-- The lookups `index = training_order[order_index]` of one epoch, in the order they are
made; `none` is a lookup outside the vector. -/
def epoch_examples (num_examples batch_size : Nat) (order : List Nat) : List (Option Nat) :=
  (epoch_order_indices num_examples batch_size).map (fun k => order[k]?)

/-- The loop over the epochs of `train`, reduced to the bookkeeping of the training order:
each epoch shuffles the order left by the epoch before and then makes its lookups. The
result lists, epoch by epoch, the order used and the lookups made. -/
def train_epochs (rand : Nat → Nat) (num_examples batch_size : Nat) :
    Nat → Nat → List Nat → List (List Nat × List (Option Nat))
  | 0, _, _ => []
  | epochs + 1, drawn, order =>
    (shuffle_order rand drawn num_examples order,
      epoch_examples num_examples batch_size (shuffle_order rand drawn num_examples order)) ::
    train_epochs rand num_examples batch_size epochs (drawn + 2 * num_examples)
      (shuffle_order rand drawn num_examples order)

/-- The training orders and lookups of `train` for `epochs` epochs. -/
def train_examples (rand : Nat → Nat) (num_examples batch_size epochs : Nat) :
    List (List Nat × List (Option Nat)) :=
  train_epochs rand num_examples batch_size epochs 0 (training_order_init num_examples)

end TrainOrder

end Autograd


/-! ## The random source (`PRNG.cpp`), `f32` arithmetic and `Matrix::fill_rand` -/

namespace Autograd

section Random

/-- Modelled from the spec: part of the `f32` rounding `f32_round`. Rounding of a
non-negative rational to the nearest natural number, a tie going to the even one. -/
def round_half_even (m : ℚ) : Nat :=
  if m - (⌊m⌋₊ : ℚ) < 1 / 2 then ⌊m⌋₊
  else if 1 / 2 < m - (⌊m⌋₊ : ℚ) then ⌊m⌋₊ + 1
  else if ⌊m⌋₊ % 2 = 0 then ⌊m⌋₊ else ⌊m⌋₊ + 1

/-- Modelled from the spec: part of the `f32` rounding `f32_round`. The exponent of the unit
in the last place of a binary32 number of magnitude `a`: 24 significant bits, and
`2 ^ (-149)` for the subnormal numbers. -/
def f32_ulp_exp (a : ℚ) : Int := max (Int.log 2 a - 23) (-149)

/-- Modelled from the spec: part of the `f32` rounding `f32_round`. The magnitude `a`
rounded to a multiple of its unit in the last place. -/
def f32_mag (a : ℚ) : ℚ :=
  (round_half_even (a / 2 ^ f32_ulp_exp a) : ℚ) * 2 ^ f32_ulp_exp a

/-- Modelled from the spec: `Types.hpp` is not among the sources; `f32` is the 32-bit float
of the spec, taken as IEEE 754 binary32, and an `f32` value is the rational number it
denotes (the sign of zero is not kept). This is the rounding of an exact result `x` to `f32`,
to the nearest value with a tie going to the even significand; `none` when the rounded
magnitude reaches `2 ^ 128`, where the `f32` result is an infinity. -/
def f32_round (x : ℚ) : Option ℚ :=
  if f32_mag |x| < 2 ^ 128 then some (if x < 0 then -f32_mag |x| else f32_mag |x|) else none

/-- `std::numeric_limits<u32>::max()`. -/
def U32_MAX : Nat := 4294967295

/-- `static_cast<f32>(r)` for a `u32` value `r`. -/
def f32_of_u32 (r : Nat) : Option ℚ := f32_round (r : ℚ)

/-- The `f32` quotient `a / b`; `none` for a zero divisor, whose quotient is not finite. -/
def f32_div (a b : ℚ) : Option ℚ := if b = 0 then none else f32_round (a / b)

/-- The `f32` product `a * b`. -/
def f32_mul (a b : ℚ) : Option ℚ := f32_round (a * b)

/-- The `f32` sum `a + b`. -/
def f32_add (a b : ℚ) : Option ℚ := f32_round (a + b)

/-- The `f32` difference `a - b`. -/
def f32_sub (a b : ℚ) : Option ℚ := f32_round (a - b)

/-- `PRNG::randf` on the value `r` returned by `rand()`: `r` and `U32_MAX` are converted to
`f32` and divided in `f32`. -/
def randf (r : Nat) : Option ℚ :=
  (f32_of_u32 r).bind (fun a => (f32_of_u32 U32_MAX).bind (fun b => f32_div a b))

/-- The body of the loop of `Matrix::fill_rand` for the draw `r`:
`prng_randf() * (upper - lower) + lower`, every operation rounded to `f32`. -/
def fill_rand_value (r : Nat) (lower upper : ℚ) : Option ℚ :=
  (randf r).bind (fun u => (f32_sub upper lower).bind (fun d =>
    (f32_mul u d).bind (fun p => f32_add p lower)))

/-- `Matrix::fill_rand` on a buffer of `f32` values. `rand k` is the `k`-th output of
`rand()` and `drawn` the number of outputs used before the call; element `i` is written from
the next draw. The result is `none` when an element written is not a finite `f32` value. -/
def Matrix.fill_rand (rand : Nat → Nat) (drawn : Nat) (m : Matrix ℚ) (lower upper : ℚ) :
    Option (Matrix ℚ) :=
  if (List.range m.data.length).all
      (fun i => (fill_rand_value (rand (drawn + i)) lower upper).isSome) then
    some { m with
      data := (List.range m.data.length).map
        (fun i => (fill_rand_value (rand (drawn + i)) lower upper).getD 0) }
  else none

end Random

end Autograd


namespace Autograd

section TrainOrderFixtures

/-- A generator whose outputs are all 0: every swap of `train` is `swap(0, 0)`. -/
def fixRandZero : Nat → Nat := fun _ => 0

/-- A generator whose output number 1 is 1 and whose other outputs are 0: with two examples
the first swap of the first epoch is `swap(0, 1)` and every other swap is `swap(0, 0)`. -/
def fixRandSwap : Nat → Nat := fun k => if k = 1 then 1 else 0

end TrainOrderFixtures

end Autograd



namespace Autograd

/-- The graph `r = add(a, a)` on a 1-by-1 requires-gradient leaf `a`: node 0 is both
operands of node 1. -/
def fixAddSelf : ModelContext ℚ :=
  ((ModelContext.empty.create_var 1 1 MV_FLAG_REQUIRES_GRAD).1.add 0 0 MV_FLAG_COST).1

end Autograd



namespace Autograd

section PrefixDefs

variable {α : Type} [LinearOrderedField α]

/-- Node `b` is the last operand of node `a`: `a->inputs[num_inputs - 1]`, that is
`inputs[1]` of a binary node and `inputs[0]` of a unary one. -/
def ModelContext.IsLastOperand (ctx : ModelContext α) (b a : Nat) : Prop :=
  0 < mv_num_inputs (ctx.var a).op ∧
    (ctx.var a).inputs (mv_num_inputs (ctx.var a).op - 1) = some b

instance (ctx : ModelContext α) (b a : Nat) : Decidable (ctx.IsLastOperand b a) := by
  unfold ModelContext.IsLastOperand
  infer_instance

/-- Node `x` is reached from `root` by following last operands zero or more times. -/
def ModelContext.LastChain (ctx : ModelContext α) (root x : Nat) : Prop :=
  Relation.ReflTransGen (fun a b => ctx.IsLastOperand b a) root x

/-- The relation between a state `sf` of the loop of `create_program(o)` and a state `sc` of
the loop of `create_program(c)` for a node `c` above `o`: the same `out`, the same `visited`
on the nodes up to `o`, and the stack of `sf` on top of other pending nodes. -/
structure ProgSim (ctx : ModelContext α) (o : Nat) (sf sc : ProgState) : Prop where
  out_eq : sc.out = sf.out
  stack_eq : ∃ B, sc.stack = B ++ sf.stack
  nodup : sc.stack.Nodup
  vis_eq : ∀ y, y ≤ o → sc.visited.getD y false = sf.visited.getD y false
  stack_le : ∀ x, x ∈ sf.stack → x ≤ o
  vlen_f : sf.visited.length = ctx.num_vars
  vlen_c : sc.visited.length = ctx.num_vars

/-- A state of the loop of `create_program` that has emitted nothing, has the unvisited node
`x` at the back of its stack, and has visited no node up to `x`. -/
structure ProgTop (ctx : ModelContext α) (x : Nat) (st : ProgState) : Prop where
  out_nil : st.out = []
  stack_top : ∃ B, st.stack = B ++ [x]
  nodup : st.stack.Nodup
  unvis : ∀ y, y ≤ x → st.visited.getD y false = false
  vlen : st.visited.length = ctx.num_vars
  x_lt : x < ctx.num_vars

end PrefixDefs

/-- The graph `cost = add(out, y)` with `out = relu(x)` the designated output: nodes `x` (0),
`out` (1), `y` (2), `cost` (3); the output node is the first operand of the cost node. -/
def fixOutputFirst : ModelContext ℚ :=
  ((((ModelContext.empty.create_var 1 1 MV_FLAG_REQUIRES_GRAD).1.relu 0 MV_FLAG_OUTPUT).1.create_var
    1 1 MV_FLAG_DESIRED_OUTPUT).1.add 1 2 MV_FLAG_COST).1

/-- The graph `cost = add(y, out)` with `out = relu(x)` the designated output: nodes `x` (0),
`out` (1), `y` (2), `cost` (3); the output node is the last operand of the cost node. -/
def fixOutputLast : ModelContext ℚ :=
  ((((ModelContext.empty.create_var 1 1 MV_FLAG_REQUIRES_GRAD).1.relu 0 MV_FLAG_OUTPUT).1.create_var
    1 1 MV_FLAG_DESIRED_OUTPUT).1.add 2 1 MV_FLAG_COST).1

end Autograd



/-! ## Loop lemmas for the kernels -/

namespace Autograd

section KernelLemmas

variable {α : Type} [LinearOrderedField α]

theorem Matrix.set_rows (m : Matrix α) (i : Nat) (v : α) : (m.set i v).rows = m.rows := rfl

theorem Matrix.set_cols (m : Matrix α) (i : Nat) (v : α) : (m.set i v).cols = m.cols := rfl

theorem Matrix.set_length (m : Matrix α) (i : Nat) (v : α) :
    (m.set i v).data.length = m.data.length := by
  simp [Matrix.set]

theorem Matrix.get_set (m : Matrix α) (i j : Nat) (v : α) :
    (m.set i v).get j = if j = i ∧ i < m.data.length then v else m.get j := by
  simp only [Matrix.get, Matrix.set, List.getD_eq_getElem?_getD, List.getElem?_set]
  by_cases h1 : i = j
  · subst h1
    by_cases h2 : i < m.data.length
    · simp [h2]
    · rw [List.getElem?_eq_none (Nat.le_of_not_lt h2)]
      simp [h2]
  · have h3 : ¬ j = i := fun h => h1 h.symm
    simp [h1, h3]

theorem Matrix.get_of_le (m : Matrix α) (i : Nat) (h : m.data.length ≤ i) : m.get i = 0 := by
  simp only [Matrix.get, List.getD_eq_getElem?_getD]
  rw [List.getElem?_eq_none h]
  rfl

/-- Extensionality through `get`. -/
theorem Matrix.ext_get (m m2 : Matrix α) (hr : m.rows = m2.rows) (hc : m.cols = m2.cols)
    (hl : m.data.length = m2.data.length)
    (h : ∀ i, i < m.data.length → m.get i = m2.get i) : m = m2 := by
  cases m with
  | mk r c d =>
    cases m2 with
    | mk r2 c2 d2 =>
      simp only at hr hc hl
      subst hr
      subst hc
      congr 1
      apply List.ext_getElem hl
      intro n h1 h2
      have := h n h1
      simp only [Matrix.get, List.getD_eq_getElem?_getD] at this
      rw [List.getElem?_eq_getElem h1, List.getElem?_eq_getElem h2] at this
      simpa using this

/-- A loop `for i < n: o[i] = f i` writes `f` to the first `n` positions. -/
theorem writes_fold (f : Nat → α) (n : Nat) (o : Matrix α) :
    Writes (fun p => p < n) f o ((List.range n).foldl (fun o i => o.set i (f i)) o) := by
  induction n with
  | zero => exact ⟨rfl, rfl, rfl, fun p _ => ⟨fun h => absurd h (Nat.not_lt_zero p), fun _ => rfl⟩⟩
  | succ n ih =>
    rw [List.range_succ, List.foldl_append]
    obtain ⟨h1, h2, h3, h4⟩ := ih
    refine ⟨h1, h2, ?_, ?_⟩
    · simp only [List.foldl_cons, List.foldl_nil, Matrix.set_length]
      exact h3
    · intro p hp
      simp only [List.foldl_cons, List.foldl_nil, Matrix.get_set, h3]
      by_cases hpn : p = n
      · subst hpn
        simp [hp]
      · have h5 := h4 p hp
        constructor
        · intro hlt
          have : p < n := by omega
          simp [hpn, h5.1 this]
        · intro hlt
          have : ¬ p < n := by omega
          simp [hpn, h5.2 this]

theorem adds_point (o : Matrix α) (q : Nat) (d : α) :
    Adds (fun p => if p = q then d else 0) o (o.set q (o.get q + d)) := by
  refine ⟨rfl, rfl, Matrix.set_length _ _ _, ?_⟩
  intro p hp
  rw [Matrix.get_set]
  by_cases h : p = q
  · subst h
    simp [hp]
  · simp [h]

theorem adds_fold_range (body : Matrix α → Nat → Matrix α) (g : Nat → Nat → α) (n : Nat)
    (h : ∀ i, i < n → ∀ o, Adds (g i) o (body o i)) (o : Matrix α) :
    Adds (fun p => ∑ i in Finset.range n, g i p) o ((List.range n).foldl body o) := by
  induction n with
  | zero =>
    refine ⟨rfl, rfl, rfl, ?_⟩
    intro p _
    simp
  | succ n ih =>
    rw [List.range_succ, List.foldl_append]
    obtain ⟨h1, h2, h3, h4⟩ := ih (fun i hi o => h i (Nat.lt_succ_of_lt hi) o)
    obtain ⟨k1, k2, k3, k4⟩ := h n (Nat.lt_succ_self n) ((List.range n).foldl body o)
    simp only [List.foldl_cons, List.foldl_nil]
    refine ⟨k1.trans h1, k2.trans h2, k3.trans h3, ?_⟩
    intro p hp
    rw [k4 p (by rw [h3]; exact hp), h4 p hp]
    beta_reduce
    rw [Finset.sum_range_succ, add_assoc]

theorem adds_congr {f g : Nat → α} {o o2 : Matrix α} (h : Adds f o o2)
    (hfg : ∀ p, p < o.data.length → f p = g p) : Adds g o o2 := by
  obtain ⟨h1, h2, h3, h4⟩ := h
  exact ⟨h1, h2, h3, fun p hp => by rw [h4 p hp, hfg p hp]⟩

/-- Row-major positions determine the row and the column. -/
theorem pos_eq_iff (C i j i0 j0 : Nat) (hj : j < C) (hj0 : j0 < C) :
    j0 + i0 * C = j + i * C ↔ i = i0 ∧ j = j0 := by
  constructor
  · intro h
    have hC : 0 < C := by omega
    have e1 : (j0 + i0 * C) / C = i0 := by
      rw [Nat.add_mul_div_right _ _ hC, Nat.div_eq_of_lt hj0, Nat.zero_add]
    have e2 : (j + i * C) / C = i := by
      rw [Nat.add_mul_div_right _ _ hC, Nat.div_eq_of_lt hj, Nat.zero_add]
    have e3 : i = i0 := by rw [← e1, ← e2, h]
    subst e3
    exact ⟨rfl, by omega⟩
  · rintro ⟨rfl, rfl⟩
    rfl

theorem pos_lt (R C i j : Nat) (hi : i < R) (hj : j < C) : j + i * C < R * C := by
  have : (i + 1) * C ≤ R * C := Nat.mul_le_mul_right C hi
  have h2 : (i + 1) * C = i * C + C := by ring
  omega

/-- Collapse of the double sum over rows and columns of a one-position indicator. -/
theorem sum_pos_indicator (R C i0 j0 : Nat) (hi : i0 < R) (hj : j0 < C) (F : Nat → Nat → α) :
    (∑ i in Finset.range R, ∑ j in Finset.range C,
      if j0 + i0 * C = j + i * C then F i j else 0) = F i0 j0 := by
  rw [Finset.sum_eq_single i0]
  · rw [Finset.sum_eq_single j0]
    · simp
    · intro j hjm hne
      have hjl : j < C := Finset.mem_range.mp hjm
      have : ¬ (j0 + i0 * C = j + i0 * C) := by
        intro h
        exact hne ((pos_eq_iff C i0 j i0 j0 hjl hj).mp h).2
      simp [this]
    · intro h
      exact absurd (Finset.mem_range.mpr hj) h
  · intro i _ hne
    apply Finset.sum_eq_zero
    intro j hjm
    have hjl : j < C := Finset.mem_range.mp hjm
    have : ¬ (j0 + i0 * C = j + i * C) := by
      intro h
      exact hne ((pos_eq_iff C i j i0 j0 hjl hj).mp h).1
    simp [this]
  · intro h
    exact absurd (Finset.mem_range.mpr hi) h

/-- Collapse of a sum over rows, columns and the inner index of a one-position indicator. -/
theorem sum_pos_indicator3 (R C K i0 j0 : Nat) (hi : i0 < R) (hj : j0 < C)
    (d : Nat → Nat → Nat → α) :
    (∑ i in Finset.range R, ∑ j in Finset.range C, ∑ k in Finset.range K,
      if j0 + i0 * C = j + i * C then d i j k else 0) = ∑ k in Finset.range K, d i0 j0 k := by
  have h : ∀ i j, (∑ k in Finset.range K, if j0 + i0 * C = j + i * C then d i j k else 0)
      = if j0 + i0 * C = j + i * C then ∑ k in Finset.range K, d i j k else 0 := by
    intro i j
    split_ifs <;> simp
  simp_rw [h]
  exact sum_pos_indicator R C i0 j0 hi hj (fun i j => ∑ k in Finset.range K, d i j k)

namespace MatOps

theorem mul_nn_adds (out a b : Matrix α) :
    Adds (fun p => ∑ i in Finset.range out.rows, ∑ k in Finset.range a.cols,
      ∑ j in Finset.range out.cols,
        if p = j + i * out.cols then a.get (k + i * a.cols) * b.get (j + k * b.cols) else 0)
      out (mul_nn out a b) :=
  adds_fold_range _ _ _ (fun i _ o => adds_fold_range _ _ _ (fun k _ o =>
    adds_fold_range _ _ _ (fun j _ o => adds_point o _ _) o) o) out

theorem mul_nt_adds (out a b : Matrix α) :
    Adds (fun p => ∑ i in Finset.range out.rows, ∑ j in Finset.range out.cols,
      ∑ k in Finset.range a.cols,
        if p = j + i * out.cols then a.get (k + i * a.cols) * b.get (k + j * b.cols) else 0)
      out (mul_nt out a b) :=
  adds_fold_range _ _ _ (fun i _ o => adds_fold_range _ _ _ (fun j _ o =>
    adds_fold_range _ _ _ (fun k _ o => adds_point o _ _) o) o) out

theorem mul_tn_adds (out a b : Matrix α) :
    Adds (fun p => ∑ k in Finset.range a.rows, ∑ i in Finset.range out.rows,
      ∑ j in Finset.range out.cols,
        if p = j + i * out.cols then a.get (i + k * a.cols) * b.get (j + k * b.cols) else 0)
      out (mul_tn out a b) :=
  adds_fold_range _ _ _ (fun k _ o => adds_fold_range _ _ _ (fun i _ o =>
    adds_fold_range _ _ _ (fun j _ o => adds_point o _ _) o) o) out

theorem mul_tt_adds (out a b : Matrix α) :
    Adds (fun p => ∑ i in Finset.range out.rows, ∑ j in Finset.range out.cols,
      ∑ k in Finset.range a.rows,
        if p = j + i * out.cols then a.get (i + k * a.cols) * b.get (k + j * b.cols) else 0)
      out (mul_tt out a b) :=
  adds_fold_range _ _ _ (fun i _ o => adds_fold_range _ _ _ (fun j _ o =>
    adds_fold_range _ _ _ (fun k _ o => adds_point o _ _) o) o) out

/-- Reading an entry of a matrix that has received additions. -/
theorem at_of_adds {f : Nat → α} {o o2 : Matrix α} (h : Adds f o o2) (hwf : o.WF)
    (i j : Nat) (hi : i < o.rows) (hj : j < o.cols) :
    o2.at i j = o.at i j + f (j + i * o.cols) := by
  obtain ⟨_, h2, _, h4⟩ := h
  unfold Matrix.at
  rw [h2]
  apply h4
  rw [hwf]
  exact pos_lt _ _ _ _ hi hj

theorem mul_nn_at (out a b : Matrix α) (hwf : out.WF) (i j : Nat) (hi : i < out.rows)
    (hj : j < out.cols) :
    (mul_nn out a b).at i j = out.at i j + ∑ k in Finset.range a.cols, a.at i k * b.at k j := by
  rw [at_of_adds (mul_nn_adds out a b) hwf i j hi hj]
  congr 1
  have h : ∀ i2, (∑ k in Finset.range a.cols, ∑ j2 in Finset.range out.cols,
      if j + i * out.cols = j2 + i2 * out.cols
        then a.get (k + i2 * a.cols) * b.get (j2 + k * b.cols) else 0)
      = ∑ j2 in Finset.range out.cols, ∑ k in Finset.range a.cols,
      if j + i * out.cols = j2 + i2 * out.cols
        then a.get (k + i2 * a.cols) * b.get (j2 + k * b.cols) else 0 :=
    fun i2 => Finset.sum_comm
  simp_rw [h]
  exact sum_pos_indicator3 out.rows out.cols a.cols i j hi hj
    (fun i2 j2 k => a.get (k + i2 * a.cols) * b.get (j2 + k * b.cols))

theorem mul_nt_at (out a b : Matrix α) (hwf : out.WF) (i j : Nat) (hi : i < out.rows)
    (hj : j < out.cols) :
    (mul_nt out a b).at i j = out.at i j + ∑ k in Finset.range a.cols, a.at i k * b.at j k := by
  rw [at_of_adds (mul_nt_adds out a b) hwf i j hi hj]
  congr 1
  exact sum_pos_indicator3 out.rows out.cols a.cols i j hi hj
    (fun i2 j2 k => a.get (k + i2 * a.cols) * b.get (k + j2 * b.cols))

theorem mul_tn_at (out a b : Matrix α) (hwf : out.WF) (i j : Nat) (hi : i < out.rows)
    (hj : j < out.cols) :
    (mul_tn out a b).at i j = out.at i j + ∑ k in Finset.range a.rows, a.at k i * b.at k j := by
  rw [at_of_adds (mul_tn_adds out a b) hwf i j hi hj]
  congr 1
  beta_reduce
  rw [Finset.sum_comm]
  have h : ∀ i2, (∑ k in Finset.range a.rows, ∑ j2 in Finset.range out.cols,
      if j + i * out.cols = j2 + i2 * out.cols
        then a.get (i2 + k * a.cols) * b.get (j2 + k * b.cols) else 0)
      = ∑ j2 in Finset.range out.cols, ∑ k in Finset.range a.rows,
      if j + i * out.cols = j2 + i2 * out.cols
        then a.get (i2 + k * a.cols) * b.get (j2 + k * b.cols) else 0 :=
    fun i2 => Finset.sum_comm
  simp_rw [h]
  exact sum_pos_indicator3 out.rows out.cols a.rows i j hi hj
    (fun i2 j2 k => a.get (i2 + k * a.cols) * b.get (j2 + k * b.cols))

theorem mul_tt_at (out a b : Matrix α) (hwf : out.WF) (i j : Nat) (hi : i < out.rows)
    (hj : j < out.cols) :
    (mul_tt out a b).at i j = out.at i j + ∑ k in Finset.range a.rows, a.at k i * b.at j k := by
  rw [at_of_adds (mul_tt_adds out a b) hwf i j hi hj]
  congr 1
  exact sum_pos_indicator3 out.rows out.cols a.rows i j hi hj
    (fun i2 j2 k => a.get (i2 + k * a.cols) * b.get (k + j2 * b.cols))

end MatOps

namespace MatOps

theorem clear_at (m : Matrix α) (i j : Nat) : m.clear.at i j = 0 := by
  simp only [Matrix.at, Matrix.get, Matrix.clear, List.getD_eq_getElem?_getD, List.getElem?_map]
  cases m.data[j + i * m.cols]? <;> rfl

theorem clear_WF (m : Matrix α) (h : m.WF) : m.clear.WF := by
  simp only [Matrix.WF, Matrix.clear, List.length_map]
  exact h

/-- The validation of `mul` in terms of shapes. -/
theorem mul_ok_iff (out a b : Matrix α) (z ta tb : Bool) :
    (mul out a b z ta tb).1 = true ↔
      ((if ta then a.rows else a.cols) = (if tb then b.cols else b.rows) ∧
        out.rows = (if ta then a.cols else a.rows) ∧
        out.cols = (if tb then b.rows else b.cols)) := by
  unfold mul
  cases ta <;> cases tb <;> simp only [Bool.false_eq_true, if_false, if_true] <;>
    split_ifs with h1 h2 <;> simp_all <;> tauto

/-- When the validation fails `mul` leaves `out` as it was. -/
theorem mul_fail (out a b : Matrix α) (z ta tb : Bool)
    (h : (mul out a b z ta tb).1 = false) : (mul out a b z ta tb).2 = out := by
  revert h
  unfold mul
  cases ta <;> cases tb <;> simp only [Bool.false_eq_true, if_false, if_true] <;>
    split_ifs with h1 h2 <;> simp

/-- The matrix `mul` leaves in `out` when the validation passes. -/
theorem mul_snd (out a b : Matrix α) (z ta tb : Bool)
    (h : (mul out a b z ta tb).1 = true) :
    (mul out a b z ta tb).2 =
      (match ta, tb with
        | false, false => mul_nn (if z then out.clear else out) a b
        | false, true => mul_nt (if z then out.clear else out) a b
        | true, false => mul_tn (if z then out.clear else out) a b
        | true, true => mul_tt (if z then out.clear else out) a b) := by
  revert h
  unfold mul
  cases ta <;> cases tb <;> simp only [Bool.false_eq_true, if_false, if_true] <;>
    split_ifs with h1 h2 <;> simp

end MatOps

/-- Entries of the result of `mul` when the validation passes. -/
theorem MatOps.mul_at (out a b : Matrix α) (zero_out transpose_a transpose_b : Bool)
    (hout : out.WF) (ha : a.WF) (hb : b.WF)
    (hv : (MatOps.mul out a b zero_out transpose_a transpose_b).1 = true)
    (i j : Nat) (hi : i < out.rows) (hj : j < out.cols) :
    (MatOps.mul out a b zero_out transpose_a transpose_b).2.at i j =
      (if zero_out then 0 else out.at i j) +
        ∑ k in Finset.range (if transpose_a then a.rows else a.cols),
          (if transpose_a then a.at k i else a.at i k) *
            (if transpose_b then b.at j k else b.at k j) := by
  rw [MatOps.mul_snd out a b zero_out transpose_a transpose_b hv]
  have hb1 : (if zero_out then out.clear else out).WF := by
    cases zero_out
    · exact hout
    · exact MatOps.clear_WF out hout
  have hr1 : (if zero_out then out.clear else out).rows = out.rows := by
    cases zero_out <;> rfl
  have hc1 : (if zero_out then out.clear else out).cols = out.cols := by
    cases zero_out <;> rfl
  have hbase : (if zero_out then out.clear else out).at i j
      = (if zero_out then 0 else out.at i j) := by
    cases zero_out
    · rfl
    · exact MatOps.clear_at out i j
  cases transpose_a <;> cases transpose_b <;>
    simp only [Bool.false_eq_true, if_false, if_true]
  · rw [MatOps.mul_nn_at _ a b hb1 i j (hr1 ▸ hi) (hc1 ▸ hj), hbase]
  · rw [MatOps.mul_nt_at _ a b hb1 i j (hr1 ▸ hi) (hc1 ▸ hj), hbase]
  · rw [MatOps.mul_tn_at _ a b hb1 i j (hr1 ▸ hi) (hc1 ▸ hj), hbase]
  · rw [MatOps.mul_tt_at _ a b hb1 i j (hr1 ▸ hi) (hc1 ▸ hj), hbase]

/-! ### The Jacobian of `softmax_add_grad` -/

theorem writes_point (f : Nat → α) (o : Matrix α) (q : Nat) :
    Writes (fun p => p = q) f o (o.set q (f q)) := by
  refine ⟨rfl, rfl, Matrix.set_length _ _ _, ?_⟩
  intro p hp
  rw [Matrix.get_set]
  constructor
  · intro h
    subst h
    simp [hp]
  · intro h
    simp [h]

theorem writes_fold_range (f : Nat → α) (P : Nat → Nat → Prop)
    (body : Matrix α → Nat → Matrix α) (n : Nat)
    (h : ∀ i, i < n → ∀ o, Writes (P i) f o (body o i)) (o : Matrix α) :
    Writes (fun p => ∃ i, i < n ∧ P i p) f o ((List.range n).foldl body o) := by
  induction n with
  | zero =>
    refine ⟨rfl, rfl, rfl, ?_⟩
    intro p _
    constructor
    · rintro ⟨i, hi, _⟩
      exact absurd hi (Nat.not_lt_zero i)
    · intro _
      rfl
  | succ n ih =>
    rw [List.range_succ, List.foldl_append]
    obtain ⟨h1, h2, h3, h4⟩ := ih (fun i hi o => h i (Nat.lt_succ_of_lt hi) o)
    obtain ⟨k1, k2, k3, k4⟩ := h n (Nat.lt_succ_self n) ((List.range n).foldl body o)
    simp only [List.foldl_cons, List.foldl_nil]
    refine ⟨k1.trans h1, k2.trans h2, k3.trans h3, ?_⟩
    intro p hp
    have hp2 : p < ((List.range n).foldl body o).data.length := by rw [h3]; exact hp
    constructor
    · rintro ⟨i, hi, hPi⟩
      by_cases hn : P n p
      · exact (k4 p hp2).1 hn
      · rw [(k4 p hp2).2 hn]
        have hin : i < n := by
          rcases Nat.lt_succ_iff_lt_or_eq.mp hi with h5 | h5
          · exact h5
          · subst h5
            exact absurd hPi hn
        exact (h4 p hp).1 ⟨i, hin, hPi⟩
    · intro hno
      have hn : ¬ P n p := fun hP => hno ⟨n, Nat.lt_succ_self n, hP⟩
      rw [(k4 p hp2).2 hn]
      exact (h4 p hp).2 (fun ⟨i, hi, hPi⟩ => hno ⟨i, Nat.lt_succ_of_lt hi, hPi⟩)

theorem keeps_point (S : Nat → Prop) (o : Matrix α) (q : Nat) (v : α) (hq : S q) :
    Keeps S o (o.set q v) := by
  refine ⟨rfl, rfl, Matrix.set_length _ _ _, ?_⟩
  intro p hp
  rw [Matrix.get_set]
  have : ¬ p = q := fun h => hp (h ▸ hq)
  simp [this]

theorem keeps_fold_range (S : Nat → Prop) (body : Matrix α → Nat → Matrix α) (n : Nat)
    (h : ∀ i, i < n → ∀ o, Keeps S o (body o i)) (o : Matrix α) :
    Keeps S o ((List.range n).foldl body o) := by
  induction n with
  | zero => exact ⟨rfl, rfl, rfl, fun _ _ => rfl⟩
  | succ n ih =>
    rw [List.range_succ, List.foldl_append]
    obtain ⟨h1, h2, h3, h4⟩ := ih (fun i hi o => h i (Nat.lt_succ_of_lt hi) o)
    obtain ⟨k1, k2, k3, k4⟩ := h n (Nat.lt_succ_self n) ((List.range n).foldl body o)
    simp only [List.foldl_cons, List.foldl_nil]
    exact ⟨k1.trans h1, k2.trans h2, k3.trans h3, fun p hp => (k4 p hp).trans (h4 p hp)⟩

theorem foldl_range_congr {β : Type} (f g : β → Nat → β) (n : Nat)
    (h : ∀ i, i < n → ∀ o, f o i = g o i) (o : β) :
    (List.range n).foldl f o = (List.range n).foldl g o := by
  induction n with
  | zero => rfl
  | succ n ih =>
    rw [List.range_succ, List.foldl_append, List.foldl_append,
      ih (fun i hi o => h i (Nat.lt_succ_of_lt hi) o)]
    simp only [List.foldl_cons, List.foldl_nil]
    exact h n (Nat.lt_succ_self n) _

theorem create_get (r c p : Nat) : (Matrix.create r c : Matrix α).get p = 0 := by
  simp only [Matrix.get, Matrix.create, List.getD_eq_getElem?_getD, List.getElem?_replicate]
  split_ifs <;> rfl

theorem create_WF (r c : Nat) : (Matrix.create r c : Matrix α).WF := by
  simp [Matrix.WF, Matrix.create]

namespace MatOps

/-- Shape of the Jacobian, and the positions beyond the `u32` range, which no iteration
writes. -/
theorem softmax_jacobian_keeps (s : Matrix α) :
    Keeps (fun p => p < U32_MOD) (Matrix.create (max s.rows s.cols) (max s.rows s.cols))
      (softmax_jacobian s) := by
  simp only [softmax_jacobian]
  apply keeps_fold_range (fun p => p < U32_MOD)
  intro i _ o
  apply keeps_fold_range (fun p => p < U32_MOD)
  intro j _ o2
  apply keeps_point
  exact Nat.mod_lt _ (by decide)

theorem softmax_jacobian_rows (s : Matrix α) :
    (softmax_jacobian s).rows = max s.rows s.cols := (softmax_jacobian_keeps s).1

theorem softmax_jacobian_cols (s : Matrix α) :
    (softmax_jacobian s).cols = max s.rows s.cols := (softmax_jacobian_keeps s).2.1

theorem softmax_jacobian_WF (s : Matrix α) : (softmax_jacobian s).WF := by
  have h := softmax_jacobian_keeps s
  unfold Matrix.WF
  rw [h.2.2.1, h.1, h.2.1]
  exact create_WF _ _

/-- The entries of the Jacobian when the 32-bit index does not wrap. -/
theorem softmax_jacobian_at (s : Matrix α) (hsz : max s.rows s.cols * max s.rows s.cols ≤ U32_MOD)
    (i j : Nat) (hi : i < max s.rows s.cols) (hj : j < max s.rows s.cols) :
    (softmax_jacobian s).at i j = s.get i * ((if i = j then 1 else 0) - s.get j) := by
  have hn : 0 < max s.rows s.cols := by omega
  have key : Writes (fun p => ∃ i2, i2 < max s.rows s.cols ∧ ∃ j2, j2 < max s.rows s.cols ∧
        p = j2 + i2 * max s.rows s.cols)
      (fun p => s.get (p / max s.rows s.cols) *
        ((if p / max s.rows s.cols = p % max s.rows s.cols then 1 else 0)
          - s.get (p % max s.rows s.cols)))
      (Matrix.create (max s.rows s.cols) (max s.rows s.cols)) (softmax_jacobian s) := by
    simp only [softmax_jacobian]
    apply writes_fold_range _ (fun i2 p => ∃ j2, j2 < max s.rows s.cols ∧
        p = j2 + i2 * max s.rows s.cols)
    intro i2 hi2 o
    apply writes_fold_range _ (fun j2 p => p = j2 + i2 * max s.rows s.cols)
    intro j2 hj2 o2
    have hlt : j2 + i2 * max s.rows s.cols < U32_MOD :=
      lt_of_lt_of_le (pos_lt _ _ _ _ hi2 hj2) hsz
    have e1 : (j2 + i2 * max s.rows s.cols) / max s.rows s.cols = i2 := by
      rw [Nat.add_mul_div_right _ _ hn, Nat.div_eq_of_lt hj2, Nat.zero_add]
    have e2 : (j2 + i2 * max s.rows s.cols) % max s.rows s.cols = j2 := by
      rw [Nat.add_mul_mod_self_right, Nat.mod_eq_of_lt hj2]
    have := writes_point (fun p => s.get (p / max s.rows s.cols) *
        ((if p / max s.rows s.cols = p % max s.rows s.cols then 1 else 0)
          - s.get (p % max s.rows s.cols))) o2 (j2 + i2 * max s.rows s.cols)
    simp only [e1, e2] at this
    rw [Nat.mod_eq_of_lt hlt]
    exact this
  obtain ⟨_, k2, _, k4⟩ := key
  unfold Matrix.at
  rw [softmax_jacobian_cols]
  have hp : j + i * max s.rows s.cols <
      (Matrix.create (max s.rows s.cols) (max s.rows s.cols) : Matrix α).data.length := by
    rw [create_WF]
    exact pos_lt _ _ _ _ hi hj
  have e1 : (j + i * max s.rows s.cols) / max s.rows s.cols = i := by
    rw [Nat.add_mul_div_right _ _ hn, Nat.div_eq_of_lt hj, Nat.zero_add]
  have e2 : (j + i * max s.rows s.cols) % max s.rows s.cols = j := by
    rw [Nat.add_mul_mod_self_right, Nat.mod_eq_of_lt hj]
  rw [(k4 _ hp).1 ⟨i, hi, j, hj, rfl⟩]
  simp only [e1, e2]

/-- The entries of the Jacobian at flat positions beyond the `u32` range are never written. -/
theorem softmax_jacobian_at_high (s : Matrix α) (i j : Nat)
    (h : U32_MOD ≤ j + i * max s.rows s.cols) : (softmax_jacobian s).at i j = 0 := by
  unfold Matrix.at
  rw [softmax_jacobian_cols, (softmax_jacobian_keeps s).2.2.2 _ (Nat.not_lt.mpr h)]
  exact create_get _ _ _

end MatOps

namespace MatOps

theorem clear_shape (m : Matrix α) :
    m.clear.rows = m.rows ∧ m.clear.cols = m.cols ∧ m.clear.data.length = m.data.length := by
  simp [Matrix.clear]

/-- `mul` never changes the shape of `out`. -/
theorem mul_shape (out a b : Matrix α) (z ta tb : Bool) :
    (mul out a b z ta tb).2.rows = out.rows ∧ (mul out a b z ta tb).2.cols = out.cols ∧
      (mul out a b z ta tb).2.data.length = out.data.length := by
  cases hv : (mul out a b z ta tb).1
  · rw [mul_fail out a b z ta tb hv]
    exact ⟨rfl, rfl, rfl⟩
  · rw [mul_snd out a b z ta tb hv]
    have hz : (if z then out.clear else out).rows = out.rows ∧
        (if z then out.clear else out).cols = out.cols ∧
        (if z then out.clear else out).data.length = out.data.length := by
      cases z
      · exact ⟨rfl, rfl, rfl⟩
      · exact clear_shape out
    cases ta <;> cases tb <;> simp only
    · have h := mul_nn_adds (if z then out.clear else out) a b
      exact ⟨h.1.trans hz.1, h.2.1.trans hz.2.1, h.2.2.1.trans hz.2.2⟩
    · have h := mul_nt_adds (if z then out.clear else out) a b
      exact ⟨h.1.trans hz.1, h.2.1.trans hz.2.1, h.2.2.1.trans hz.2.2⟩
    · have h := mul_tn_adds (if z then out.clear else out) a b
      exact ⟨h.1.trans hz.1, h.2.1.trans hz.2.1, h.2.2.1.trans hz.2.2⟩
    · have h := mul_tt_adds (if z then out.clear else out) a b
      exact ⟨h.1.trans hz.1, h.2.1.trans hz.2.1, h.2.2.1.trans hz.2.2⟩

theorem softmax_add_grad_snd (out s grad : Matrix α) (h : s.rows = 1 ∨ s.cols = 1) :
    softmax_add_grad out s grad = (true, (mul out (softmax_jacobian s) grad false false false).2) := by
  unfold softmax_add_grad
  rw [if_neg]
  rintro ⟨h1, h2⟩
  rcases h with h | h
  · exact h1 h
  · exact h2 h

theorem at_col_vec (m : Matrix α) (h : m.cols = 1) (i : Nat) : m.at i 0 = m.get i := by
  unfold Matrix.at
  rw [h]
  simp

/-- Entries of the destination after `softmax_add_grad` on column vectors, in terms of the
Jacobian matrix the kernel has built. -/
theorem softmax_add_grad_entry (out s grad : Matrix α) (n : Nat) (hn : 0 < n)
    (hsr : s.rows = n) (hsc : s.cols = 1)
    (hgr : grad.rows = n) (hgc : grad.cols = 1)
    (hor : out.rows = n) (hoc : out.cols = 1) (howf : out.WF) (hgwf : grad.WF)
    (i : Nat) (hi : i < n) :
    (softmax_add_grad out s grad).1 = true ∧
    (softmax_add_grad out s grad).2.get i =
      out.get i + ∑ j in Finset.range n, (softmax_jacobian s).at i j * grad.get j := by
  have hmax : max s.rows s.cols = n := by
    rw [hsr, hsc]
    exact max_eq_left hn
  rw [softmax_add_grad_snd out s grad (Or.inr hsc)]
  refine ⟨rfl, ?_⟩
  have hv : (mul out (softmax_jacobian s) grad false false false).1 = true := by
    rw [mul_ok_iff]
    simp only [Bool.false_eq_true, if_false]
    rw [softmax_jacobian_cols, softmax_jacobian_rows, hmax]
    exact ⟨hgr.symm, hor, hoc.trans hgc.symm⟩
  have h := mul_at out (softmax_jacobian s) grad false false false howf
    (softmax_jacobian_WF s) hgwf hv i 0 (hor ▸ hi) (by rw [hoc]; exact Nat.one_pos)
  simp only [Bool.false_eq_true, if_false] at h
  rw [at_col_vec _ ((mul_shape out (softmax_jacobian s) grad false false false).2.1.trans hoc),
    at_col_vec _ hoc, softmax_jacobian_cols, hmax] at h
  rw [h]
  congr 1
  apply Finset.sum_congr rfl
  intro j _
  rw [at_col_vec _ hgc]

end MatOps

/-- On `n`-by-1 vectors with `n * n ≤ 2 ^ 32`, `softmax_add_grad` adds the Jacobian product
to the previous content of the destination. -/
theorem MatOps.softmax_add_grad_get (out s grad : Matrix α) (n : Nat) (hn : 0 < n)
    (hsz : n * n ≤ U32_MOD)
    (hsr : s.rows = n) (hsc : s.cols = 1)
    (hgr : grad.rows = n) (hgc : grad.cols = 1)
    (hor : out.rows = n) (hoc : out.cols = 1) (howf : out.WF) (hgwf : grad.WF) (hswf : s.WF)
    (i : Nat) (hi : i < n) :
    (MatOps.softmax_add_grad out s grad).1 = true ∧
    (MatOps.softmax_add_grad out s grad).2.get i =
      out.get i +
        ∑ j in Finset.range n, s.get i * ((if i = j then 1 else 0) - s.get j) * grad.get j := by
  have hmax : max s.rows s.cols = n := by
    rw [hsr, hsc]
    exact max_eq_left hn
  obtain ⟨h1, h2⟩ := MatOps.softmax_add_grad_entry out s grad n hn hsr hsc hgr hgc hor hoc howf hgwf
    i hi
  refine ⟨h1, ?_⟩
  rw [h2]
  congr 1
  apply Finset.sum_congr rfl
  intro j hj
  rw [MatOps.softmax_jacobian_at s (by rw [hmax]; exact hsz) i j (by rw [hmax]; exact hi)
    (by rw [hmax]; exact Finset.mem_range.mp hj)]

end KernelLemmas

end Autograd

/-! ### Fixture lemmas -/

namespace Autograd

theorem uniformVec_get (n i : Nat) (hi : i < n) : (uniformVec n).get i = 1 / (n : ℚ) := by
  simp only [uniformVec, Matrix.get, List.getD_eq_getElem?_getD, List.getElem?_replicate, hi,
    if_true, Option.getD_some]

theorem uniformVec_WF (n : Nat) : (uniformVec n).WF := by
  simp [uniformVec, Matrix.WF]

theorem lastUnitVec_WF (n : Nat) (hn : 0 < n) : (lastUnitVec n).WF := by
  simp only [lastUnitVec, Matrix.WF, List.length_append, List.length_replicate,
    List.length_singleton]
  omega

theorem lastUnitVec_get (n j : Nat) (hn : 0 < n) :
    (lastUnitVec n).get j = if j = n - 1 then 1 else 0 := by
  simp only [lastUnitVec, Matrix.get, List.getD_eq_getElem?_getD]
  by_cases h1 : j < n - 1
  · rw [List.getElem?_append_left (by simpa using h1), List.getElem?_replicate]
    have : ¬ j = n - 1 := by omega
    simp [h1, this]
  · by_cases h2 : j = n - 1
    · subst h2
      rw [List.getElem?_append_right (by simp)]
      simp
    · rw [List.getElem?_eq_none (by simp; omega)]
      simp [h2]

/-- The product of the last row of the true Jacobian of `uniformVec n` with `lastUnitVec n`. -/
theorem uniform_last_row_sum (n : Nat) (hn : 0 < n) :
    (∑ j in Finset.range n, (uniformVec n).get (n - 1) *
        ((if n - 1 = j then 1 else 0) - (uniformVec n).get j) * (lastUnitVec n).get j)
      = 1 / (n : ℚ) * (1 - 1 / (n : ℚ)) := by
  rw [Finset.sum_eq_single (n - 1)]
  · rw [uniformVec_get n (n - 1) (by omega), lastUnitVec_get n (n - 1) hn]
    simp
  · intro j _ hne
    rw [lastUnitVec_get n j hn]
    simp [hne]
  · intro h
    exact absurd (Finset.mem_range.mpr (by omega)) h

namespace MatOps

/-- A row of the Jacobian whose flat positions lie beyond the `u32` range contributes
nothing: the destination entry is left as it was. -/
theorem softmax_add_grad_high_row {α : Type} [LinearOrderedField α] (out s grad : Matrix α)
    (n : Nat) (hn : 0 < n) (hsr : s.rows = n) (hsc : s.cols = 1)
    (hgr : grad.rows = n) (hgc : grad.cols = 1)
    (hor : out.rows = n) (hoc : out.cols = 1) (howf : out.WF) (hgwf : grad.WF)
    (i : Nat) (hi : i < n) (hw : U32_MOD ≤ i * n) :
    (softmax_add_grad out s grad).2.get i = out.get i := by
  have hmax : max s.rows s.cols = n := by
    rw [hsr, hsc]
    exact max_eq_left hn
  rw [(softmax_add_grad_entry out s grad n hn hsr hsc hgr hgc hor hoc howf hgwf i hi).2]
  rw [Finset.sum_eq_zero, add_zero]
  intro j _
  rw [softmax_jacobian_at_high s i j (by rw [hmax]; omega), zero_mul]

end MatOps

end Autograd

namespace Autograd

namespace MatOps

/-- When the shapes do not pass the validation of `mul`, `softmax_add_grad` on a vector-shaped
softmax output still returns true and leaves the destination as it was. -/
theorem softmax_add_grad_mul_rejected {α : Type} [LinearOrderedField α] (out s grad : Matrix α)
    (hvec : s.rows = 1 ∨ s.cols = 1)
    (hbad : ¬ (max s.rows s.cols = grad.rows ∧ out.rows = max s.rows s.cols ∧
      out.cols = grad.cols)) :
    (softmax_add_grad out s grad).1 = true ∧ (softmax_add_grad out s grad).2 = out := by
  rw [softmax_add_grad_snd out s grad hvec]
  refine ⟨rfl, ?_⟩
  apply mul_fail
  cases hv : (mul out (softmax_jacobian s) grad false false false).1
  · rfl
  · exfalso
    rw [mul_ok_iff] at hv
    simp only [Bool.false_eq_true, if_false] at hv
    rw [softmax_jacobian_cols, softmax_jacobian_rows] at hv
    exact hbad hv

end MatOps

end Autograd

/-! ## The scheduler: `create_program` -/

namespace Autograd

section Scheduler

variable {α : Type} [LinearOrderedField α]

theorem mv_num_inputs_le (op : ModelVarOp) : mv_num_inputs op ≤ 2 := by
  cases op <;> decide

theorem mem_operands (ctx : ModelContext α) (p y : Nat) :
    y ∈ ctx.operands p ↔
      ∃ i, i < mv_num_inputs (ctx.var p).op ∧ (ctx.var p).inputs i = some y := by
  simp only [ModelContext.operands, List.mem_filterMap, List.mem_range]

theorem operands_lt (ctx : ModelContext α) (hwf : ctx.ArenaWF) (p y : Nat)
    (hp : p < ctx.num_vars) (hy : y ∈ ctx.operands p) : y < p := by
  obtain ⟨i, hi, hiy⟩ := (mem_operands ctx p y).mp hy
  obtain ⟨m, hm, hlt⟩ := hwf.inputs_lt p hp i hi
  rw [hm] at hiy
  cases hiy
  exact hlt

/-- On a well-formed arena the operand relation is membership in `operands`. -/
theorem isOperand_iff (ctx : ModelContext α) (hwf : ctx.ArenaWF) (p y : Nat)
    (hp : p < ctx.num_vars) : ctx.IsOperand y p ↔ y ∈ ctx.operands p := by
  rw [mem_operands]
  constructor
  · intro h
    rcases h with h | h
    · refine ⟨0, ?_, by simpa [ModelVar.inputs] using h⟩
      by_contra hc
      have := hwf.inputs_none p hp 0 (by omega)
      simp only [ModelVar.inputs, if_true] at this
      rw [this] at h
      cases h
    · refine ⟨1, ?_, by simpa [ModelVar.inputs] using h⟩
      by_contra hc
      have := hwf.inputs_none p hp 1 (by omega)
      simp [ModelVar.inputs] at this
      rw [this] at h
      cases h
  · rintro ⟨i, hi, hiy⟩
    have h2 := mv_num_inputs_le (ctx.var p).op
    have : i = 0 ∨ i = 1 := by omega
    rcases this with rfl | rfl
    · left
      simpa [ModelVar.inputs] using hiy
    · right
      simpa [ModelVar.inputs] using hiy

/-- The inner loop pushes the operands one after the other. -/
theorem create_program_inputs_eq (ctx : ModelContext α) (cur : Nat) (visited : List Bool)
    (stack : List Nat) :
    create_program_inputs ctx cur visited stack
      = (ctx.operands cur).foldl (push_input ctx visited) stack := by
  unfold create_program_inputs ModelContext.operands
  generalize List.range (mv_num_inputs (ctx.var cur).op) = l
  induction l generalizing stack with
  | nil => rfl
  | cons a t ih =>
    simp only [List.foldl_cons, List.filterMap_cons]
    cases h : (ctx.var cur).inputs a with
    | none => exact ih stack
    | some x =>
      simp only [List.foldl_cons]
      exact ih (push_input ctx visited stack x)

theorem push_input_eq (ctx : ModelContext α) (hwf : ctx.ArenaWF) (visited : List Bool)
    (stk : List Nat) (inp : Nat) (hinp : inp < ctx.num_vars) :
    push_input ctx visited stk inp
      = if visited.getD inp false = true then stk else stk.erase inp ++ [inp] := by
  unfold push_input
  rw [hwf.index_eq inp hinp]
  by_cases h : visited.getD inp false = true
  · rw [if_pos (Or.inr h), if_pos h]
  · rw [if_neg (fun hc => hc.elim (fun h1 => absurd hinp (Nat.not_lt.mpr h1)) h), if_neg h]

/-- A non-empty stack ends with its back element. -/
theorem stack_back (stack : List Nat) (h : stack ≠ []) :
    ∃ rest cur, stack = rest ++ [cur] := by
  rcases List.eq_nil_or_concat stack with h1 | ⟨L, b, h1⟩
  · exact absurd h1 h
  · exact ⟨L, b, by simpa using h1⟩

/-- One iteration when the popped node is already visited: it is appended to `out`. -/
theorem step_visited (ctx : ModelContext α) (hwf : ctx.ArenaWF) (st : ProgState)
    (rest : List Nat) (cur : Nat) (hs : st.stack = rest ++ [cur]) (hcur : cur < ctx.num_vars)
    (hv : st.visited.getD cur false = true) :
    create_program_step ctx st
      = { visited := st.visited, stack := rest, out := st.out ++ [cur] } := by
  unfold create_program_step
  rw [hs, List.getLast?_concat]
  simp only [List.dropLast_concat, hwf.index_eq cur hcur]
  rw [if_neg (Nat.not_le.mpr hcur), if_pos hv]

/-- One iteration when the popped node is not yet visited: it is marked, pushed back, and
its unvisited operands are moved to the back of the stack. -/
theorem step_open (ctx : ModelContext α) (hwf : ctx.ArenaWF) (st : ProgState)
    (rest : List Nat) (cur : Nat) (hs : st.stack = rest ++ [cur]) (hcur : cur < ctx.num_vars)
    (hv : ¬ st.visited.getD cur false = true) :
    create_program_step ctx st
      = { visited := st.visited.set cur true,
          stack := (ctx.operands cur).foldl (push_input ctx (st.visited.set cur true))
            (rest ++ [cur]),
          out := st.out } := by
  unfold create_program_step
  rw [hs, List.getLast?_concat]
  simp only [List.dropLast_concat, hwf.index_eq cur hcur]
  rw [if_neg (Nat.not_le.mpr hcur), if_neg hv, create_program_inputs_eq]

theorem getD_set_true (visited : List Bool) (cur x : Nat) (hcur : cur < visited.length) :
    (visited.set cur true).getD x false = true ↔ (visited.getD x false = true ∨ x = cur) := by
  simp only [List.getD_eq_getElem?_getD, List.getElem?_set]
  by_cases h : cur = x
  · subst h
    simp [hcur]
  · have h2 : ¬ x = cur := fun e => h e.symm
    simp [h, h2]

end Scheduler

end Autograd

namespace Autograd

section SchedulerInv

variable {α : Type} [LinearOrderedField α]

theorem head_erase_append (stk : List Nat) (root y : Nat) (h : stk.head? = some root)
    (hne : root ≠ y) : (stk.erase y ++ [y]).head? = some root := by
  cases stk with
  | nil => simp at h
  | cons a t =>
    simp only [List.head?_cons, Option.some.injEq] at h
    subst h
    rw [List.erase_cons_tail (by simpa using hne)]
    rfl

/-- The inner loop invariant is kept by the handling of one operand. -/
theorem push_input_inv (ctx : ModelContext α) (hwf : ctx.ArenaWF) (V : List Bool)
    (stack0 : List Nat) (cur root : Nat) (hcur : cur < ctx.num_vars)
    (h0 : ∀ a, a ∈ stack0 → V.getD a false = true → cur ≤ a)
    (hroot : V.getD root false = true)
    (done stk : List Nat) (y : Nat) (hy : y < cur)
    (inv : PushInv ctx V stack0 cur root done stk) :
    PushInv ctx V stack0 cur root (done ++ [y]) (push_input ctx V stk y) := by
  rw [push_input_eq ctx hwf V stk y (lt_trans hy hcur)]
  by_cases hv : V.getD y false = true
  · rw [if_pos hv]
    refine ⟨inv.nodup, ?_, inv.ordA, ?_, inv.head⟩
    · intro x
      rw [inv.mem x]
      constructor
      · rintro (h | ⟨h1, h2⟩)
        · exact Or.inl h
        · exact Or.inr ⟨List.mem_append_left _ h1, h2⟩
      · rintro (h | ⟨h1, h2⟩)
        · exact Or.inl h
        · rcases List.mem_append.mp h1 with h3 | h3
          · exact Or.inr ⟨h3, h2⟩
          · rw [List.mem_singleton] at h3
            subst h3
            exact absurd hv h2
    · refine inv.ordB.imp ?_
      intro a b hR hb ha
      obtain ⟨r1, r2⟩ := hR hb ha
      refine ⟨r1, fun hbc hmem => ?_⟩
      rcases List.mem_append.mp hmem with h3 | h3
      · exact r2 hbc h3
      · rw [List.mem_singleton] at h3
        subst h3
        exact ha hv
  · rw [if_neg hv]
    have hsub : (stk.erase y).Sublist stk := List.erase_sublist y stk
    have hnd : (stk.erase y).Nodup := inv.nodup.sublist hsub
    have hynot : y ∉ stk.erase y := inv.nodup.not_mem_erase
    refine ⟨?_, ?_, ?_, ?_, ?_⟩
    · refine List.Nodup.append hnd (List.nodup_singleton y) ?_
      intro x hx1 hx2
      rw [List.mem_singleton] at hx2
      subst hx2
      exact hynot hx1
    · intro x
      rw [List.mem_append, List.mem_singleton]
      by_cases hxy : x = y
      · subst hxy
        constructor
        · intro _
          exact Or.inr ⟨List.mem_append_right _ (List.mem_singleton.mpr rfl), hv⟩
        · intro _
          exact Or.inr rfl
      · rw [List.mem_erase_of_ne hxy, inv.mem x]
        constructor
        · rintro ((h | ⟨h1, h2⟩) | h)
          · exact Or.inl h
          · exact Or.inr ⟨List.mem_append_left _ h1, h2⟩
          · exact absurd h hxy
        · rintro (h | ⟨h1, h2⟩)
          · exact Or.inl (Or.inl h)
          · rcases List.mem_append.mp h1 with h3 | h3
            · exact Or.inl (Or.inr ⟨h3, h2⟩)
            · exact absurd (List.mem_singleton.mp h3) hxy
    · rw [List.pairwise_append]
      refine ⟨inv.ordA.sublist hsub, List.pairwise_singleton _ _, ?_⟩
      intro a ha b hb hva
      rw [List.mem_singleton] at hb
      subst hb
      have ha2 : a ∈ stk := hsub.subset ha
      rcases (inv.mem a).mp ha2 with h | ⟨_, h2⟩
      · exact lt_of_lt_of_le hy (h0 a h hva)
      · exact absurd hva h2
    · rw [List.pairwise_append]
      refine ⟨?_, List.pairwise_singleton _ _, ?_⟩
      · refine (inv.ordB.sublist hsub).imp_of_mem ?_
        intro a b ha _ hR hvb hva
        obtain ⟨r1, r2⟩ := hR hvb hva
        refine ⟨r1, fun hbc hmem => ?_⟩
        rcases List.mem_append.mp hmem with h3 | h3
        · exact r2 hbc h3
        · rw [List.mem_singleton] at h3
          subst h3
          exact hynot ha
      · intro a _ b hb hvb
        rw [List.mem_singleton] at hb
        subst hb
        exact absurd hvb hv
    · apply head_erase_append stk root y inv.head
      intro h
      subst h
      exact hv hroot

/-- The inner loop invariant is kept by the whole inner loop. -/
theorem push_fold_inv (ctx : ModelContext α) (hwf : ctx.ArenaWF) (V : List Bool)
    (stack0 : List Nat) (cur root : Nat) (hcur : cur < ctx.num_vars)
    (h0 : ∀ a, a ∈ stack0 → V.getD a false = true → cur ≤ a)
    (hroot : V.getD root false = true)
    (l : List Nat) (hl : ∀ y, y ∈ l → y < cur) (done stk : List Nat)
    (inv : PushInv ctx V stack0 cur root done stk) :
    PushInv ctx V stack0 cur root (done ++ l) (l.foldl (push_input ctx V) stk) := by
  induction l generalizing done stk with
  | nil => simpa using inv
  | cons y t ih =>
    simp only [List.foldl_cons]
    have h1 := push_input_inv ctx hwf V stack0 cur root hcur h0 hroot done stk y
      (hl y (List.mem_cons_self y t)) inv
    have h2 := ih (fun z hz => hl z (List.mem_cons_of_mem y hz)) (done ++ [y]) _ h1
    simpa using h2

end SchedulerInv

end Autograd

namespace Autograd

section SchedulerStep

variable {α : Type} [LinearOrderedField α]

/-- The loop invariant holds when the popped node is appended to `out`. -/
theorem step_visited_inv (ctx : ModelContext α) (hwf : ctx.ArenaWF) (root : Nat)
    (st : ProgState) (inv : ProgInv ctx root st) (rest : List Nat) (cur : Nat)
    (hs : st.stack = rest ++ [cur]) (hv : st.visited.getD cur false = true) :
    ProgInv ctx root { visited := st.visited, stack := rest, out := st.out ++ [cur] } := by
  have hcurmem : cur ∈ st.stack := by rw [hs]; simp
  have hcur : cur < ctx.num_vars := inv.stack_lt cur hcurmem
  have hnd : (rest ++ [cur]).Nodup := hs ▸ inv.stack_nodup
  have hsub : rest.Sublist st.stack := by
    rw [hs]
    exact List.sublist_append_left rest [cur]
  have hnotin : cur ∉ rest := by
    intro h
    have := (List.nodup_append.mp hnd).2.2
    exact this h (List.mem_singleton.mpr rfl)
  have hA := inv.ordA
  have hB := inv.ordB
  rw [hs, List.pairwise_append] at hA hB
  have hops : ∀ y, y ∈ ctx.operands cur → y ∈ st.out := by
    intro y hy
    have hlt := operands_lt ctx hwf cur y hcur hy
    rcases inv.open_ops cur hcurmem hv y hy with h | h
    · exact h
    · exfalso
      rw [hs, List.mem_append, List.mem_singleton] at h
      rcases h with h | h
      · by_cases hvy : st.visited.getD y false = true
        · have := hA.2.2 y h cur (List.mem_singleton.mpr rfl) hvy
          omega
        · exact hB.2.2 y h cur (List.mem_singleton.mpr rfl) hv hvy hy
      · omega
  refine
    { vlen := inv.vlen
      stack_lt := fun x hx => inv.stack_lt x (hsub.subset hx)
      stack_nodup := inv.stack_nodup.sublist hsub
      out_vis := ?_
      out_not_stack := ?_
      vis_cases := ?_
      out_nodup := ?_
      ordA := hA.1
      ordB := hB.1
      open_ops := ?_
      out_closed := ?_
      reach := ?_
      root_in := ?_
      bottom := ?_
      root_vis := ?_ }
  · intro x hx
    rcases List.mem_append.mp hx with h | h
    · exact inv.out_vis x h
    · rw [List.mem_singleton] at h
      subst h
      exact hv
  · intro x hx hxr
    rcases List.mem_append.mp hx with h | h
    · exact inv.out_not_stack x h (hsub.subset hxr)
    · rw [List.mem_singleton] at h
      subst h
      exact hnotin hxr
  · intro x hx
    rcases inv.vis_cases x hx with h | h
    · exact Or.inl (List.mem_append_left _ h)
    · rw [hs, List.mem_append] at h
      rcases h with h | h
      · exact Or.inr h
      · exact Or.inl (List.mem_append_right _ h)
  · refine List.Nodup.append inv.out_nodup (List.nodup_singleton cur) ?_
    intro x hx1 hx2
    rw [List.mem_singleton] at hx2
    subst hx2
    exact inv.out_not_stack x hx1 hcurmem
  · intro x hx hvx y hy
    rcases inv.open_ops x (hsub.subset hx) hvx y hy with h | h
    · exact Or.inl (List.mem_append_left _ h)
    · rw [hs, List.mem_append] at h
      rcases h with h | h
      · exact Or.inr h
      · exact Or.inl (List.mem_append_right _ h)
  · intro i x hix y hy
    show ∃ j : Nat, j < i ∧ (st.out ++ [cur])[j]? = some y
    have hix2 : (st.out ++ [cur])[i]? = some x := hix
    by_cases hlt : i < st.out.length
    · rw [List.getElem?_append_left hlt] at hix2
      obtain ⟨j, hj, hjy⟩ := inv.out_closed i x hix2 y hy
      exact ⟨j, hj, by rw [List.getElem?_append_left (lt_trans hj hlt)]; exact hjy⟩
    · have hlen : i < (st.out ++ [cur]).length := (List.getElem?_eq_some.mp hix2).1
      simp only [List.length_append, List.length_singleton] at hlen
      have hieq : i = st.out.length := by omega
      subst hieq
      rw [List.getElem?_concat_length] at hix2
      cases hix2
      obtain ⟨j, hj⟩ := List.mem_iff_getElem?.mp (hops y hy)
      have hjl : j < st.out.length := (List.getElem?_eq_some.mp hj).1
      exact ⟨j, hjl, by rw [List.getElem?_append_left hjl]; exact hj⟩
  · intro x hx
    rcases hx with h | h
    · exact inv.reach x (Or.inl (hsub.subset h))
    · rcases List.mem_append.mp h with h2 | h2
      · exact inv.reach x (Or.inr h2)
      · rw [List.mem_singleton] at h2
        subst h2
        exact inv.reach x (Or.inl hcurmem)
  · rcases inv.root_in with h | h
    · rw [hs, List.mem_append] at h
      rcases h with h | h
      · exact Or.inl h
      · exact Or.inr (List.mem_append_right _ h)
    · exact Or.inr (List.mem_append_left _ h)
  · rcases inv.bottom with h | ⟨h, _⟩
    · cases rest with
      | nil =>
        right
        rw [hs] at h
        simp only [List.nil_append, List.head?_cons, Option.some.injEq] at h
        subst h
        exact ⟨rfl, List.getLast?_concat _⟩
      | cons a t =>
        left
        rw [hs] at h
        simpa using h
    · rw [hs] at h
      simp at h
  · left
    rcases inv.root_vis with h | h
    · exact h
    · rw [hs] at h
      have : cur = root := by
        cases rest with
        | nil => simpa using h
        | cons a t =>
          have := congrArg List.length h
          simp at this
      subst this
      exact hv

end SchedulerStep

end Autograd

namespace Autograd

section SchedulerOpen

variable {α : Type} [LinearOrderedField α]

/-- The loop invariant holds when the popped node is opened: marked, pushed back, and its
unvisited operands moved to the back of the stack. -/
theorem step_open_inv (ctx : ModelContext α) (hwf : ctx.ArenaWF) (root : Nat)
    (st : ProgState) (inv : ProgInv ctx root st) (rest : List Nat) (cur : Nat)
    (hs : st.stack = rest ++ [cur]) (hv : ¬ st.visited.getD cur false = true) :
    ProgInv ctx root
      { visited := st.visited.set cur true,
        stack := (ctx.operands cur).foldl (push_input ctx (st.visited.set cur true))
          (rest ++ [cur]),
        out := st.out } := by
  have hcurmem : cur ∈ st.stack := by rw [hs]; simp
  have hcur : cur < ctx.num_vars := inv.stack_lt cur hcurmem
  have hnd : (rest ++ [cur]).Nodup := hs ▸ inv.stack_nodup
  have hnotin : cur ∉ rest := by
    intro h
    exact (List.nodup_append.mp hnd).2.2 h (List.mem_singleton.mpr rfl)
  have hV : ∀ x, (st.visited.set cur true).getD x false = true ↔
      (st.visited.getD x false = true ∨ x = cur) :=
    fun x => getD_set_true st.visited cur x (by rw [inv.vlen]; exact hcur)
  have hA := inv.ordA
  have hB := inv.ordB
  rw [hs, List.pairwise_append] at hA hB
  have hVrest : ∀ a, a ∈ rest → ((st.visited.set cur true).getD a false = true ↔
      st.visited.getD a false = true) := by
    intro a ha
    rw [hV a]
    constructor
    · rintro (h | h)
      · exact h
      · subst h
        exact absurd ha hnotin
    · exact Or.inl
  have hroot : (st.visited.set cur true).getD root false = true := by
    rw [hV]
    rcases inv.root_vis with h | h
    · exact Or.inl h
    · right
      rw [hs] at h
      cases rest with
      | nil => simpa using h.symm
      | cons a t =>
        have := congrArg List.length h
        simp at this
  have hhead : (rest ++ [cur]).head? = some root := by
    rcases inv.bottom with h | ⟨h, _⟩
    · rw [hs] at h
      exact h
    · rw [hs] at h
      simp at h
  have h0 : ∀ a, a ∈ rest ++ [cur] → (st.visited.set cur true).getD a false = true →
      cur ≤ a := by
    intro a ha hva
    rcases List.mem_append.mp ha with h | h
    · exact le_of_lt (hA.2.2 a h cur (List.mem_singleton.mpr rfl) ((hVrest a h).mp hva))
    · rw [List.mem_singleton] at h
      exact le_of_eq h.symm
  have init : PushInv ctx (st.visited.set cur true) (rest ++ [cur]) cur root []
      (rest ++ [cur]) := by
    refine ⟨hnd, ?_, ?_, ?_, hhead⟩
    · intro x
      simp
    · rw [List.pairwise_append]
      refine ⟨?_, List.pairwise_singleton _ _, ?_⟩
      · refine hA.1.imp_of_mem ?_
        intro a b ha _ hR hva
        exact hR ((hVrest a ha).mp hva)
      · intro a ha b hb hva
        exact hA.2.2 a ha b hb ((hVrest a ha).mp hva)
    · rw [List.pairwise_append]
      refine ⟨?_, List.pairwise_singleton _ _, ?_⟩
      · refine hB.1.imp_of_mem ?_
        intro a b ha hb hR hvb hva
        refine ⟨fun _ => hR ((hVrest b hb).mp hvb) (fun h => hva ((hVrest a ha).mpr h)), ?_⟩
        intro hbc
        subst hbc
        exact absurd hb hnotin
      · intro a _ b hb _ _
        rw [List.mem_singleton] at hb
        subst hb
        exact ⟨fun h => absurd rfl h, fun _ => List.not_mem_nil a⟩
  have P := push_fold_inv ctx hwf (st.visited.set cur true) (rest ++ [cur]) cur root hcur h0
    hroot (ctx.operands cur) (fun y hy => operands_lt ctx hwf cur y hcur hy) [] _ init
  rw [List.nil_append] at P
  have hstack0 : ∀ x, x ∈ st.stack →
      x ∈ (ctx.operands cur).foldl (push_input ctx (st.visited.set cur true))
        (rest ++ [cur]) := by
    intro x hx
    exact (P.mem x).mpr (Or.inl (hs ▸ hx))
  refine
    { vlen := by
        show (st.visited.set cur true).length = ctx.num_vars
        rw [List.length_set]
        exact inv.vlen
      stack_lt := ?_
      stack_nodup := P.nodup
      out_vis := fun x hx => (hV x).mpr (Or.inl (inv.out_vis x hx))
      out_not_stack := ?_
      vis_cases := ?_
      out_nodup := inv.out_nodup
      ordA := P.ordA
      ordB := ?_
      open_ops := ?_
      out_closed := inv.out_closed
      reach := ?_
      root_in := ?_
      bottom := Or.inl P.head
      root_vis := Or.inl hroot }
  · intro x hx
    rcases (P.mem x).mp hx with h | ⟨h, _⟩
    · exact inv.stack_lt x (hs ▸ h)
    · exact lt_trans (operands_lt ctx hwf cur x hcur h) hcur
  · intro x hx hxs
    rcases (P.mem x).mp hxs with h | ⟨_, h⟩
    · exact inv.out_not_stack x hx (hs ▸ h)
    · exact h ((hV x).mpr (Or.inl (inv.out_vis x hx)))
  · intro x hx
    rcases (hV x).mp hx with h | h
    · rcases inv.vis_cases x h with h2 | h2
      · exact Or.inl h2
      · exact Or.inr (hstack0 x h2)
    · subst h
      exact Or.inr (hstack0 x hcurmem)
  · refine P.ordB.imp ?_
    intro a b hR hvb hva
    obtain ⟨r1, r2⟩ := hR hvb hva
    by_cases hbc : b = cur
    · subst hbc
      exact r2 rfl
    · exact r1 hbc
  · intro x hx hvx y hy
    by_cases hxc : x = cur
    · rw [hxc] at hy
      by_cases hvy : (st.visited.set cur true).getD y false = true
      · have hyc : y ≠ cur := ne_of_lt (operands_lt ctx hwf cur y hcur hy)
        rcases (hV y).mp hvy with h | h
        · rcases inv.vis_cases y h with h2 | h2
          · exact Or.inl h2
          · exact Or.inr (hstack0 y h2)
        · exact absurd h hyc
      · exact Or.inr ((P.mem y).mpr (Or.inr ⟨hy, hvy⟩))
    · have hvx2 : st.visited.getD x false = true := by
        rcases (hV x).mp hvx with h | h
        · exact h
        · exact absurd h hxc
      have hx2 : x ∈ st.stack := by
        rcases (P.mem x).mp hx with h | ⟨_, h⟩
        · exact hs ▸ h
        · exact absurd hvx h
      rcases inv.open_ops x hx2 hvx2 y hy with h | h
      · exact Or.inl h
      · exact Or.inr (hstack0 y h)
  · intro x hx
    rcases hx with h | h
    · rcases (P.mem x).mp h with h2 | ⟨h2, _⟩
      · exact inv.reach x (Or.inl (hs ▸ h2))
      · exact Relation.ReflTransGen.tail (inv.reach cur (Or.inl hcurmem))
          ((isOperand_iff ctx hwf cur x hcur).mpr h2)
    · exact inv.reach x (Or.inr h)
  · rcases inv.root_in with h | h
    · exact Or.inl (hstack0 root h)
    · exact Or.inr h

/-- The loop invariant is kept by every iteration. -/
theorem create_program_step_inv (ctx : ModelContext α) (hwf : ctx.ArenaWF) (root : Nat)
    (st : ProgState) (inv : ProgInv ctx root st) (hne : st.stack ≠ []) :
    ProgInv ctx root (create_program_step ctx st) := by
  obtain ⟨rest, cur, hs⟩ := stack_back st.stack hne
  have hcur : cur < ctx.num_vars := inv.stack_lt cur (by rw [hs]; simp)
  by_cases hv : st.visited.getD cur false = true
  · rw [step_visited ctx hwf st rest cur hs hcur hv]
    exact step_visited_inv ctx hwf root st inv rest cur hs hv
  · rw [step_open ctx hwf st rest cur hs hcur hv]
    exact step_open_inv ctx hwf root st inv rest cur hs hv

/-- The loop invariant holds at the start of the loop. -/
theorem create_program_init_inv (ctx : ModelContext α) (root : Nat) (hroot : root < ctx.num_vars) :
    ProgInv ctx root
      { visited := List.replicate ctx.num_vars false, stack := [root], out := [] } := by
  have hfalse : ∀ x, ¬ (List.replicate ctx.num_vars false).getD x false = true := by
    intro x
    simp only [List.getD_eq_getElem?_getD, List.getElem?_replicate]
    split_ifs <;> simp
  refine
    { vlen := List.length_replicate _ _
      stack_lt := ?_
      stack_nodup := List.nodup_singleton root
      out_vis := fun x hx => absurd hx (List.not_mem_nil x)
      out_not_stack := fun x hx => absurd hx (List.not_mem_nil x)
      vis_cases := fun x hx => absurd hx (hfalse x)
      out_nodup := List.nodup_nil
      ordA := List.pairwise_singleton _ _
      ordB := List.pairwise_singleton _ _
      open_ops := fun x _ hx => absurd hx (hfalse x)
      out_closed := ?_
      reach := ?_
      root_in := Or.inl (List.mem_singleton.mpr rfl)
      bottom := Or.inl rfl
      root_vis := Or.inr rfl }
  · intro x hx
    rw [List.mem_singleton] at hx
    subst hx
    exact hroot
  · intro i x hix
    simp at hix
  · intro x hx
    rcases hx with h | h
    · rw [List.mem_singleton] at h
      subst h
      exact Relation.ReflTransGen.refl
    · exact absurd h (List.not_mem_nil x)

end SchedulerOpen

end Autograd

namespace Autograd

section SchedulerTotal

variable {α : Type} [LinearOrderedField α]

theorem count_false_set (l : List Bool) (i : Nat) (hi : i < l.length)
    (h : ¬ l.getD i false = true) : (l.set i true).count false + 1 = l.count false := by
  induction l generalizing i with
  | nil => simp at hi
  | cons a t ih =>
    cases i with
    | zero =>
      simp only [List.getD_cons_zero] at h
      have ha : a = false := by simpa using h
      subst ha
      simp
    | succ k =>
      simp only [List.getD_cons_succ] at h
      simp only [List.length_cons, Nat.add_lt_add_iff_right] at hi
      have := ih k hi h
      simp only [List.set_cons_succ, List.count_cons]
      omega

theorem push_input_length (ctx : ModelContext α) (V : List Bool) (stk : List Nat) (inp : Nat) :
    (push_input ctx V stk inp).length ≤ stk.length + 1 := by
  unfold push_input
  split_ifs
  · omega
  · rw [List.length_append, List.length_singleton, List.length_erase]
    split_ifs <;> omega

theorem push_fold_length (ctx : ModelContext α) (V : List Bool) (l stk : List Nat) :
    (l.foldl (push_input ctx V) stk).length ≤ stk.length + l.length := by
  induction l generalizing stk with
  | nil => simp
  | cons y t ih =>
    simp only [List.foldl_cons, List.length_cons]
    have h1 := ih (push_input ctx V stk y)
    have h2 := push_input_length ctx V stk y
    omega

theorem operands_length (ctx : ModelContext α) (p : Nat) : (ctx.operands p).length ≤ 2 := by
  unfold ModelContext.operands
  have h1 := List.length_filterMap_le (fun i => (ctx.var p).inputs i)
    (List.range (mv_num_inputs (ctx.var p).op))
  rw [List.length_range] at h1
  exact le_trans h1 (mv_num_inputs_le _)

/-- Every iteration of the loop of `create_program` decreases the measure, on any context. -/
theorem create_program_step_measure (ctx : ModelContext α) (st : ProgState)
    (hlen : st.visited.length = ctx.num_vars) (hne : st.stack ≠ []) :
    (create_program_step ctx st).measure < st.measure ∧
      (create_program_step ctx st).visited.length = ctx.num_vars := by
  obtain ⟨rest, cur, hs⟩ := stack_back st.stack hne
  unfold create_program_step
  rw [hs, List.getLast?_concat]
  simp only [List.dropLast_concat]
  by_cases h1 : (ctx.var cur).index ≥ ctx.num_vars
  · rw [if_pos h1]
    simp only [ProgState.measure, hs, List.length_append, List.length_singleton]
    exact ⟨by omega, hlen⟩
  · rw [if_neg h1]
    by_cases h2 : st.visited.getD (ctx.var cur).index false = true
    · rw [if_pos h2]
      simp only [ProgState.measure, hs, List.length_append, List.length_singleton]
      exact ⟨by omega, hlen⟩
    · rw [if_neg h2]
      simp only [ProgState.measure, hs, List.length_append, List.length_singleton,
        List.length_set]
      refine ⟨?_, hlen⟩
      have hc := count_false_set st.visited (ctx.var cur).index (by omega) h2
      rw [create_program_inputs_eq]
      have hl := push_fold_length ctx (st.visited.set (ctx.var cur).index true)
        (ctx.operands cur) (rest ++ [cur])
      have ho := operands_length ctx cur
      simp only [List.length_append, List.length_singleton] at hl
      omega

/-- The loop of `create_program` terminates on every context: fuel above the measure of the
state is enough for it to return. -/
theorem create_program_loop_total (ctx : ModelContext α) (fuel : Nat) (st : ProgState)
    (hlen : st.visited.length = ctx.num_vars) (hfuel : st.measure < fuel) :
    ∃ out, create_program_loop ctx fuel st = some out := by
  induction fuel generalizing st with
  | zero => omega
  | succ k ih =>
    unfold create_program_loop
    by_cases hne : st.stack = []
    · rw [if_pos hne]
      exact ⟨st.out, rfl⟩
    · rw [if_neg hne]
      obtain ⟨hm, hl⟩ := create_program_step_measure ctx st hlen hne
      exact ih (create_program_step ctx st) hl (by omega)

/-- On a well-formed arena the loop returns the `out` of a final state that satisfies the
invariant and has an empty stack. -/
theorem create_program_loop_inv (ctx : ModelContext α) (hwf : ctx.ArenaWF) (root : Nat)
    (fuel : Nat) (st : ProgState) (inv : ProgInv ctx root st) (hfuel : st.measure < fuel) :
    ∃ fin, ProgInv ctx root fin ∧ fin.stack = [] ∧
      create_program_loop ctx fuel st = some fin.out := by
  induction fuel generalizing st with
  | zero => omega
  | succ k ih =>
    unfold create_program_loop
    by_cases hne : st.stack = []
    · rw [if_pos hne]
      exact ⟨st, inv, hne, rfl⟩
    · rw [if_neg hne]
      obtain ⟨hm, _⟩ := create_program_step_measure ctx st inv.vlen hne
      exact ih (create_program_step ctx st) (create_program_step_inv ctx hwf root st inv hne)
        (by omega)

/-- The program `create_program` returns on a well-formed arena, with the loop invariant of
the final state. -/
theorem create_program_inv (ctx : ModelContext α) (hwf : ctx.ArenaWF) (root : Nat)
    (hroot : root < ctx.num_vars) :
    ∃ prog fin, ctx.create_program root = some prog ∧ ProgInv ctx root fin ∧
      fin.stack = [] ∧ fin.out = prog.vars := by
  have hm : (ProgState.mk (List.replicate ctx.num_vars false) [root] []).measure
      < 3 * ctx.num_vars + 2 := by
    simp only [ProgState.measure, List.count_replicate_self, List.length_singleton]
    omega
  obtain ⟨fin, hinv, hstack, hloop⟩ := create_program_loop_inv ctx hwf root _ _
    (create_program_init_inv ctx root hroot) hm
  refine ⟨⟨fin.out⟩, fin, ?_, hinv, hstack, rfl⟩
  unfold ModelContext.create_program
  rw [hloop]
  rfl

end SchedulerTotal

end Autograd

/-! ## The construction API builds well-formed contexts -/

namespace Autograd

section BuiltWF

variable {α : Type} [LinearOrderedField α]

theorem var_lt_append (ctx ctx2 : ModelContext α) (v : ModelVar α)
    (h : ctx2.all_vars = ctx.all_vars ++ [v]) (p : Nat) (hp : p < ctx.num_vars) :
    ctx2.var p = ctx.var p := by
  unfold ModelContext.var
  rw [h, List.getD_eq_getElem?_getD, List.getD_eq_getElem?_getD,
    List.getElem?_append_left hp]

theorem var_new_append (ctx ctx2 : ModelContext α) (v : ModelVar α)
    (h : ctx2.all_vars = ctx.all_vars ++ [v]) : ctx2.var ctx.num_vars = v := by
  unfold ModelContext.var ModelContext.num_vars
  rw [h, List.getD_eq_getElem?_getD, List.getElem?_concat_length]
  rfl

theorem num_vars_append (ctx ctx2 : ModelContext α) (v : ModelVar α)
    (h : ctx2.all_vars = ctx.all_vars ++ [v]) : ctx2.num_vars = ctx.num_vars + 1 := by
  unfold ModelContext.num_vars
  rw [h]
  simp

theorem NodeOK.congr (look look2 : Nat → ModelVar α) (v : ModelVar α)
    (h : ∀ y, (v.input0 = some y ∨ v.input1 = some y) → look2 y = look y)
    (ok : NodeOK look v) : NodeOK look2 v := by
  refine ⟨ok.val_wf, ok.grad_some, ok.grad_none, ?_, ?_, ?_, ?_, ok.op_ok⟩
  · intro a h1 h2
    rw [h a (Or.inl h2)]
    exact ok.unary_shape a h1 h2
  · intro a b h1 h2 h3
    rw [h a (Or.inl h2), h b (Or.inr h3)]
    exact ok.ew_shape a b h1 h2 h3
  · intro a b h1 h2 h3
    rw [h a (Or.inl h2), h b (Or.inr h3)]
    exact ok.mm_shape a b h1 h2 h3
  · intro y h1 h2
    rw [h y h1] at h2
    exact ok.req_prop y h1 h2

/-- The operands of a node of a well-formed arena are earlier nodes. -/
theorem ModelContext.ArenaWF.input_lt (ctx : ModelContext α) (hwf : ctx.ArenaWF) (p y : Nat)
    (hp : p < ctx.num_vars) (h : (ctx.var p).input0 = some y ∨ (ctx.var p).input1 = some y) :
    y < p :=
  operands_lt ctx hwf p y hp ((isOperand_iff ctx hwf p y hp).mp h)

/-- Appending a consistent node whose operands are nodes of the context keeps it
well-formed. -/
theorem wf_append (ctx ctx2 : ModelContext α) (v : ModelVar α) (hwf : ctx.WF)
    (h : ctx2.all_vars = ctx.all_vars ++ [v]) (hidx : v.index = ctx.num_vars)
    (hin : ∀ i, i < mv_num_inputs v.op → ∃ m, v.inputs i = some m ∧ m < ctx.num_vars)
    (hnone : ∀ i, mv_num_inputs v.op ≤ i → v.inputs i = none)
    (hok : NodeOK ctx.var v) : ctx2.WF := by
  have hn := num_vars_append ctx ctx2 v h
  have hnew := var_new_append ctx ctx2 v h
  have hold := var_lt_append ctx ctx2 v h
  have hvin : ∀ y, (v.input0 = some y ∨ v.input1 = some y) → y < ctx.num_vars := by
    intro y hy
    have h2 := mv_num_inputs_le v.op
    rcases hy with hy | hy
    · by_cases h0 : 0 < mv_num_inputs v.op
      · obtain ⟨m, hm, hlt⟩ := hin 0 h0
        simp only [ModelVar.inputs, if_true] at hm
        rw [hy] at hm
        cases hm
        exact hlt
      · have := hnone 0 (by omega)
        simp only [ModelVar.inputs, if_true] at this
        rw [this] at hy
        cases hy
    · by_cases h1 : 1 < mv_num_inputs v.op
      · obtain ⟨m, hm, hlt⟩ := hin 1 h1
        simp [ModelVar.inputs] at hm
        rw [hy] at hm
        cases hm
        exact hlt
      · have := hnone 1 (by omega)
        simp [ModelVar.inputs] at this
        rw [this] at hy
        cases hy
  constructor
  · constructor
    · intro p hp
      rw [hn] at hp
      rcases Nat.lt_succ_iff_lt_or_eq.mp hp with h1 | h1
      · rw [hold p h1]
        exact hwf.arena.index_eq p h1
      · subst h1
        rw [hnew]
        exact hidx
    · intro p hp i hi
      rw [hn] at hp
      rcases Nat.lt_succ_iff_lt_or_eq.mp hp with h1 | h1
      · rw [hold p h1] at hi ⊢
        exact hwf.arena.inputs_lt p h1 i hi
      · subst h1
        rw [hnew] at hi ⊢
        exact hin i hi
    · intro p hp i hi
      rw [hn] at hp
      rcases Nat.lt_succ_iff_lt_or_eq.mp hp with h1 | h1
      · rw [hold p h1] at hi ⊢
        exact hwf.arena.inputs_none p h1 i hi
      · subst h1
        rw [hnew] at hi ⊢
        exact hnone i hi
  · intro p hp
    rw [hn] at hp
    rcases Nat.lt_succ_iff_lt_or_eq.mp hp with h1 | h1
    · rw [hold p h1]
      refine NodeOK.congr ctx.var ctx2.var (ctx.var p) ?_ (hwf.node p h1)
      intro y hy
      exact hold y (lt_trans (hwf.arena.input_lt ctx p y h1 hy) h1)
    · subst h1
      rw [hnew]
      exact NodeOK.congr ctx.var ctx2.var v (fun y hy => hold y (hvin y hy)) hok

end BuiltWF

end Autograd

namespace Autograd

section BuiltWF2

variable {α : Type} [LinearOrderedField α]

theorem create_var_vars (ctx : ModelContext α) (rows cols flags : Nat) :
    (ctx.create_var rows cols flags).1.all_vars
        = ctx.all_vars ++ [new_var ctx.num_vars rows cols flags] ∧
      (ctx.create_var rows cols flags).2 = ctx.num_vars := by
  constructor
  · simp only [ModelContext.create_var, new_var, ModelContext.num_vars]
    split_ifs <;> rfl
  · rfl

theorem unary_impl_vars (ctx : ModelContext α) (a rows cols flags : Nat) (op : ModelVarOp) :
    (ctx.unary_impl a rows cols flags op).1.all_vars
        = ctx.all_vars ++ [{ (new_var ctx.num_vars rows cols
            (if has_flag (ctx.var a).flags MV_FLAG_REQUIRES_GRAD
              then flags ||| MV_FLAG_REQUIRES_GRAD else flags) : ModelVar α) with
            op := op, input0 := some a }] ∧
      (ctx.unary_impl a rows cols flags op).2 = ctx.num_vars := by
  simp only [ModelContext.unary_impl]
  obtain ⟨h1, h2⟩ := create_var_vars ctx rows cols
    (if has_flag (ctx.var a).flags MV_FLAG_REQUIRES_GRAD
      then flags ||| MV_FLAG_REQUIRES_GRAD else flags)
  refine ⟨?_, h2⟩
  simp only [ModelContext.set_var]
  rw [h2, var_new_append ctx _ _ h1, h1,
    List.set_append_right ctx.num_vars _ (le_of_eq rfl)]
  simp [ModelContext.num_vars]

theorem binary_impl_vars (ctx : ModelContext α) (a b rows cols flags : Nat)
    (op : ModelVarOp) :
    (ctx.binary_impl a b rows cols flags op).1.all_vars
        = ctx.all_vars ++ [{ (new_var ctx.num_vars rows cols
            (if has_flag (ctx.var a).flags MV_FLAG_REQUIRES_GRAD
                || has_flag (ctx.var b).flags MV_FLAG_REQUIRES_GRAD
              then flags ||| MV_FLAG_REQUIRES_GRAD else flags) : ModelVar α) with
            op := op, input0 := some a, input1 := some b }] ∧
      (ctx.binary_impl a b rows cols flags op).2 = ctx.num_vars := by
  simp only [ModelContext.binary_impl]
  obtain ⟨h1, h2⟩ := create_var_vars ctx rows cols
    (if has_flag (ctx.var a).flags MV_FLAG_REQUIRES_GRAD
        || has_flag (ctx.var b).flags MV_FLAG_REQUIRES_GRAD
      then flags ||| MV_FLAG_REQUIRES_GRAD else flags)
  refine ⟨?_, h2⟩
  simp only [ModelContext.set_var]
  rw [h2, var_new_append ctx _ _ h1, h1,
    List.set_append_right ctx.num_vars _ (le_of_eq rfl)]
  simp [ModelContext.num_vars]

theorem has_flag_or_req (flags : Nat) :
    has_flag (flags ||| MV_FLAG_REQUIRES_GRAD) MV_FLAG_REQUIRES_GRAD = true := by
  unfold has_flag MV_FLAG_REQUIRES_GRAD
  have h : (flags ||| 1) &&& 1 = 1 := by
    apply Nat.eq_of_testBit_eq
    intro i
    rw [Nat.testBit_and, Nat.testBit_or]
    cases i with
    | zero => simp
    | succ k => simp [Nat.testBit_succ]
  rw [h]
  rfl

end BuiltWF2

end Autograd

namespace Autograd

section BuiltWF3

variable {α : Type} [LinearOrderedField α]

theorem new_var_grad_ok (n rows cols flags : Nat) :
    (has_flag flags MV_FLAG_REQUIRES_GRAD = true →
      ∃ g, (new_var n rows cols flags : ModelVar α).grad = some g ∧ g.rows = rows ∧
        g.cols = cols ∧ g.WF) ∧
    (has_flag flags MV_FLAG_REQUIRES_GRAD = false →
      (new_var n rows cols flags : ModelVar α).grad = none) := by
  constructor
  · intro h
    refine ⟨Matrix.create rows cols, ?_, rfl, rfl, create_WF rows cols⟩
    simp only [new_var, h, if_true]
  · intro h
    simp [new_var, h]

theorem wf_empty : (ModelContext.empty : ModelContext α).WF := by
  constructor
  · constructor
    · intro p hp
      exact absurd hp (Nat.not_lt_zero p)
    · intro p hp
      exact absurd hp (Nat.not_lt_zero p)
    · intro p hp
      exact absurd hp (Nat.not_lt_zero p)
  · intro p hp
    exact absurd hp (Nat.not_lt_zero p)

theorem wf_create_var (ctx : ModelContext α) (hwf : ctx.WF) (rows cols flags : Nat) :
    (ctx.create_var rows cols flags).1.WF := by
  refine wf_append ctx _ (new_var ctx.num_vars rows cols flags) hwf
    (create_var_vars ctx rows cols flags).1 rfl ?_ ?_ ?_
  · intro i hi
    exact absurd hi (Nat.not_lt_zero i)
  · intro i _
    simp only [ModelVar.inputs, new_var]
    split_ifs <;> rfl
  · refine ⟨create_WF rows cols, (new_var_grad_ok ctx.num_vars rows cols flags).1,
      (new_var_grad_ok ctx.num_vars rows cols flags).2, ?_, ?_, ?_, ?_, ?_⟩
    · intro a h1
      simp [new_var, mv_num_inputs, ModelVarOp.toNat] at h1
    · intro a b h1
      simp [new_var] at h1
    · intro a b h1
      simp [new_var] at h1
    · intro y h1
      simp [new_var] at h1
    · simp [new_var]

theorem wf_unary_impl (ctx : ModelContext α) (hwf : ctx.WF) (a flags : Nat)
    (ha : a < ctx.num_vars) (op : ModelVarOp) (hop : op = .Relu ∨ op = .Softmax) :
    (ctx.unary_impl a (ctx.var a).val.rows (ctx.var a).val.cols flags op).1.WF := by
  have harity : mv_num_inputs op = 1 := by
    rcases hop with h | h <;> subst h <;> rfl
  refine wf_append ctx _ _ hwf (unary_impl_vars ctx a _ _ flags op).1 rfl ?_ ?_ ?_
  · intro i hi
    simp only [harity] at hi
    have : i = 0 := by omega
    subst this
    exact ⟨a, rfl, ha⟩
  · intro i hi
    simp only [harity] at hi
    simp only [ModelVar.inputs, new_var]
    have : ¬ i = 0 := by omega
    rw [if_neg this]
    split_ifs <;> rfl
  · refine ⟨create_WF _ _, (new_var_grad_ok ctx.num_vars _ _ _).1,
      (new_var_grad_ok ctx.num_vars _ _ _).2,
      ?_, ?_, ?_, ?_, ?_⟩
    · intro a2 _ h2
      simp only [Option.some.injEq] at h2
      subst h2
      exact ⟨rfl, rfl⟩
    · intro a2 b2 h1
      rcases hop with h | h <;> subst h <;> simp at h1
    · intro a2 b2 h1
      rcases hop with h | h <;> subst h <;> simp at h1
    · intro y h1 h2
      simp only [Option.some.injEq, new_var] at h1
      rcases h1 with h1 | h1
      · subst h1
        simp only [new_var, h2, if_true]
        exact has_flag_or_req flags
      · cases h1
    · rcases hop with h | h <;> subst h <;> simp

theorem wf_binary_impl (ctx : ModelContext α) (hwf : ctx.WF) (a b rows cols flags : Nat)
    (ha : a < ctx.num_vars) (hb : b < ctx.num_vars) (op : ModelVarOp)
    (harity : mv_num_inputs op = 2) (hopok : op ≠ .BinaryStart)
    (hew : (op = .Add ∨ op = .Sub ∨ op = .CrossEntropy) →
      ((ctx.var a).val.rows = rows ∧ (ctx.var a).val.cols = cols) ∧
      ((ctx.var b).val.rows = rows ∧ (ctx.var b).val.cols = cols))
    (hmm : op = .Matmul → (ctx.var a).val.cols = (ctx.var b).val.rows ∧
      rows = (ctx.var a).val.rows ∧ cols = (ctx.var b).val.cols) :
    (ctx.binary_impl a b rows cols flags op).1.WF := by
  refine wf_append ctx _ _ hwf (binary_impl_vars ctx a b rows cols flags op).1 rfl ?_ ?_ ?_
  · intro i hi
    simp only [harity] at hi
    have : i = 0 ∨ i = 1 := by omega
    rcases this with h | h <;> subst h
    · exact ⟨a, rfl, ha⟩
    · exact ⟨b, rfl, hb⟩
  · intro i hi
    simp only [harity] at hi
    simp only [ModelVar.inputs]
    have h0 : ¬ i = 0 := by omega
    have h1 : ¬ i = 1 := by omega
    rw [if_neg h0, if_neg h1]
  · refine ⟨create_WF _ _, (new_var_grad_ok ctx.num_vars _ _ _).1,
      (new_var_grad_ok ctx.num_vars _ _ _).2,
      ?_, ?_, ?_, ?_, ?_⟩
    · intro a2 h1
      simp only [harity] at h1
      omega
    · intro a2 b2 h1 h2 h3
      simp only [Option.some.injEq] at h2 h3
      subst h2
      subst h3
      exact hew h1
    · intro a2 b2 h1 h2 h3
      simp only [Option.some.injEq] at h2 h3
      subst h2
      subst h3
      exact hmm h1
    · intro y h1 h2
      simp only [Option.some.injEq, new_var] at h1
      have : (has_flag (ctx.var a).flags MV_FLAG_REQUIRES_GRAD
          || has_flag (ctx.var b).flags MV_FLAG_REQUIRES_GRAD) = true := by
        rcases h1 with h1 | h1 <;> subst h1 <;> simp [h2]
      simp only [new_var, this, if_true]
      exact has_flag_or_req flags
    · refine ⟨?_, ?_, hopok⟩
      · intro h
        subst h
        simp [mv_num_inputs, ModelVarOp.toNat] at harity
      · intro h
        subst h
        simp [mv_num_inputs, ModelVarOp.toNat] at harity

/-- Every context built through the construction API is well-formed. -/
theorem Built.wf (ctx : ModelContext α) (h : Built ctx) : ctx.WF := by
  induction h with
  | empty => exact wf_empty
  | create_var c rows cols flags _ ih => exact wf_create_var c ih rows cols flags
  | relu c a flags _ ha ih => exact wf_unary_impl c ih a flags ha .Relu (Or.inl rfl)
  | softmax c a flags _ ha ih => exact wf_unary_impl c ih a flags ha .Softmax (Or.inr rfl)
  | add c a b flags _ ha hb ih =>
    unfold ModelContext.add
    split_ifs with hs
    · exact ih
    · push_neg at hs
      exact wf_binary_impl c ih a b _ _ flags ha hb .Add rfl (by decide)
        (fun _ => ⟨⟨rfl, rfl⟩, ⟨hs.1.symm, hs.2.symm⟩⟩) (fun h => by cases h)
  | sub c a b flags _ ha hb ih =>
    unfold ModelContext.sub
    split_ifs with hs
    · exact ih
    · push_neg at hs
      exact wf_binary_impl c ih a b _ _ flags ha hb .Sub rfl (by decide)
        (fun _ => ⟨⟨rfl, rfl⟩, ⟨hs.1.symm, hs.2.symm⟩⟩) (fun h => by cases h)
  | matmul c a b flags _ ha hb ih =>
    unfold ModelContext.matmul
    split_ifs with hs
    · exact ih
    · push_neg at hs
      exact wf_binary_impl c ih a b _ _ flags ha hb .Matmul rfl (by decide)
        (fun h => by rcases h with h | h | h <;> cases h) (fun _ => ⟨hs, rfl, rfl⟩)
  | cross_entropy c a b flags _ ha hb ih =>
    unfold ModelContext.cross_entropy
    split_ifs with hs
    · exact ih
    · push_neg at hs
      exact wf_binary_impl c ih a b _ _ flags ha hb .CrossEntropy rfl (by decide)
        (fun _ => ⟨⟨rfl, rfl⟩, ⟨hs.1.symm, hs.2.symm⟩⟩) (fun h => by cases h)

end BuiltWF3

end Autograd

namespace Autograd

section SchedulerSpec

variable {α : Type} [LinearOrderedField α]

/-- What `create_program` returns on a well-formed arena: a duplicate-free list of nodes of
the arena, closed under operands, each operand before its consumer, holding exactly the
nodes reachable from the root, and ending with the root. -/
theorem create_program_spec (ctx : ModelContext α) (hwf : ctx.ArenaWF) (root : Nat)
    (hroot : root < ctx.num_vars) :
    ∃ prog, ctx.create_program root = some prog ∧ prog.vars.Nodup ∧
      (∀ x, x ∈ prog.vars → x < ctx.num_vars) ∧
      (∀ (i x : Nat), prog.vars[i]? = some x → ∀ y, ctx.IsOperand y x →
        ∃ j : Nat, j < i ∧ prog.vars[j]? = some y) ∧
      (∀ x, x ∈ prog.vars ↔ ctx.Reaches root x) ∧
      prog.vars.getLast? = some root := by
  obtain ⟨prog, fin, hprog, inv, hstack, hout⟩ := create_program_inv ctx hwf root hroot
  have hlt : ∀ x, x ∈ fin.out → x < ctx.num_vars := by
    intro x hx
    have hv := inv.out_vis x hx
    by_contra hc
    rw [List.getD_eq_getElem?_getD, List.getElem?_eq_none (by rw [inv.vlen]; omega)] at hv
    simp at hv
  have htopo : ∀ (i x : Nat), fin.out[i]? = some x → ∀ y, ctx.IsOperand y x →
      ∃ j : Nat, j < i ∧ fin.out[j]? = some y := by
    intro i x hix y hy
    have hx : x < ctx.num_vars := hlt x (List.mem_iff_getElem?.mpr ⟨i, hix⟩)
    exact inv.out_closed i x hix y ((isOperand_iff ctx hwf x y hx).mp hy)
  have hrootin : root ∈ fin.out := by
    rcases inv.root_in with h | h
    · rw [hstack] at h
      exact absurd h (List.not_mem_nil root)
    · exact h
  refine ⟨prog, hprog, hout ▸ inv.out_nodup, hout ▸ hlt, hout ▸ htopo, ?_, ?_⟩
  · intro x
    rw [← hout]
    constructor
    · intro hx
      exact inv.reach x (Or.inr hx)
    · intro hx
      induction hx with
      | refl => exact hrootin
      | tail _ hstep ih =>
        obtain ⟨i, hi⟩ := List.mem_iff_getElem?.mp ih
        obtain ⟨j, _, hj⟩ := htopo i _ hi _ hstep
        exact List.mem_iff_getElem?.mpr ⟨j, hj⟩
  · rw [← hout]
    rcases inv.bottom with h | ⟨_, h⟩
    · rw [hstack] at h
      simp at h
    · exact h

theorem nodup_index_unique (l : List Nat) (h : l.Nodup) (i j x : Nat)
    (hi : l[i]? = some x) (hj : l[j]? = some x) : i = j := by
  have h1 := (List.getElem?_eq_some.mp hi).1
  exact (List.getElem?_inj h1 h (hi.trans hj.symm))

end SchedulerSpec

end Autograd

/-! ## The forward kernels compute the reference values -/

namespace Autograd

section ForwardKernels

variable {α : Type} [LinearOrderedField α]

theorem get_mk_map_range (r c n : Nat) (f : Nat → α) (i : Nat) (hi : i < n) :
    (Matrix.mk r c ((List.range n).map f)).get i = f i := by
  simp [Matrix.get, List.getD_eq_getElem?_getD, List.getElem?_map, List.getElem?_range hi]

/-- A loop `for i < size: out[i] = f i` over a well-formed `out` leaves the list of the
`f i`. -/
theorem set_loop_eq (f : Nat → α) (out : Matrix α) (hwf : out.WF) :
    (List.range out.size).foldl (fun o i => o.set i (f i)) out
      = ⟨out.rows, out.cols, (List.range out.size).map f⟩ := by
  obtain ⟨h1, h2, h3, h4⟩ := writes_fold f out.size out
  refine Matrix.ext_get _ ⟨out.rows, out.cols, (List.range out.size).map f⟩ h1 h2 ?_ ?_
  · rw [h3, hwf]
    simp [Matrix.size]
  · intro i hi
    rw [h3] at hi
    have hi2 : i < out.size := by
      rw [hwf] at hi
      exact hi
    rw [(h4 i hi).1 hi2, get_mk_map_range _ _ _ _ _ hi2]

/-- A loop `for i < n: out[i] += f i` over a well-formed `out`, with `n` the size of `out`,
leaves the list of the `out[i] + f i`. -/
theorem add_loop_eq (f : Nat → α) (out : Matrix α) (hwf : out.WF) :
    (List.range out.size).foldl (fun o i => o.set i (o.get i + f i)) out
      = ⟨out.rows, out.cols, (List.range out.size).map (fun i => out.get i + f i)⟩ := by
  have h := adds_fold_range (fun o i => o.set i (o.get i + f i))
    (fun i p => if p = i then f i else 0) out.size (fun i _ o => adds_point o i (f i)) out
  obtain ⟨h1, h2, h3, h4⟩ := h
  refine Matrix.ext_get _
    ⟨out.rows, out.cols, (List.range out.size).map (fun i => out.get i + f i)⟩ h1 h2 ?_ ?_
  · rw [h3, hwf]
    simp [Matrix.size]
  · intro i hi
    rw [h3] at hi
    have hi2 : i < out.size := by
      rw [hwf] at hi
      exact hi
    rw [h4 i hi, get_mk_map_range _ _ _ _ _ hi2]
    congr 1
    beta_reduce
    rw [Finset.sum_ite_eq]
    simp [hi2]

namespace MatOps

theorem relu_eq_spec (out inp : Matrix α) (hr : out.rows = inp.rows) (hc : out.cols = inp.cols)
    (hwf : out.WF) : (relu out inp).2 = relu_spec inp := by
  unfold relu
  rw [if_neg (by simp [hr, hc])]
  simp only
  rw [set_loop_eq _ out hwf]
  simp [relu_spec, Matrix.size, hr, hc]

theorem add_eq_spec (out a b : Matrix α) (hab : a.rows = b.rows ∧ a.cols = b.cols)
    (hr : out.rows = a.rows) (hc : out.cols = a.cols) (hwf : out.WF) :
    (add out a b).2 = add_spec a b := by
  unfold add
  rw [if_neg (by simp [hab.1, hab.2]), if_neg (by simp [hr, hc])]
  simp only
  rw [set_loop_eq _ out hwf]
  simp [add_spec, Matrix.size, hr, hc]

theorem sub_eq_spec (out a b : Matrix α) (hab : a.rows = b.rows ∧ a.cols = b.cols)
    (hr : out.rows = a.rows) (hc : out.cols = a.cols) (hwf : out.WF) :
    (sub out a b).2 = sub_spec a b := by
  unfold sub
  rw [if_neg (by simp [hab.1, hab.2]), if_neg (by simp [hr, hc])]
  simp only
  rw [set_loop_eq _ out hwf]
  simp [sub_spec, Matrix.size, hr, hc]

theorem cross_entropy_eq_spec (flog : α → α) (out p q : Matrix α)
    (hpq : p.rows = q.rows ∧ p.cols = q.cols)
    (hr : out.rows = p.rows) (hc : out.cols = p.cols) (hwf : out.WF) :
    (cross_entropy flog out p q).2 = cross_entropy_spec flog p q := by
  unfold cross_entropy
  rw [if_neg (by simp [hpq.1, hpq.2]), if_neg (by simp [hr, hc])]
  simp only
  rw [set_loop_eq _ out hwf]
  simp [cross_entropy_spec, Matrix.size, hr, hc]

/-- The loop of `softmax`: the buffer receives the exponentials and `sum` their sum. -/
theorem softmax_loop (e : Nat → α) (out : Matrix α) (n : Nat) (hn : n ≤ out.data.length) :
    (List.range n).foldl (fun (st : Matrix α × α) i =>
        ((st.1.set i (e i)), st.2 + (st.1.set i (e i)).get i)) (out, 0)
      = ((List.range n).foldl (fun o i => o.set i (e i)) out,
          ∑ i in Finset.range n, e i) := by
  induction n with
  | zero => simp
  | succ k ih =>
    rw [List.range_succ, List.foldl_append, List.foldl_append, ih (by omega)]
    simp only [List.foldl_cons, List.foldl_nil]
    rw [Finset.sum_range_succ, Matrix.get_set]
    have hlen : ((List.range k).foldl (fun o i => o.set i (e i)) out).data.length
        = out.data.length := (writes_fold e k out).2.2.1
    rw [if_pos ⟨rfl, by rw [hlen]; omega⟩]

theorem softmax_eq_spec (fexp : α → α) (out inp : Matrix α) (hr : out.rows = inp.rows)
    (hc : out.cols = inp.cols) (hwf : out.WF) :
    (softmax fexp out inp).2 = softmax_spec fexp inp := by
  unfold softmax
  rw [if_neg (by simp [hr, hc])]
  simp only
  have h := softmax_loop (fun i => fexp (inp.get i)) out out.size (by rw [hwf]; exact le_refl _)
  simp only at h
  rw [h]
  simp only
  rw [set_loop_eq _ out hwf]
  simp [softmax_spec, Matrix.scale, Matrix.size, hr, hc]

theorem matmul_eq_spec (out a b : Matrix α) (hab : a.cols = b.rows) (hr : out.rows = a.rows)
    (hc : out.cols = b.cols) (hwf : out.WF) (ha : a.WF) (hb : b.WF) :
    (mul out a b true false false).2 = matmul_spec a b := by
  have hv : (mul out a b true false false).1 = true := by
    rw [mul_ok_iff]
    simp only [Bool.false_eq_true, if_false]
    exact ⟨hab, hr, hc⟩
  obtain ⟨s1, s2, s3⟩ := mul_shape out a b true false false
  refine Matrix.ext_get _ (matmul_spec a b) (s1.trans hr) (s2.trans hc) ?_ ?_
  · rw [s3, hwf, hr, hc]
    simp [matmul_spec]
  · intro p hp
    rw [s3, hwf, hr, hc] at hp
    have hcpos : 0 < b.cols := by
      rcases Nat.eq_zero_or_pos b.cols with h | h
      · rw [h] at hp
        simp at hp
      · exact h
    have hi : p / b.cols < out.rows := by
      rw [hr]
      exact Nat.div_lt_of_lt_mul (by rw [Nat.mul_comm]; exact hp)
    have hj : p % b.cols < out.cols := by
      rw [hc]
      exact Nat.mod_lt _ hcpos
    have h := mul_at out a b true false false hwf ha hb hv (p / b.cols) (p % b.cols) hi hj
    simp only [Bool.false_eq_true, if_false, if_true, zero_add] at h
    have hpos : p % b.cols + p / b.cols * b.cols = p := by
      rw [Nat.mul_comm]
      exact Nat.mod_add_div p b.cols
    unfold Matrix.at at h
    rw [s2, hc, hpos] at h
    rw [h]
    simp only [matmul_spec]
    rw [get_mk_map_range _ _ _ _ _ hp]
    rfl

end MatOps

end ForwardKernels

end Autograd

/-! ## State lemmas -/

namespace Autograd

section StateLemmas

variable {α : Type} [LinearOrderedField α]

theorem num_vars_set_var (ctx : ModelContext α) (p : Nat) (v : ModelVar α) :
    (ctx.set_var p v).num_vars = ctx.num_vars := by
  simp [ModelContext.set_var, ModelContext.num_vars]

theorem var_set_var (ctx : ModelContext α) (p q : Nat) (v : ModelVar α) :
    (ctx.set_var p v).var q = if q = p ∧ p < ctx.num_vars then v else ctx.var q := by
  simp only [ModelContext.set_var, ModelContext.var, ModelContext.num_vars,
    List.getD_eq_getElem?_getD, List.getElem?_set]
  by_cases h1 : p = q
  · subst h1
    by_cases h2 : p < ctx.all_vars.length
    · simp [h2]
    · rw [List.getElem?_eq_none (Nat.le_of_not_lt h2)]
      simp [h2]
  · have h3 : ¬ q = p := fun h => h1 h.symm
    simp [h1, h3]

theorem set_var_self (ctx : ModelContext α) (p : Nat) : ctx.set_var p (ctx.var p) = ctx := by
  cases ctx with
  | mk vars i o d c f cp =>
    simp only [ModelContext.set_var, ModelContext.var]
    congr 1
    apply List.ext_getElem?
    intro n
    rw [List.getElem?_set]
    by_cases h1 : p = n
    · subst h1
      by_cases h2 : p < vars.length
      · simp [h2, List.getD_eq_getElem?_getD, List.getElem?_eq_getElem h2]
      · simp [h2, List.getElem?_eq_none (Nat.le_of_not_lt h2)]
    · simp [h1]

theorem set_val_self (ctx : ModelContext α) (p : Nat) :
    ctx.set_val p (ctx.var p).val = ctx := by
  unfold ModelContext.set_val
  exact set_var_self ctx p

theorem num_vars_set_val (ctx : ModelContext α) (p : Nat) (m : Matrix α) :
    (ctx.set_val p m).num_vars = ctx.num_vars :=
  num_vars_set_var ctx p _

theorem var_set_val (ctx : ModelContext α) (p q : Nat) (m : Matrix α) :
    (ctx.set_val p m).var q
      = if q = p ∧ p < ctx.num_vars then { ctx.var p with val := m } else ctx.var q :=
  var_set_var ctx p q _

theorem var_set_val_ne (ctx : ModelContext α) (p q : Nat) (m : Matrix α) (h : q ≠ p) :
    (ctx.set_val p m).var q = ctx.var q := by
  rw [var_set_val, if_neg (fun hc => h hc.1)]

theorem var_set_val_self (ctx : ModelContext α) (p : Nat) (m : Matrix α)
    (hp : p < ctx.num_vars) : (ctx.set_val p m).var p = { ctx.var p with val := m } := by
  rw [var_set_val, if_pos ⟨rfl, hp⟩]

/-- On a well-formed context the forward step for a node stores the reference value of the
node. -/
theorem forward_node_eq (fexp flog : α → α) (ctx : ModelContext α) (hwf : ctx.WF) (cur : Nat)
    (hcur : cur < ctx.num_vars) :
    forward_node fexp flog ctx cur = ctx.set_val cur (node_value fexp flog ctx cur) := by
  have hn := hwf.node cur hcur
  have hself := (set_val_self ctx cur).symm
  cases hop : (ctx.var cur).op <;> cases h0 : (ctx.var cur).input0 <;>
    cases h1 : (ctx.var cur).input1 <;>
    simp only [forward_node, node_value, node_spec, hop, h0, h1, Option.map_some',
      Option.map_none'] <;>
    first
    | exact hself
    | skip
  case Relu.some.none =>
    rename_i a
    have hs := hn.unary_shape a (by rw [hop]; rfl) h0
    rw [MatOps.relu_eq_spec _ _ hs.1.symm hs.2.symm hn.val_wf]
  case Relu.some.some =>
    rename_i a b
    have hs := hn.unary_shape a (by rw [hop]; rfl) h0
    rw [MatOps.relu_eq_spec _ _ hs.1.symm hs.2.symm hn.val_wf]
  case Softmax.some.none =>
    rename_i a
    have hs := hn.unary_shape a (by rw [hop]; rfl) h0
    rw [MatOps.softmax_eq_spec fexp _ _ hs.1.symm hs.2.symm hn.val_wf]
  case Softmax.some.some =>
    rename_i a b
    have hs := hn.unary_shape a (by rw [hop]; rfl) h0
    rw [MatOps.softmax_eq_spec fexp _ _ hs.1.symm hs.2.symm hn.val_wf]
  case Add.some.some =>
    rename_i a b
    have hs := hn.ew_shape a b (Or.inl hop) h0 h1
    rw [MatOps.add_eq_spec _ _ _ ⟨hs.1.1.trans hs.2.1.symm, hs.1.2.trans hs.2.2.symm⟩
      hs.1.1.symm hs.1.2.symm hn.val_wf]
  case Sub.some.some =>
    rename_i a b
    have hs := hn.ew_shape a b (Or.inr (Or.inl hop)) h0 h1
    rw [MatOps.sub_eq_spec _ _ _ ⟨hs.1.1.trans hs.2.1.symm, hs.1.2.trans hs.2.2.symm⟩
      hs.1.1.symm hs.1.2.symm hn.val_wf]
  case Matmul.some.some =>
    rename_i a b
    have hs := hn.mm_shape a b hop h0 h1
    have ha : a < cur := hwf.arena.input_lt ctx cur a hcur (Or.inl h0)
    have hb : b < cur := hwf.arena.input_lt ctx cur b hcur (Or.inr h1)
    rw [MatOps.matmul_eq_spec _ _ _ hs.1 hs.2.1 hs.2.2 hn.val_wf
      (hwf.node a (lt_trans ha hcur)).val_wf (hwf.node b (lt_trans hb hcur)).val_wf]
  case CrossEntropy.some.some =>
    rename_i a b
    have hs := hn.ew_shape a b (Or.inr (Or.inr hop)) h0 h1
    rw [MatOps.cross_entropy_eq_spec flog _ _ _
      ⟨hs.1.1.trans hs.2.1.symm, hs.1.2.trans hs.2.2.symm⟩ hs.1.1.symm hs.1.2.symm hn.val_wf]

end StateLemmas

end Autograd

/-! ## The skeleton of a context and well-formedness -/

namespace Autograd

section Skeleton

variable {α : Type} [LinearOrderedField α]

theorem SameSkel.refl (ctx : ModelContext α) : SameSkel ctx ctx := rfl

theorem SameSkel.trans {c1 c2 c3 : ModelContext α} (h12 : SameSkel c1 c2)
    (h23 : SameSkel c2 c3) : SameSkel c1 c3 := by
  unfold SameSkel at *
  rw [h23, h12]

theorem SameSkel.num_vars {c1 c2 : ModelContext α} (h : SameSkel c1 c2) :
    c2.num_vars = c1.num_vars := by
  have := congrArg List.length h
  simpa [ModelContext.num_vars] using this

theorem SameSkel.var {c1 c2 : ModelContext α} (h : SameSkel c1 c2) (q : Nat) :
    (c2.var q).skel = (c1.var q).skel := by
  unfold ModelContext.var
  have h2 : (c2.all_vars.map ModelVar.skel)[q]? = (c1.all_vars.map ModelVar.skel)[q]? := by
    rw [h]
  rw [List.getElem?_map, List.getElem?_map] at h2
  simp only [List.getD_eq_getElem?_getD]
  cases h3 : c2.all_vars[q]? <;> cases h4 : c1.all_vars[q]? <;> rw [h3, h4] at h2 <;>
    simp at h2 ⊢
  exact h2

/-- The components of a skeleton equality. -/
theorem skel_eq (v v2 : ModelVar α) (h : v2.skel = v.skel) :
    v2.index = v.index ∧ v2.flags = v.flags ∧ v2.op = v.op ∧ v2.input0 = v.input0 ∧
      v2.input1 = v.input1 ∧ v2.val.rows = v.val.rows ∧ v2.val.cols = v.val.cols ∧
      v2.val.data.length = v.val.data.length ∧
      v2.grad.map (fun g => (g.rows, g.cols, g.data.length))
        = v.grad.map (fun g => (g.rows, g.cols, g.data.length)) := by
  simp only [ModelVar.skel, Prod.mk.injEq] at h
  obtain ⟨h1, h2, h3, h4, h5, ⟨h6, h7, h8⟩, h9⟩ := h
  exact ⟨h1, h2, h3, h4, h5, h6, h7, h8, h9⟩

theorem SameSkel.set_var (ctx : ModelContext α) (p : Nat) (v : ModelVar α)
    (h : v.skel = (ctx.var p).skel) : SameSkel ctx (ctx.set_var p v) := by
  unfold SameSkel ModelContext.set_var
  simp only
  apply List.ext_getElem?
  intro n
  rw [List.getElem?_map, List.getElem?_map, List.getElem?_set]
  by_cases h1 : p = n
  · subst h1
    by_cases h2 : p < ctx.all_vars.length
    · simp only [h2, if_true, Option.map_some']
      rw [h]
      simp [ModelContext.var, List.getD_eq_getElem?_getD, List.getElem?_eq_getElem h2]
    · simp [h2, List.getElem?_eq_none (Nat.le_of_not_lt h2)]
  · simp [h1]

theorem SameSkel.set_val (ctx : ModelContext α) (p : Nat) (m : Matrix α)
    (hr : m.rows = (ctx.var p).val.rows) (hc : m.cols = (ctx.var p).val.cols)
    (hl : m.data.length = (ctx.var p).val.data.length) : SameSkel ctx (ctx.set_val p m) := by
  apply SameSkel.set_var
  simp [ModelVar.skel, hr, hc, hl]

theorem SameSkel.set_grad (ctx : ModelContext α) (p : Nat) (m : Matrix α)
    (h : ∀ g, (ctx.var p).grad = some g →
      m.rows = g.rows ∧ m.cols = g.cols ∧ m.data.length = g.data.length) :
    SameSkel ctx (ctx.set_grad p m) := by
  unfold ModelContext.set_grad
  cases hg : (ctx.var p).grad with
  | none => exact SameSkel.refl ctx
  | some g =>
    simp only
    apply SameSkel.set_var
    obtain ⟨h1, h2, h3⟩ := h g hg
    simp [ModelVar.skel, hg, h1, h2, h3]

theorem inputs_of_skel (v v2 : ModelVar α) (h : v2.skel = v.skel) (i : Nat) :
    v2.inputs i = v.inputs i := by
  obtain ⟨_, _, _, h4, h5, _⟩ := skel_eq v v2 h
  simp [ModelVar.inputs, h4, h5]

/-- Well-formedness depends on the skeleton only. -/
theorem wf_of_same_skel (ctx ctx2 : ModelContext α) (hs : SameSkel ctx ctx2) (hwf : ctx.WF) :
    ctx2.WF := by
  have hn := hs.num_vars
  constructor
  · constructor
    · intro p hp
      rw [(skel_eq _ _ (hs.var p)).1]
      exact hwf.arena.index_eq p (hn ▸ hp)
    · intro p hp i hi
      rw [(skel_eq _ _ (hs.var p)).2.2.1] at hi
      rw [inputs_of_skel _ _ (hs.var p)]
      exact hwf.arena.inputs_lt p (hn ▸ hp) i hi
    · intro p hp i hi
      rw [(skel_eq _ _ (hs.var p)).2.2.1] at hi
      rw [inputs_of_skel _ _ (hs.var p)]
      exact hwf.arena.inputs_none p (hn ▸ hp) i hi
  · intro p hp
    have ok := hwf.node p (hn ▸ hp)
    obtain ⟨e1, e2, e3, e4, e5, e6, e7, e8, e9⟩ := skel_eq _ _ (hs.var p)
    have hlook : ∀ a, (ctx2.var a).val.rows = (ctx.var a).val.rows ∧
        (ctx2.var a).val.cols = (ctx.var a).val.cols ∧
        (ctx2.var a).flags = (ctx.var a).flags := by
      intro a
      obtain ⟨_, f2, _, _, _, f6, f7, _⟩ := skel_eq _ _ (hs.var a)
      exact ⟨f6, f7, f2⟩
    refine ⟨?_, ?_, ?_, ?_, ?_, ?_, ?_, ?_⟩
    · unfold Matrix.WF
      rw [e8, e6, e7]
      exact ok.val_wf
    · intro hf
      rw [e2] at hf
      obtain ⟨g, hg, g1, g2, g3⟩ := ok.grad_some hf
      rw [hg] at e9
      cases hg2 : (ctx2.var p).grad with
      | none =>
        rw [hg2] at e9
        simp at e9
      | some g0 =>
        rw [hg2] at e9
        simp only [Option.map_some', Option.some.injEq, Prod.mk.injEq] at e9
        refine ⟨g0, rfl, ?_, ?_, ?_⟩
        · rw [e9.1, g1, e6]
        · rw [e9.2.1, g2, e7]
        · unfold Matrix.WF
          rw [e9.2.2, e9.1, e9.2.1]
          exact g3
    · intro hf
      rw [e2] at hf
      have := ok.grad_none hf
      rw [this] at e9
      cases hg2 : (ctx2.var p).grad with
      | none => rfl
      | some g0 =>
        rw [hg2] at e9
        simp at e9
    · intro a h1 h2
      rw [e3] at h1
      rw [e4] at h2
      rw [(hlook a).1, (hlook a).2.1, e6, e7]
      exact ok.unary_shape a h1 h2
    · intro a b h1 h2 h3
      rw [e3] at h1
      rw [e4] at h2
      rw [e5] at h3
      rw [(hlook a).1, (hlook a).2.1, (hlook b).1, (hlook b).2.1, e6, e7]
      exact ok.ew_shape a b h1 h2 h3
    · intro a b h1 h2 h3
      rw [e3] at h1
      rw [e4] at h2
      rw [e5] at h3
      rw [(hlook a).1, (hlook a).2.1, (hlook b).1, (hlook b).2.1, e6, e7]
      exact ok.mm_shape a b h1 h2 h3
    · intro y h1 h2
      rw [e4, e5] at h1
      rw [(hlook y).2.2] at h2
      rw [e2]
      exact ok.req_prop y h1 h2
    · rw [e3]
      exact ok.op_ok

/-- The operand relation depends on the skeleton only. -/
theorem isOperand_of_same_skel (ctx ctx2 : ModelContext α) (hs : SameSkel ctx ctx2)
    (y x : Nat) : ctx2.IsOperand y x ↔ ctx.IsOperand y x := by
  obtain ⟨_, _, _, e4, e5, _⟩ := skel_eq _ _ (hs.var x)
  unfold ModelContext.IsOperand
  rw [e4, e5]

end Skeleton

end Autograd

/-! ## The forward pass -/

namespace Autograd

section ForwardPass

variable {α : Type} [LinearOrderedField α]

theorem node_spec_idem (fexp flog : α → α) (op : ModelVarOp) (a b : Option (Matrix α))
    (own : Matrix α) :
    node_spec fexp flog op a b (node_spec fexp flog op a b own) = node_spec fexp flog op a b own := by
  cases op <;> cases a <;> cases b <;> rfl

/-- The reference value of a node has the shape of the node's value buffer. -/
theorem node_value_shape (fexp flog : α → α) (ctx : ModelContext α) (hwf : ctx.WF) (cur : Nat)
    (hcur : cur < ctx.num_vars) :
    (node_value fexp flog ctx cur).rows = (ctx.var cur).val.rows ∧
      (node_value fexp flog ctx cur).cols = (ctx.var cur).val.cols ∧
      (node_value fexp flog ctx cur).data.length = (ctx.var cur).val.data.length := by
  have hn := hwf.node cur hcur
  have hv : (ctx.var cur).val.data.length = (ctx.var cur).val.rows * (ctx.var cur).val.cols :=
    hn.val_wf
  cases hop : (ctx.var cur).op <;> cases h0 : (ctx.var cur).input0 <;>
    cases h1 : (ctx.var cur).input1 <;>
    simp only [node_value, node_spec, hop, h0, h1, Option.map_some', Option.map_none'] <;>
    first
    | exact ⟨rfl, rfl, rfl⟩
    | exact ⟨trivial, trivial, trivial⟩
    | skip
  case Relu.some.none =>
    rename_i a
    have hs := hn.unary_shape a (by rw [hop]; rfl) h0
    simp [relu_spec, Matrix.size, hs.1, hs.2, hv]
  case Relu.some.some =>
    rename_i a b
    have hs := hn.unary_shape a (by rw [hop]; rfl) h0
    simp [relu_spec, Matrix.size, hs.1, hs.2, hv]
  case Softmax.some.none =>
    rename_i a
    have hs := hn.unary_shape a (by rw [hop]; rfl) h0
    simp [softmax_spec, Matrix.size, hs.1, hs.2, hv]
  case Softmax.some.some =>
    rename_i a b
    have hs := hn.unary_shape a (by rw [hop]; rfl) h0
    simp [softmax_spec, Matrix.size, hs.1, hs.2, hv]
  case Add.some.some =>
    rename_i a b
    have hs := hn.ew_shape a b (Or.inl hop) h0 h1
    simp [add_spec, Matrix.size, hs.1.1, hs.1.2, hv]
  case Sub.some.some =>
    rename_i a b
    have hs := hn.ew_shape a b (Or.inr (Or.inl hop)) h0 h1
    simp [sub_spec, Matrix.size, hs.1.1, hs.1.2, hv]
  case Matmul.some.some =>
    rename_i a b
    have hs := hn.mm_shape a b hop h0 h1
    simp [matmul_spec, ← hs.2.1, ← hs.2.2, hv]
  case CrossEntropy.some.some =>
    rename_i a b
    have hs := hn.ew_shape a b (Or.inr (Or.inr hop)) h0 h1
    simp [cross_entropy_spec, Matrix.size, hs.1.1, hs.1.2, hv]

/-- Writing the value of `x` does not change the reference value of a node that is neither
`x` nor a consumer of `x`. -/
theorem node_value_set_val_other (fexp flog : α → α) (ctx : ModelContext α) (x cur : Nat)
    (m : Matrix α) (hne : cur ≠ x) (hop : ¬ ctx.IsOperand x cur) :
    node_value fexp flog (ctx.set_val x m) cur = node_value fexp flog ctx cur := by
  unfold node_value
  rw [var_set_val_ne ctx x cur m hne]
  have e0 : (ctx.var cur).input0.map (fun a => ((ctx.set_val x m).var a).val)
      = (ctx.var cur).input0.map (fun a => (ctx.var a).val) := by
    cases h0 : (ctx.var cur).input0 with
    | none => rfl
    | some a =>
      have : a ≠ x := fun h => hop (Or.inl (h ▸ h0))
      simp [var_set_val_ne ctx x a m this]
  have e1 : (ctx.var cur).input1.map (fun a => ((ctx.set_val x m).var a).val)
      = (ctx.var cur).input1.map (fun a => (ctx.var a).val) := by
    cases h1 : (ctx.var cur).input1 with
    | none => rfl
    | some a =>
      have : a ≠ x := fun h => hop (Or.inr (h ▸ h1))
      simp [var_set_val_ne ctx x a m this]
  rw [e0, e1]

/-- The reference value of `x` after a value `m` is stored in `x`. -/
theorem node_value_set_val_same (fexp flog : α → α) (ctx : ModelContext α) (x : Nat)
    (m : Matrix α) (hx : x < ctx.num_vars) (hop : ¬ ctx.IsOperand x x) :
    node_value fexp flog (ctx.set_val x m) x
      = node_spec fexp flog (ctx.var x).op
          ((ctx.var x).input0.map (fun a => (ctx.var a).val))
          ((ctx.var x).input1.map (fun b => (ctx.var b).val)) m := by
  have e0 : (ctx.var x).input0.map (fun a => ((ctx.set_val x m).var a).val)
      = (ctx.var x).input0.map (fun a => (ctx.var a).val) := by
    cases h0 : (ctx.var x).input0 with
    | none => rfl
    | some a =>
      have : a ≠ x := fun h => hop (Or.inl (h ▸ h0))
      simp [var_set_val_ne ctx x a _ this]
  have e1 : (ctx.var x).input1.map (fun a => ((ctx.set_val x m).var a).val)
      = (ctx.var x).input1.map (fun a => (ctx.var a).val) := by
    cases h1 : (ctx.var x).input1 with
    | none => rfl
    | some a =>
      have : a ≠ x := fun h => hop (Or.inr (h ▸ h1))
      simp [var_set_val_ne ctx x a _ this]
  unfold node_value
  rw [var_set_val_self ctx x _ hx]
  simp only
  rw [e0, e1]

/-- After the reference value of `x` is stored in `x`, it is still the reference value. -/
theorem node_value_set_val_self (fexp flog : α → α) (ctx : ModelContext α) (x : Nat)
    (hx : x < ctx.num_vars) (hop : ¬ ctx.IsOperand x x) :
    node_value fexp flog (ctx.set_val x (node_value fexp flog ctx x)) x
      = node_value fexp flog ctx x := by
  rw [node_value_set_val_same fexp flog ctx x _ hx hop]
  unfold node_value
  exact node_spec_idem fexp flog _ _ _ _

theorem foldl_fixed {β γ : Type} (f : β → γ → β) (l : List γ) (c : β)
    (h : ∀ p, p ∈ l → f c p = c) : l.foldl f c = c := by
  induction l with
  | nil => rfl
  | cons a t ih =>
    simp only [List.foldl_cons]
    rw [h a (List.mem_cons_self a t)]
    exact ih (fun p hp => h p (List.mem_cons_of_mem a hp))

end ForwardPass

end Autograd

namespace Autograd

section ForwardFold

variable {α : Type} [LinearOrderedField α]

theorem ProgOrder.of_same_skel (ctx ctx2 : ModelContext α) (hs : SameSkel ctx ctx2)
    (l : List Nat) (h : ProgOrder ctx l) : ProgOrder ctx2 l := by
  refine ⟨h.nodup, fun x hx => hs.num_vars ▸ h.lt x hx, ?_⟩
  intro i x hix y hy
  exact h.topo i x hix y ((isOperand_of_same_skel ctx ctx2 hs y x).mp hy)

/-- In a program order, the node at the head of the remaining part is not in the processed
part and is not an operand of a processed node. -/
theorem ProgOrder.next_fresh (ctx : ModelContext α) (done t : List Nat) (x : Nat)
    (h : ProgOrder ctx (done ++ x :: t)) :
    x ∉ done ∧ ∀ p, p ∈ done → ¬ ctx.IsOperand x p := by
  have hxat : (done ++ x :: t)[done.length]? = some x := by
    rw [List.getElem?_append_right (le_refl _)]
    simp
  constructor
  · intro hx
    obtain ⟨i, hi⟩ := List.mem_iff_getElem?.mp hx
    have hil : i < done.length := (List.getElem?_eq_some.mp hi).1
    have hi2 : (done ++ x :: t)[i]? = some x := by
      rw [List.getElem?_append_left hil]
      exact hi
    have := nodup_index_unique _ h.nodup i done.length x hi2 hxat
    omega
  · intro p hp hop
    obtain ⟨i, hi⟩ := List.mem_iff_getElem?.mp hp
    have hil : i < done.length := (List.getElem?_eq_some.mp hi).1
    have hi2 : (done ++ x :: t)[i]? = some p := by
      rw [List.getElem?_append_left hil]
      exact hi
    obtain ⟨j, hj, hjx⟩ := h.topo i p hi2 x hop
    have := nodup_index_unique _ h.nodup j done.length x hjx hxat
    omega

/-- A node of a well-formed arena is not its own operand. -/
theorem not_isOperand_self (ctx : ModelContext α) (hwf : ctx.ArenaWF) (x : Nat)
    (hx : x < ctx.num_vars) : ¬ ctx.IsOperand x x := by
  intro h
  have := hwf.input_lt ctx x x hx h
  omega

/-- The invariant of the loop of `compute_program` along a program order: the processed nodes
hold their reference values, the other nodes are as at the start, and only value buffers
have changed. -/
theorem forward_fold (fexp flog : α → α) (ctx0 : ModelContext α) (hwf0 : ctx0.WF)
    (l : List Nat) (hord : ProgOrder ctx0 l) (rest : List Nat) :
    ∀ (done : List Nat) (ctx : ModelContext α), done ++ rest = l → SameSkel ctx0 ctx →
      (∀ p, p ∈ done → (ctx.var p).val = node_value fexp flog ctx p) →
      (∀ q, q ∉ done → ctx.var q = ctx0.var q) →
      (∀ q, { ctx.var q with val := (ctx0.var q).val } = ctx0.var q) →
      (∀ q, (ctx0.var q).op = .Create → ctx.var q = ctx0.var q) →
      SameSkel ctx0 (rest.foldl (forward_node fexp flog) ctx) ∧
      (∀ p, p ∈ l → ((rest.foldl (forward_node fexp flog) ctx).var p).val
        = node_value fexp flog (rest.foldl (forward_node fexp flog) ctx) p) ∧
      (∀ q, q ∉ l → (rest.foldl (forward_node fexp flog) ctx).var q = ctx0.var q) ∧
      (∀ q, { (rest.foldl (forward_node fexp flog) ctx).var q with val := (ctx0.var q).val }
        = ctx0.var q) ∧
      (∀ q, (ctx0.var q).op = .Create →
        (rest.foldl (forward_node fexp flog) ctx).var q = ctx0.var q) := by
  induction rest with
  | nil =>
    intro done ctx hl hs hcons hf1 hf2 hf3
    simp only [List.append_nil] at hl
    subst hl
    exact ⟨hs, hcons, hf1, hf2, hf3⟩
  | cons x t ih =>
    intro done ctx hl hs hcons hf1 hf2 hf3
    simp only [List.foldl_cons]
    have hwf : ctx.WF := wf_of_same_skel ctx0 ctx hs hwf0
    have hord2 : ProgOrder ctx (done ++ x :: t) := by
      rw [hl]
      exact ProgOrder.of_same_skel ctx0 ctx hs l hord
    have hx : x < ctx.num_vars := hord2.lt x (by simp)
    obtain ⟨hxnot, hxop⟩ := ProgOrder.next_fresh ctx done t x hord2
    have hself := not_isOperand_self ctx hwf.arena x hx
    rw [forward_node_eq fexp flog ctx hwf x hx]
    obtain ⟨s1, s2, s3⟩ := node_value_shape fexp flog ctx hwf x hx
    have hs1 : SameSkel ctx (ctx.set_val x (node_value fexp flog ctx x)) :=
      SameSkel.set_val ctx x _ s1 s2 s3
    apply ih (done ++ [x]) (ctx.set_val x (node_value fexp flog ctx x))
    · rw [List.append_assoc]
      exact hl
    · exact hs.trans hs1
    · intro p hp
      rcases List.mem_append.mp hp with h | h
      · have hne : p ≠ x := fun e => hxnot (e ▸ h)
        rw [var_set_val_ne ctx x p _ hne,
          node_value_set_val_other fexp flog ctx x p _ hne (hxop p h)]
        exact hcons p h
      · rw [List.mem_singleton] at h
        subst h
        rw [node_value_set_val_self fexp flog ctx p hx hself, var_set_val_self ctx p _ hx]
    · intro q hq
      have hq1 : q ∉ done := fun h => hq (List.mem_append_left _ h)
      have hq2 : q ≠ x := fun h => hq (List.mem_append_right _ (List.mem_singleton.mpr h))
      rw [var_set_val_ne ctx x q _ hq2]
      exact hf1 q hq1
    · intro q
      by_cases hq : q = x
      · subst hq
        rw [var_set_val_self ctx q _ hx]
        exact hf2 q
      · rw [var_set_val_ne ctx x q _ hq]
        exact hf2 q
    · intro q hq
      by_cases hqx : q = x
      · subst hqx
        have hop : (ctx.var q).op = .Create := by
          rw [← (skel_eq _ _ (hs.var q)).2.2.1] at hq
          exact hq
        have hval : node_value fexp flog ctx q = (ctx.var q).val := by
          unfold node_value
          rw [hop]
          rfl
        rw [hval, set_val_self]
        exact hf3 q hq
      · rw [var_set_val_ne ctx x q _ hqx]
        exact hf3 q hq

/-- One forward pass over a program order of a well-formed context. -/
theorem compute_program_spec (fexp flog : α → α) (ctx : ModelContext α) (hwf : ctx.WF)
    (prog : ModelProgram) (hord : ProgOrder ctx prog.vars) :
    SameSkel ctx (compute_program fexp flog prog ctx) ∧
    (∀ p, p ∈ prog.vars → ((compute_program fexp flog prog ctx).var p).val
      = node_value fexp flog (compute_program fexp flog prog ctx) p) ∧
    (∀ q, q ∉ prog.vars → (compute_program fexp flog prog ctx).var q = ctx.var q) ∧
    (∀ q, { (compute_program fexp flog prog ctx).var q with val := (ctx.var q).val }
      = ctx.var q) ∧
    (∀ q, (ctx.var q).op = .Create → (compute_program fexp flog prog ctx).var q = ctx.var q) ∧
    compute_program fexp flog prog (compute_program fexp flog prog ctx)
      = compute_program fexp flog prog ctx := by
  obtain ⟨h1, h2, h3, h4, h5⟩ := forward_fold fexp flog ctx hwf prog.vars hord prog.vars []
    ctx rfl (SameSkel.refl ctx) (fun p hp => absurd hp (List.not_mem_nil p)) (fun _ _ => rfl)
    (fun _ => rfl) (fun _ _ => rfl)
  refine ⟨h1, h2, h3, h4, h5, ?_⟩
  have hwf2 : (compute_program fexp flog prog ctx).WF := wf_of_same_skel ctx _ h1 hwf
  unfold compute_program at *
  apply foldl_fixed
  intro p hp
  rw [forward_node_eq fexp flog _ hwf2 p (h1.num_vars ▸ hord.lt p hp), ← h2 p hp]
  exact set_val_self _ p

end ForwardFold

end Autograd

namespace Autograd

section ForwardClaim

variable {α : Type} [LinearOrderedField α]

/-- For a node of a well-formed context that is not a leaf, the reference value does not
depend on the node's own buffer. -/
theorem node_spec_own_irrel (fexp flog : α → α) (ctx : ModelContext α) (hwf : ctx.WF) (p : Nat)
    (hp : p < ctx.num_vars) (hleaf : (ctx.var p).op ≠ .Create) (f : Nat → Matrix α)
    (own1 own2 : Matrix α) :
    node_spec fexp flog (ctx.var p).op ((ctx.var p).input0.map f) ((ctx.var p).input1.map f) own1
      = node_spec fexp flog (ctx.var p).op ((ctx.var p).input0.map f)
          ((ctx.var p).input1.map f) own2 := by
  have hok := (hwf.node p hp).op_ok
  have hin := hwf.arena.inputs_lt p hp
  cases hop : (ctx.var p).op
  case Null => exact absurd hop hok.1
  case Create => exact absurd hop hleaf
  case UnaryStart => exact absurd hop hok.2.1
  case BinaryStart => exact absurd hop hok.2.2
  case Relu =>
    obtain ⟨a, ha, _⟩ := hin 0 (by rw [hop]; decide)
    simp only [ModelVar.inputs, if_true] at ha
    rw [ha]
    rfl
  case Softmax =>
    obtain ⟨a, ha, _⟩ := hin 0 (by rw [hop]; decide)
    simp only [ModelVar.inputs, if_true] at ha
    rw [ha]
    rfl
  all_goals
    obtain ⟨a, ha, _⟩ := hin 0 (by rw [hop]; decide)
    obtain ⟨b, hb, _⟩ := hin 1 (by rw [hop]; decide)
    simp only [ModelVar.inputs, if_true] at ha
    simp [ModelVar.inputs] at hb
    rw [ha, hb]
    rfl

/-- The program of `create_program` is a program order of a well-formed context. -/
theorem create_program_order (ctx : ModelContext α) (hwf : ctx.ArenaWF) (root : Nat)
    (hroot : root < ctx.num_vars) :
    ∃ prog, ctx.create_program root = some prog ∧ ProgOrder ctx prog.vars ∧
      prog.vars.getLast? = some root ∧ (∀ x, x ∈ prog.vars ↔ ctx.Reaches root x) := by
  obtain ⟨prog, h1, h2, h3, h4, h5, h6⟩ := create_program_spec ctx hwf root hroot
  exact ⟨prog, h1, ⟨h2, h3, h4⟩, h6, h5⟩

/-- The forward pass over the program of `create_program`. -/
theorem forward_pass (fexp flog : α → α) (ctx : ModelContext α) (hwf : ctx.WF) (root : Nat)
    (hroot : root < ctx.num_vars) :
    ∃ prog, ctx.create_program root = some prog ∧
      (∀ q, (ctx.var q).op = .Create → (compute_program fexp flog prog ctx).var q = ctx.var q) ∧
      (∀ p, p ∈ prog.vars → (ctx.var p).op ≠ .Create → ∀ own : Matrix α,
        ((compute_program fexp flog prog ctx).var p).val
          = node_spec fexp flog (ctx.var p).op
              ((ctx.var p).input0.map (fun a => ((compute_program fexp flog prog ctx).var a).val))
              ((ctx.var p).input1.map (fun b => ((compute_program fexp flog prog ctx).var b).val))
              own) ∧
      compute_program fexp flog prog (compute_program fexp flog prog ctx)
        = compute_program fexp flog prog ctx ∧
      (ctx.forward_prog = prog →
        ctx.feedforward fexp flog = compute_program fexp flog prog ctx) := by
  obtain ⟨prog, hprog, hord, _, _⟩ := create_program_order ctx hwf.arena root hroot
  obtain ⟨h1, h2, _, _, h5, h6⟩ := compute_program_spec fexp flog ctx hwf prog hord
  refine ⟨prog, hprog, h5, ?_, h6, ?_⟩
  · intro p hp hleaf own
    have hp2 := hord.lt p hp
    rw [h2 p hp]
    unfold node_value
    obtain ⟨_, _, e3, e4, e5, _⟩ := skel_eq _ _ (h1.var p)
    rw [e3, e4, e5]
    exact node_spec_own_irrel fexp flog ctx hwf p hp2 hleaf _ _ _
  · intro h
    unfold ModelContext.feedforward compute_program
    rw [h]

end ForwardClaim

end Autograd

/-! ## The backward step as gradient updates -/

namespace Autograd

section BackwardStep

variable {α : Type} [LinearOrderedField α]

theorem num_vars_set_grad (ctx : ModelContext α) (p : Nat) (m : Matrix α) :
    (ctx.set_grad p m).num_vars = ctx.num_vars := by
  unfold ModelContext.set_grad
  cases (ctx.var p).grad with
  | none => rfl
  | some g => exact num_vars_set_var ctx p _

theorem var_set_grad_ne (ctx : ModelContext α) (p q : Nat) (m : Matrix α) (h : q ≠ p) :
    (ctx.set_grad p m).var q = ctx.var q := by
  unfold ModelContext.set_grad
  cases (ctx.var p).grad with
  | none => rfl
  | some g =>
    simp only
    rw [var_set_var, if_neg (fun hc => h hc.1)]

theorem var_set_grad_self (ctx : ModelContext α) (p : Nat) (m g : Matrix α)
    (hp : p < ctx.num_vars) (hg : (ctx.var p).grad = some g) :
    (ctx.set_grad p m).var p = { ctx.var p with grad := some m } := by
  unfold ModelContext.set_grad
  rw [hg]
  simp only
  rw [var_set_var, if_pos ⟨rfl, hp⟩]

/-- Only the gradient buffer of `p` can change in `set_grad p`. -/
theorem var_set_grad_but_grad (ctx : ModelContext α) (p q : Nat) (m : Matrix α)
    (X : Option (Matrix α)) :
    ({ (ctx.set_grad p m).var q with grad := X } : ModelVar α) = { ctx.var q with grad := X } := by
  unfold ModelContext.set_grad
  cases (ctx.var p).grad with
  | none => rfl
  | some g =>
    simp only
    rw [var_set_var]
    split_ifs with h
    · rw [h.1]
    · rfl

theorem val_set_grad (ctx : ModelContext α) (p q : Nat) (m : Matrix α) :
    ((ctx.set_grad p m).var q).val = (ctx.var q).val := by
  have := congrArg ModelVar.val (var_set_grad_but_grad ctx p q m none)
  exact this

theorem flags_set_grad (ctx : ModelContext α) (p q : Nat) (m : Matrix α) :
    ((ctx.set_grad p m).var q).flags = (ctx.var q).flags := by
  have := congrArg ModelVar.flags (var_set_grad_but_grad ctx p q m none)
  exact this

theorem grad_set_grad_ne (ctx : ModelContext α) (p q : Nat) (m : Matrix α) (h : q ≠ p) :
    (ctx.set_grad p m).grad q = ctx.grad q := by
  unfold ModelContext.grad
  rw [var_set_grad_ne ctx p q m h]

theorem grad_set_grad_self (ctx : ModelContext α) (p : Nat) (m g : Matrix α)
    (hp : p < ctx.num_vars) (hg : (ctx.var p).grad = some g) :
    (ctx.set_grad p m).grad p = m := by
  unfold ModelContext.grad
  rw [var_set_grad_self ctx p m g hp hg]
  rfl

theorem apply_updates_nil (ctx : ModelContext α) : apply_updates [] ctx = ctx := rfl

theorem apply_updates_cons (u : Nat × (Matrix α → Matrix α))
    (us : List (Nat × (Matrix α → Matrix α))) (ctx : ModelContext α) :
    apply_updates (u :: us) ctx = apply_updates us (ctx.set_grad u.1 (u.2 (ctx.grad u.1))) := rfl

theorem apply_updates_append (us vs : List (Nat × (Matrix α → Matrix α)))
    (ctx : ModelContext α) :
    apply_updates (us ++ vs) ctx = apply_updates vs (apply_updates us ctx) := by
  unfold apply_updates
  rw [List.foldl_append]

end BackwardStep

end Autograd

namespace Autograd

section BackwardStep2

variable {α : Type} [LinearOrderedField α]

/-- On a well-formed context the backward step for `cur` runs the gradient updates of
`node_updates`. -/
theorem backward_node_eq (flog : α → α) (ctx : ModelContext α) (hwf : ctx.WF) (cur : Nat)
    (hcur : cur < ctx.num_vars) :
    backward_node flog ctx cur = apply_updates (node_updates flog ctx cur) ctx := by
  have hn := hwf.node cur hcur
  unfold backward_node node_updates
  by_cases hreq : has_flag (ctx.var cur).flags MV_FLAG_REQUIRES_GRAD = false
  · rw [if_pos hreq, if_pos hreq]
    rfl
  rw [if_neg hreq, if_neg hreq]
  simp only
  by_cases hc1 : mv_num_inputs (ctx.var cur).op = 1 ∧
      ctx.requires_grad (ctx.var cur).input0 = false
  · rw [if_pos hc1, if_pos hc1]
    rfl
  rw [if_neg hc1, if_neg hc1]
  by_cases hc2 : mv_num_inputs (ctx.var cur).op = 2 ∧
      ctx.requires_grad (ctx.var cur).input0 = false ∧
      ctx.requires_grad (ctx.var cur).input1 = false
  · rw [if_pos hc2, if_pos hc2]
    rfl
  rw [if_neg hc2, if_neg hc2]
  cases hop : (ctx.var cur).op <;> cases h0 : (ctx.var cur).input0 <;>
    cases h1 : (ctx.var cur).input1 <;>
    simp only [hop, h0, h1] <;>
    first
    | rfl
    | skip
  case neg.Add.some.some =>
    rename_i a b
    have hane : cur ≠ a := ne_of_gt (hwf.arena.input_lt ctx cur a hcur (Or.inl h0))
    by_cases ha : ctx.requires_grad (some a) = true <;>
      by_cases hb : ctx.requires_grad (some b) = true <;>
      simp only [ha, hb, if_true, if_false, Bool.false_eq_true, apply_updates,
        List.append_nil, List.nil_append, List.singleton_append, List.foldl_cons,
        List.foldl_nil, grad_set_grad_ne ctx a cur _ hane]
  case neg.Sub.some.some =>
    rename_i a b
    have hane : cur ≠ a := ne_of_gt (hwf.arena.input_lt ctx cur a hcur (Or.inl h0))
    by_cases ha : ctx.requires_grad (some a) = true <;>
      by_cases hb : ctx.requires_grad (some b) = true <;>
      simp only [ha, hb, if_true, if_false, Bool.false_eq_true, apply_updates,
        List.append_nil, List.nil_append, List.singleton_append, List.foldl_cons,
        List.foldl_nil, grad_set_grad_ne ctx a cur _ hane]
  case neg.Matmul.some.some =>
    rename_i a b
    have hane : cur ≠ a := ne_of_gt (hwf.arena.input_lt ctx cur a hcur (Or.inl h0))
    by_cases ha : ctx.requires_grad (some a) = true <;>
      by_cases hb : ctx.requires_grad (some b) = true <;>
      simp only [ha, hb, if_true, if_false, Bool.false_eq_true, apply_updates,
        List.append_nil, List.nil_append, List.singleton_append, List.foldl_cons,
        List.foldl_nil, grad_set_grad_ne ctx a cur _ hane, val_set_grad]
  case neg.CrossEntropy.some.some =>
    rename_i a b
    have hane : cur ≠ a := ne_of_gt (hwf.arena.input_lt ctx cur a hcur (Or.inl h0))
    have ha_lt : a < ctx.num_vars :=
      lt_trans (hwf.arena.input_lt ctx cur a hcur (Or.inl h0)) hcur
    have hs := hn.ew_shape a b (Or.inr (Or.inr hop)) h0 h1
    rw [if_neg (by simp [hs.1.1, hs.1.2, hs.2.1, hs.2.2])]
    by_cases ha : ctx.requires_grad (some a) = true
    · have hp1 : (MatOps.cross_entropy_add_grad_p flog (ctx.grad a) (ctx.var a).val
          (ctx.var b).val (ctx.grad cur)).1 = true := by
        obtain ⟨g, hg, g1, g2, _⟩ := (hwf.node a ha_lt).grad_some ha
        unfold MatOps.cross_entropy_add_grad_p ModelContext.grad
        rw [hg]
        simp [g1, g2]
      by_cases hb : ctx.requires_grad (some b) = true <;>
        simp only [ha, hb, hp1, if_true, if_false, Bool.false_eq_true, Bool.true_eq_false, apply_updates,
          List.append_nil, List.nil_append, List.singleton_append, List.foldl_cons,
          List.foldl_nil, grad_set_grad_ne ctx a cur _ hane, val_set_grad]
    · by_cases hb : ctx.requires_grad (some b) = true <;>
        simp only [ha, hb, if_true, if_false, Bool.false_eq_true, Bool.true_eq_false, apply_updates,
          List.append_nil, List.nil_append, List.singleton_append, List.foldl_cons,
          List.foldl_nil, grad_set_grad_ne ctx a cur _ hane, val_set_grad]

end BackwardStep2

end Autograd

/-! ## The gradient kernels add into their destination -/

namespace Autograd

section Additive

variable {α : Type} [LinearOrderedField α]

theorem adds_zero (o : Matrix α) : Adds (fun _ => 0) o o :=
  ⟨rfl, rfl, rfl, fun _ _ => (add_zero _).symm⟩

theorem adds_comp {f g : Nat → α} {o o1 o2 : Matrix α} (h1 : Adds f o o1) (h2 : Adds g o1 o2) :
    Adds (fun p => f p + g p) o o2 := by
  obtain ⟨a1, a2, a3, a4⟩ := h1
  obtain ⟨b1, b2, b3, b4⟩ := h2
  refine ⟨b1.trans a1, b2.trans a2, b3.trans a3, ?_⟩
  intro p hp
  rw [b4 p (by rw [a3]; exact hp), a4 p hp, add_assoc]

/-- Two matrices related by `Adds` with the zero amount are equal. -/
theorem adds_zero_eq {o o2 : Matrix α} (h : Adds (fun _ => 0) o o2) : o2 = o := by
  obtain ⟨h1, h2, h3, h4⟩ := h
  exact Matrix.ext_get o2 o h1 h2 h3 (fun i hi => by rw [h4 i (h3 ▸ hi), add_zero])

theorem shapeAdditive_id : ShapeAdditive (fun g : Matrix α => g) :=
  fun o1 o2 _ _ _ => ⟨fun _ => 0, adds_zero o1, adds_zero o2⟩

theorem shapeAdditive_comp (K1 K2 : Matrix α → Matrix α) (h1 : ShapeAdditive K1)
    (h2 : ShapeAdditive K2) : ShapeAdditive (fun g => K2 (K1 g)) := by
  intro o1 o2 hr hc hl
  obtain ⟨d1, a1, a2⟩ := h1 o1 o2 hr hc hl
  obtain ⟨d2, b1, b2⟩ := h2 (K1 o1) (K1 o2) (a1.1.trans (hr.trans a2.1.symm))
    (a1.2.1.trans (hc.trans a2.2.1.symm)) (a1.2.2.1.trans (hl.trans a2.2.2.1.symm))
  exact ⟨fun p => d1 p + d2 p, adds_comp a1 b1, adds_comp a2 b2⟩

/-- A loop `for i < n: o[i] += f i`. -/
theorem adds_loop (f : Nat → α) (n : Nat) (out : Matrix α) :
    Adds (fun p => ∑ i in Finset.range n, if p = i then f i else 0) out
      ((List.range n).foldl (fun o i => o.set i (o.get i + f i)) out) :=
  adds_fold_range (fun o i => o.set i (o.get i + f i)) (fun i p => if p = i then f i else 0) n
    (fun i _ o => adds_point o i (f i)) out

/-- A loop `for i < n: o[i] = g[i] + f i` run in place on `g`. -/
theorem adds_inplace_loop (f : Nat → α) (n : Nat) (out : Matrix α) :
    Adds (fun p => if p < n then f p else 0) out
      ((List.range n).foldl (fun o i => o.set i (out.get i + f i)) out) := by
  obtain ⟨h1, h2, h3, h4⟩ := writes_fold (fun i => out.get i + f i) n out
  refine ⟨h1, h2, h3, ?_⟩
  intro p hp
  by_cases hpn : p < n
  · rw [(h4 p hp).1 hpn]
    beta_reduce
    rw [if_pos hpn]
  · rw [(h4 p hp).2 hpn]
    beta_reduce
    rw [if_neg hpn, add_zero]

namespace MatOps

theorem relu_add_grad_additive (inp grad : Matrix α) :
    ShapeAdditive (fun g => (relu_add_grad g inp grad).2) := by
  intro o1 o2 hr hc hl
  unfold relu_add_grad
  simp only [Matrix.size, ← hr, ← hc]
  split_ifs
  · exact ⟨fun _ => 0, adds_zero o1, adds_zero o2⟩
  · exact ⟨fun _ => 0, adds_zero o1, adds_zero o2⟩
  · exact ⟨_, adds_loop _ _ o1, adds_loop _ _ o2⟩

theorem cross_entropy_add_grad_p_additive (flog : α → α) (p q grad : Matrix α) :
    ShapeAdditive (fun g => (cross_entropy_add_grad_p flog g p q grad).2) := by
  intro o1 o2 hr hc hl
  unfold cross_entropy_add_grad_p
  simp only [← hr, ← hc]
  split_ifs
  · exact ⟨fun _ => 0, adds_zero o1, adds_zero o2⟩
  · exact ⟨_, adds_loop _ _ o1, adds_loop _ _ o2⟩

theorem cross_entropy_add_grad_q_additive (p q grad : Matrix α) :
    ShapeAdditive (fun g => (cross_entropy_add_grad_q g p q grad).2) := by
  intro o1 o2 hr hc hl
  unfold cross_entropy_add_grad_q
  simp only [← hr, ← hc]
  split_ifs
  · exact ⟨fun _ => 0, adds_zero o1, adds_zero o2⟩
  · exact ⟨_, adds_loop _ _ o1, adds_loop _ _ o2⟩

theorem add_inplace_additive (grad : Matrix α) :
    ShapeAdditive (fun g => (add g g grad).2) := by
  intro o1 o2 hr hc hl
  unfold add
  simp only [Matrix.size, ← hr, ← hc]
  split_ifs
  · exact ⟨fun _ => 0, adds_zero o1, adds_zero o2⟩
  · exact ⟨fun _ => 0, adds_zero o1, adds_zero o2⟩
  · exact ⟨_, adds_inplace_loop (fun i => grad.get i) _ o1,
      adds_inplace_loop (fun i => grad.get i) _ o2⟩

theorem sub_inplace_additive (grad : Matrix α) :
    ShapeAdditive (fun g => (sub g g grad).2) := by
  intro o1 o2 hr hc hl
  unfold sub
  simp only [Matrix.size, ← hr, ← hc, sub_eq_add_neg]
  split_ifs
  · exact ⟨fun _ => 0, adds_zero o1, adds_zero o2⟩
  · exact ⟨fun _ => 0, adds_zero o1, adds_zero o2⟩
  · exact ⟨_, adds_inplace_loop (fun i => -grad.get i) _ o1,
      adds_inplace_loop (fun i => -grad.get i) _ o2⟩

theorem mul_additive (a b : Matrix α) (ta tb : Bool) :
    ShapeAdditive (fun g => (mul g a b false ta tb).2) := by
  intro o1 o2 hr hc hl
  have hv : (mul o1 a b false ta tb).1 = (mul o2 a b false ta tb).1 := by
    cases h1 : (mul o1 a b false ta tb).1 <;> cases h2 : (mul o2 a b false ta tb).1
    · rfl
    · rw [mul_ok_iff, ← hr, ← hc, ← mul_ok_iff o1 a b false ta tb] at h2
      rw [h2] at h1
      exact h1.symm
    · rw [mul_ok_iff, hr, hc, ← mul_ok_iff o2 a b false ta tb] at h1
      rw [h1] at h2
      exact h2
    · rfl
  cases h1 : (mul o1 a b false ta tb).1
  · have h2 := hv ▸ h1
    simp only
    rw [mul_fail o1 a b false ta tb h1, mul_fail o2 a b false ta tb h2]
    exact ⟨fun _ => 0, adds_zero o1, adds_zero o2⟩
  · have h2 := hv ▸ h1
    simp only
    rw [mul_snd o1 a b false ta tb h1, mul_snd o2 a b false ta tb h2]
    cases ta <;> cases tb <;> simp only [Bool.false_eq_true, if_false]
    · have e1 := mul_nn_adds o1 a b
      have e2 := mul_nn_adds o2 a b
      rw [← hr, ← hc] at e2
      exact ⟨_, e1, e2⟩
    · have e1 := mul_nt_adds o1 a b
      have e2 := mul_nt_adds o2 a b
      rw [← hr, ← hc] at e2
      exact ⟨_, e1, e2⟩
    · have e1 := mul_tn_adds o1 a b
      have e2 := mul_tn_adds o2 a b
      rw [← hr, ← hc] at e2
      exact ⟨_, e1, e2⟩
    · have e1 := mul_tt_adds o1 a b
      have e2 := mul_tt_adds o2 a b
      rw [← hr, ← hc] at e2
      exact ⟨_, e1, e2⟩

theorem softmax_add_grad_additive (s grad : Matrix α) :
    ShapeAdditive (fun g => (softmax_add_grad g s grad).2) := by
  by_cases h : s.rows ≠ 1 ∧ s.cols ≠ 1
  · intro o1 o2 _ _ _
    unfold softmax_add_grad
    simp only [if_pos h]
    exact ⟨fun _ => 0, adds_zero o1, adds_zero o2⟩
  · have e : (fun g => (softmax_add_grad g s grad).2)
        = (fun g => (mul g (softmax_jacobian s) grad false false false).2) := by
      funext g
      unfold softmax_add_grad
      rw [if_neg h]
    rw [e]
    exact mul_additive _ _ _ _

end MatOps

end Additive

end Autograd

namespace Autograd

section UpdatesLemmas

variable {α : Type} [LinearOrderedField α]

theorem mem_ite_singleton {β : Type} (c : Bool) (x u : β) (h : u ∈ (if c = true then [x] else [])) :
    c = true ∧ u = x := by
  cases c
  · simp at h
  · simp at h
    exact ⟨rfl, h⟩

/-- Every gradient update of a node targets one of its operands that requires a gradient,
with a kernel that adds into its destination. -/
theorem node_updates_mem (flog : α → α) (ctx : ModelContext α) (cur : Nat)
    (u : Nat × (Matrix α → Matrix α)) (hu : u ∈ node_updates flog ctx cur) :
    ctx.IsOperand u.1 cur ∧ has_flag (ctx.var u.1).flags MV_FLAG_REQUIRES_GRAD = true ∧
      ShapeAdditive u.2 := by
  unfold node_updates at hu
  by_cases hreq : has_flag (ctx.var cur).flags MV_FLAG_REQUIRES_GRAD = false
  · rw [if_pos hreq] at hu
    exact absurd hu (List.not_mem_nil u)
  rw [if_neg hreq] at hu
  simp only at hu
  by_cases hc1 : mv_num_inputs (ctx.var cur).op = 1 ∧
      ctx.requires_grad (ctx.var cur).input0 = false
  · rw [if_pos hc1] at hu
    exact absurd hu (List.not_mem_nil u)
  rw [if_neg hc1] at hu
  by_cases hc2 : mv_num_inputs (ctx.var cur).op = 2 ∧
      ctx.requires_grad (ctx.var cur).input0 = false ∧
      ctx.requires_grad (ctx.var cur).input1 = false
  · rw [if_pos hc2] at hu
    exact absurd hu (List.not_mem_nil u)
  rw [if_neg hc2] at hu
  cases hop : (ctx.var cur).op <;> cases h0 : (ctx.var cur).input0 <;>
    cases h1 : (ctx.var cur).input1 <;>
    simp only [hop, h0, h1] at hu hc1 <;>
    first
    | exact absurd hu (List.not_mem_nil u)
    | skip
  case neg.Relu.some.none =>
    rename_i a
    rw [List.mem_singleton] at hu
    subst hu
    refine ⟨Or.inl h0, ?_, MatOps.relu_add_grad_additive _ _⟩
    have : ctx.requires_grad (some a) ≠ false := fun h => hc1 ⟨rfl, h⟩
    simpa [ModelContext.requires_grad] using this
  case neg.Relu.some.some =>
    rename_i a b
    rw [List.mem_singleton] at hu
    subst hu
    refine ⟨Or.inl h0, ?_, MatOps.relu_add_grad_additive _ _⟩
    have : ctx.requires_grad (some a) ≠ false := fun h => hc1 ⟨rfl, h⟩
    simpa [ModelContext.requires_grad] using this
  case neg.Softmax.some.none =>
    rename_i a
    rw [List.mem_singleton] at hu
    subst hu
    refine ⟨Or.inl h0, ?_, MatOps.softmax_add_grad_additive _ _⟩
    have : ctx.requires_grad (some a) ≠ false := fun h => hc1 ⟨rfl, h⟩
    simpa [ModelContext.requires_grad] using this
  case neg.Softmax.some.some =>
    rename_i a b
    rw [List.mem_singleton] at hu
    subst hu
    refine ⟨Or.inl h0, ?_, MatOps.softmax_add_grad_additive _ _⟩
    have : ctx.requires_grad (some a) ≠ false := fun h => hc1 ⟨rfl, h⟩
    simpa [ModelContext.requires_grad] using this
  case neg.Add.some.some =>
    rename_i a b
    rcases List.mem_append.mp hu with h | h
    · obtain ⟨hr, he⟩ := mem_ite_singleton _ _ _ h
      subst he
      exact ⟨Or.inl h0, hr, MatOps.add_inplace_additive _⟩
    · obtain ⟨hr, he⟩ := mem_ite_singleton _ _ _ h
      subst he
      exact ⟨Or.inr h1, hr, MatOps.add_inplace_additive _⟩
  case neg.Sub.some.some =>
    rename_i a b
    rcases List.mem_append.mp hu with h | h
    · obtain ⟨hr, he⟩ := mem_ite_singleton _ _ _ h
      subst he
      exact ⟨Or.inl h0, hr, MatOps.add_inplace_additive _⟩
    · obtain ⟨hr, he⟩ := mem_ite_singleton _ _ _ h
      subst he
      exact ⟨Or.inr h1, hr, MatOps.sub_inplace_additive _⟩
  case neg.Matmul.some.some =>
    rename_i a b
    rcases List.mem_append.mp hu with h | h
    · obtain ⟨hr, he⟩ := mem_ite_singleton _ _ _ h
      subst he
      exact ⟨Or.inl h0, hr, MatOps.mul_additive _ _ _ _⟩
    · obtain ⟨hr, he⟩ := mem_ite_singleton _ _ _ h
      subst he
      exact ⟨Or.inr h1, hr, MatOps.mul_additive _ _ _ _⟩
  case neg.CrossEntropy.some.some =>
    rename_i a b
    rcases List.mem_append.mp hu with h | h
    · obtain ⟨hr, he⟩ := mem_ite_singleton _ _ _ h
      subst he
      exact ⟨Or.inl h0, hr, MatOps.cross_entropy_add_grad_p_additive flog _ _ _⟩
    · obtain ⟨hr, he⟩ := mem_ite_singleton _ _ _ h
      subst he
      exact ⟨Or.inr h1, hr, MatOps.cross_entropy_add_grad_q_additive _ _ _⟩

/-- The gradient updates of a node depend only on the node itself (with its gradient) and on
the values and flags of its operands. -/
theorem node_updates_congr (flog : α → α) (ctx ctx2 : ModelContext α) (cur : Nat)
    (hself : ctx2.var cur = ctx.var cur)
    (hops : ∀ y, ctx.IsOperand y cur →
      (ctx2.var y).val = (ctx.var y).val ∧ (ctx2.var y).flags = (ctx.var y).flags) :
    node_updates flog ctx2 cur = node_updates flog ctx cur := by
  have hg : ctx2.grad cur = ctx.grad cur := by
    unfold ModelContext.grad
    rw [hself]
  have hra : ctx2.requires_grad (ctx.var cur).input0 = ctx.requires_grad (ctx.var cur).input0 := by
    cases h0 : (ctx.var cur).input0 with
    | none => rfl
    | some a =>
      simp only [ModelContext.requires_grad]
      rw [(hops a (Or.inl h0)).2]
  have hrb : ctx2.requires_grad (ctx.var cur).input1 = ctx.requires_grad (ctx.var cur).input1 := by
    cases h1 : (ctx.var cur).input1 with
    | none => rfl
    | some b =>
      simp only [ModelContext.requires_grad]
      rw [(hops b (Or.inr h1)).2]
  unfold node_updates
  rw [hself, hg, hra, hrb]
  cases hop : (ctx.var cur).op <;> cases h0 : (ctx.var cur).input0 <;>
    cases h1 : (ctx.var cur).input1 <;>
    simp only [hop, h0, h1] <;>
    first
    | rfl
    | skip
  case Relu.some.none =>
    rename_i a
    rw [(hops a (Or.inl h0)).1]
  case Relu.some.some =>
    rename_i a b
    rw [(hops a (Or.inl h0)).1]
  case Matmul.some.some =>
    rename_i a b
    rw [(hops a (Or.inl h0)).1, (hops b (Or.inr h1)).1]
  case CrossEntropy.some.some =>
    rename_i a b
    rw [(hops a (Or.inl h0)).1, (hops b (Or.inr h1)).1]

end UpdatesLemmas

end Autograd

/-! ## Running gradient updates -/

namespace Autograd

section ApplyUpdates

variable {α : Type} [LinearOrderedField α]

theorem shapeAdditive_shape (K : Matrix α → Matrix α) (h : ShapeAdditive K) (g : Matrix α) :
    (K g).rows = g.rows ∧ (K g).cols = g.cols ∧ (K g).data.length = g.data.length := by
  obtain ⟨_, h1, _⟩ := h g g rfl rfl rfl
  exact ⟨h1.1, h1.2.1, h1.2.2.1⟩

theorem grad_of_some (ctx : ModelContext α) (p : Nat) (g : Matrix α)
    (h : (ctx.var p).grad = some g) : ctx.grad p = g := by
  unfold ModelContext.grad
  rw [h]
  rfl

/-- One gradient update with a shape-preserving kernel keeps the skeleton. -/
theorem SameSkel.update (ctx : ModelContext α) (t : Nat) (K : Matrix α → Matrix α)
    (hK : ShapeAdditive K) : SameSkel ctx (ctx.set_grad t (K (ctx.grad t))) := by
  apply SameSkel.set_grad
  intro g hg
  rw [grad_of_some ctx t g hg]
  exact shapeAdditive_shape K hK g

theorem apply_updates_skel (us : List (Nat × (Matrix α → Matrix α))) (ctx : ModelContext α)
    (h : ∀ u, u ∈ us → ShapeAdditive u.2) : SameSkel ctx (apply_updates us ctx) := by
  induction us generalizing ctx with
  | nil => exact SameSkel.refl ctx
  | cons u t ih =>
    rw [apply_updates_cons]
    exact (SameSkel.update ctx u.1 u.2 (h u (List.mem_cons_self u t))).trans
      (ih _ (fun v hv => h v (List.mem_cons_of_mem u hv)))

theorem apply_updates_var_ne (us : List (Nat × (Matrix α → Matrix α))) (ctx : ModelContext α)
    (q : Nat) (h : ∀ u, u ∈ us → u.1 ≠ q) : (apply_updates us ctx).var q = ctx.var q := by
  induction us generalizing ctx with
  | nil => rfl
  | cons u t ih =>
    rw [apply_updates_cons, ih _ (fun v hv => h v (List.mem_cons_of_mem u hv))]
    exact var_set_grad_ne ctx u.1 q _ (fun e => h u (List.mem_cons_self u t) e.symm)

theorem apply_updates_but_grad (us : List (Nat × (Matrix α → Matrix α)))
    (ctx : ModelContext α) (q : Nat) (X : Option (Matrix α)) :
    ({ (apply_updates us ctx).var q with grad := X } : ModelVar α)
      = { ctx.var q with grad := X } := by
  induction us generalizing ctx with
  | nil => rfl
  | cons u t ih =>
    rw [apply_updates_cons, ih]
    exact var_set_grad_but_grad ctx u.1 q _ X

theorem grad_after_cons (u : Nat × (Matrix α → Matrix α))
    (us : List (Nat × (Matrix α → Matrix α))) (x : Nat) (g : Matrix α) :
    grad_after (u :: us) x g = grad_after us x (if u.1 = x then u.2 g else g) := rfl

theorem grad_after_append (us vs : List (Nat × (Matrix α → Matrix α))) (x : Nat)
    (g : Matrix α) : grad_after (us ++ vs) x g = grad_after vs x (grad_after us x g) := by
  unfold grad_after
  rw [List.foldl_append]

/-- The gradient buffer of `x` after a list of updates. -/
theorem apply_updates_grad (us : List (Nat × (Matrix α → Matrix α))) (ctx : ModelContext α)
    (x : Nat) (hx : x < ctx.num_vars) (g : Matrix α) (hg : (ctx.var x).grad = some g) :
    (apply_updates us ctx).grad x = grad_after us x g ∧
      (apply_updates us ctx).num_vars = ctx.num_vars := by
  induction us generalizing ctx g with
  | nil => exact ⟨grad_of_some ctx x g hg, rfl⟩
  | cons u t ih =>
    rw [apply_updates_cons, grad_after_cons]
    by_cases hux : u.1 = x
    · rw [if_pos hux]
      have hgu : ctx.grad u.1 = g := by
        rw [hux]
        exact grad_of_some ctx x g hg
      rw [hgu]
      have hv := var_set_grad_self ctx x (u.2 g) g hx hg
      have h2 := ih (ctx.set_grad u.1 (u.2 g))
        (by rw [num_vars_set_grad]; exact hx) (u.2 g)
        (by rw [hux, hv])
      exact ⟨h2.1, h2.2.trans (num_vars_set_grad _ _ _)⟩
    · rw [if_neg hux]
      have h2 := ih (ctx.set_grad u.1 (u.2 (ctx.grad u.1)))
        (by rw [num_vars_set_grad]; exact hx) g
        (by rw [var_set_grad_ne ctx u.1 x _ (fun e => hux e.symm)]; exact hg)
      exact ⟨h2.1, h2.2.trans (num_vars_set_grad _ _ _)⟩

theorem grad_after_additive (us : List (Nat × (Matrix α → Matrix α))) (x : Nat)
    (h : ∀ u, u ∈ us → ShapeAdditive u.2) : ShapeAdditive (grad_after us x) := by
  induction us with
  | nil => exact shapeAdditive_id
  | cons u t ih =>
    have ht := ih (fun v hv => h v (List.mem_cons_of_mem u hv))
    have hu := h u (List.mem_cons_self u t)
    have e : grad_after (u :: t) x
        = fun g => grad_after t x ((fun m => if u.1 = x then u.2 m else m) g) := by
      funext g
      rfl
    rw [e]
    apply shapeAdditive_comp _ _ _ ht
    by_cases hux : u.1 = x
    · simp only [hux, if_true]
      exact hu
    · simp only [hux, if_false]
      exact shapeAdditive_id

end ApplyUpdates

end Autograd

/-! ## The backward loop -/

namespace Autograd

section BackwardLoop

variable {α : Type} [LinearOrderedField α]

theorem backward_node_skel (flog : α → α) (ctx : ModelContext α) (hwf : ctx.WF) (c : Nat)
    (hc : c < ctx.num_vars) : SameSkel ctx (backward_node flog ctx c) := by
  rw [backward_node_eq flog ctx hwf c hc]
  exact apply_updates_skel _ ctx (fun u hu => (node_updates_mem flog ctx c u hu).2.2)

theorem backward_node_var_ne (flog : α → α) (ctx : ModelContext α) (hwf : ctx.WF) (c q : Nat)
    (hc : c < ctx.num_vars) (hq : ¬ ctx.IsOperand q c) :
    (backward_node flog ctx c).var q = ctx.var q := by
  rw [backward_node_eq flog ctx hwf c hc]
  apply apply_updates_var_ne
  intro u hu e
  exact hq (e ▸ (node_updates_mem flog ctx c u hu).1)

theorem backward_node_but_grad (flog : α → α) (ctx : ModelContext α) (hwf : ctx.WF) (c q : Nat)
    (hc : c < ctx.num_vars) (X : Option (Matrix α)) :
    ({ (backward_node flog ctx c).var q with grad := X } : ModelVar α)
      = { ctx.var q with grad := X } := by
  rw [backward_node_eq flog ctx hwf c hc]
  exact apply_updates_but_grad _ ctx q X

theorem backward_node_grad (flog : α → α) (ctx : ModelContext α) (hwf : ctx.WF) (c x : Nat)
    (hc : c < ctx.num_vars) (hx : x < ctx.num_vars) (g : Matrix α)
    (hg : (ctx.var x).grad = some g) :
    (backward_node flog ctx c).grad x = grad_after (node_updates flog ctx c) x g := by
  rw [backward_node_eq flog ctx hwf c hc]
  exact (apply_updates_grad _ ctx x hx g hg).1

/-- The backward loop over a list of nodes keeps the skeleton, changes gradient buffers
only, and leaves alone every node that is not an operand of a listed node. -/
theorem backward_fold_frame (flog : α → α) (L : List Nat) (ctx : ModelContext α) (hwf : ctx.WF)
    (hL : ∀ c, c ∈ L → c < ctx.num_vars) :
    SameSkel ctx (L.foldl (backward_node flog) ctx) ∧
    (∀ q (X : Option (Matrix α)),
      ({ (L.foldl (backward_node flog) ctx).var q with grad := X } : ModelVar α)
        = { ctx.var q with grad := X }) ∧
    (∀ q, (∀ c, c ∈ L → ¬ ctx.IsOperand q c) →
      (L.foldl (backward_node flog) ctx).var q = ctx.var q) := by
  induction L generalizing ctx with
  | nil => exact ⟨SameSkel.refl ctx, fun _ _ => rfl, fun _ _ => rfl⟩
  | cons c t ih =>
    simp only [List.foldl_cons]
    have hc := hL c (List.mem_cons_self c t)
    have hs := backward_node_skel flog ctx hwf c hc
    have hwf2 := wf_of_same_skel ctx _ hs hwf
    obtain ⟨i1, i2, i3⟩ := ih (backward_node flog ctx c) hwf2
      (fun d hd => hs.num_vars ▸ hL d (List.mem_cons_of_mem c hd))
    refine ⟨hs.trans i1, ?_, ?_⟩
    · intro q X
      rw [i2 q X]
      exact backward_node_but_grad flog ctx hwf c q hc X
    · intro q hq
      rw [i3 q (fun d hd hop => hq d (List.mem_cons_of_mem c hd)
        ((isOperand_of_same_skel ctx _ hs q d).mp hop))]
      exact backward_node_var_ne flog ctx hwf c q hc (hq c (List.mem_cons_self c t))

end BackwardLoop

end Autograd

/-! ## States that differ in gradient content only -/

namespace Autograd

section Offsets

variable {α : Type} [LinearOrderedField α]

theorem Matrix.clear_get (m : Matrix α) (i : Nat) : m.clear.get i = 0 := by
  simp only [Matrix.clear, Matrix.get, List.getD_eq_getElem?_getD, List.getElem?_map]
  cases m.data[i]? <;> rfl

theorem Matrix.fill_get (m : Matrix α) (x : α) (i : Nat) (h : i < m.data.length) :
    (m.fill x).get i = x := by
  simp only [Matrix.fill, Matrix.get, List.getD_eq_getElem?_getD, List.getElem?_map]
  rw [List.getElem?_eq_getElem h]
  rfl

theorem Matrix.clear_clear (m : Matrix α) : m.clear.clear = m.clear := by
  simp [Matrix.clear]

theorem Matrix.clear_eq_of_shape (m m2 : Matrix α) (hr : m.rows = m2.rows)
    (hc : m.cols = m2.cols) (hl : m.data.length = m2.data.length) : m.clear = m2.clear := by
  refine Matrix.ext_get m.clear m2.clear hr hc ?_ ?_
  · simpa [Matrix.clear] using hl
  · intro i _
    rw [Matrix.clear_get, Matrix.clear_get]

theorem Matrix.fill_eq_of_shape (m m2 : Matrix α) (x : α) (hr : m.rows = m2.rows)
    (hc : m.cols = m2.cols) (hl : m.data.length = m2.data.length) : m.fill x = m2.fill x := by
  refine Matrix.ext_get (m.fill x) (m2.fill x) hr hc ?_ ?_
  · simpa [Matrix.fill] using hl
  · intro i hi
    have hi1 : i < m.data.length := by simpa [Matrix.fill] using hi
    rw [Matrix.fill_get m x i hi1, Matrix.fill_get m2 x i (hl ▸ hi1)]

theorem var_eq_of_grad (v w : ModelVar α)
    (h1 : ({ v with grad := none } : ModelVar α) = { w with grad := none })
    (h2 : v.grad = w.grad) : v = w := by
  cases v
  cases w
  simp only [ModelVar.mk.injEq] at h1 h2 ⊢
  tauto

theorem grad_shape_of_skel (A B : ModelContext α) (hs : SameSkel B A) (q : Nat) :
    (A.grad q).rows = (B.grad q).rows ∧ (A.grad q).cols = (B.grad q).cols ∧
      (A.grad q).data.length = (B.grad q).data.length := by
  have h := (skel_eq _ _ (hs.var q)).2.2.2.2.2.2.2.2
  unfold ModelContext.grad
  cases hA : (A.var q).grad <;> cases hB : (B.var q).grad <;>
    simp only [hA, hB, Option.map_some', Option.map_none', Option.some.injEq, Prod.mk.injEq,
      Option.getD_some, Option.getD_none, reduceCtorEq] at h ⊢
  · exact ⟨trivial, trivial, trivial⟩
  · exact h

theorem grad_none_of_skel (A B : ModelContext α) (hs : SameSkel B A) (q : Nat)
    (h : (B.var q).grad = none) : (A.var q).grad = none := by
  have h2 := (skel_eq _ _ (hs.var q)).2.2.2.2.2.2.2.2
  rw [h] at h2
  cases hA : (A.var q).grad
  · rfl
  · rw [hA] at h2
    simp at h2

theorem SameSkel.symm {c1 c2 : ModelContext α} (h : SameSkel c1 c2) : SameSkel c2 c1 := by
  unfold SameSkel at *
  exact h.symm

theorem RelH.val_eq {H : Nat → Nat → α} {A B : ModelContext α} (h : RelH H A B) (q : Nat) :
    (A.var q).val = (B.var q).val ∧ (A.var q).flags = (B.var q).flags ∧
      (A.var q).op = (B.var q).op := by
  have h1 := h.but_grad q
  simp only [ModelVar.mk.injEq] at h1
  exact ⟨h1.2.2.1, h1.2.1, h1.2.2.2.2.1⟩

/-- Where the offset is zero the two states hold the same node. -/
theorem RelH.var_eq {H : Nat → Nat → α} {A B : ModelContext α} (h : RelH H A B) (q : Nat)
    (h0 : ∀ i, H q i = 0) : A.var q = B.var q := by
  apply var_eq_of_grad _ _ (h.but_grad q)
  have hsh := grad_shape_of_skel A B h.skel q
  have hg : A.grad q = B.grad q := by
    apply Matrix.ext_get _ _ hsh.1 hsh.2.1 hsh.2.2
    intro i hi
    rw [h.grad_off q i (hsh.2.2 ▸ hi), h0 i, add_zero]
  cases hB : (B.var q).grad with
  | none => exact grad_none_of_skel A B h.skel q hB
  | some gB =>
    cases hA : (A.var q).grad with
    | none =>
      have := grad_none_of_skel B A h.skel.symm q hA
      rw [hB] at this
      cases this
    | some gA =>
      rw [grad_of_some A q gA hA, grad_of_some B q gB hB] at hg
      rw [hg]

theorem node_updates_leaf (flog : α → α) (ctx : ModelContext α) (c : Nat)
    (h : (ctx.var c).op = .Create) : node_updates flog ctx c = [] := by
  unfold node_updates
  simp only [h, mv_num_inputs]
  split_ifs <;> rfl

end Offsets

end Autograd

namespace Autograd

section Simulation

variable {α : Type} [LinearOrderedField α]

/-- Running one list of additive updates on two states related by an offset keeps the
offset. -/
theorem relH_apply_updates (H : Nat → Nat → α) (A B : ModelContext α) (hwf : B.WF)
    (h : RelH H A B) (us : List (Nat × (Matrix α → Matrix α)))
    (hus : ∀ u, u ∈ us →
      u.1 < B.num_vars ∧ has_flag (B.var u.1).flags MV_FLAG_REQUIRES_GRAD = true ∧
        ShapeAdditive u.2) :
    RelH H (apply_updates us A) (apply_updates us B) := by
  have hadd : ∀ u, u ∈ us → ShapeAdditive u.2 := fun u hu => (hus u hu).2.2
  refine ⟨((apply_updates_skel us B hadd).symm.trans h.skel).trans
      (apply_updates_skel us A hadd), ?_, ?_⟩
  · intro q
    rw [apply_updates_but_grad us A q none, apply_updates_but_grad us B q none]
    exact h.but_grad q
  · intro q i hi
    by_cases htar : ∃ u, u ∈ us ∧ u.1 = q
    · obtain ⟨u, hu, rfl⟩ := htar
      obtain ⟨hlt, hreq, _⟩ := hus u hu
      obtain ⟨gB, hgB, _⟩ := (hwf.node u.1 hlt).grad_some hreq
      have hltA : u.1 < A.num_vars := by rw [h.skel.num_vars]; exact hlt
      cases hgA : (A.var u.1).grad with
      | none =>
        have := grad_none_of_skel B A h.skel.symm u.1 hgA
        rw [hgB] at this
        cases this
      | some gA =>
        have hsh := grad_shape_of_skel A B h.skel u.1
        rw [grad_of_some A u.1 gA hgA, grad_of_some B u.1 gB hgB] at hsh
        have hoff := h.grad_off u.1
        rw [grad_of_some A u.1 gA hgA, grad_of_some B u.1 gB hgB] at hoff
        rw [(apply_updates_grad us B u.1 hlt gB hgB).1] at hi
        rw [(apply_updates_grad us A u.1 hltA gA hgA).1,
          (apply_updates_grad us B u.1 hlt gB hgB).1]
        obtain ⟨d, hdA, hdB⟩ := grad_after_additive us u.1 hadd gA gB hsh.1 hsh.2.1 hsh.2.2
        have hiB : i < gB.data.length := by rw [← hdB.2.2.1]; exact hi
        rw [hdA.2.2.2 i (hsh.2.2 ▸ hiB), hdB.2.2.2 i hiB, hoff i hiB]
        ring
    · have hne : ∀ u, u ∈ us → u.1 ≠ q := fun u hu e => htar ⟨u, hu, e⟩
      have hA : (apply_updates us A).grad q = A.grad q := by
        unfold ModelContext.grad
        rw [apply_updates_var_ne us A q hne]
      have hB : (apply_updates us B).grad q = B.grad q := by
        unfold ModelContext.grad
        rw [apply_updates_var_ne us B q hne]
      rw [hB] at hi
      rw [hA, hB]
      exact h.grad_off q i hi

/-- One step of the backward loop keeps the offset when the processed node has offset zero
or is a leaf. -/
theorem relH_backward_node (flog : α → α) (H : Nat → Nat → α) (A B : ModelContext α)
    (hwf : B.WF) (h : RelH H A B) (c : Nat) (hc : c < B.num_vars)
    (hstep : (∀ i, H c i = 0) ∨ (B.var c).op = .Create) :
    RelH H (backward_node flog A c) (backward_node flog B c) := by
  have hwfA : A.WF := wf_of_same_skel B A h.skel hwf
  have hcA : c < A.num_vars := by rw [h.skel.num_vars]; exact hc
  have hnu : node_updates flog A c = node_updates flog B c := by
    rcases hstep with h0 | hleaf
    · apply node_updates_congr flog B A c (h.var_eq c h0)
      intro y _
      exact ⟨(h.val_eq y).1, (h.val_eq y).2.1⟩
    · rw [node_updates_leaf flog B c hleaf,
        node_updates_leaf flog A c ((h.val_eq c).2.2.trans hleaf)]
  rw [backward_node_eq flog A hwfA c hcA, backward_node_eq flog B hwf c hc, hnu]
  apply relH_apply_updates H A B hwf h
  intro u hu
  obtain ⟨hop, hreq, hadd⟩ := node_updates_mem flog B c u hu
  exact ⟨lt_trans (hwf.arena.input_lt B c u.1 hc hop) hc, hreq, hadd⟩

/-- The backward loop over a list of such nodes keeps the offset. -/
theorem relH_backward_fold (flog : α → α) (H : Nat → Nat → α) (L : List Nat)
    (A B : ModelContext α) (hwf : B.WF) (h : RelH H A B)
    (hL : ∀ c, c ∈ L → c < B.num_vars ∧ ((∀ i, H c i = 0) ∨ (B.var c).op = .Create)) :
    RelH H (L.foldl (backward_node flog) A) (L.foldl (backward_node flog) B) := by
  induction L generalizing A B with
  | nil => exact h
  | cons c t ih =>
    simp only [List.foldl_cons]
    obtain ⟨hc, hst⟩ := hL c (List.mem_cons_self c t)
    have hs := backward_node_skel flog B hwf c hc
    apply ih _ _ (wf_of_same_skel B _ hs hwf) (relH_backward_node flog H A B hwf h c hc hst)
    intro d hd
    obtain ⟨hd1, hd2⟩ := hL d (List.mem_cons_of_mem c hd)
    refine ⟨hs.num_vars ▸ hd1, ?_⟩
    rcases hd2 with h0 | hleaf
    · exact Or.inl h0
    · right
      rw [(skel_eq _ _ (hs.var d)).2.2.1]
      exact hleaf

end Simulation

end Autograd

namespace Autograd

section ClearAndSeed

variable {α : Type} [LinearOrderedField α]

theorem var_of_le (ctx : ModelContext α) (p : Nat) (h : ctx.num_vars ≤ p) :
    ctx.var p = ModelVar.null := by
  unfold ModelContext.var
  rw [List.getD_eq_getElem?_getD, List.getElem?_eq_none h]
  rfl

theorem lt_of_grad_some (ctx : ModelContext α) (p : Nat) (g : Matrix α)
    (h : (ctx.var p).grad = some g) : p < ctx.num_vars := by
  by_contra hp
  rw [var_of_le ctx p (not_lt.mp hp)] at h
  cases h

/-- A store through a gradient pointer: the buffer holds the stored matrix, or the pointer
is null and nothing changes. -/
theorem grad_set_grad_cases (ctx : ModelContext α) (p : Nat) (m : Matrix α) :
    ((ctx.var p).grad ≠ none ∧ (ctx.set_grad p m).grad p = m) ∨
      ((ctx.var p).grad = none ∧ ctx.set_grad p m = ctx) := by
  cases hg : (ctx.var p).grad with
  | none =>
    right
    refine ⟨rfl, ?_⟩
    unfold ModelContext.set_grad
    rw [hg]
  | some g =>
    left
    exact ⟨by simp, grad_set_grad_self ctx p m g (lt_of_grad_some ctx p g hg) hg⟩

theorem grad_empty_of_none (ctx : ModelContext α) (p : Nat) (h : (ctx.var p).grad = none) :
    ctx.grad p = ⟨0, 0, []⟩ := by
  unfold ModelContext.grad
  rw [h]
  rfl

/-- What the body of the clearing loop does to each gradient buffer. -/
theorem clear_grad_node_spec (ctx : ModelContext α) (cur : Nat) :
    SameSkel ctx (clear_grad_node ctx cur) ∧
    (∀ q (X : Option (Matrix α)),
      ({ (clear_grad_node ctx cur).var q with grad := X } : ModelVar α)
        = { ctx.var q with grad := X }) ∧
    (∀ q, (clear_grad_node ctx cur).grad q =
      if q = cur ∧ has_flag (ctx.var q).flags MV_FLAG_REQUIRES_GRAD = true ∧
          has_flag (ctx.var q).flags MV_FLAG_PARAMETER = false
      then (ctx.grad q).clear else ctx.grad q) := by
  unfold clear_grad_node
  by_cases h1 : has_flag (ctx.var cur).flags MV_FLAG_REQUIRES_GRAD = false
  · rw [if_pos h1]
    refine ⟨SameSkel.refl ctx, fun _ _ => rfl, ?_⟩
    intro q
    rw [if_neg]
    rintro ⟨rfl, h2, _⟩
    rw [h1] at h2
    cases h2
  · rw [if_neg h1]
    by_cases h2 : has_flag (ctx.var cur).flags MV_FLAG_PARAMETER = true
    · rw [if_pos h2]
      refine ⟨SameSkel.refl ctx, fun _ _ => rfl, ?_⟩
      intro q
      rw [if_neg]
      rintro ⟨rfl, _, h3⟩
      rw [h2] at h3
      cases h3
    · rw [if_neg h2]
      refine ⟨?_, fun q X => var_set_grad_but_grad ctx cur q _ X, ?_⟩
      · apply SameSkel.set_grad
        intro g hg
        rw [grad_of_some ctx cur g hg]
        exact MatOps.clear_shape g
      · intro q
        by_cases hq : q = cur
        · subst hq
          rw [if_pos ⟨rfl, by simpa using h1, by simpa using h2⟩]
          rcases grad_set_grad_cases ctx q (ctx.grad q).clear with ⟨_, h⟩ | ⟨hn, h⟩
          · exact h
          · rw [h, grad_empty_of_none ctx q hn]
            rfl
        · rw [if_neg (fun h => hq h.1)]
          exact grad_set_grad_ne ctx cur q _ hq

/-- What the clearing loop does over a list of nodes. -/
theorem clear_fold_spec (L : List Nat) (ctx : ModelContext α) :
    SameSkel ctx (L.foldl clear_grad_node ctx) ∧
    (∀ q (X : Option (Matrix α)),
      ({ (L.foldl clear_grad_node ctx).var q with grad := X } : ModelVar α)
        = { ctx.var q with grad := X }) ∧
    (∀ q, (L.foldl clear_grad_node ctx).grad q =
      if q ∈ L ∧ has_flag (ctx.var q).flags MV_FLAG_REQUIRES_GRAD = true ∧
          has_flag (ctx.var q).flags MV_FLAG_PARAMETER = false
      then (ctx.grad q).clear else ctx.grad q) := by
  induction L generalizing ctx with
  | nil => exact ⟨SameSkel.refl ctx, fun _ _ => rfl, fun q => by simp⟩
  | cons c t ih =>
    simp only [List.foldl_cons]
    obtain ⟨s1, b1, g1⟩ := clear_grad_node_spec ctx c
    obtain ⟨s2, b2, g2⟩ := ih (clear_grad_node ctx c)
    refine ⟨s1.trans s2, fun q X => (b2 q X).trans (b1 q X), ?_⟩
    intro q
    have hfl : ((clear_grad_node ctx c).var q).flags = (ctx.var q).flags := by
      have := b1 q none
      simp only [ModelVar.mk.injEq] at this
      exact this.2.1
    rw [g2 q, g1 q, hfl]
    by_cases hreq : has_flag (ctx.var q).flags MV_FLAG_REQUIRES_GRAD = true ∧
        has_flag (ctx.var q).flags MV_FLAG_PARAMETER = false
    · by_cases hqc : q = c
      · by_cases hqt : q ∈ t
        · rw [if_pos ⟨hqt, hreq⟩, if_pos ⟨hqc, hreq⟩, if_pos ⟨hqc ▸ List.mem_cons_self _ _, hreq⟩,
            Matrix.clear_clear]
        · rw [if_neg (fun h => hqt h.1), if_pos ⟨hqc, hreq⟩,
            if_pos ⟨hqc ▸ List.mem_cons_self _ _, hreq⟩]
      · by_cases hqt : q ∈ t
        · rw [if_pos ⟨hqt, hreq⟩, if_neg (fun h => hqc h.1),
            if_pos ⟨List.mem_cons_of_mem _ hqt, hreq⟩]
        · rw [if_neg (fun h => hqt h.1), if_neg (fun h => hqc h.1), if_neg]
          rintro ⟨hm, _⟩
          rcases List.mem_cons.mp hm with h | h
          · exact hqc h
          · exact hqt h
    · rw [if_neg (fun h => hreq h.2), if_neg (fun h => hreq h.2), if_neg (fun h => hreq h.2)]

end ClearAndSeed

end Autograd

namespace Autograd

section SeedPhase

variable {α : Type} [LinearOrderedField α]

/-- The `u32` index `prog.size() - 1` is the last position of a non-empty program of at
most `2^32` nodes. -/
theorem seed_index (prog : ModelProgram) (root : Nat)
    (hlast : prog.vars.getLast? = some root) (hsz : prog.size ≤ U32_MOD) :
    prog.vars[(prog.size + U32_MOD - 1) % U32_MOD]? = some root := by
  unfold ModelProgram.size at *
  have hpos : 0 < prog.vars.length := by
    cases h : prog.vars with
    | nil => rw [h] at hlast; cases hlast
    | cons a t => simp
  have hidx : (prog.vars.length + U32_MOD - 1) % U32_MOD = prog.vars.length - 1 := by
    unfold U32_MOD at *
    omega
  rw [hidx, ← hlast, List.getLast?_eq_getElem?]

theorem compute_grads_seed_eq (prog : ModelProgram) (ctx : ModelContext α) (root : Nat)
    (hlast : prog.vars.getLast? = some root) (hsz : prog.size ≤ U32_MOD) :
    compute_grads_seed prog ctx = (prog.vars.foldl clear_grad_node ctx).set_grad root
      (((prog.vars.foldl clear_grad_node ctx).grad root).fill 1) := by
  unfold compute_grads_seed
  simp only [seed_index prog root hlast hsz]

/-- The clearing loop brings two states that differ in gradient content only under an
offset that is zero on the cleared nodes. -/
theorem relH_clear (H : Nat → Nat → α) (L : List Nat) (A B : ModelContext α)
    (hs : SameSkel B A)
    (hb : ∀ q, ({ A.var q with grad := none } : ModelVar α) = { B.var q with grad := none })
    (hoff : ∀ q, ¬ (q ∈ L ∧ has_flag (B.var q).flags MV_FLAG_REQUIRES_GRAD = true ∧
        has_flag (B.var q).flags MV_FLAG_PARAMETER = false) →
      ∀ i, i < (B.grad q).data.length → (A.grad q).get i = (B.grad q).get i + H q i)
    (hH0 : ∀ q, q ∈ L → has_flag (B.var q).flags MV_FLAG_REQUIRES_GRAD = true →
      has_flag (B.var q).flags MV_FLAG_PARAMETER = false → ∀ i, H q i = 0) :
    RelH H (L.foldl clear_grad_node A) (L.foldl clear_grad_node B) := by
  obtain ⟨sA, bA, gA⟩ := clear_fold_spec L A
  obtain ⟨sB, bB, gB⟩ := clear_fold_spec L B
  refine ⟨(sB.symm.trans hs).trans sA, fun q => ((bA q none).trans (hb q)).trans (bB q none).symm,
    ?_⟩
  intro q i hi
  have hfl : (A.var q).flags = (B.var q).flags := by
    have := hb q
    simp only [ModelVar.mk.injEq] at this
    exact this.2.1
  rw [gA q, hfl]
  rw [gB q] at hi ⊢
  by_cases hc : q ∈ L ∧ has_flag (B.var q).flags MV_FLAG_REQUIRES_GRAD = true ∧
      has_flag (B.var q).flags MV_FLAG_PARAMETER = false
  · simp only [if_pos hc, Matrix.clear_get, hH0 q hc.1 hc.2.1 hc.2.2 i, add_zero]
  · simp only [if_neg hc] at hi ⊢
    exact hoff q hc i hi

/-- Seeding a node of offset zero keeps the offset. -/
theorem relH_seed (H : Nat → Nat → α) (A B : ModelContext α) (h : RelH H A B) (last : Nat)
    (h0 : ∀ i, H last i = 0) :
    RelH H (A.set_grad last ((A.grad last).fill 1)) (B.set_grad last ((B.grad last).fill 1)) := by
  have hv := h.var_eq last h0
  have hg : A.grad last = B.grad last := by
    unfold ModelContext.grad
    rw [hv]
  have hshape : ∀ (C : ModelContext α) g, (C.var last).grad = some g →
      ((C.grad last).fill 1).rows = g.rows ∧ ((C.grad last).fill 1).cols = g.cols ∧
        ((C.grad last).fill 1).data.length = g.data.length := by
    intro C g hg
    rw [grad_of_some C last g hg]
    simp [Matrix.fill]
  refine ⟨((SameSkel.set_grad B last _ (hshape B)).symm.trans h.skel).trans
      (SameSkel.set_grad A last _ (hshape A)), ?_, ?_⟩
  · intro q
    rw [var_set_grad_but_grad A last q _ none, var_set_grad_but_grad B last q _ none]
    exact h.but_grad q
  · intro q i hi
    by_cases hq : q = last
    · subst hq
      rcases grad_set_grad_cases B q ((B.grad q).fill 1) with ⟨hn, hB⟩ | ⟨hn, hB⟩
      · rcases grad_set_grad_cases A q ((A.grad q).fill 1) with ⟨_, hA⟩ | ⟨hnA, _⟩
        · rw [hA, hB, hg, h0 i, add_zero]
        · rw [hv] at hnA
          exact absurd hnA hn
      · rw [hB] at hi
        rw [grad_empty_of_none B q hn] at hi
        simp at hi
    · rw [grad_set_grad_ne A last q _ hq, grad_set_grad_ne B last q _ hq]
      rw [grad_set_grad_ne B last q _ hq] at hi
      exact h.grad_off q i hi

end SeedPhase

end Autograd

namespace Autograd

section ComputeGrads

variable {α : Type} [LinearOrderedField α]

theorem nodup_length_le (l : List Nat) (n : Nat) (hn : l.Nodup) (hlt : ∀ x, x ∈ l → x < n) :
    l.length ≤ n := by
  have h1 : l.toFinset ⊆ Finset.range n := by
    intro x hx
    exact Finset.mem_range.mpr (hlt x (List.mem_toFinset.mp hx))
  have h2 := Finset.card_le_card h1
  rwa [List.toFinset_card_of_nodup hn, Finset.card_range] at h2

theorem compute_grads_unfold (flog : α → α) (prog : ModelProgram) (ctx : ModelContext α) :
    compute_grads flog prog ctx
      = prog.vars.reverse.foldl (backward_node flog) (compute_grads_seed prog ctx) := rfl

/-- Clearing and seeding bring two states that differ in gradient content only under an
offset that is zero on the cleared nodes and on the seeded node. -/
theorem relH_compute_grads_seed (H : Nat → Nat → α) (prog : ModelProgram) (root : Nat)
    (A B : ModelContext α)
    (hlast : prog.vars.getLast? = some root) (hsz : prog.size ≤ U32_MOD)
    (hs : SameSkel B A)
    (hb : ∀ q, ({ A.var q with grad := none } : ModelVar α) = { B.var q with grad := none })
    (hoff : ∀ q, ¬ (q ∈ prog.vars ∧ has_flag (B.var q).flags MV_FLAG_REQUIRES_GRAD = true ∧
        has_flag (B.var q).flags MV_FLAG_PARAMETER = false) →
      ∀ i, i < (B.grad q).data.length → (A.grad q).get i = (B.grad q).get i + H q i)
    (hH0 : ∀ q, q ∈ prog.vars → has_flag (B.var q).flags MV_FLAG_REQUIRES_GRAD = true →
      has_flag (B.var q).flags MV_FLAG_PARAMETER = false → ∀ i, H q i = 0)
    (hroot : ∀ i, H root i = 0) :
    RelH H (compute_grads_seed prog A) (compute_grads_seed prog B) := by
  rw [compute_grads_seed_eq prog A root hlast hsz, compute_grads_seed_eq prog B root hlast hsz]
  exact relH_seed H _ _ (relH_clear H prog.vars A B hs hb hoff hH0) root hroot

/-- The first two phases keep the skeleton and change gradient buffers only, and only of
nodes of the program. -/
theorem compute_grads_seed_frame (prog : ModelProgram) (root : Nat) (ctx : ModelContext α)
    (hlast : prog.vars.getLast? = some root) (hsz : prog.size ≤ U32_MOD) :
    SameSkel ctx (compute_grads_seed prog ctx) ∧
    (∀ q (X : Option (Matrix α)),
      ({ (compute_grads_seed prog ctx).var q with grad := X } : ModelVar α)
        = { ctx.var q with grad := X }) ∧
    (∀ q, q ∉ prog.vars → (compute_grads_seed prog ctx).var q = ctx.var q) := by
  rw [compute_grads_seed_eq prog ctx root hlast hsz]
  obtain ⟨s1, b1, g1⟩ := clear_fold_spec prog.vars ctx
  have hrm : root ∈ prog.vars := by
    have h := hlast
    rw [List.getLast?_eq_getElem?] at h
    exact List.mem_iff_getElem?.mpr ⟨_, h⟩
  refine ⟨s1.trans (SameSkel.set_grad _ root _ ?_), ?_, ?_⟩
  · intro g hg
    rw [grad_of_some _ root g hg]
    simp [Matrix.fill]
  · intro q X
    rw [var_set_grad_but_grad _ root q _ X]
    exact b1 q X
  · intro q hq
    rw [var_set_grad_ne _ root q _ (fun e => hq (e ▸ hrm))]
    apply var_eq_of_grad _ _ (b1 q none)
    have hg := g1 q
    rw [if_neg (fun h => hq h.1)] at hg
    cases hB : (ctx.var q).grad with
    | none => exact grad_none_of_skel _ ctx s1 q hB
    | some gB =>
      cases hA : ((prog.vars.foldl clear_grad_node ctx).var q).grad with
      | none =>
        have := grad_none_of_skel ctx _ s1.symm q hA
        rw [hB] at this
        cases this
      | some gA =>
        rw [grad_of_some _ q gA hA, grad_of_some ctx q gB hB] at hg
        rw [hg]

/-- A whole call keeps the skeleton and changes gradient buffers only, and only of nodes of
the program. -/
theorem compute_grads_frame (flog : α → α) (prog : ModelProgram) (root : Nat)
    (ctx : ModelContext α) (hwf : ctx.WF) (hord : ProgOrder ctx prog.vars)
    (hlast : prog.vars.getLast? = some root) (hsz : prog.size ≤ U32_MOD) :
    SameSkel ctx (compute_grads flog prog ctx) ∧
    (∀ q (X : Option (Matrix α)),
      ({ (compute_grads flog prog ctx).var q with grad := X } : ModelVar α)
        = { ctx.var q with grad := X }) ∧
    (∀ q, q ∉ prog.vars → (compute_grads flog prog ctx).var q = ctx.var q) := by
  obtain ⟨s1, b1, f1⟩ := compute_grads_seed_frame prog root ctx hlast hsz
  have hwf1 := wf_of_same_skel ctx _ s1 hwf
  obtain ⟨s2, b2, f2⟩ := backward_fold_frame flog prog.vars.reverse _ hwf1
    (fun c hc => s1.num_vars ▸ hord.lt c (List.mem_reverse.mp hc))
  rw [compute_grads_unfold]
  refine ⟨s1.trans s2, fun q X => (b2 q X).trans (b1 q X), ?_⟩
  intro q hq
  rw [f2 q, f1 q hq]
  intro c hc hop
  have hop2 := (isOperand_of_same_skel ctx _ s1 q c).mp hop
  obtain ⟨i, hi⟩ := List.mem_iff_getElem?.mp (List.mem_reverse.mp hc)
  obtain ⟨j, _, hj⟩ := hord.topo i c hi q hop2
  exact hq (List.mem_iff_getElem?.mpr ⟨j, hj⟩)

end ComputeGrads

end Autograd

namespace Autograd

section ParameterGradients

variable {α : Type} [LinearOrderedField α]

theorem grad_congr (A B : ModelContext α) (q : Nat) (h : A.var q = B.var q) :
    A.grad q = B.grad q := by
  unfold ModelContext.grad
  rw [h]

/-- The gradient a call leaves in a parameter that is not the seeded node is the gradient
it held before plus what the same call leaves in it from zero. -/
theorem compute_grads_param_offset (flog : α → α) (prog : ModelProgram) (root : Nat)
    (ctx : ModelContext α) (hwf : ctx.WF) (hord : ProgOrder ctx prog.vars)
    (hlast : prog.vars.getLast? = some root) (hsz : prog.size ≤ U32_MOD)
    (P : Nat) (hP : P ∈ prog.vars) (hPr : P ≠ root)
    (hpar : has_flag (ctx.var P).flags MV_FLAG_PARAMETER = true) (i : Nat) :
    ((compute_grads flog prog ctx).grad P).get i = (ctx.grad P).get i +
      ((compute_grads flog prog (ctx.set_grad P (ctx.grad P).clear)).grad P).get i := by
  have hsB : SameSkel ctx (ctx.set_grad P (ctx.grad P).clear) := by
    apply SameSkel.set_grad
    intro g hg
    rw [grad_of_some ctx P g hg]
    exact MatOps.clear_shape g
  have hwfB := wf_of_same_skel ctx _ hsB hwf
  have hrel := relH_compute_grads_seed (fun q i => if q = P then (ctx.grad P).get i else 0)
    prog root ctx (ctx.set_grad P (ctx.grad P).clear) hlast hsz hsB.symm
    (fun q => (var_set_grad_but_grad ctx P q _ none).symm)
    (by
      intro q _ i hi
      by_cases hq : q = P
      · subst hq
        rcases grad_set_grad_cases ctx q (ctx.grad q).clear with ⟨_, h⟩ | ⟨hn, h⟩
        · beta_reduce
          rw [h, Matrix.clear_get, if_pos rfl, zero_add]
        · rw [h, grad_empty_of_none ctx q hn] at hi
          simp at hi
      · beta_reduce
        rw [grad_set_grad_ne ctx P q _ hq, if_neg hq, add_zero])
    (by
      intro q _ _ hnp i
      rw [flags_set_grad] at hnp
      have hq : q ≠ P := by
        rintro rfl
        rw [hpar] at hnp
        cases hnp
      beta_reduce
      rw [if_neg hq])
    (fun i => if_neg (fun e => hPr e.symm))
  obtain ⟨M1, M2, hM⟩ := List.append_of_mem hP
  have hnd := hord.nodup
  rw [hM] at hnd
  have hPM2 : P ∉ M2 := (List.nodup_cons.mp (List.nodup_append.mp hnd).2.1).1
  have hrev : prog.vars.reverse = M2.reverse ++ P :: M1.reverse := by
    rw [hM]
    simp
  obtain ⟨sA, _, _⟩ := compute_grads_seed_frame prog root ctx hlast hsz
  obtain ⟨sB, _, _⟩ := compute_grads_seed_frame prog root (ctx.set_grad P (ctx.grad P).clear)
    hlast hsz
  have hwfA1 := wf_of_same_skel ctx _ sA hwf
  have hwfB1 := wf_of_same_skel _ _ sB hwfB
  have hltM : ∀ c, c ∈ M1 ∨ c = P ∨ c ∈ M2 → c < ctx.num_vars := by
    intro c hc
    apply hord.lt c
    rw [hM]
    simp only [List.mem_append, List.mem_cons]
    tauto
  have hrel2 := relH_backward_fold flog _ M2.reverse _ _ hwfB1 hrel (by
    intro c hc
    have hc2 := List.mem_reverse.mp hc
    have hcP : c ≠ P := by
      rintro rfl
      exact hPM2 hc2
    refine ⟨?_, Or.inl (fun i => if_neg hcP)⟩
    rw [sB.num_vars, hsB.num_vars]
    exact hltM c (Or.inr (Or.inr hc2)))
  obtain ⟨sA2, _, _⟩ := backward_fold_frame flog M2.reverse _ hwfA1 (by
    intro c hc
    rw [sA.num_vars]
    exact hltM c (Or.inr (Or.inr (List.mem_reverse.mp hc))))
  obtain ⟨sB2, _, _⟩ := backward_fold_frame flog M2.reverse _ hwfB1 (by
    intro c hc
    rw [sB.num_vars, hsB.num_vars]
    exact hltM c (Or.inr (Or.inr (List.mem_reverse.mp hc))))
  have hnop : ∀ c, c ∈ P :: M1.reverse → ¬ ctx.IsOperand P c := by
    intro c hc
    rcases List.mem_cons.mp hc with rfl | hc
    · exact not_isOperand_self ctx hwf.arena c (hltM c (Or.inr (Or.inl rfl)))
    · exact (ProgOrder.next_fresh ctx M1 M2 P (hM ▸ hord)).2 c (List.mem_reverse.mp hc)
  have hmem : ∀ c, c ∈ P :: M1.reverse → c < ctx.num_vars := by
    intro c hc
    rcases List.mem_cons.mp hc with rfl | hc
    · exact hltM c (Or.inr (Or.inl rfl))
    · exact hltM c (Or.inl (List.mem_reverse.mp hc))
  have hsA3 := sA.trans sA2
  have hsB3 := (hsB.trans sB).trans sB2
  obtain ⟨_, _, fA⟩ := backward_fold_frame flog (P :: M1.reverse) _
    (wf_of_same_skel ctx _ hsA3 hwf) (fun c hc => hsA3.num_vars ▸ hmem c hc)
  obtain ⟨_, _, fB⟩ := backward_fold_frame flog (P :: M1.reverse) _
    (wf_of_same_skel ctx _ hsB3 hwf) (fun c hc => hsB3.num_vars ▸ hmem c hc)
  have eA := fA P (fun c hc hop => hnop c hc ((isOperand_of_same_skel ctx _ hsA3 P c).mp hop))
  have eB := fB P (fun c hc hop => hnop c hc ((isOperand_of_same_skel ctx _ hsB3 P c).mp hop))
  have gA : (compute_grads flog prog ctx).grad P
      = (M2.reverse.foldl (backward_node flog) (compute_grads_seed prog ctx)).grad P := by
    rw [compute_grads_unfold, hrev, List.foldl_append]
    exact grad_congr _ _ P eA
  have gB : (compute_grads flog prog (ctx.set_grad P (ctx.grad P).clear)).grad P
      = (M2.reverse.foldl (backward_node flog)
          (compute_grads_seed prog (ctx.set_grad P (ctx.grad P).clear))).grad P := by
    rw [compute_grads_unfold, hrev, List.foldl_append]
    exact grad_congr _ _ P eB
  rw [gA, gB]
  have hshA := grad_shape_of_skel _ _ hrel2.skel P
  have hshB := grad_shape_of_skel _ _ hsB3.symm P
  by_cases hi : i < ((M2.reverse.foldl (backward_node flog)
      (compute_grads_seed prog (ctx.set_grad P (ctx.grad P).clear))).grad P).data.length
  · rw [hrel2.grad_off P i hi]
    beta_reduce
    rw [if_pos rfl]
    ring
  · have hi2 := not_lt.mp hi
    rw [Matrix.get_of_le _ i hi2, Matrix.get_of_le _ i (hshA.2.2 ▸ hi2),
      Matrix.get_of_le _ i (hshB.2.2 ▸ hi2), add_zero]

end ParameterGradients

end Autograd

namespace Autograd

section ParameterGradients2

variable {α : Type} [LinearOrderedField α]

/-- What a requires-gradient node that is not a parameter holds in its gradient before a
call has no effect on the state after the call. -/
theorem compute_grads_nonparam_indep (flog : α → α) (prog : ModelProgram) (root : Nat)
    (ctx : ModelContext α) (hwf : ctx.WF) (hord : ProgOrder ctx prog.vars)
    (hlast : prog.vars.getLast? = some root) (hsz : prog.size ≤ U32_MOD)
    (x : Nat) (hx : x ∈ prog.vars)
    (hreq : has_flag (ctx.var x).flags MV_FLAG_REQUIRES_GRAD = true)
    (hnp : has_flag (ctx.var x).flags MV_FLAG_PARAMETER = false)
    (g2 : Matrix α) (hr : g2.rows = (ctx.grad x).rows) (hc : g2.cols = (ctx.grad x).cols)
    (hl : g2.data.length = (ctx.grad x).data.length) (q : Nat) :
    (compute_grads flog prog (ctx.set_grad x g2)).var q = (compute_grads flog prog ctx).var q := by
  have hsA : SameSkel ctx (ctx.set_grad x g2) := by
    apply SameSkel.set_grad
    intro g hg
    rw [grad_of_some ctx x g hg] at hr hc hl
    exact ⟨hr, hc, hl⟩
  have hrel := relH_compute_grads_seed (fun _ _ => (0 : α)) prog root (ctx.set_grad x g2) ctx
    hlast hsz hsA (fun q => var_set_grad_but_grad ctx x q _ none)
    (by
      intro q hq i _
      have hqx : q ≠ x := by
        rintro rfl
        exact hq ⟨hx, hreq, hnp⟩
      rw [grad_set_grad_ne ctx x q _ hqx, add_zero])
    (fun _ _ _ _ _ => rfl) (fun _ => rfl)
  obtain ⟨sB, _, _⟩ := compute_grads_seed_frame prog root ctx hlast hsz
  have hrel2 := relH_backward_fold flog _ prog.vars.reverse _ _
    (wf_of_same_skel ctx _ sB hwf) hrel (by
      intro c hc
      exact ⟨sB.num_vars ▸ hord.lt c (List.mem_reverse.mp hc), Or.inl (fun _ => rfl)⟩)
  exact hrel2.var_eq q (fun _ => rfl)

/-- When the parameters of a program are leaves and its last node is not a parameter, a
second call adds to each parameter gradient what the first call added. -/
theorem compute_grads_twice (flog : α → α) (prog : ModelProgram) (root : Nat)
    (ctx : ModelContext α) (hwf : ctx.WF) (hord : ProgOrder ctx prog.vars)
    (hlast : prog.vars.getLast? = some root) (hsz : prog.size ≤ U32_MOD)
    (hleaf : ∀ q, q ∈ prog.vars → has_flag (ctx.var q).flags MV_FLAG_PARAMETER = true →
      (ctx.var q).op = .Create)
    (hrootnp : has_flag (ctx.var root).flags MV_FLAG_PARAMETER = false)
    (P : Nat) (hP : P ∈ prog.vars)
    (hpar : has_flag (ctx.var P).flags MV_FLAG_PARAMETER = true) (i : Nat) :
    ((compute_grads flog prog (compute_grads flog prog ctx)).grad P).get i
      = ((compute_grads flog prog ctx).grad P).get i
        + (((compute_grads flog prog ctx).grad P).get i - (ctx.grad P).get i) := by
  obtain ⟨s, b, f⟩ := compute_grads_frame flog prog root ctx hwf hord hlast hsz
  have hrel := relH_compute_grads_seed
    (fun q i => if q ∈ prog.vars ∧ has_flag (ctx.var q).flags MV_FLAG_PARAMETER = true
      then ((compute_grads flog prog ctx).grad q).get i - (ctx.grad q).get i else 0)
    prog root (compute_grads flog prog ctx) ctx hlast hsz s (fun q => b q none)
    (by
      intro q hnc i hi
      beta_reduce
      by_cases hq : q ∈ prog.vars ∧ has_flag (ctx.var q).flags MV_FLAG_PARAMETER = true
      · rw [if_pos hq]
        ring
      · rw [if_neg hq, add_zero]
        by_cases hqm : q ∈ prog.vars
        · have hreq : has_flag (ctx.var q).flags MV_FLAG_REQUIRES_GRAD = false := by
            by_contra hne
            apply hnc
            refine ⟨hqm, by simpa using hne, ?_⟩
            by_contra hne2
            exact hq ⟨hqm, by simpa using hne2⟩
          have hn := (hwf.node q (hord.lt q hqm)).grad_none hreq
          rw [grad_empty_of_none ctx q hn] at hi
          simp at hi
        · rw [grad_congr _ _ q (f q hqm)])
    (by
      intro q _ _ hnp i
      beta_reduce
      rw [if_neg]
      rintro ⟨_, h⟩
      rw [hnp] at h
      cases h)
    (by
      intro i
      beta_reduce
      rw [if_neg]
      rintro ⟨_, h⟩
      rw [hrootnp] at h
      cases h)
  obtain ⟨sB, _, _⟩ := compute_grads_seed_frame prog root ctx hlast hsz
  have hrel2 := relH_backward_fold flog _ prog.vars.reverse _ _
    (wf_of_same_skel ctx _ sB hwf) hrel (by
      intro c hc
      have hcm := List.mem_reverse.mp hc
      refine ⟨sB.num_vars ▸ hord.lt c hcm, ?_⟩
      by_cases hcp : has_flag (ctx.var c).flags MV_FLAG_PARAMETER = true
      · right
        rw [(skel_eq _ _ (sB.var c)).2.2.1]
        exact hleaf c hcm hcp
      · left
        intro i
        beta_reduce
        rw [if_neg (fun h => hcp h.2)])
  rw [← compute_grads_unfold, ← compute_grads_unfold] at hrel2
  have hsh := grad_shape_of_skel _ _ hrel2.skel P
  have hsh0 := grad_shape_of_skel _ _ s P
  by_cases hi : i < ((compute_grads flog prog ctx).grad P).data.length
  · rw [hrel2.grad_off P i hi]
    beta_reduce
    rw [if_pos ⟨hP, hpar⟩]
  · have hi2 := not_lt.mp hi
    rw [Matrix.get_of_le _ i hi2, Matrix.get_of_le _ i (hsh.2.2 ▸ hi2),
      Matrix.get_of_le _ i (hsh0.2.2 ▸ hi2)]
    ring

end ParameterGradients2

end Autograd

/-! ## The backward loop as one list of updates -/

namespace Autograd

section Accumulation

variable {α : Type} [LinearOrderedField α]

/-- In a program order no node is an operand of a node placed before it. -/
theorem progOrder_pairwise (ctx : ModelContext α) (l : List Nat) (h : ProgOrder ctx l) :
    l.reverse.Pairwise (fun c d => ¬ ctx.IsOperand c d) := by
  rw [List.pairwise_reverse, List.pairwise_iff_getElem]
  intro i j hi hj hij hop
  obtain ⟨k, hk, hkv⟩ := h.topo i l[i] (List.getElem?_eq_getElem hi) l[j] hop
  have := nodup_index_unique l h.nodup k j l[j] hkv (List.getElem?_eq_getElem hj)
  omega

/-- The backward loop over a list in which no node is an operand of a later one runs, on
its start state, the updates each node generates in the final state. -/
theorem backward_fold_eq_updates (flog : α → α) (L : List Nat) (s : ModelContext α)
    (hwf : s.WF) (hlt : ∀ c, c ∈ L → c < s.num_vars)
    (hpw : L.Pairwise (fun c d => ¬ s.IsOperand c d)) :
    L.foldl (backward_node flog) s
      = apply_updates (L.flatMap (node_updates flog (L.foldl (backward_node flog) s))) s := by
  induction L generalizing s with
  | nil => rfl
  | cons c t ih =>
    have hc := hlt c (List.mem_cons_self c t)
    obtain ⟨hct, hpt⟩ := List.pairwise_cons.mp hpw
    have hs1 := backward_node_skel flog s hwf c hc
    have hwf1 := wf_of_same_skel s _ hs1 hwf
    obtain ⟨_, fb, fv⟩ := backward_fold_frame flog (c :: t) s hwf hlt
    have hself := fv c (by
      intro d hd
      rcases List.mem_cons.mp hd with rfl | hd
      · exact not_isOperand_self s hwf.arena d hc
      · exact hct d hd)
    have hnu : node_updates flog s c
        = node_updates flog ((c :: t).foldl (backward_node flog) s) c := by
      symm
      apply node_updates_congr flog s _ c hself
      intro y _
      have := fb y none
      simp only [ModelVar.mk.injEq] at this
      exact ⟨this.2.2.1, this.2.1⟩
    have ih1 := ih (backward_node flog s c) hwf1
      (fun d hd => hs1.num_vars ▸ hlt d (List.mem_cons_of_mem c hd))
      (hpt.imp (fun {a b} hab hop => hab ((isOperand_of_same_skel s _ hs1 a b).mp hop)))
    rw [List.flatMap_cons, apply_updates_append, ← hnu, ← backward_node_eq flog s hwf c hc]
    exact ih1

/-- A call of `compute_grads` runs, on the cleared and seeded state, the updates each node
of the program generates in the final state, from the last node to the first. -/
theorem compute_grads_eq_updates (flog : α → α) (prog : ModelProgram) (root : Nat)
    (ctx : ModelContext α) (hwf : ctx.WF) (hord : ProgOrder ctx prog.vars)
    (hlast : prog.vars.getLast? = some root) (hsz : prog.size ≤ U32_MOD) :
    compute_grads flog prog ctx
      = apply_updates (prog.vars.reverse.flatMap (node_updates flog (compute_grads flog prog ctx)))
          (compute_grads_seed prog ctx) := by
  obtain ⟨s1, _, _⟩ := compute_grads_seed_frame prog root ctx hlast hsz
  exact backward_fold_eq_updates flog prog.vars.reverse _ (wf_of_same_skel ctx _ s1 hwf)
    (fun c hc => s1.num_vars ▸ hord.lt c (List.mem_reverse.mp hc))
    ((progOrder_pairwise ctx prog.vars hord).imp
      (fun {a b} hab hop => hab ((isOperand_of_same_skel ctx _ s1 a b).mp hop)))

end Accumulation

end Autograd

namespace Autograd

section Accumulation2

variable {α : Type} [LinearOrderedField α]

theorem grad_after_none (us : List (Nat × (Matrix α → Matrix α))) (x : Nat) (g : Matrix α)
    (h : ∀ u, u ∈ us → u.1 ≠ x) : grad_after us x g = g := by
  induction us generalizing g with
  | nil => rfl
  | cons u t ih =>
    rw [grad_after_cons, if_neg (h u (List.mem_cons_self u t))]
    exact ih g (fun v hv => h v (List.mem_cons_of_mem u hv))

/-- Additive updates add to a buffer what they add to a zero buffer of its shape. -/
theorem grad_after_split (us : List (Nat × (Matrix α → Matrix α))) (x : Nat)
    (h : ∀ u, u ∈ us → ShapeAdditive u.2) (g Z : Matrix α)
    (hr : g.rows = Z.rows) (hc : g.cols = Z.cols) (hl : g.data.length = Z.data.length)
    (hZ : ∀ i, Z.get i = 0) :
    ((grad_after us x g).rows = Z.rows ∧ (grad_after us x g).cols = Z.cols ∧
      (grad_after us x g).data.length = Z.data.length) ∧
    ∀ i, i < Z.data.length →
      (grad_after us x g).get i = g.get i + (grad_after us x Z).get i := by
  obtain ⟨d, hg, hz⟩ := grad_after_additive us x h g Z hr hc hl
  refine ⟨⟨hg.1.trans hr, hg.2.1.trans hc, hg.2.2.1.trans hl⟩, ?_⟩
  intro i hi
  rw [hg.2.2.2 i (hl ▸ hi), hz.2.2.2 i hi, hZ i, zero_add]

/-- The updates of a list of nodes add the sum of what the updates of each node add. -/
theorem grad_after_flatMap_sum (L : List Nat) (f : Nat → List (Nat × (Matrix α → Matrix α)))
    (x : Nat) (h : ∀ c, c ∈ L → ∀ u, u ∈ f c → ShapeAdditive u.2) (g Z : Matrix α)
    (hr : g.rows = Z.rows) (hc : g.cols = Z.cols) (hl : g.data.length = Z.data.length)
    (hZ : ∀ i, Z.get i = 0) (i : Nat) (hi : i < Z.data.length) :
    (grad_after (L.flatMap f) x g).get i
      = g.get i + (L.map (fun c => (grad_after (f c) x Z).get i)).sum := by
  induction L generalizing g with
  | nil => simp [grad_after]
  | cons c t ih =>
    obtain ⟨hsh, hsp⟩ := grad_after_split (f c) x (h c (List.mem_cons_self c t)) g Z hr hc hl hZ
    rw [List.flatMap_cons, grad_after_append,
      ih (fun d hd => h d (List.mem_cons_of_mem c hd)) _ hsh.1 hsh.2.1 hsh.2.2, hsp i hi,
      List.map_cons, List.sum_cons]
    ring

theorem list_sum_single (L : List Nat) (f : Nat → α) (hn : L.Nodup) (c : Nat) (hc : c ∈ L)
    (h0 : ∀ d, d ∈ L → d ≠ c → f d = 0) : (L.map f).sum = f c := by
  rw [← List.sum_toFinset f hn]
  apply Finset.sum_eq_single_of_mem c (List.mem_toFinset.mpr hc)
  intro d hd hdc
  exact h0 d (List.mem_toFinset.mp hd) hdc

theorem list_sum_pair (L : List Nat) (f : Nat → α) (hn : L.Nodup) (c1 c2 : Nat)
    (h1 : c1 ∈ L) (h2 : c2 ∈ L) (hne : c1 ≠ c2)
    (h0 : ∀ d, d ∈ L → d ≠ c1 → d ≠ c2 → f d = 0) : (L.map f).sum = f c1 + f c2 := by
  rw [← List.sum_toFinset f hn, ← Finset.sum_pair hne]
  symm
  apply Finset.sum_subset
  · intro d hd
    rcases Finset.mem_insert.mp hd with rfl | hd
    · exact List.mem_toFinset.mpr h1
    · rw [Finset.mem_singleton.mp hd]
      exact List.mem_toFinset.mpr h2
  · intro d hd hnd
    apply h0 d (List.mem_toFinset.mp hd)
    · rintro rfl
      exact hnd (Finset.mem_insert_self _ _)
    · rintro rfl
      exact hnd (Finset.mem_insert_of_mem (Finset.mem_singleton_self _))

theorem list_sum_zero (L : List Nat) (f : Nat → α) (h0 : ∀ d, d ∈ L → f d = 0) :
    (L.map f).sum = 0 := by
  induction L with
  | nil => rfl
  | cons c t ih =>
    rw [List.map_cons, List.sum_cons, h0 c (List.mem_cons_self c t),
      ih (fun d hd => h0 d (List.mem_cons_of_mem c hd)), add_zero]

end Accumulation2

end Autograd

namespace Autograd

section Accumulation3

variable {α : Type} [LinearOrderedField α]

theorem grad_some_of_skel (A B : ModelContext α) (hs : SameSkel B A) (q : Nat) (g : Matrix α)
    (h : (B.var q).grad = some g) : ∃ g2, (A.var q).grad = some g2 ∧ g2.rows = g.rows ∧
      g2.cols = g.cols ∧ g2.data.length = g.data.length := by
  cases hA : (A.var q).grad with
  | none =>
    have := grad_none_of_skel B A hs.symm q hA
    rw [h] at this
    cases this
  | some g2 =>
    have hsh := grad_shape_of_skel A B hs q
    rw [grad_of_some A q g2 hA, grad_of_some B q g h] at hsh
    exact ⟨g2, rfl, hsh⟩

/-- The gradient of a node other than the seeded one before the backward loop. -/
theorem compute_grads_seed_grad_ne (prog : ModelProgram) (root : Nat) (ctx : ModelContext α)
    (hlast : prog.vars.getLast? = some root) (hsz : prog.size ≤ U32_MOD) (x : Nat)
    (hx : x ≠ root) :
    (compute_grads_seed prog ctx).grad x =
      if x ∈ prog.vars ∧ has_flag (ctx.var x).flags MV_FLAG_REQUIRES_GRAD = true ∧
          has_flag (ctx.var x).flags MV_FLAG_PARAMETER = false
      then (ctx.grad x).clear else ctx.grad x := by
  rw [compute_grads_seed_eq prog ctx root hlast hsz, grad_set_grad_ne _ root x _ hx]
  exact (clear_fold_spec prog.vars ctx).2.2 x

/-- The gradient of the seeded node before the backward loop: all ones. -/
theorem compute_grads_seed_grad_root (prog : ModelProgram) (root : Nat) (ctx : ModelContext α)
    (hlast : prog.vars.getLast? = some root) (hsz : prog.size ≤ U32_MOD) (g : Matrix α)
    (hg : (ctx.var root).grad = some g) :
    (compute_grads_seed prog ctx).grad root = g.fill 1 := by
  rw [compute_grads_seed_eq prog ctx root hlast hsz]
  obtain ⟨s1, _, _⟩ := clear_fold_spec prog.vars ctx
  obtain ⟨g1, hg1, hsh⟩ := grad_some_of_skel _ ctx s1 root g hg
  rw [grad_set_grad_self _ root _ g1 (lt_of_grad_some _ root g1 hg1) hg1,
    grad_of_some _ root g1 hg1]
  exact Matrix.fill_eq_of_shape g1 g 1 hsh.1 hsh.2.1 hsh.2.2

/-- The gradient of a node after a call: what it holds before the backward loop plus the
sum, over the nodes of the program, of what the updates of each node add to it. -/
theorem compute_grads_grad_sum (flog : α → α) (prog : ModelProgram) (root : Nat)
    (ctx : ModelContext α) (hwf : ctx.WF) (hord : ProgOrder ctx prog.vars)
    (hlast : prog.vars.getLast? = some root) (hsz : prog.size ≤ U32_MOD)
    (x : Nat) (g : Matrix α) (hg : (ctx.var x).grad = some g) (i : Nat)
    (hi : i < g.data.length) :
    ((compute_grads flog prog ctx).grad x).get i
      = ((compute_grads_seed prog ctx).grad x).get i
        + (prog.vars.map (fun c =>
            (grad_after (node_updates flog (compute_grads flog prog ctx) c) x g.clear).get i)).sum
    := by
  obtain ⟨s1, _, _⟩ := compute_grads_seed_frame prog root ctx hlast hsz
  obtain ⟨gS, hgS, hsh⟩ := grad_some_of_skel _ ctx s1 x g hg
  have hxS := lt_of_grad_some _ x gS hgS
  have h1 : (compute_grads flog prog ctx).grad x
      = grad_after (prog.vars.reverse.flatMap
          (node_updates flog (compute_grads flog prog ctx))) x gS := by
    have h := compute_grads_eq_updates flog prog root ctx hwf hord hlast hsz
    have h2 := congrArg (fun c => ModelContext.grad c x) h
    beta_reduce at h2
    rw [h2]
    exact (apply_updates_grad _ _ x hxS gS hgS).1
  have hcl := MatOps.clear_shape g
  rw [h1, grad_of_some _ x gS hgS, grad_after_flatMap_sum prog.vars.reverse _ x
    (fun c _ u hu => (node_updates_mem flog _ c u hu).2.2) gS g.clear
    (hsh.1.trans hcl.1.symm) (hsh.2.1.trans hcl.2.1.symm) (hsh.2.2.trans hcl.2.2.symm)
    (fun j => Matrix.clear_get g j) i (hcl.2.2.symm ▸ hi), List.map_reverse, List.sum_reverse]

/-- What the updates of node `c` add to a zero buffer is what one step of the backward loop
at `c` leaves in the gradient of `x` once that gradient is replaced by the zero buffer. -/
theorem backward_node_zeroed (flog : α → α) (F : ModelContext α) (hwf : F.WF) (c x : Nat)
    (hc : c < F.num_vars) (hxc : x ≠ c) (g Z : Matrix α) (hg : (F.var x).grad = some g)
    (hr : Z.rows = g.rows) (hcs : Z.cols = g.cols) (hl : Z.data.length = g.data.length) :
    (backward_node flog (F.set_grad x Z) c).grad x = grad_after (node_updates flog F c) x Z := by
  have hs : SameSkel F (F.set_grad x Z) := by
    apply SameSkel.set_grad
    intro g2 hg2
    rw [hg] at hg2
    cases hg2
    exact ⟨hr, hcs, hl⟩
  have hx := lt_of_grad_some F x g hg
  have hv := var_set_grad_self F x Z g hx hg
  rw [backward_node_grad flog _ (wf_of_same_skel F _ hs hwf) c x (hs.num_vars ▸ hc)
    (hs.num_vars ▸ hx) Z (by rw [hv]),
    node_updates_congr flog F (F.set_grad x Z) c (var_set_grad_ne F x c Z (Ne.symm hxc))
      (fun y _ => ⟨val_set_grad F x y Z, flags_set_grad F x y Z⟩)]

end Accumulation3

end Autograd

namespace Autograd

section Accumulation4

variable {α : Type} [LinearOrderedField α]

/-- The updates of a node that does not have `x` as an operand leave a buffer of `x` as it
is. -/
theorem grad_after_not_consumer (flog : α → α) (F : ModelContext α) (c x : Nat) (Z : Matrix α)
    (h : ¬ F.IsOperand x c) : grad_after (node_updates flog F c) x Z = Z := by
  apply grad_after_none
  intro u hu e
  exact h (e ▸ (node_updates_mem flog F c u hu).1)

/-- An operand of a node of a program is a node of the program other than the last. -/
theorem operand_mem_ne_last (ctx : ModelContext α) (l : List Nat) (hord : ProgOrder ctx l)
    (root : Nat) (hlast : l.getLast? = some root) (x c : Nat) (hc : c ∈ l)
    (hop : ctx.IsOperand x c) : x ∈ l ∧ x ≠ root := by
  obtain ⟨i, hi⟩ := List.mem_iff_getElem?.mp hc
  obtain ⟨j, hji, hj⟩ := hord.topo i c hi x hop
  refine ⟨List.mem_iff_getElem?.mpr ⟨j, hj⟩, ?_⟩
  rintro rfl
  rw [List.getLast?_eq_getElem?] at hlast
  have := nodup_index_unique l hord.nodup j (l.length - 1) x hj hlast
  have hil := (List.getElem?_eq_some.mp hi).1
  omega

/-- The gradient of a requires-gradient node that is not a parameter and has exactly the
consumers `c1` and `c2` in the program is the sum of what the step of `c1` and the step of
`c2` each leave in a zeroed buffer. -/
theorem compute_grads_two_consumers (flog : α → α) (prog : ModelProgram) (root : Nat)
    (ctx : ModelContext α) (hwf : ctx.WF) (hord : ProgOrder ctx prog.vars)
    (hlast : prog.vars.getLast? = some root) (hsz : prog.size ≤ U32_MOD)
    (x c1 c2 : Nat) (hc1 : c1 ∈ prog.vars) (hc2 : c2 ∈ prog.vars) (hne : c1 ≠ c2)
    (hx1 : ctx.IsOperand x c1) (hx2 : ctx.IsOperand x c2)
    (honly : ∀ c, c ∈ prog.vars → ctx.IsOperand x c → c = c1 ∨ c = c2)
    (hreq : has_flag (ctx.var x).flags MV_FLAG_REQUIRES_GRAD = true)
    (hnp : has_flag (ctx.var x).flags MV_FLAG_PARAMETER = false) (i : Nat) :
    ((compute_grads flog prog ctx).grad x).get i
      = ((backward_node flog ((compute_grads flog prog ctx).set_grad x
            ((compute_grads flog prog ctx).grad x).clear) c1).grad x).get i
        + ((backward_node flog ((compute_grads flog prog ctx).set_grad x
            ((compute_grads flog prog ctx).grad x).clear) c2).grad x).get i := by
  obtain ⟨sF, _, _⟩ := compute_grads_frame flog prog root ctx hwf hord hlast hsz
  have hwfF := wf_of_same_skel ctx _ sF hwf
  have hc1lt := hord.lt c1 hc1
  have hc2lt := hord.lt c2 hc2
  have hxc1 := hwf.arena.input_lt ctx c1 x hc1lt hx1
  have hxc2 := hwf.arena.input_lt ctx c2 x hc2lt hx2
  have hxlt : x < ctx.num_vars := lt_trans hxc1 hc1lt
  obtain ⟨hxm, hxr⟩ := operand_mem_ne_last ctx prog.vars hord root hlast x c1 hc1 hx1
  obtain ⟨g, hg, _⟩ := (hwf.node x hxlt).grad_some hreq
  obtain ⟨gF, hgF, hshF⟩ := grad_some_of_skel _ ctx sF x g hg
  have hZ : ((compute_grads flog prog ctx).grad x).clear = g.clear := by
    rw [grad_of_some _ x gF hgF]
    exact Matrix.clear_eq_of_shape gF g hshF.1 hshF.2.1 hshF.2.2
  have hcl := MatOps.clear_shape g
  have hstep : ∀ c, c ∈ prog.vars → x ≠ c →
      (backward_node flog ((compute_grads flog prog ctx).set_grad x g.clear) c).grad x
        = grad_after (node_updates flog (compute_grads flog prog ctx) c) x g.clear := by
    intro c hc hxc
    exact backward_node_zeroed flog _ hwfF c x (sF.num_vars ▸ hord.lt c hc) hxc gF g.clear hgF
      (hcl.1.trans hshF.1.symm) (hcl.2.1.trans hshF.2.1.symm) (hcl.2.2.trans hshF.2.2.symm)
  rw [hZ, hstep c1 hc1 (Nat.ne_of_lt hxc1), hstep c2 hc2 (Nat.ne_of_lt hxc2)]
  by_cases hi : i < g.data.length
  · rw [compute_grads_grad_sum flog prog root ctx hwf hord hlast hsz x g hg i hi,
      compute_grads_seed_grad_ne prog root ctx hlast hsz x hxr, if_pos ⟨hxm, hreq, hnp⟩,
      Matrix.clear_get, zero_add]
    apply list_sum_pair prog.vars _ hord.nodup c1 c2 hc1 hc2 hne
    intro d hd hd1 hd2
    beta_reduce
    rw [grad_after_not_consumer flog _ d x, Matrix.clear_get]
    intro hop
    rcases honly d hd ((isOperand_of_same_skel ctx _ sF x d).mp hop) with h | h
    · exact hd1 h
    · exact hd2 h
  · have hi2 := not_lt.mp hi
    have hlen : ∀ c, (grad_after (node_updates flog (compute_grads flog prog ctx) c) x
        g.clear).data.length = g.data.length := by
      intro c
      have := (grad_after_split (node_updates flog (compute_grads flog prog ctx) c) x
        (fun u hu => (node_updates_mem flog _ c u hu).2.2) g.clear g.clear rfl rfl rfl
        (fun j => Matrix.clear_get g j)).1.2.2
      rw [this]
      exact hcl.2.2
    rw [grad_of_some _ x gF hgF, Matrix.get_of_le gF i (hshF.2.2 ▸ hi2),
      Matrix.get_of_le _ i ((hlen c1).symm ▸ hi2), Matrix.get_of_le _ i ((hlen c2).symm ▸ hi2),
      add_zero]

end Accumulation4

end Autograd

/-! ## Small graphs: reachability, updates and kernel entries -/

namespace Autograd

section SmallGraphs

variable {α : Type} [LinearOrderedField α]

/-- A leaf has no operand. -/
theorem leaf_no_operand (ctx : ModelContext α) (hwf : ctx.ArenaWF) (a b : Nat)
    (ha : a < ctx.num_vars) (hleaf : (ctx.var a).op = .Create) : ¬ ctx.IsOperand b a := by
  intro h
  rw [isOperand_iff ctx hwf a b ha, mem_operands] at h
  obtain ⟨i, hi, _⟩ := h
  rw [hleaf] at hi
  simp [mv_num_inputs, ModelVarOp.toNat] at hi

theorem reaches_cases (ctx : ModelContext α) (a c : Nat) (h : ctx.Reaches a c) :
    c = a ∨ ∃ b, ctx.IsOperand b a ∧ ctx.Reaches b c := by
  unfold ModelContext.Reaches at h
  rcases Relation.ReflTransGen.cases_head h with h | ⟨b, hab, hbc⟩
  · exact Or.inl h.symm
  · exact Or.inr ⟨b, hab, hbc⟩

theorem reaches_leaf (ctx : ModelContext α) (hwf : ctx.ArenaWF) (a c : Nat)
    (ha : a < ctx.num_vars) (hleaf : (ctx.var a).op = .Create) (h : ctx.Reaches a c) :
    c = a := by
  rcases reaches_cases ctx a c h with h | ⟨b, hab, _⟩
  · exact h
  · exact absurd hab (leaf_no_operand ctx hwf a b ha hleaf)

theorem isOperand_of_inputs (ctx : ModelContext α) (c a b y : Nat)
    (h0 : (ctx.var c).input0 = some a) (h1 : (ctx.var c).input1 = some b)
    (h : ctx.IsOperand y c) : y = a ∨ y = b := by
  unfold ModelContext.IsOperand at h
  rw [h0, h1] at h
  rcases h with h | h
  · exact Or.inl (Option.some.inj h).symm
  · exact Or.inr (Option.some.inj h).symm

/-- The updates an `Add` node with two requires-gradient operands generates. -/
theorem node_updates_add (flog : α → α) (F : ModelContext α) (c a b : Nat)
    (hop : (F.var c).op = .Add) (h0 : (F.var c).input0 = some a)
    (h1 : (F.var c).input1 = some b)
    (hc : has_flag (F.var c).flags MV_FLAG_REQUIRES_GRAD = true)
    (ha : has_flag (F.var a).flags MV_FLAG_REQUIRES_GRAD = true)
    (hb : has_flag (F.var b).flags MV_FLAG_REQUIRES_GRAD = true) :
    node_updates flog F c = [(a, fun g => (MatOps.add g g (F.grad c)).2),
      (b, fun g => (MatOps.add g g (F.grad c)).2)] := by
  unfold node_updates
  simp [hop, h0, h1, hc, ha, hb, ModelContext.requires_grad, mv_num_inputs, ModelVarOp.toNat]

/-- The update a `Relu` node with a requires-gradient operand generates. -/
theorem node_updates_relu (flog : α → α) (F : ModelContext α) (c a : Nat)
    (hop : (F.var c).op = .Relu) (h0 : (F.var c).input0 = some a)
    (hc : has_flag (F.var c).flags MV_FLAG_REQUIRES_GRAD = true)
    (ha : has_flag (F.var a).flags MV_FLAG_REQUIRES_GRAD = true) :
    node_updates flog F c
      = [(a, fun g => (MatOps.relu_add_grad g (F.var a).val (F.grad c)).2)] := by
  unfold node_updates
  simp [hop, h0, hc, ha, ModelContext.requires_grad, mv_num_inputs, ModelVarOp.toNat]

/-- The update a `Matmul` node generates when only its left operand requires a gradient. -/
theorem node_updates_matmul_left (flog : α → α) (F : ModelContext α) (c a b : Nat)
    (hop : (F.var c).op = .Matmul) (h0 : (F.var c).input0 = some a)
    (h1 : (F.var c).input1 = some b)
    (hc : has_flag (F.var c).flags MV_FLAG_REQUIRES_GRAD = true)
    (ha : has_flag (F.var a).flags MV_FLAG_REQUIRES_GRAD = true)
    (hb : has_flag (F.var b).flags MV_FLAG_REQUIRES_GRAD = false) :
    node_updates flog F c
      = [(a, fun g => (MatOps.mul g (F.grad c) (F.var b).val false false true).2)] := by
  unfold node_updates
  simp [hop, h0, h1, hc, ha, hb, ModelContext.requires_grad, mv_num_inputs, ModelVarOp.toNat]

/-- Entries of the in-place `add(g, g, d)` of the backward pass. -/
theorem MatOps.add_inplace_get (g d : Matrix α) (hr : g.rows = d.rows) (hc : g.cols = d.cols)
    (hwf : g.WF) (i : Nat) (hi : i < g.data.length) :
    (MatOps.add g g d).2.get i = g.get i + d.get i := by
  unfold MatOps.add
  rw [if_neg (by simp [hr, hc]), if_neg (by simp)]
  have h := adds_inplace_loop (fun i => d.get i) g.size g
  rw [h.2.2.2 i hi]
  beta_reduce
  rw [if_pos]
  unfold Matrix.size
  unfold Matrix.WF at hwf
  omega

/-- Entries of `relu_add_grad`. -/
theorem MatOps.relu_add_grad_get (out inp grad : Matrix α) (hr : out.rows = inp.rows)
    (hc : out.cols = inp.cols) (hr2 : out.rows = grad.rows) (hc2 : out.cols = grad.cols)
    (hwf : out.WF) (i : Nat) (hi : i < out.data.length) :
    (MatOps.relu_add_grad out inp grad).2.get i
      = out.get i + (if inp.get i > 0 then grad.get i else 0) := by
  unfold MatOps.relu_add_grad
  rw [if_neg (by simp [hr, hc]), if_neg (by simp [hr2, hc2])]
  have h := adds_loop (fun i => if inp.get i > 0 then grad.get i else 0) out.size out
  rw [h.2.2.2 i hi]
  congr 1
  beta_reduce
  rw [Finset.sum_ite_eq]
  rw [if_pos]
  rw [Finset.mem_range]
  unfold Matrix.size
  unfold Matrix.WF at hwf
  omega

end SmallGraphs

end Autograd

namespace Autograd

section SmallGraphs2

variable {α : Type} [LinearOrderedField α]

theorem fields_of_but_grad (v w : ModelVar α)
    (h : ({ v with grad := none } : ModelVar α) = { w with grad := none }) :
    v.flags = w.flags ∧ v.val = w.val ∧ v.op = w.op ∧ v.input0 = w.input0 ∧
      v.input1 = w.input1 := by
  simp only [ModelVar.mk.injEq] at h
  exact ⟨h.2.1, h.2.2.1, h.2.2.2.2.1, h.2.2.2.2.2.1, h.2.2.2.2.2.2⟩

/-- Before the backward loop the gradient of a node other than the seeded one is zero when
the node is cleared or held zero already. -/
theorem compute_grads_seed_zero (prog : ModelProgram) (root : Nat) (ctx : ModelContext α)
    (hlast : prog.vars.getLast? = some root) (hsz : prog.size ≤ U32_MOD) (x : Nat)
    (hx : x ≠ root)
    (h : (x ∈ prog.vars ∧ has_flag (ctx.var x).flags MV_FLAG_REQUIRES_GRAD = true ∧
        has_flag (ctx.var x).flags MV_FLAG_PARAMETER = false) ∨ ∀ j, (ctx.grad x).get j = 0)
    (j : Nat) : ((compute_grads_seed prog ctx).grad x).get j = 0 := by
  rw [compute_grads_seed_grad_ne prog root ctx hlast hsz x hx]
  split_ifs with hc
  · exact Matrix.clear_get _ j
  · rcases h with h | h
    · exact absurd h hc
    · exact h j

/-- After a call the gradient of the last node of the program is all ones. -/
theorem compute_grads_root_grad (flog : α → α) (prog : ModelProgram) (root : Nat)
    (ctx : ModelContext α) (hwf : ctx.WF) (hord : ProgOrder ctx prog.vars)
    (hlast : prog.vars.getLast? = some root) (hsz : prog.size ≤ U32_MOD)
    (g : Matrix α) (hg : (ctx.var root).grad = some g) (i : Nat) (hi : i < g.data.length) :
    ((compute_grads flog prog ctx).grad root).get i = 1 := by
  obtain ⟨sF, _, _⟩ := compute_grads_frame flog prog root ctx hwf hord hlast hsz
  rw [compute_grads_grad_sum flog prog root ctx hwf hord hlast hsz root g hg i hi,
    compute_grads_seed_grad_root prog root ctx hlast hsz g hg, Matrix.fill_get g 1 i hi,
    list_sum_zero, add_zero]
  intro d hd
  beta_reduce
  rw [grad_after_not_consumer flog _ d root, Matrix.clear_get]
  intro hop
  exact (operand_mem_ne_last ctx prog.vars hord root hlast root d hd
    ((isOperand_of_same_skel ctx _ sF root d).mp hop)).2 rfl

/-- After a call the gradient of a node that starts the backward loop at zero and has the
single consumer `c` in the program is what the updates of `c` leave in a zero buffer. -/
theorem compute_grads_single_consumer (flog : α → α) (prog : ModelProgram) (root : Nat)
    (ctx : ModelContext α) (hwf : ctx.WF) (hord : ProgOrder ctx prog.vars)
    (hlast : prog.vars.getLast? = some root) (hsz : prog.size ≤ U32_MOD)
    (x c : Nat) (hc : c ∈ prog.vars)
    (honly : ∀ d, d ∈ prog.vars → ctx.IsOperand x d → d = c)
    (hzero : ∀ j, ((compute_grads_seed prog ctx).grad x).get j = 0)
    (g : Matrix α) (hg : (ctx.var x).grad = some g) (i : Nat) (hi : i < g.data.length) :
    ((compute_grads flog prog ctx).grad x).get i
      = (grad_after (node_updates flog (compute_grads flog prog ctx) c) x g.clear).get i := by
  obtain ⟨sF, _, _⟩ := compute_grads_frame flog prog root ctx hwf hord hlast hsz
  rw [compute_grads_grad_sum flog prog root ctx hwf hord hlast hsz x g hg i hi, hzero i,
    zero_add]
  apply list_sum_single prog.vars _ hord.nodup c hc
  intro d hd hdc
  beta_reduce
  rw [grad_after_not_consumer flog _ d x, Matrix.clear_get]
  intro hop
  exact hdc (honly d hd ((isOperand_of_same_skel ctx _ sF x d).mp hop))

/-- The same with the two consumers `c1` and `c2`. -/
theorem compute_grads_pair_consumers (flog : α → α) (prog : ModelProgram) (root : Nat)
    (ctx : ModelContext α) (hwf : ctx.WF) (hord : ProgOrder ctx prog.vars)
    (hlast : prog.vars.getLast? = some root) (hsz : prog.size ≤ U32_MOD)
    (x c1 c2 : Nat) (hc1 : c1 ∈ prog.vars) (hc2 : c2 ∈ prog.vars) (hne : c1 ≠ c2)
    (honly : ∀ d, d ∈ prog.vars → ctx.IsOperand x d → d = c1 ∨ d = c2)
    (hzero : ∀ j, ((compute_grads_seed prog ctx).grad x).get j = 0)
    (g : Matrix α) (hg : (ctx.var x).grad = some g) (i : Nat) (hi : i < g.data.length) :
    ((compute_grads flog prog ctx).grad x).get i
      = (grad_after (node_updates flog (compute_grads flog prog ctx) c1) x g.clear).get i
        + (grad_after (node_updates flog (compute_grads flog prog ctx) c2) x g.clear).get i := by
  obtain ⟨sF, _, _⟩ := compute_grads_frame flog prog root ctx hwf hord hlast hsz
  rw [compute_grads_grad_sum flog prog root ctx hwf hord hlast hsz x g hg i hi, hzero i,
    zero_add]
  apply list_sum_pair prog.vars _ hord.nodup c1 c2 hc1 hc2 hne
  intro d hd hd1 hd2
  beta_reduce
  rw [grad_after_not_consumer flog _ d x, Matrix.clear_get]
  intro hop
  rcases honly d hd ((isOperand_of_same_skel ctx _ sF x d).mp hop) with h | h
  · exact hd1 h
  · exact hd2 h

end SmallGraphs2

end Autograd

namespace Autograd

section LinearModel

variable {α : Type} [LinearOrderedField α]

/-- The gradient `compute_grads` leaves in `W` for the root `y = matmul(W, x)` with `W` a
requires-gradient leaf of zero gradient and `x` a one-column leaf without gradient. -/
theorem linear_model_grad (flog : α → α) (prog : ModelProgram) (y : Nat)
    (ctx : ModelContext α) (hwf : ctx.WF) (hord : ProgOrder ctx prog.vars)
    (hlast : prog.vars.getLast? = some y) (hsz : prog.size ≤ U32_MOD)
    (hmem : ∀ c, c ∈ prog.vars → ctx.Reaches y c) (W x : Nat)
    (hop : (ctx.var y).op = .Matmul) (h0 : (ctx.var y).input0 = some W)
    (h1 : (ctx.var y).input1 = some x)
    (hWleaf : (ctx.var W).op = .Create) (hxleaf : (ctx.var x).op = .Create)
    (hWreq : has_flag (ctx.var W).flags MV_FLAG_REQUIRES_GRAD = true)
    (hxreq : has_flag (ctx.var x).flags MV_FLAG_REQUIRES_GRAD = false)
    (hxcols : (ctx.var x).val.cols = 1)
    (hWzero : ∀ j, (ctx.grad W).get j = 0)
    (i j : Nat) (hi : i < (ctx.var W).val.rows) (hj : j < (ctx.var W).val.cols) :
    ((compute_grads flog prog ctx).grad W).at i j = (ctx.var x).val.get j := by
  have hym : y ∈ prog.vars := by
    have h := hlast
    rw [List.getLast?_eq_getElem?] at h
    exact List.mem_iff_getElem?.mpr ⟨_, h⟩
  have hylt := hord.lt y hym
  have hWy := hwf.arena.input_lt ctx y W hylt (Or.inl h0)
  have hxy := hwf.arena.input_lt ctx y x hylt (Or.inr h1)
  have hWlt : W < ctx.num_vars := lt_trans hWy hylt
  have hxlt : x < ctx.num_vars := lt_trans hxy hylt
  have honly : ∀ d, d ∈ prog.vars → ctx.IsOperand W d → d = y := by
    intro d hd hopd
    rcases reaches_cases ctx y d (hmem d hd) with h | ⟨b, hb, hbd⟩
    · exact h
    · exfalso
      rcases isOperand_of_inputs ctx y W x b h0 h1 hb with rfl | rfl
      · rw [reaches_leaf ctx hwf.arena b d hWlt hWleaf hbd] at hopd
        exact leaf_no_operand ctx hwf.arena b b hWlt hWleaf hopd
      · rw [reaches_leaf ctx hwf.arena b d hxlt hxleaf hbd] at hopd
        exact leaf_no_operand ctx hwf.arena b W hxlt hxleaf hopd
  have hyreq := (hwf.node y hylt).req_prop W (Or.inl h0) hWreq
  obtain ⟨gy, hgy, hgyr, hgyc, hgywf⟩ := (hwf.node y hylt).grad_some hyreq
  obtain ⟨gW, hgW, hgWr, hgWc, hgWwf⟩ := (hwf.node W hWlt).grad_some hWreq
  obtain ⟨hmm1, hmm2, hmm3⟩ := (hwf.node y hylt).mm_shape W x hop h0 h1
  have hxwf := (hwf.node x hxlt).val_wf
  obtain ⟨sF, bF, _⟩ := compute_grads_frame flog prog y ctx hwf hord hlast hsz
  have hyF := fields_of_but_grad _ _ (bF y none)
  have hWF := fields_of_but_grad _ _ (bF W none)
  have hxF := fields_of_but_grad _ _ (bF x none)
  have hroot1 := compute_grads_root_grad flog prog y ctx hwf hord hlast hsz gy hgy
  have hsing := compute_grads_single_consumer flog prog y ctx hwf hord hlast hsz W y hym honly
    (compute_grads_seed_zero prog y ctx hlast hsz W (Nat.ne_of_lt hWy) (Or.inr hWzero)) gW hgW
  have hnu := node_updates_matmul_left flog (compute_grads flog prog ctx) y W x
    (hyF.2.2.1.trans hop) (hyF.2.2.2.1.trans h0) (hyF.2.2.2.2.trans h1)
    (hyF.1 ▸ hyreq) (hWF.1 ▸ hWreq) (hxF.1 ▸ hxreq)
  obtain ⟨gyF, hgyF, hshy⟩ := grad_some_of_skel _ ctx sF y gy hgy
  obtain ⟨gWF, hgWF, hshW⟩ := grad_some_of_skel _ ctx sF W gW hgW
  rw [hnu] at hsing
  rw [grad_of_some _ y gyF hgyF] at hroot1 hsing
  rw [grad_of_some _ W gWF hgWF] at hsing ⊢
  rw [hxF.2.1] at hsing
  simp only [grad_after, List.foldl, if_true] at hsing
  have hcl := MatOps.clear_shape gW
  have hgyFwf : gyF.WF := by
    unfold Matrix.WF at hgywf ⊢
    rw [hshy.1, hshy.2.1, hshy.2.2]
    exact hgywf
  have hv : (MatOps.mul gW.clear gyF (ctx.var x).val false false true).1 = true := by
    rw [MatOps.mul_ok_iff]
    simp only [Bool.false_eq_true, if_false, if_true]
    refine ⟨?_, ?_, ?_⟩
    · rw [hshy.2.1, hgyc, hmm3]
    · rw [hcl.1, hgWr, hshy.1, hgyr, hmm2]
    · rw [hcl.2.1, hgWc, hmm1]
  have hat := MatOps.mul_at gW.clear gyF (ctx.var x).val false false true
    (MatOps.clear_WF gW hgWwf) hgyFwf hxwf hv i j (by rw [hcl.1, hgWr]; exact hi)
    (by rw [hcl.2.1, hgWc]; exact hj)
  have hp : j + i * (ctx.var W).val.cols < gW.data.length := by
    unfold Matrix.WF at hgWwf
    rw [hgWwf, hgWr, hgWc]
    calc j + i * (ctx.var W).val.cols < (ctx.var W).val.cols + i * (ctx.var W).val.cols := by
          omega
      _ = (i + 1) * (ctx.var W).val.cols := by ring
      _ ≤ (ctx.var W).val.rows * (ctx.var W).val.cols := Nat.mul_le_mul_right _ hi
  have hgy1 : gyF.at i 0 = 1 := by
    unfold Matrix.at
    apply hroot1
    unfold Matrix.WF at hgywf
    rw [hshy.2.1, hgyc, hmm3, hxcols, hgywf, hgyr, hgyc, hmm2, hmm3, hxcols]
    omega
  unfold Matrix.at at hat ⊢
  rw [(MatOps.mul_shape _ _ _ _ _ _).2.1, hcl.2.1, hgWc] at hat
  rw [hshW.2.1, hgWc, hsing _ hp, hat]
  simp only [Bool.false_eq_true, if_false, if_true]
  rw [hshy.2.1, hgyc, hmm3, hxcols, Finset.sum_range_one, Matrix.clear_get, zero_add]
  unfold Matrix.at at hgy1
  rw [hshy.2.1, hgyc, hmm3, hxcols] at hgy1
  rw [hgy1, one_mul]
  congr 1
  omega

end LinearModel

end Autograd

namespace Autograd

section AddRelu

variable {α : Type} [LinearOrderedField α]

theorem compute_grads_grad_shape (flog : α → α) (prog : ModelProgram) (root : Nat)
    (ctx : ModelContext α) (hwf : ctx.WF) (hord : ProgOrder ctx prog.vars)
    (hlast : prog.vars.getLast? = some root) (hsz : prog.size ≤ U32_MOD)
    (q : Nat) (g : Matrix α) (hg : (ctx.var q).grad = some g) :
    ((compute_grads flog prog ctx).grad q).rows = g.rows ∧
      ((compute_grads flog prog ctx).grad q).cols = g.cols ∧
      ((compute_grads flog prog ctx).grad q).data.length = g.data.length := by
  have h := grad_shape_of_skel _ ctx
    (compute_grads_frame flog prog root ctx hwf hord hlast hsz).1 q
  rw [grad_of_some ctx q g hg] at h
  exact h

/-- The gradient `compute_grads` leaves in the leaf `x` for the root `r = add(x, relu(x))`:
one from the `Add` node plus one from the `Relu` node where the value is positive. -/
theorem add_relu_grad (flog : α → α) (prog : ModelProgram) (r : Nat)
    (ctx : ModelContext α) (hwf : ctx.WF) (hord : ProgOrder ctx prog.vars)
    (hlast : prog.vars.getLast? = some r) (hsz : prog.size ≤ U32_MOD)
    (hmem : ∀ c, c ∈ prog.vars → ctx.Reaches r c) (x y : Nat)
    (hop : (ctx.var r).op = .Add) (h0 : (ctx.var r).input0 = some x)
    (h1 : (ctx.var r).input1 = some y)
    (hyop : (ctx.var y).op = .Relu) (hy0 : (ctx.var y).input0 = some x)
    (hxleaf : (ctx.var x).op = .Create)
    (hxreq : has_flag (ctx.var x).flags MV_FLAG_REQUIRES_GRAD = true)
    (hxnp : has_flag (ctx.var x).flags MV_FLAG_PARAMETER = false)
    (hynp : has_flag (ctx.var y).flags MV_FLAG_PARAMETER = false)
    (i : Nat) (hi : i < (ctx.var x).val.data.length) :
    ((compute_grads flog prog ctx).grad x).get i
      = 1 + (if (ctx.var x).val.get i > 0 then 1 else 0) := by
  have hrm : r ∈ prog.vars := by
    have h := hlast
    rw [List.getLast?_eq_getElem?] at h
    exact List.mem_iff_getElem?.mpr ⟨_, h⟩
  have hrlt := hord.lt r hrm
  have hxr := hwf.arena.input_lt ctx r x hrlt (Or.inl h0)
  have hyr := hwf.arena.input_lt ctx r y hrlt (Or.inr h1)
  have hylt : y < ctx.num_vars := lt_trans hyr hrlt
  have hxy := hwf.arena.input_lt ctx y x hylt (Or.inl hy0)
  have hxlt : x < ctx.num_vars := lt_trans hxr hrlt
  have hy1 : (ctx.var y).input1 = none := by
    have := hwf.arena.inputs_none y hylt 1 (by rw [hyop]; simp [mv_num_inputs, ModelVarOp.toNat])
    simpa [ModelVar.inputs] using this
  have hyops : ∀ b, ctx.IsOperand b y → b = x := by
    intro b hb
    unfold ModelContext.IsOperand at hb
    rw [hy0, hy1] at hb
    rcases hb with hb | hb
    · exact (Option.some.inj hb).symm
    · cases hb
  have hnodes : ∀ d, d ∈ prog.vars → d = r ∨ d = x ∨ d = y := by
    intro d hd
    rcases reaches_cases ctx r d (hmem d hd) with h | ⟨b, hb, hbd⟩
    · exact Or.inl h
    · rcases isOperand_of_inputs ctx r x y b h0 h1 hb with rfl | rfl
      · exact Or.inr (Or.inl (reaches_leaf ctx hwf.arena b d hxlt hxleaf hbd))
      · rcases reaches_cases ctx b d hbd with h | ⟨b2, hb2, hb2d⟩
        · exact Or.inr (Or.inr h)
        · rw [hyops b2 hb2] at hb2d
          exact Or.inr (Or.inl (reaches_leaf ctx hwf.arena x d hxlt hxleaf hb2d))
  have honlyx : ∀ d, d ∈ prog.vars → ctx.IsOperand x d → d = y ∨ d = r := by
    intro d hd hopd
    rcases hnodes d hd with rfl | rfl | rfl
    · exact Or.inr rfl
    · exact absurd hopd (leaf_no_operand ctx hwf.arena d d hxlt hxleaf)
    · exact Or.inl rfl
  have honlyy : ∀ d, d ∈ prog.vars → ctx.IsOperand y d → d = r := by
    intro d hd hopd
    rcases hnodes d hd with rfl | rfl | rfl
    · rfl
    · exact absurd hopd (leaf_no_operand ctx hwf.arena d y hxlt hxleaf)
    · exact absurd hopd (not_isOperand_self ctx hwf.arena d hylt)
  obtain ⟨hym, _⟩ := operand_mem_ne_last ctx prog.vars hord r hlast y r hrm (Or.inr h1)
  have hyreq := (hwf.node y hylt).req_prop x (Or.inl hy0) hxreq
  have hrreq := (hwf.node r hrlt).req_prop x (Or.inl h0) hxreq
  obtain ⟨gx, hgx, hgxr, hgxc, hgxwf⟩ := (hwf.node x hxlt).grad_some hxreq
  obtain ⟨gy, hgy, hgyr, hgyc, hgywf⟩ := (hwf.node y hylt).grad_some hyreq
  obtain ⟨gr, hgr, hgrr, hgrc, hgrwf⟩ := (hwf.node r hrlt).grad_some hrreq
  obtain ⟨⟨hxr1, hxr2⟩, ⟨hyr1, hyr2⟩⟩ := (hwf.node r hrlt).ew_shape x y (Or.inl hop) h0 h1
  have hxwf := (hwf.node x hxlt).val_wf
  unfold Matrix.WF at hxwf hgxwf hgywf hgrwf
  have hlx : gx.data.length = (ctx.var x).val.data.length := by rw [hgxwf, hgxr, hgxc, hxwf]
  have hly : gy.data.length = (ctx.var x).val.data.length := by
    rw [hgywf, hgyr, hgyc, hyr1, hyr2, ← hxr1, ← hxr2, hxwf]
  have hlr : gr.data.length = (ctx.var x).val.data.length := by
    rw [hgrwf, hgrr, hgrc, ← hxr1, ← hxr2, hxwf]
  obtain ⟨sF, bF, _⟩ := compute_grads_frame flog prog r ctx hwf hord hlast hsz
  have hrF := fields_of_but_grad _ _ (bF r none)
  have hyF := fields_of_but_grad _ _ (bF y none)
  have hxF := fields_of_but_grad _ _ (bF x none)
  have hshr := compute_grads_grad_shape flog prog r ctx hwf hord hlast hsz r gr hgr
  have hshy := compute_grads_grad_shape flog prog r ctx hwf hord hlast hsz y gy hgy
  have hroot1 := compute_grads_root_grad flog prog r ctx hwf hord hlast hsz gr hgr i
    (hlr ▸ hi)
  have hnur := node_updates_add flog (compute_grads flog prog ctx) r x y
    (hrF.2.2.1.trans hop) (hrF.2.2.2.1.trans h0) (hrF.2.2.2.2.trans h1)
    (hrF.1 ▸ hrreq) (hxF.1 ▸ hxreq) (hyF.1 ▸ hyreq)
  have hnuy := node_updates_relu flog (compute_grads flog prog ctx) y x
    (hyF.2.2.1.trans hyop) (hyF.2.2.2.1.trans hy0) (hyF.1 ▸ hyreq) (hxF.1 ▸ hxreq)
  have hclx := MatOps.clear_shape gx
  have hcly := MatOps.clear_shape gy
  have hgy1 : ((compute_grads flog prog ctx).grad y).get i = 1 := by
    rw [compute_grads_single_consumer flog prog r ctx hwf hord hlast hsz y r hrm honlyy
      (compute_grads_seed_zero prog r ctx hlast hsz y (Nat.ne_of_lt hyr)
        (Or.inl ⟨hym, hyreq, hynp⟩)) gy hgy i (hly ▸ hi), hnur]
    simp only [grad_after, List.foldl, if_neg (Nat.ne_of_lt hxy), if_true]
    rw [MatOps.add_inplace_get gy.clear _ (by rw [hcly.1, hshr.1, hgyr, hgrr, hyr1])
      (by rw [hcly.2.1, hshr.2.1, hgyc, hgrc, hyr2])
      (MatOps.clear_WF gy hgywf) i (by rw [hcly.2.2, hly]; exact hi),
      Matrix.clear_get, hroot1, zero_add]
  rw [compute_grads_pair_consumers flog prog r ctx hwf hord hlast hsz x y r hym hrm
    (Nat.ne_of_lt hyr) honlyx
    (compute_grads_seed_zero prog r ctx hlast hsz x (Nat.ne_of_lt hxr)
      (Or.inl ⟨(operand_mem_ne_last ctx prog.vars hord r hlast x r hrm (Or.inl h0)).1,
        hxreq, hxnp⟩)) gx hgx i (hlx ▸ hi), hnur, hnuy]
  simp only [grad_after, List.foldl, if_neg (Nat.ne_of_gt hxy), if_true]
  rw [MatOps.relu_add_grad_get gx.clear _ _ (by rw [hclx.1, hgxr, hxF.2.1])
      (by rw [hclx.2.1, hgxc, hxF.2.1])
      (by rw [hclx.1, hshy.1, hgxr, hgyr, hyr1, hxr1])
      (by rw [hclx.2.1, hshy.2.1, hgxc, hgyc, hyr2, hxr2])
      (MatOps.clear_WF gx hgxwf) i (by rw [hclx.2.2, hlx]; exact hi),
    MatOps.add_inplace_get gx.clear _ (by rw [hclx.1, hshr.1, hgxr, hgrr, hxr1])
      (by rw [hclx.2.1, hshr.2.1, hgxc, hgrc, hxr2])
      (MatOps.clear_WF gx hgxwf) i (by rw [hclx.2.2, hlx]; exact hi),
    Matrix.clear_get, hroot1, hgy1, hxF.2.1, zero_add, zero_add, add_comm]

end AddRelu

end Autograd

namespace Autograd

section ForwardThenBackward

variable {α : Type} [LinearOrderedField α]

theorem fields_of_but_val (v w : ModelVar α) (m : Matrix α)
    (h : ({ v with val := m } : ModelVar α) = w) :
    v.flags = w.flags ∧ v.op = w.op ∧ v.input0 = w.input0 ∧ v.input1 = w.input1 ∧
      v.grad = w.grad := by
  subst h
  exact ⟨rfl, rfl, rfl, rfl, rfl⟩

theorem reaches_of_same_skel (ctx ctx2 : ModelContext α) (hs : SameSkel ctx ctx2) (a c : Nat)
    (h : ctx.Reaches a c) : ctx2.Reaches a c := by
  unfold ModelContext.Reaches at *
  exact Relation.ReflTransGen.mono
    (fun p q hpq => (isOperand_of_same_skel ctx ctx2 hs q p).mpr hpq) h

/-- What compiling and one forward pass give: a program order ending in the root, of at
most `2^32` nodes, all reachable from the root, on a well-formed state that differs from
the start state in the values of non-leaf nodes only. -/
theorem forward_state (fexp flog : α → α) (ctx : ModelContext α) (hwf : ctx.WF)
    (hn : ctx.num_vars ≤ U32_MOD) (root : Nat) (hroot : root < ctx.num_vars) :
    ∃ prog, ctx.create_program root = some prog ∧
      (compute_program fexp flog prog ctx).WF ∧
      ProgOrder (compute_program fexp flog prog ctx) prog.vars ∧
      prog.vars.getLast? = some root ∧ prog.size ≤ U32_MOD ∧
      (∀ c, c ∈ prog.vars → (compute_program fexp flog prog ctx).Reaches root c) ∧
      (∀ q, ((compute_program fexp flog prog ctx).var q).flags = (ctx.var q).flags ∧
        ((compute_program fexp flog prog ctx).var q).op = (ctx.var q).op ∧
        ((compute_program fexp flog prog ctx).var q).input0 = (ctx.var q).input0 ∧
        ((compute_program fexp flog prog ctx).var q).input1 = (ctx.var q).input1 ∧
        ((compute_program fexp flog prog ctx).var q).grad = (ctx.var q).grad) ∧
      (∀ q, (ctx.var q).op = .Create →
        (compute_program fexp flog prog ctx).var q = ctx.var q) := by
  obtain ⟨prog, hp, hord, hlast, hmem⟩ := create_program_order ctx hwf.arena root hroot
  obtain ⟨s1, _, _, hbv, hleafs, _⟩ := compute_program_spec fexp flog ctx hwf prog hord
  exact ⟨prog, hp, wf_of_same_skel ctx _ s1 hwf, ProgOrder.of_same_skel ctx _ s1 prog.vars hord,
    hlast, le_trans (nodup_length_le prog.vars ctx.num_vars hord.nodup hord.lt) hn,
    fun c hc => reaches_of_same_skel ctx _ s1 root c ((hmem c).mp hc),
    fun q => fields_of_but_val _ _ _ (hbv q), hleafs⟩

end ForwardThenBackward

end Autograd

/-! ## Softmax, argmax, and add followed by sub -/

namespace Autograd

section KernelFacts

variable {α : Type} [LinearOrderedField α]

theorem Matrix.sum_eq_list_sum (m : Matrix α) : m.sum = m.data.sum := by
  unfold Matrix.sum
  rw [List.sum_eq_foldl]

theorem list_sum_map_range (f : Nat → α) (n : Nat) :
    ((List.range n).map f).sum = ∑ i in Finset.range n, f i := by
  induction n with
  | zero => simp
  | succ n ih => rw [List.sum_range_succ, Finset.sum_range_succ, ih]

/-- `softmax` on matching shapes: success, the quotient form of every entry, positivity
and unit sum, when the exponential is positive and the matrix is not empty. -/
theorem MatOps.softmax_normalised (fexp : α → α) (hexp : ∀ x, 0 < fexp x) (out inp : Matrix α)
    (hr : out.rows = inp.rows) (hc : out.cols = inp.cols) (hwf : out.WF)
    (hne : 0 < inp.size) :
    (MatOps.softmax fexp out inp).1 = true ∧
    (MatOps.softmax fexp out inp).2.rows = inp.rows ∧
    (MatOps.softmax fexp out inp).2.cols = inp.cols ∧
    (MatOps.softmax fexp out inp).2.data.length = inp.size ∧
    (∀ i, i < inp.size →
      (MatOps.softmax fexp out inp).2.get i
        = fexp (inp.get i) / ∑ j in Finset.range inp.size, fexp (inp.get j) ∧
      0 < (MatOps.softmax fexp out inp).2.get i) ∧
    (MatOps.softmax fexp out inp).2.sum = 1 := by
  have hS : 0 < ∑ j in Finset.range inp.size, fexp (inp.get j) :=
    Finset.sum_pos (fun j _ => hexp (inp.get j)) ⟨0, Finset.mem_range.mpr hne⟩
  have h1 : (MatOps.softmax fexp out inp).1 = true := by
    unfold MatOps.softmax
    rw [if_neg (by simp [hr, hc])]
  rw [MatOps.softmax_eq_spec fexp out inp hr hc hwf]
  refine ⟨h1, rfl, rfl, by simp [softmax_spec], ?_, ?_⟩
  · intro i hi
    have hg : (softmax_spec fexp inp).get i
        = fexp (inp.get i) / ∑ j in Finset.range inp.size, fexp (inp.get j) := by
      unfold softmax_spec
      rw [get_mk_map_range _ _ _ _ i hi, mul_one_div]
    rw [hg]
    exact ⟨rfl, div_pos (hexp _) hS⟩
  · rw [Matrix.sum_eq_list_sum]
    unfold softmax_spec
    simp only
    rw [list_sum_map_range, ← Finset.sum_mul, mul_one_div, div_self (ne_of_gt hS)]

end KernelFacts

end Autograd

namespace Autograd

section Argmax

variable {α : Type} [LinearOrderedField α]

/-- The invariant of the loop of `argmax` after the positions `1 .. n` have been compared:
the running index holds the first maximum of the positions `0 .. n`. -/
theorem Matrix.argmax_loop (m : Matrix α) (n : Nat) :
    (List.range n).foldl
        (fun max_i k => if m.get (k + 1) > m.get max_i then k + 1 else max_i) 0 ≤ n ∧
    (∀ j, j ≤ n → m.get j ≤ m.get ((List.range n).foldl
        (fun max_i k => if m.get (k + 1) > m.get max_i then k + 1 else max_i) 0)) ∧
    (∀ j, j < (List.range n).foldl
        (fun max_i k => if m.get (k + 1) > m.get max_i then k + 1 else max_i) 0 →
      m.get j < m.get ((List.range n).foldl
        (fun max_i k => if m.get (k + 1) > m.get max_i then k + 1 else max_i) 0)) := by
  induction n with
  | zero =>
    refine ⟨le_refl 0, ?_, ?_⟩
    · intro j hj
      rw [Nat.le_zero.mp hj]
      exact le_refl _
    · intro j hj
      exact absurd hj (Nat.not_lt_zero j)
  | succ n ih =>
    rw [List.range_succ, List.foldl_append]
    simp only [List.foldl_cons, List.foldl_nil]
    obtain ⟨h1, h2, h3⟩ := ih
    by_cases hgt : m.get (n + 1) > m.get ((List.range n).foldl
        (fun max_i k => if m.get (k + 1) > m.get max_i then k + 1 else max_i) 0)
    · rw [if_pos hgt]
      refine ⟨le_refl _, ?_, ?_⟩
      · intro j hj
        rcases Nat.lt_or_ge j (n + 1) with hlt | hge
        · exact le_trans (h2 j (Nat.lt_succ_iff.mp hlt)) (le_of_lt hgt)
        · rw [le_antisymm hj hge]
      · intro j hj
        exact lt_of_le_of_lt (h2 j (Nat.lt_succ_iff.mp hj)) hgt
    · rw [if_neg hgt]
      refine ⟨Nat.le_succ_of_le h1, ?_, h3⟩
      intro j hj
      rcases Nat.lt_or_ge j (n + 1) with hlt | hge
      · exact h2 j (Nat.lt_succ_iff.mp hlt)
      · rw [le_antisymm hj hge]
        exact not_lt.mp hgt

/-- `argmax` of a non-empty buffer: a position of the buffer holding a maximum, with every
earlier position strictly smaller. -/
theorem Matrix.argmax_first_max (m : Matrix α) (hne : 0 < m.data.length) :
    m.argmax < m.data.length ∧ (∀ j, j < m.data.length → m.get j ≤ m.get m.argmax) ∧
      (∀ j, j < m.argmax → m.get j < m.get m.argmax) := by
  obtain ⟨h1, h2, h3⟩ := Matrix.argmax_loop m (m.data.length - 1)
  unfold Matrix.argmax
  refine ⟨by omega, fun j hj => h2 j (by omega), h3⟩

end Argmax

end Autograd

namespace Autograd

section AddSub

variable {α : Type} [LinearOrderedField α]

theorem MatOps.add_ok (out a b : Matrix α) (hab : a.rows = b.rows ∧ a.cols = b.cols)
    (hr : out.rows = a.rows) (hc : out.cols = a.cols) : (MatOps.add out a b).1 = true := by
  unfold MatOps.add
  rw [if_neg (by simp [hab.1, hab.2]), if_neg (by simp [hr, hc])]

theorem MatOps.sub_ok (out a b : Matrix α) (hab : a.rows = b.rows ∧ a.cols = b.cols)
    (hr : out.rows = a.rows) (hc : out.cols = a.cols) : (MatOps.sub out a b).1 = true := by
  unfold MatOps.sub
  rw [if_neg (by simp [hab.1, hab.2]), if_neg (by simp [hr, hc])]

/-- Subtracting `b` from the elementwise sum of `a` and `b` gives `a` back. -/
theorem sub_spec_add_spec (a b : Matrix α) (ha : a.WF) : sub_spec (add_spec a b) b = a := by
  unfold Matrix.WF at ha
  refine Matrix.ext_get _ a rfl rfl ?_ ?_
  · simp [sub_spec, add_spec, Matrix.size, ha]
  · intro i hi
    have hi2 : i < a.size := by
      simpa [sub_spec, add_spec, Matrix.size] using hi
    have h1 : (sub_spec (add_spec a b) b).get i = (add_spec a b).get i - b.get i := by
      unfold sub_spec
      exact get_mk_map_range _ _ _ _ i hi2
    have h2 : (add_spec a b).get i = a.get i + b.get i := by
      unfold add_spec
      exact get_mk_map_range _ _ _ _ i hi2
    rw [h1, h2, add_sub_cancel_right]

/-- `add` into `t`, then `sub` of the same `b` into `r` or in place, gives `a` back. -/
theorem MatOps.add_then_sub (t r a b : Matrix α) (hab : a.rows = b.rows ∧ a.cols = b.cols)
    (htr : t.rows = a.rows) (htc : t.cols = a.cols) (hrr : r.rows = a.rows)
    (hrc : r.cols = a.cols) (ha : a.WF) (ht : t.WF) (hr : r.WF) :
    (MatOps.add t a b).1 = true ∧
    (MatOps.sub r (MatOps.add t a b).2 b).1 = true ∧
    (MatOps.sub r (MatOps.add t a b).2 b).2 = a ∧
    (MatOps.sub (MatOps.add t a b).2 (MatOps.add t a b).2 b).1 = true ∧
    (MatOps.sub (MatOps.add t a b).2 (MatOps.add t a b).2 b).2 = a := by
  have hT := MatOps.add_eq_spec t a b hab htr htc ht
  have hTwf : (add_spec a b).WF := by
    simp [Matrix.WF, add_spec, Matrix.size]
  have hTb : (add_spec a b).rows = b.rows ∧ (add_spec a b).cols = b.cols := hab
  rw [hT]
  refine ⟨MatOps.add_ok t a b hab htr htc, MatOps.sub_ok r _ b hTb hrr hrc, ?_,
    MatOps.sub_ok _ _ b hTb rfl rfl, ?_⟩
  · rw [MatOps.sub_eq_spec r _ b hTb hrr hrc hr]
    exact sub_spec_add_spec a b ha
  · rw [MatOps.sub_eq_spec _ _ b hTb rfl rfl hTwf]
    exact sub_spec_add_spec a b ha

end AddSub

end Autograd

/-! ## The composers -/

namespace Autograd

section Composers

variable {α : Type} [LinearOrderedField α]

/-- What `binary_impl` appends: one node of the requested shape, at the end of the arena. -/
theorem binary_impl_appends (ctx : ModelContext α) (a b rows cols flags : Nat)
    (op : ModelVarOp) :
    ∃ v : ModelVar α, (ctx.binary_impl a b rows cols flags op).1.all_vars = ctx.all_vars ++ [v] ∧
      (ctx.binary_impl a b rows cols flags op).2 = ctx.num_vars ∧
      v.val.rows = rows ∧ v.val.cols = cols ∧ v.op = op ∧ v.input0 = some a ∧
      v.input1 = some b ∧
      has_flag v.flags MV_FLAG_REQUIRES_GRAD
        = (has_flag flags MV_FLAG_REQUIRES_GRAD ||
            (has_flag (ctx.var a).flags MV_FLAG_REQUIRES_GRAD ||
              has_flag (ctx.var b).flags MV_FLAG_REQUIRES_GRAD)) := by
  obtain ⟨h1, h2⟩ := binary_impl_vars ctx a b rows cols flags op
  refine ⟨_, h1, h2, rfl, rfl, rfl, rfl, rfl, ?_⟩
  simp only [new_var]
  by_cases hab : (has_flag (ctx.var a).flags MV_FLAG_REQUIRES_GRAD
      || has_flag (ctx.var b).flags MV_FLAG_REQUIRES_GRAD) = true
  · rw [if_pos hab, has_flag_or_req, hab, Bool.or_true]
  · rw [if_neg hab, Bool.not_eq_true _ |>.mp hab, Bool.or_false]

/-- What `unary_impl` appends. -/
theorem unary_impl_appends (ctx : ModelContext α) (a rows cols flags : Nat) (op : ModelVarOp) :
    ∃ v : ModelVar α, (ctx.unary_impl a rows cols flags op).1.all_vars = ctx.all_vars ++ [v] ∧
      (ctx.unary_impl a rows cols flags op).2 = ctx.num_vars ∧
      v.val.rows = rows ∧ v.val.cols = cols ∧ v.op = op ∧ v.input0 = some a ∧
      v.input1 = none ∧
      has_flag v.flags MV_FLAG_REQUIRES_GRAD
        = (has_flag flags MV_FLAG_REQUIRES_GRAD ||
            has_flag (ctx.var a).flags MV_FLAG_REQUIRES_GRAD) := by
  obtain ⟨h1, h2⟩ := unary_impl_vars ctx a rows cols flags op
  refine ⟨_, h1, h2, rfl, rfl, rfl, rfl, rfl, ?_⟩
  simp only [new_var]
  by_cases ha : has_flag (ctx.var a).flags MV_FLAG_REQUIRES_GRAD = true
  · rw [if_pos ha, has_flag_or_req, ha, Bool.or_true]
  · rw [if_neg ha, Bool.not_eq_true _ |>.mp ha, Bool.or_false]

end Composers

end Autograd

namespace Autograd

section Composers2

variable {α : Type} [LinearOrderedField α]

/-- The common form of the binary composers: reject on `mismatch` and leave the context as
it is, or append one node of shape `rows` by `cols`. -/
theorem composer_outcome (ctx : ModelContext α) (a b rows cols flags : Nat) (op : ModelVarOp)
    (mismatch : Prop) [Decidable mismatch] (r : ModelContext α × Option Nat)
    (hr : r = if mismatch then (ctx, none)
      else ((ctx.binary_impl a b rows cols flags op).1,
        some (ctx.binary_impl a b rows cols flags op).2)) :
    (r.2 = none ↔ mismatch) ∧ (r.2 = none → r.1 = ctx) ∧
      (∀ p, r.2 = some p → p = ctx.num_vars ∧ r.1.num_vars = ctx.num_vars + 1 ∧
        (∀ q, q < ctx.num_vars → r.1.var q = ctx.var q) ∧
        (r.1.var p).val.rows = rows ∧ (r.1.var p).val.cols = cols) := by
  subst hr
  by_cases hm : mismatch
  · rw [if_pos hm]
    exact ⟨⟨fun _ => hm, fun _ => rfl⟩, fun _ => rfl, fun p hp => (by cases hp)⟩
  · rw [if_neg hm]
    refine ⟨⟨fun h => (by cases h), fun h => absurd h hm⟩, fun h => (by cases h), ?_⟩
    intro p hp
    obtain ⟨v, h1, h2, h3, h4, _⟩ := binary_impl_appends ctx a b rows cols flags op
    have hp2 : p = ctx.num_vars := by
      simp only [Option.some.injEq] at hp
      rw [← hp, h2]
    subst hp2
    refine ⟨rfl, num_vars_append ctx _ v h1, fun q hq => var_lt_append ctx _ v h1 q hq, ?_, ?_⟩
    · rw [var_new_append ctx _ v h1]
      exact h3
    · rw [var_new_append ctx _ v h1]
      exact h4

end Composers2

end Autograd

namespace Autograd

section Composers3

variable {α : Type} [LinearOrderedField α]

/-- The requires-gradient flag of the node a binary composer creates. -/
theorem binary_composer_flag (ctx : ModelContext α) (a b rows cols flags : Nat)
    (op : ModelVarOp) (mismatch : Prop) [Decidable mismatch]
    (r : ModelContext α × Option Nat)
    (hr : r = if mismatch then (ctx, none)
      else ((ctx.binary_impl a b rows cols flags op).1,
        some (ctx.binary_impl a b rows cols flags op).2))
    (p : Nat) (hp : r.2 = some p) :
    has_flag (r.1.var p).flags MV_FLAG_REQUIRES_GRAD
      = (has_flag flags MV_FLAG_REQUIRES_GRAD ||
          (has_flag (ctx.var a).flags MV_FLAG_REQUIRES_GRAD ||
            has_flag (ctx.var b).flags MV_FLAG_REQUIRES_GRAD)) := by
  subst hr
  by_cases hm : mismatch
  · rw [if_pos hm] at hp
    cases hp
  · rw [if_neg hm] at hp ⊢
    obtain ⟨v, h1, h2, _, _, _, _, _, h8⟩ := binary_impl_appends ctx a b rows cols flags op
    simp only [Option.some.injEq] at hp
    rw [← hp, h2, var_new_append ctx _ v h1]
    exact h8

/-- The requires-gradient flag of the node a unary composer creates. -/
theorem unary_composer_flag (ctx : ModelContext α) (a rows cols flags : Nat)
    (op : ModelVarOp) (r : ModelContext α × Option Nat)
    (hr : r = ((ctx.unary_impl a rows cols flags op).1,
        some (ctx.unary_impl a rows cols flags op).2))
    (p : Nat) (hp : r.2 = some p) :
    has_flag (r.1.var p).flags MV_FLAG_REQUIRES_GRAD
      = (has_flag flags MV_FLAG_REQUIRES_GRAD ||
          has_flag (ctx.var a).flags MV_FLAG_REQUIRES_GRAD) := by
  subst hr
  obtain ⟨v, h1, h2, _, _, _, _, _, h8⟩ := unary_impl_appends ctx a rows cols flags op
  simp only [Option.some.injEq] at hp
  rw [← hp, h2, var_new_append ctx _ v h1]
  exact h8

end Composers3

end Autograd

/-! ## Invariants of the construction API -/

namespace Autograd

section ApiInvariants

variable {α : Type} [LinearOrderedField α]

/-- In a well-formed context a node has a gradient buffer exactly when its
requires-gradient flag is set, and the buffer has the shape of the value. -/
theorem wf_grad_iff (ctx : ModelContext α) (hwf : ctx.WF) (p : Nat) (hp : p < ctx.num_vars) :
    ((ctx.var p).grad ≠ none ↔ has_flag (ctx.var p).flags MV_FLAG_REQUIRES_GRAD = true) ∧
      ∀ g, (ctx.var p).grad = some g →
        g.rows = (ctx.var p).val.rows ∧ g.cols = (ctx.var p).val.cols := by
  have hn := hwf.node p hp
  constructor
  · constructor
    · intro h
      by_contra hreq
      exact h (hn.grad_none (Bool.not_eq_true _ |>.mp hreq))
    · intro hreq
      obtain ⟨g, hg, _⟩ := hn.grad_some hreq
      rw [hg]
      simp
  · intro g hg
    have hreq : has_flag (ctx.var p).flags MV_FLAG_REQUIRES_GRAD = true := by
      by_contra hreq
      rw [hn.grad_none (Bool.not_eq_true _ |>.mp hreq)] at hg
      cases hg
    obtain ⟨g2, hg2, h1, h2, _⟩ := hn.grad_some hreq
    rw [hg] at hg2
    cases hg2
    exact ⟨h1, h2⟩

/-- A node outside the arena has no operand. -/
theorem no_operand_of_le (ctx : ModelContext α) (x y : Nat) (hx : ctx.num_vars ≤ x) :
    ¬ ctx.IsOperand y x := by
  unfold ModelContext.IsOperand
  rw [var_of_le ctx x hx]
  simp [ModelVar.null]

/-- Following operand references one or more times leads to a strictly earlier node. -/
theorem operand_chain_lt (ctx : ModelContext α) (hwf : ctx.ArenaWF) (x z : Nat)
    (h : Relation.TransGen (fun a b => ctx.IsOperand b a) x z) : z < x := by
  induction h with
  | @single b hxz =>
    have hx : x < ctx.num_vars := by
      by_contra hx
      exact no_operand_of_le ctx x b (not_lt.mp hx) hxz
    exact hwf.input_lt ctx x b hx hxz
  | @tail b c _ hyz ih =>
    have hb : b < ctx.num_vars := by
      by_contra hb
      exact no_operand_of_le ctx b c (not_lt.mp hb) hyz
    exact lt_trans (hwf.input_lt ctx b c hb hyz) ih

/-- Arena well-formedness in terms of the recorded indices, and acyclicity. -/
theorem arena_indices (ctx : ModelContext α) (hwf : ctx.ArenaWF) :
    (∀ p, p < ctx.num_vars → (ctx.var p).index = p) ∧
    (∀ p y, p < ctx.num_vars → ctx.IsOperand y p →
      y < ctx.num_vars ∧ (ctx.var y).index < (ctx.var p).index) ∧
    (∀ x, ¬ Relation.TransGen (fun a b => ctx.IsOperand b a) x x) := by
  refine ⟨hwf.index_eq, ?_, ?_⟩
  · intro p y hp hop
    have hlt := hwf.input_lt ctx p y hp hop
    rw [hwf.index_eq p hp, hwf.index_eq y (lt_trans hlt hp)]
    exact ⟨lt_trans hlt hp, hlt⟩
  · intro x h
    exact absurd (operand_chain_lt ctx hwf x x h) (lt_irrefl x)

/-- No call of the construction API changes an existing node. -/
theorem api_keeps_nodes (ctx : ModelContext α) (rows cols flags a b q : Nat)
    (hq : q < ctx.num_vars) :
    (ctx.create_var rows cols flags).1.var q = ctx.var q ∧
    (ctx.relu a flags).1.var q = ctx.var q ∧ (ctx.softmax a flags).1.var q = ctx.var q ∧
    (ctx.add a b flags).1.var q = ctx.var q ∧ (ctx.sub a b flags).1.var q = ctx.var q ∧
    (ctx.matmul a b flags).1.var q = ctx.var q ∧
    (ctx.cross_entropy a b flags).1.var q = ctx.var q := by
  have hb : ∀ (rows cols : Nat) (op : ModelVarOp) (mismatch : Prop) [Decidable mismatch],
      (if mismatch then (ctx, (none : Option Nat))
        else ((ctx.binary_impl a b rows cols flags op).1,
          some (ctx.binary_impl a b rows cols flags op).2)).1.var q = ctx.var q := by
    intro rows cols op mismatch _
    by_cases hm : mismatch
    · rw [if_pos hm]
    · rw [if_neg hm]
      exact var_lt_append ctx _ _ (binary_impl_vars ctx a b rows cols flags op).1 q hq
  exact ⟨var_lt_append ctx _ _ (create_var_vars ctx rows cols flags).1 q hq,
    var_lt_append ctx _ _ (unary_impl_vars ctx a _ _ flags .Relu).1 q hq,
    var_lt_append ctx _ _ (unary_impl_vars ctx a _ _ flags .Softmax).1 q hq,
    hb _ _ .Add _, hb _ _ .Sub _, hb _ _ .Matmul _, hb _ _ .CrossEntropy _⟩

end ApiInvariants

end Autograd

/-! ## The parameter update -/

namespace Autograd

section ParameterUpdate

variable {α : Type} [LinearOrderedField α]

theorem Matrix.scale_get (m : Matrix α) (s : α) (i : Nat) : (m.scale s).get i = m.get i * s := by
  simp only [Matrix.scale, Matrix.get, List.getD_eq_getElem?_getD, List.getElem?_map]
  cases m.data[i]? <;> simp

theorem update_parameter_node_null (lr : α) (b : Nat) :
    update_parameter_node lr b (ModelVar.null : ModelVar α) = ModelVar.null := by
  unfold update_parameter_node
  have h0 : has_flag 0 MV_FLAG_PARAMETER = false := by decide
  have h : has_flag (ModelVar.null : ModelVar α).flags MV_FLAG_PARAMETER = false := h0
  rw [if_pos h]

/-- The update acts on each node by `update_parameter_node`. -/
theorem update_parameters_var (lr : α) (b : Nat) (ctx : ModelContext α) (p : Nat) :
    (update_parameters lr b ctx).var p = update_parameter_node lr b (ctx.var p) := by
  unfold update_parameters ModelContext.var
  simp only [List.getD_eq_getElem?_getD, List.getElem?_map]
  cases ctx.all_vars[p]? with
  | none => exact (update_parameter_node_null lr b).symm
  | some v => rfl

/-- The value of a parameter with a gradient of the shape of its value after the update. -/
theorem update_parameter_node_val (lr : α) (b : Nat) (v : ModelVar α) (g : Matrix α)
    (hpar : has_flag v.flags MV_FLAG_PARAMETER = true) (hg : v.grad = some g)
    (hr : g.rows = v.val.rows) (hc : g.cols = v.val.cols) (hgwf : g.WF) (hvwf : v.val.WF) :
    (update_parameter_node lr b v).val.rows = v.val.rows ∧
    (update_parameter_node lr b v).val.cols = v.val.cols ∧
    (update_parameter_node lr b v).val.data.length = v.val.data.length ∧
    (∀ i, (update_parameter_node lr b v).val.get i
      = v.val.get i - lr / (b : α) * g.get i) ∧
    (update_parameter_node lr b v).grad = some (g.scale (lr / (b : α))) := by
  unfold update_parameter_node
  rw [if_neg (by simp [hpar])]
  simp only [hg, Option.map_some', Option.getD_some]
  have hsh : v.val.rows = (g.scale (lr / (b : α))).rows ∧
      v.val.cols = (g.scale (lr / (b : α))).cols := ⟨hr.symm, hc.symm⟩
  rw [MatOps.sub_eq_spec v.val v.val _ hsh rfl rfl hvwf]
  unfold Matrix.WF at hvwf hgwf
  refine ⟨rfl, rfl, by simp [sub_spec, Matrix.size, hvwf], ?_, trivial⟩
  intro i
  by_cases hi : i < v.val.size
  · unfold sub_spec
    rw [get_mk_map_range _ _ _ _ i hi, Matrix.scale_get]
    ring
  · have hi2 := not_lt.mp hi
    unfold Matrix.size at hi2
    rw [Matrix.get_of_le _ i (by simp [sub_spec, Matrix.size]; exact hi2),
      Matrix.get_of_le v.val i (by rw [hvwf]; exact hi2),
      Matrix.get_of_le g i (by rw [hgwf, hr, hc]; exact hi2)]
    ring

/-- The parameter update: the value of every parameter with a gradient buffer decreases by
`learning_rate / batch_size` times that gradient, and every other node is unchanged. -/
theorem update_parameters_spec (lr : α) (b : Nat) (ctx : ModelContext α) (hwf : ctx.WF) :
    (update_parameters lr b ctx).num_vars = ctx.num_vars ∧
    (∀ p, p < ctx.num_vars → has_flag (ctx.var p).flags MV_FLAG_PARAMETER = true →
      has_flag (ctx.var p).flags MV_FLAG_REQUIRES_GRAD = true →
      ((update_parameters lr b ctx).var p).val.rows = (ctx.var p).val.rows ∧
      ((update_parameters lr b ctx).var p).val.cols = (ctx.var p).val.cols ∧
      ∀ i, ((update_parameters lr b ctx).var p).val.get i
        = (ctx.var p).val.get i - lr / (b : α) * (ctx.grad p).get i) ∧
    (∀ p, has_flag (ctx.var p).flags MV_FLAG_PARAMETER = false →
      (update_parameters lr b ctx).var p = ctx.var p) := by
  refine ⟨by simp [update_parameters, ModelContext.num_vars], ?_, ?_⟩
  · intro p hp hpar hreq
    obtain ⟨g, hg, hr, hc, hgwf⟩ := (hwf.node p hp).grad_some hreq
    obtain ⟨h1, h2, _, h4, _⟩ := update_parameter_node_val lr b (ctx.var p) g hpar hg hr hc hgwf
      (hwf.node p hp).val_wf
    rw [update_parameters_var, grad_of_some ctx p g hg]
    exact ⟨h1, h2, h4⟩
  · intro p hnp
    rw [update_parameters_var]
    unfold update_parameter_node
    rw [if_pos hnp]

end ParameterUpdate

end Autograd

namespace Autograd

theorem fixAddReluStale_wf : fixAddReluStale.WF :=
  wf_of_same_skel _ _ (SameSkel.set_val _ 2 ⟨3, 1, [7, 7, 7]⟩ (by decide) (by decide)
      (by decide))
    (wf_of_same_skel _ _ (SameSkel.set_val _ 1 ⟨3, 1, [9, 9, 9]⟩ (by decide) (by decide)
        (by decide))
      (wf_of_same_skel _ _ (SameSkel.set_val _ 0 ⟨3, 1, [2, -1, 0]⟩ (by decide) (by decide)
          (by decide))
        (Built.wf _ (Built.add _ 0 1 MV_FLAG_COST
          (Built.relu _ 0 0 (Built.create_var _ 3 1 MV_FLAG_REQUIRES_GRAD Built.empty)
            (by decide))
          (by decide) (by decide)))))

/-- The values before and after one forward pass on `fixAddReluStale`. -/
theorem fixAddReluStale_pass :
    fixAddReluStale.create_program 2 = some ⟨[0, 1, 2]⟩ ∧
    (fixAddReluStale.var 0).val.data = [2, -1, 0] ∧
    (fixAddReluStale.var 1).val.data = [9, 9, 9] ∧
    (fixAddReluStale.var 2).val.data = [7, 7, 7] ∧
    ((compute_program id id ⟨[0, 1, 2]⟩ fixAddReluStale).var 0).val.data = [2, -1, 0] ∧
    ((compute_program id id ⟨[0, 1, 2]⟩ fixAddReluStale).var 1).val.data = [2, 0, 0] ∧
    ((compute_program id id ⟨[0, 1, 2]⟩ fixAddReluStale).var 2).val.data = [4, -1, 0] := by
  refine ⟨by decide, by decide, by decide, by decide, by decide, by decide, ?_⟩
  decide!

theorem fixLinear_wf : fixLinear.WF :=
  wf_of_same_skel _ _ (SameSkel.set_val _ 1 ⟨3, 1, [7, 8, 9]⟩ (by decide) (by decide)
      (by decide))
    (Built.wf _ (Built.matmul _ 0 1 MV_FLAG_OUTPUT
      (Built.create_var _ 3 1 MV_FLAG_INPUT
        (Built.create_var _ 2 3 (MV_FLAG_REQUIRES_GRAD ||| MV_FLAG_PARAMETER) Built.empty))
      (by decide) (by decide)))

theorem fixTrained_wf : fixTrained.WF := by
  have h1 : SameSkel fixLinear (fixLinear.set_val 0 ⟨2, 3, [1, 2, 3, 4, 5, 6]⟩) :=
    SameSkel.set_val _ 0 _ (by decide) (by decide) (by decide)
  have h2 : SameSkel (fixLinear.set_val 0 ⟨2, 3, [1, 2, 3, 4, 5, 6]⟩) fixTrained := by
    apply SameSkel.set_grad
    intro g hg
    have h : ((fixLinear.set_val 0 ⟨2, 3, [1, 2, 3, 4, 5, 6]⟩).var 0).grad
        = some (Matrix.create 2 3) := by decide
    rw [h] at hg
    cases hg
    decide
  exact wf_of_same_skel _ _ (h1.trans h2) fixLinear_wf

end Autograd

/-! ## The training order -/

namespace Autograd

section TrainOrderFacts

theorem getD_mem (l : List Nat) (i : Nat) (h : i < l.length) : l.getD i 0 ∈ l := by
  rw [List.getD_eq_getElem?_getD, List.getElem?_eq_getElem h]
  exact List.getElem_mem h

theorem getD_eq_getElem (l : List Nat) (i : Nat) (h : i < l.length) : l.getD i 0 = l[i] := by
  rw [List.getD_eq_getElem?_getD, List.getElem?_eq_getElem h]
  rfl

/-- A swap of two entries of the vector permutes it. -/
theorem swap_entries_perm (order : List Nat) (a b : Nat) (ha : a < order.length)
    (hb : b < order.length) : (swap_entries order a b).Perm order := by
  rw [List.perm_iff_count]
  intro x
  unfold swap_entries
  have hb1 : b < (order.set a (order.getD b 0)).length := by
    rw [List.length_set]
    exact hb
  have hl1 : (order.set a (order.getD b 0))[b] = order.getD b 0 := by
    rw [List.getElem_set]
    split_ifs with h
    · rfl
    · exact (getD_eq_getElem order b hb).symm
  rw [List.count_set _ _ _ _ hb1, List.count_set _ _ _ _ ha, hl1,
    ← getD_eq_getElem order a ha]
  have hca : (order.getD a 0 == x) = true → 1 ≤ List.count x order := by
    intro h
    rw [beq_iff_eq] at h
    rw [List.one_le_count_iff, ← h]
    exact getD_mem order a ha
  cases h1 : (order.getD a 0 == x) <;> cases h2 : (order.getD b 0 == x)
  · simp only [Bool.false_eq_true, if_false]
    omega
  · simp only [Bool.false_eq_true, if_false, if_true]
    omega
  · have := hca h1
    simp only [Bool.false_eq_true, if_false, if_true]
    omega
  · have := hca h1
    simp only [if_true]
    omega

/-- The shuffle of an epoch permutes a vector of `num_examples` entries. -/
theorem shuffle_order_perm (rand : Nat → Nat) (drawn n : Nat) (order : List Nat)
    (hlen : order.length = n) : (shuffle_order rand drawn n order).Perm order := by
  unfold shuffle_order
  have key : ∀ (L : List Nat) (o : List Nat), o.Perm order →
      (L.foldl (fun o i => swap_entries o (rand (drawn + 2 * i) % n)
        (rand (drawn + 2 * i + 1) % n)) o).Perm order := by
    intro L
    induction L with
    | nil => intro o ho; exact ho
    | cons i t ih =>
      intro o ho
      simp only [List.foldl_cons]
      apply ih
      have hol : o.length = n := ho.length_eq.trans hlen
      by_cases hn : n = 0
      · subst hn
        have : o = [] := List.length_eq_zero.mp hol
        subst this
        simpa [swap_entries] using ho
      · have hpos : 0 < n := Nat.pos_of_ne_zero hn
        exact (swap_entries_perm o _ _ (by rw [hol]; exact Nat.mod_lt _ hpos)
          (by rw [hol]; exact Nat.mod_lt _ hpos)).trans ho
  exact key _ order (List.Perm.refl order)

end TrainOrderFacts

end Autograd

namespace Autograd

section TrainOrderFacts2

theorem flatMap_congr_mem {β γ : Type} (l : List β) (f g : β → List γ)
    (h : ∀ x, x ∈ l → f x = g x) : l.flatMap f = l.flatMap g := by
  induction l with
  | nil => rfl
  | cons a t ih =>
    rw [List.flatMap_cons, List.flatMap_cons, h a (List.mem_cons_self a t),
      ih (fun x hx => h x (List.mem_cons_of_mem a hx))]

/-- The positions `k * b + i` for `k < m` and `i < b`, block after block, are `0 .. m * b`. -/
theorem flatMap_range_blocks (m b : Nat) :
    (List.range m).flatMap (fun k => (List.range b).map (fun i => k * b + i))
      = List.range (m * b) := by
  induction m with
  | zero => simp
  | succ m ih =>
    rw [List.range_succ, List.flatMap_append, ih, Nat.succ_mul, List.range_add]
    simp

/-- No `order_index` of an epoch overflows: the positions looked up are `0 .. (n / b) * b`,
all below `n`. -/
theorem epoch_order_indices_eq (n b : Nat) (hn : n < U32_MOD) :
    epoch_order_indices n b = List.range (n / b * b) := by
  unfold epoch_order_indices
  rw [← flatMap_range_blocks]
  apply flatMap_congr_mem
  intro k hk
  apply List.map_congr_left
  intro i hi
  apply Nat.mod_eq_of_lt
  have hk2 := List.mem_range.mp hk
  have hi2 := List.mem_range.mp hi
  have h1 : k * b + i < (k + 1) * b := by rw [Nat.succ_mul]; omega
  have h2 : (k + 1) * b ≤ n / b * b := Nat.mul_le_mul_right b hk2
  have h3 := Nat.div_mul_le_self n b
  omega

/-- Looking up the first `m` positions of a vector gives its first `m` entries. -/
theorem lookups_take (o : List Nat) (m : Nat) (hm : m ≤ o.length) :
    (List.range m).map (fun k => o[k]?) = (o.take m).map some := by
  induction m with
  | zero => simp
  | succ m ih =>
    have hlt : m < o.length := hm
    rw [List.range_succ, List.map_append, ih (Nat.le_of_lt hlt), List.take_succ,
      List.map_append, List.getElem?_eq_getElem hlt]
    simp [List.getElem?_eq_getElem hlt]

/-- The lookups of one epoch through a permutation of `0 .. n`. -/
theorem epoch_examples_spec (n b : Nat) (hn : n < U32_MOD) (o : List Nat)
    (ho : o.Perm (List.range n)) :
    epoch_examples n b o = (o.take (n / b * b)).map some ∧
    (epoch_examples n b o).length = n / b * b ∧
    (∀ x, x ∈ epoch_examples n b o → ∃ idx, x = some idx ∧ idx < n) ∧
    (epoch_examples n b o).Nodup := by
  have hlen : o.length = n := by rw [ho.length_eq, List.length_range]
  have hle : n / b * b ≤ o.length := hlen ▸ Nat.div_mul_le_self n b
  have heq : epoch_examples n b o = (o.take (n / b * b)).map some := by
    unfold epoch_examples
    rw [epoch_order_indices_eq n b hn]
    exact lookups_take o _ hle
  have hnd : o.Nodup := (ho.nodup_iff).mpr (List.nodup_range n)
  rw [heq]
  refine ⟨rfl, ?_, ?_, ?_⟩
  · rw [List.length_map, List.length_take, Nat.min_eq_left hle]
  · intro x hx
    obtain ⟨idx, hidx, rfl⟩ := List.mem_map.mp hx
    exact ⟨idx, rfl, List.mem_range.mp ((ho.mem_iff).mp (List.mem_of_mem_take hidx))⟩
  · exact List.Nodup.map (Option.some_injective Nat)
      (List.Nodup.sublist (List.take_sublist _ o) hnd)

/-- Every epoch of `train` uses a permutation of `0 .. n` and makes the lookups of
`epoch_examples` through it. -/
theorem train_epochs_spec (rand : Nat → Nat) (n b : Nat) (epochs drawn : Nat)
    (order : List Nat) (ho : order.Perm (List.range n))
    (e : List Nat × List (Option Nat)) (he : e ∈ train_epochs rand n b epochs drawn order) :
    e.1.Perm (List.range n) ∧ e.2 = epoch_examples n b e.1 := by
  induction epochs generalizing drawn order with
  | zero => cases he
  | succ k ih =>
    have hlen : order.length = n := by rw [ho.length_eq, List.length_range]
    have hs := (shuffle_order_perm rand drawn n order hlen).trans ho
    unfold train_epochs at he
    rcases List.mem_cons.mp he with h | h
    · rw [h]
      exact ⟨hs, rfl⟩
    · exact ih _ _ hs h

end TrainOrderFacts2

end Autograd

/-! ## The range of `randf` and `fill_rand` in `f32` -/

namespace Autograd

section RandomFacts

theorem rhe_bounds (m : ℚ) : ⌊m⌋₊ ≤ round_half_even m ∧ round_half_even m ≤ ⌊m⌋₊ + 1 := by
  unfold round_half_even
  split_ifs <;> omega

theorem rhe_natCast (k : Nat) : round_half_even (k : ℚ) = k := by
  unfold round_half_even
  rw [Nat.floor_natCast, sub_self, if_pos (by norm_num)]

theorem rhe_mono (m1 m2 : ℚ) (h0 : 0 ≤ m1) (h : m1 ≤ m2) :
    round_half_even m1 ≤ round_half_even m2 := by
  have hf : ⌊m1⌋₊ ≤ ⌊m2⌋₊ := Nat.floor_mono h
  rcases Nat.lt_or_ge ⌊m1⌋₊ ⌊m2⌋₊ with hlt | hge
  · have h1 := (rhe_bounds m1).2
    have h2 := (rhe_bounds m2).1
    omega
  · have heq : ⌊m1⌋₊ = ⌊m2⌋₊ := le_antisymm hf hge
    have hd : m1 - (⌊m1⌋₊ : ℚ) ≤ m2 - (⌊m2⌋₊ : ℚ) := by rw [heq]; linarith
    unfold round_half_even
    rw [heq] at hd ⊢
    split_ifs <;> first | omega | (exfalso; linarith)

theorem rhe_le_nat (m : ℚ) (n : Nat) (h0 : 0 ≤ m) (h : m ≤ n) : round_half_even m ≤ n := by
  have := rhe_mono m n h0 h
  rwa [rhe_natCast] at this

theorem nat_le_rhe (m : ℚ) (n : Nat) (h : (n : ℚ) ≤ m) : n ≤ round_half_even m := by
  have := rhe_mono n m (Nat.cast_nonneg n) h
  rwa [rhe_natCast] at this

theorem two_zpow_pos (e : Int) : (0 : ℚ) < 2 ^ e := zpow_pos (by norm_num) e

theorem log2_lt (a : ℚ) (ha : 0 < a) (x : Int) : a < 2 ^ x ↔ Int.log 2 a < x := by
  have h := @Int.lt_zpow_iff_log_lt ℚ _ _ 2 (by norm_num) x a ha
  simpa using h

theorem log2_le (a : ℚ) (ha : 0 < a) (x : Int) : (2 : ℚ) ^ x ≤ a ↔ x ≤ Int.log 2 a := by
  have h := @Int.zpow_le_iff_le_log ℚ _ _ 2 (by norm_num) x a ha
  simpa using h

theorem ulp_exp_ge (a : ℚ) : -149 ≤ f32_ulp_exp a := le_max_right _ _

theorem ulp_exp_mono (a b : ℚ) (ha : 0 < a) (h : a ≤ b) : f32_ulp_exp a ≤ f32_ulp_exp b := by
  unfold f32_ulp_exp
  have := @Int.log_mono_right ℚ _ _ 2 a b ha h
  exact max_le_max (by omega) (le_refl _)

theorem ulp_exp_lt (a : ℚ) (ha : 0 < a) : a < 2 ^ (f32_ulp_exp a + 24) := by
  rw [log2_lt a ha]
  unfold f32_ulp_exp
  have := le_max_left (Int.log 2 a - 23) (-149)
  omega

theorem ulp_exp_normal (a : ℚ) (ha : 0 < a) (h : -149 < f32_ulp_exp a) :
    (2 : ℚ) ^ (f32_ulp_exp a + 23) ≤ a := by
  rw [log2_le a ha]
  unfold f32_ulp_exp at h ⊢
  rcases max_cases (Int.log 2 a - 23) (-149) with ⟨h1, _⟩ | ⟨h1, _⟩
  · rw [h1]; omega
  · rw [h1] at h; omega

theorem f32_mag_zero : f32_mag 0 = 0 := by
  unfold f32_mag
  rw [zero_div]
  have : round_half_even 0 = 0 := by
    have := rhe_natCast 0
    simpa using this
  rw [this]
  simp

theorem f32_mag_nonneg (a : ℚ) : 0 ≤ f32_mag a := by
  unfold f32_mag
  exact mul_nonneg (Nat.cast_nonneg _) (le_of_lt (two_zpow_pos _))

/-- The scaled significand of a positive magnitude is below `2 ^ 24`. -/
theorem scaled_lt (a : ℚ) (ha : 0 < a) : a / 2 ^ f32_ulp_exp a < 2 ^ 24 := by
  rw [div_lt_iff₀ (two_zpow_pos _)]
  have h := ulp_exp_lt a ha
  rw [zpow_add₀ (by norm_num : (2 : ℚ) ≠ 0)] at h
  rw [mul_comm]
  exact_mod_cast h

theorem f32_mag_le (a : ℚ) (ha : 0 < a) : f32_mag a ≤ 2 ^ (f32_ulp_exp a + 24) := by
  unfold f32_mag
  rw [zpow_add₀ (by norm_num : (2 : ℚ) ≠ 0), mul_comm ((2 : ℚ) ^ f32_ulp_exp a)]
  apply mul_le_mul_of_nonneg_right _ (le_of_lt (two_zpow_pos _))
  have h := rhe_le_nat (a / 2 ^ f32_ulp_exp a) (2 ^ 24)
    (div_nonneg (le_of_lt ha) (le_of_lt (two_zpow_pos _)))
    (by exact_mod_cast le_of_lt (scaled_lt a ha))
  exact_mod_cast h

theorem f32_mag_ge (a : ℚ) (ha : 0 < a) (h : -149 < f32_ulp_exp a) :
    (2 : ℚ) ^ (f32_ulp_exp a + 23) ≤ f32_mag a := by
  unfold f32_mag
  rw [zpow_add₀ (by norm_num : (2 : ℚ) ≠ 0), mul_comm ((2 : ℚ) ^ f32_ulp_exp a)]
  apply mul_le_mul_of_nonneg_right _ (le_of_lt (two_zpow_pos _))
  have h1 := ulp_exp_normal a ha h
  rw [zpow_add₀ (by norm_num : (2 : ℚ) ≠ 0)] at h1
  have h2 : ((2 ^ 23 : Nat) : ℚ) ≤ a / 2 ^ f32_ulp_exp a := by
    rw [le_div_iff₀ (two_zpow_pos _), mul_comm]
    exact_mod_cast h1
  have h3 := nat_le_rhe _ _ h2
  exact_mod_cast h3

theorem f32_mag_mono (a b : ℚ) (ha : 0 ≤ a) (h : a ≤ b) : f32_mag a ≤ f32_mag b := by
  rcases eq_or_lt_of_le ha with h0 | hpos
  · rw [← h0, f32_mag_zero]
    exact f32_mag_nonneg b
  · have hb : 0 < b := lt_of_lt_of_le hpos h
    have he := ulp_exp_mono a b hpos h
    rcases eq_or_lt_of_le he with heq | hlt
    · unfold f32_mag
      rw [heq]
      apply mul_le_mul_of_nonneg_right _ (le_of_lt (two_zpow_pos _))
      have := rhe_mono (a / 2 ^ f32_ulp_exp b) (b / 2 ^ f32_ulp_exp b)
        (div_nonneg ha (le_of_lt (two_zpow_pos _)))
        (div_le_div_of_nonneg_right h (le_of_lt (two_zpow_pos _)))
      exact_mod_cast this
    · have h1 := f32_mag_le a hpos
      have h2 := f32_mag_ge b hb (by have := ulp_exp_ge a; omega)
      have h3 : (2 : ℚ) ^ (f32_ulp_exp a + 24) ≤ 2 ^ (f32_ulp_exp b + 23) :=
        zpow_le_zpow_right₀ (by norm_num) (by omega)
      linarith

/-- A multiple of a power of two, with at most 24 significant bits and an exponent that
binary32 has, is kept by the rounding. -/
theorem f32_mag_exact (k : Nat) (e : Int) (hk : k ≤ 2 ^ 24) (he : -149 ≤ e) :
    f32_mag ((k : ℚ) * 2 ^ e) = (k : ℚ) * 2 ^ e := by
  rcases Nat.eq_zero_or_pos k with h0 | hpos
  · rw [h0]
    simp [f32_mag_zero]
  · have hx : (0 : ℚ) < (k : ℚ) * 2 ^ e := mul_pos (by exact_mod_cast hpos) (two_zpow_pos e)
    have hn : ∃ n : Nat, (k : ℚ) * 2 ^ e / 2 ^ f32_ulp_exp ((k : ℚ) * 2 ^ e) = (n : ℚ) := by
      rcases Nat.lt_or_ge k (2 ^ 24) with hlt | hge
      · have h1 : (k : ℚ) * 2 ^ e < 2 ^ (24 + e) := by
          rw [zpow_add₀ (by norm_num : (2 : ℚ) ≠ 0)]
          apply mul_lt_mul_of_pos_right _ (two_zpow_pos e)
          exact_mod_cast hlt
        have h2 := (log2_lt _ hx _).mp h1
        have h3 : f32_ulp_exp ((k : ℚ) * 2 ^ e) ≤ e := by
          unfold f32_ulp_exp
          exact max_le (by omega) he
        obtain ⟨n, hn⟩ := Int.eq_ofNat_of_zero_le (by omega : 0 ≤ e - f32_ulp_exp ((k : ℚ) * 2 ^ e))
        refine ⟨k * 2 ^ n, ?_⟩
        rw [mul_div_assoc, ← zpow_sub₀ (by norm_num : (2 : ℚ) ≠ 0), hn, zpow_natCast]
        push_cast
        rfl
      · have hk2 : k = 2 ^ 24 := le_antisymm hk hge
        have h1 : (k : ℚ) * 2 ^ e = 2 ^ (24 + e) := by
          rw [zpow_add₀ (by norm_num : (2 : ℚ) ≠ 0), hk2]
          norm_num
        have h2 : Int.log 2 ((2 : ℚ) ^ (24 + e)) = 24 + e := by
          have := @Int.log_zpow ℚ _ _ 2 (by norm_num) (24 + e)
          simpa using this
        have h3 : f32_ulp_exp ((k : ℚ) * 2 ^ e) = e + 1 := by
          unfold f32_ulp_exp
          rw [h1, h2]
          have h4 : max (24 + e - 23) (-149) = 24 + e - 23 := max_eq_left (by omega)
          rw [h4]
          omega
        refine ⟨2 ^ 23, ?_⟩
        rw [h3, h1, ← zpow_sub₀ (by norm_num : (2 : ℚ) ≠ 0)]
        have : 24 + e - (e + 1) = 23 := by omega
        rw [this]
        norm_num
    obtain ⟨n, hn⟩ := hn
    unfold f32_mag
    rw [hn, rhe_natCast, ← hn]
    exact div_mul_cancel₀ _ (ne_of_gt (two_zpow_pos _))

theorem f32_mag_form (a : ℚ) (ha : 0 ≤ a) :
    ∃ (k : Nat) (e : Int), k ≤ 2 ^ 24 ∧ -149 ≤ e ∧ f32_mag a = (k : ℚ) * 2 ^ e := by
  rcases eq_or_lt_of_le ha with h0 | hpos
  · exact ⟨0, 0, by norm_num, by norm_num, by rw [← h0, f32_mag_zero]; simp⟩
  · refine ⟨round_half_even (a / 2 ^ f32_ulp_exp a), f32_ulp_exp a, ?_, ulp_exp_ge a, rfl⟩
    have h := rhe_le_nat (a / 2 ^ f32_ulp_exp a) (2 ^ 24)
      (div_nonneg ha (le_of_lt (two_zpow_pos _)))
      (by exact_mod_cast le_of_lt (scaled_lt a hpos))
    exact h

theorem f32_mag_idem (a : ℚ) (ha : 0 ≤ a) : f32_mag (f32_mag a) = f32_mag a := by
  obtain ⟨k, e, hk, he, h⟩ := f32_mag_form a ha
  rw [h]
  exact f32_mag_exact k e hk he

theorem f32_round_some (x a : ℚ) :
    f32_round x = some a ↔
      f32_mag |x| < 2 ^ 128 ∧ a = if x < 0 then -f32_mag |x| else f32_mag |x| := by
  unfold f32_round
  split_ifs with h1 h2 <;> simp [h1, eq_comm]

theorem f32_round_nonneg (x a : ℚ) (hx : 0 ≤ x) :
    f32_round x = some a ↔ f32_mag x < 2 ^ 128 ∧ a = f32_mag x := by
  rw [f32_round_some, abs_of_nonneg hx, if_neg (not_lt.mpr hx)]

theorem f32_round_neg_arg (x a : ℚ) (hx : x ≤ 0) :
    f32_round x = some a ↔ f32_mag (-x) < 2 ^ 128 ∧ a = -f32_mag (-x) := by
  rw [f32_round_some, abs_of_nonpos hx]
  rcases eq_or_lt_of_le hx with h0 | hneg
  · rw [h0]
    simp [f32_mag_zero]
  · rw [if_pos hneg]

/-- A binary32 value is kept by the rounding. -/
theorem f32_round_exact (k : Nat) (e : Int) (hk : k ≤ 2 ^ 24) (he : -149 ≤ e)
    (hlt : (k : ℚ) * 2 ^ e < 2 ^ 128) : f32_round ((k : ℚ) * 2 ^ e) = some ((k : ℚ) * 2 ^ e) := by
  rw [f32_round_nonneg _ _ (mul_nonneg (Nat.cast_nonneg k) (le_of_lt (two_zpow_pos e))),
    f32_mag_exact k e hk he]
  exact ⟨hlt, rfl⟩

theorem f32_round_exact_neg (k : Nat) (e : Int) (hk : k ≤ 2 ^ 24) (he : -149 ≤ e)
    (hlt : (k : ℚ) * 2 ^ e < 2 ^ 128) :
    f32_round (-((k : ℚ) * 2 ^ e)) = some (-((k : ℚ) * 2 ^ e)) := by
  rw [f32_round_neg_arg _ _ (neg_nonpos.mpr
    (mul_nonneg (Nat.cast_nonneg k) (le_of_lt (two_zpow_pos e)))), neg_neg,
    f32_mag_exact k e hk he]
  exact ⟨hlt, rfl⟩

/-- The result of a rounding is a binary32 value. -/
theorem f32_round_idem (x a : ℚ) (h : f32_round x = some a) : f32_round a = some a := by
  rcases le_or_lt 0 x with hx | hx
  · obtain ⟨h1, h2⟩ := (f32_round_nonneg x a hx).mp h
    rw [h2, f32_round_nonneg _ _ (f32_mag_nonneg x), f32_mag_idem x hx]
    exact ⟨h1, rfl⟩
  · obtain ⟨h1, h2⟩ := (f32_round_neg_arg x a (le_of_lt hx)).mp h
    rw [h2, f32_round_neg_arg _ _ (neg_nonpos.mpr (f32_mag_nonneg _)), neg_neg,
      f32_mag_idem _ (by linarith)]
    exact ⟨h1, rfl⟩

/-- The rounding is monotone. -/
theorem f32_round_mono (x y a b : ℚ) (hxy : x ≤ y) (hx : f32_round x = some a)
    (hy : f32_round y = some b) : a ≤ b := by
  rcases le_or_lt 0 x with hx0 | hx0
  · have hy0 : 0 ≤ y := le_trans hx0 hxy
    rw [((f32_round_nonneg x a hx0).mp hx).2, ((f32_round_nonneg y b hy0).mp hy).2]
    exact f32_mag_mono x y hx0 hxy
  · rw [((f32_round_neg_arg x a (le_of_lt hx0)).mp hx).2]
    rcases le_or_lt 0 y with hy0 | hy0
    · rw [((f32_round_nonneg y b hy0).mp hy).2]
      have h1 := f32_mag_nonneg (-x)
      have h2 := f32_mag_nonneg y
      linarith
    · rw [((f32_round_neg_arg y b (le_of_lt hy0)).mp hy).2]
      have := f32_mag_mono (-y) (-x) (by linarith) (by linarith)
      linarith

/-- Between two arguments with a finite rounding, the rounding is finite. -/
theorem f32_round_between (x z y a b : ℚ) (hxz : x ≤ z) (hzy : z ≤ y)
    (hx : f32_round x = some a) (hy : f32_round y = some b) :
    ∃ c, f32_round z = some c ∧ a ≤ c ∧ c ≤ b := by
  have hfin : ∃ c, f32_round z = some c := by
    rcases le_or_lt 0 z with hz | hz
    · have hy0 : 0 ≤ y := le_trans hz hzy
      have h1 := ((f32_round_nonneg y b hy0).mp hy).1
      have h2 := f32_mag_mono z y hz hzy
      exact ⟨_, (f32_round_nonneg z _ hz).mpr ⟨lt_of_le_of_lt h2 h1, rfl⟩⟩
    · have hx0 : x ≤ 0 := le_trans hxz (le_of_lt hz)
      have h1 := ((f32_round_neg_arg x a hx0).mp hx).1
      have h2 := f32_mag_mono (-z) (-x) (by linarith) (by linarith)
      exact ⟨_, (f32_round_neg_arg z _ (le_of_lt hz)).mpr ⟨lt_of_le_of_lt h2 h1, rfl⟩⟩
  obtain ⟨c, hc⟩ := hfin
  exact ⟨c, hc, f32_round_mono x z a c hxz hx hc, f32_round_mono z y c b hzy hc hy⟩

theorem ulp_exp_eq (a : ℚ) (n : Int) (h1 : (2 : ℚ) ^ n ≤ a) (h2 : a < 2 ^ (n + 1))
    (hn : -126 ≤ n) : f32_ulp_exp a = n - 23 := by
  have ha : 0 < a := lt_of_lt_of_le (two_zpow_pos n) h1
  have h3 := (log2_le a ha n).mp h1
  have h4 := (log2_lt a ha (n + 1)).mp h2
  have h5 : Int.log 2 a = n := by omega
  unfold f32_ulp_exp
  rw [h5]
  exact max_eq_left (by omega)

/-- Evaluation of the rounding of a magnitude in the normal range from its binade. -/
theorem f32_mag_eval (a : ℚ) (n : Int) (K : Nat) (h1 : (2 : ℚ) ^ n ≤ a)
    (h2 : a < 2 ^ (n + 1)) (hn : -126 ≤ n)
    (hK : round_half_even (a / 2 ^ (n - 23)) = K) : f32_mag a = (K : ℚ) * 2 ^ (n - 23) := by
  unfold f32_mag
  rw [ulp_exp_eq a n h1 h2 hn, hK]

theorem rhe_down (m : ℚ) (f : Nat) (h1 : (f : ℚ) ≤ m) (h2 : m < f + 1 / 2) :
    round_half_even m = f := by
  have hf : ⌊m⌋₊ = f := (Nat.floor_eq_iff (le_trans (Nat.cast_nonneg f) h1)).mpr
    ⟨h1, by linarith⟩
  unfold round_half_even
  rw [hf, if_pos (by linarith)]

theorem rhe_up (m : ℚ) (f : Nat) (h1 : (f : ℚ) + 1 / 2 < m) (h2 : m < f + 1) :
    round_half_even m = f + 1 := by
  have hf : ⌊m⌋₊ = f := (Nat.floor_eq_iff (by linarith [Nat.cast_nonneg (α := ℚ) f])).mpr
    ⟨by linarith, h2⟩
  unfold round_half_even
  rw [hf, if_neg (by linarith), if_pos (by linarith)]

theorem rhe_tie_odd (m : ℚ) (f : Nat) (h1 : m = f + 1 / 2) (hodd : f % 2 = 1) :
    round_half_even m = f + 1 := by
  have hf : ⌊m⌋₊ = f := (Nat.floor_eq_iff (by rw [h1]; positivity)).mpr
    ⟨by linarith, by linarith⟩
  unfold round_half_even
  rw [hf, if_neg (by linarith), if_neg (by linarith), if_neg (by omega)]

theorem f32_round_zero : f32_round 0 = some 0 := by
  have := f32_round_exact 0 0 (by norm_num) (by norm_num) (by norm_num)
  simpa using this

theorem f32_round_one : f32_round 1 = some 1 := by
  have := f32_round_exact 1 0 (by norm_num) (by norm_num) (by norm_num)
  simpa using this

/-- In `f32`, `2^32 - 1` is rounded to `2^32`. -/
theorem f32_of_u32_max : f32_of_u32 U32_MAX = some 4294967296 := by
  unfold f32_of_u32 U32_MAX
  rw [f32_round_nonneg _ _ (by norm_num)]
  have h := f32_mag_eval 4294967295 31 16777216 (by norm_num) (by norm_num) (by norm_num)
    (rhe_up _ 16777215 (by norm_num) (by norm_num))
  norm_num at h ⊢
  rw [h]
  norm_num

/-- In `f32`, `2^32 - 128` is a tie and is rounded to `2^32`. -/
theorem f32_round_tie_top : f32_round 4294967168 = some 4294967296 := by
  rw [f32_round_nonneg _ _ (by norm_num)]
  have h := f32_mag_eval 4294967168 31 16777216 (by norm_num) (by norm_num) (by norm_num)
    (rhe_tie_odd _ 16777215 (by norm_num) (by norm_num))
  norm_num at h ⊢
  rw [h]
  norm_num

/-- In `f32`, `2^32 - 129` is rounded to `2^32 - 256`. -/
theorem f32_round_below_tie : f32_round 4294967167 = some 4294967040 := by
  rw [f32_round_nonneg _ _ (by norm_num)]
  have h := f32_mag_eval 4294967167 31 16777215 (by norm_num) (by norm_num) (by norm_num)
    (rhe_down _ 16777215 (by norm_num) (by norm_num))
  norm_num at h ⊢
  rw [h]
  norm_num

/-- The conversion of a `u32` value to `f32` is finite, between 0 and `2^32`, and `2^32`
exactly from `2^32 - 128` on; dividing it by `2^32` is exact in `f32`. -/
theorem f32_of_u32_spec (r : Nat) (hr : r < U32_MOD) :
    ∃ a, f32_of_u32 r = some a ∧ 0 ≤ a ∧ a ≤ 4294967296 ∧
      (U32_MOD - 128 ≤ r → a = 4294967296) ∧ (r < U32_MOD - 128 → a ≤ 4294967040) ∧
      f32_round (a / 4294967296) = some (a / 4294967296) := by
  unfold U32_MOD at hr ⊢
  have hmax : f32_round ((4294967295 : Nat) : ℚ) = some 4294967296 := f32_of_u32_max
  have hr1 : (r : ℚ) ≤ ((4294967295 : Nat) : ℚ) := by exact_mod_cast (by omega : r ≤ 4294967295)
  obtain ⟨a, ha, h0, h1⟩ := f32_round_between 0 r _ 0 4294967296 (Nat.cast_nonneg r) hr1
    f32_round_zero hmax
  refine ⟨a, ha, h0, h1, ?_, ?_, ?_⟩
  · intro h
    have h2 : (4294967168 : ℚ) ≤ r := by exact_mod_cast (by omega : 4294967168 ≤ r)
    have := f32_round_mono _ _ _ _ h2 f32_round_tie_top ha
    linarith
  · intro h
    have h2 : (r : ℚ) ≤ 4294967167 := by exact_mod_cast (by omega : r ≤ 4294967167)
    exact f32_round_mono _ _ _ _ h2 ha f32_round_below_tie
  · rcases Nat.eq_zero_or_pos r with hz | hpos
    · have ha0 : a = 0 := by
        rw [hz] at ha
        have h3 : f32_round ((0 : Nat) : ℚ) = some 0 := by simpa using f32_round_zero
        rw [h3] at ha
        exact (Option.some.inj ha).symm
      rw [ha0]
      simpa using f32_round_zero
    · have hrq : (0 : ℚ) < r := by exact_mod_cast hpos
      have hae := ((f32_round_nonneg _ _ (le_of_lt hrq)).mp ha).2
      have hexp : -23 ≤ f32_ulp_exp r := by
        have h3 : (0 : Int) ≤ Int.log 2 (r : ℚ) :=
          (log2_le _ hrq 0).mp (by simpa using (by exact_mod_cast hpos : (1 : ℚ) ≤ r))
        unfold f32_ulp_exp
        exact le_trans (by omega) (le_max_left _ _)
      have hk : round_half_even ((r : ℚ) / 2 ^ f32_ulp_exp r) ≤ 2 ^ 24 :=
        rhe_le_nat _ _ (div_nonneg (le_of_lt hrq) (le_of_lt (two_zpow_pos _)))
          (by exact_mod_cast le_of_lt (scaled_lt _ hrq))
      have hform : a / 4294967296
          = (round_half_even ((r : ℚ) / 2 ^ f32_ulp_exp r) : ℚ)
            * 2 ^ (f32_ulp_exp (r : ℚ) - 32) := by
        rw [hae]
        unfold f32_mag
        rw [zpow_sub₀ (by norm_num : (2 : ℚ) ≠ 0)]
        norm_num
        ring
      rw [hform]
      apply f32_round_exact _ _ hk (by omega)
      rw [← hform]
      have : a / 4294967296 ≤ 1 := by
        rw [div_le_one (by norm_num)]
        exact h1
      linarith [show (1 : ℚ) < 2 ^ 128 by norm_num]

/-- The value of `randf`: the `f32` conversion of the draw divided by `2^32`; it lies in the
closed unit interval and is 1 exactly for the draws from `2^32 - 128` on. -/
theorem randf_spec (r : Nat) (hr : r < U32_MOD) :
    ∃ a v, f32_of_u32 r = some a ∧ randf r = some v ∧ v = a / 4294967296 ∧
      0 ≤ v ∧ v ≤ 1 ∧ (v = 1 ↔ U32_MOD - 128 ≤ r) := by
  obtain ⟨a, ha, h0, h1, htop, hlow, hex⟩ := f32_of_u32_spec r hr
  refine ⟨a, a / 4294967296, ha, ?_, rfl, div_nonneg h0 (by norm_num),
    (div_le_one (by norm_num)).mpr h1, ?_⟩
  · unfold randf
    rw [ha, f32_of_u32_max]
    simp only [Option.some_bind]
    unfold f32_div
    rw [if_neg (by norm_num)]
    exact hex
  · constructor
    · intro hv
      by_contra hlt
      have := hlow (by omega)
      rw [div_eq_one_iff_eq (by norm_num)] at hv
      linarith
    · intro hge
      rw [htop hge]
      norm_num

/-- The value `fill_rand` writes for a draw: between `lower` and the `f32` result of
`(upper - lower) + lower`, which it is for the draws from `2^32 - 128` on. -/
theorem fill_rand_value_spec (r : Nat) (hr : r < U32_MOD) (lower upper D top : ℚ)
    (hl : f32_round lower = some lower) (hlu : lower ≤ upper)
    (hD : f32_sub upper lower = some D) (htop : f32_add D lower = some top) :
    ∃ v, fill_rand_value r lower upper = some v ∧ lower ≤ v ∧ v ≤ top ∧
      (U32_MOD - 128 ≤ r → v = top) := by
  obtain ⟨a, u, _, hu, _, hu0, hu1, hu2⟩ := randf_spec r hr
  unfold f32_sub at hD
  unfold f32_add at htop
  have hD0 : 0 ≤ D := f32_round_mono 0 (upper - lower) 0 D (by linarith) f32_round_zero hD
  have hDD := f32_round_idem _ _ hD
  obtain ⟨p, hp, hp0, hp1⟩ := f32_round_between 0 (u * D) D 0 D (mul_nonneg hu0 hD0)
    (by nlinarith) f32_round_zero hDD
  obtain ⟨v, hv, hv0, hv1⟩ := f32_round_between lower (p + lower) (D + lower) lower top
    (by linarith) (by linarith) hl htop
  refine ⟨v, ?_, hv0, hv1, ?_⟩
  · unfold fill_rand_value f32_sub f32_mul f32_add
    rw [hu, hD]
    simp only [Option.some_bind]
    rw [hp]
    exact hv
  · intro hge
    have hu1 : u = 1 := hu2.mpr hge
    rw [hu1, one_mul, hDD] at hp
    rw [← Option.some.inj hp, htop] at hv
    exact (Option.some.inj hv).symm

/-- The matrix `fill_rand` returns: the shape is kept and every element lies between `lower`
and the `f32` result of `(upper - lower) + lower`, which it is for the draws from
`2^32 - 128` on. -/
theorem Matrix.fill_rand_spec (rand : Nat → Nat) (hrand : ∀ k, rand k < U32_MOD) (drawn : Nat)
    (m : Matrix ℚ) (lower upper D top : ℚ) (hl : f32_round lower = some lower)
    (hlu : lower ≤ upper) (hD : f32_sub upper lower = some D)
    (htop : f32_add D lower = some top) :
    ∃ m2, m.fill_rand rand drawn lower upper = some m2 ∧ m2.rows = m.rows ∧
      m2.cols = m.cols ∧ m2.data.length = m.data.length ∧
      ∀ i, i < m.data.length →
        fill_rand_value (rand (drawn + i)) lower upper = some (m2.get i) ∧
        lower ≤ m2.get i ∧ m2.get i ≤ top ∧
        (U32_MOD - 128 ≤ rand (drawn + i) → m2.get i = top) := by
  have hall : (List.range m.data.length).all
      (fun i => (fill_rand_value (rand (drawn + i)) lower upper).isSome) = true := by
    rw [List.all_eq_true]
    intro i _
    obtain ⟨v, hv, _⟩ := fill_rand_value_spec (rand (drawn + i)) (hrand _) lower upper D top
      hl hlu hD htop
    rw [hv]
    rfl
  unfold Matrix.fill_rand
  rw [if_pos hall]
  refine ⟨_, rfl, rfl, rfl, by simp, ?_⟩
  intro i hi
  obtain ⟨v, hv, h1, h2, h3⟩ := fill_rand_value_spec (rand (drawn + i)) (hrand _) lower upper
    D top hl hlu hD htop
  have hg : Matrix.get (Matrix.mk m.rows m.cols ((List.range m.data.length).map
      (fun i => (fill_rand_value (rand (drawn + i)) lower upper).getD 0))) i = v := by
    simp [Matrix.get, List.getD_eq_getElem?_getD, hi, hv]
  rw [hg]
  exact ⟨hv, h1, h2, h3⟩

theorem f32_round_two : f32_round 2 = some 2 := by
  have := f32_round_exact 2 0 (by norm_num) (by norm_num) (by norm_num)
  simpa using this

theorem f32_round_three : f32_round 3 = some 3 := by
  have := f32_round_exact 3 0 (by norm_num) (by norm_num) (by norm_num)
  simpa using this

theorem f32_round_five : f32_round 5 = some 5 := by
  have := f32_round_exact 5 0 (by norm_num) (by norm_num) (by norm_num)
  simpa using this

/-- The operands `-16777218` and `1`: the lower one is an `f32` value, the `f32` difference
`1 - (-16777218)` is the tie `16777219` rounded to `16777220`, and adding the lower operand
back gives 2. -/
theorem f32_wide_operands :
    f32_round (-16777218) = some (-16777218) ∧ f32_sub 1 (-16777218) = some 16777220 ∧
    f32_add 16777220 (-16777218) = some 2 := by
  refine ⟨?_, ?_, ?_⟩
  · have := f32_round_exact_neg 8388609 1 (by norm_num) (by norm_num) (by norm_num)
    norm_num at this
    exact this
  · unfold f32_sub
    have h0 : (1 : ℚ) - (-16777218) = 16777219 := by norm_num
    rw [h0, f32_round_nonneg _ _ (by norm_num)]
    have h := f32_mag_eval 16777219 24 8388610 (by norm_num) (by norm_num) (by norm_num)
      (rhe_tie_odd _ 8388609 (by norm_num) (by norm_num))
    norm_num at h ⊢
    rw [h]
    norm_num
  · unfold f32_add
    have h0 : (16777220 : ℚ) + (-16777218) = 2 := by norm_num
    rw [h0]
    exact f32_round_two

theorem u32_max_lt : U32_MAX < U32_MOD ∧ U32_MOD - 128 ≤ U32_MAX := by decide

/-- The draws `2^32 - 1` and `2^32 - 128` are mapped to 1, the draw `2^32 - 129` to
`1 - 2^-24`. -/
theorem randf_top_values :
    randf U32_MAX = some 1 ∧ randf 4294967168 = some 1 ∧
    randf 4294967167 = some (4294967040 / 4294967296) := by
  refine ⟨?_, ?_, ?_⟩
  · obtain ⟨a, v, _, hv, _, _, _, h⟩ := randf_spec U32_MAX u32_max_lt.1
    rw [hv, h.mpr u32_max_lt.2]
  · obtain ⟨a, v, _, hv, _, _, _, h⟩ := randf_spec 4294967168 (by decide)
    rw [hv, h.mpr (by decide)]
  · obtain ⟨a, v, ha, hv, hva, _, _, _⟩ := randf_spec 4294967167 (by decide)
    have h2 : f32_of_u32 4294967167 = some 4294967040 := f32_round_below_tie
    rw [h2] at ha
    rw [hv, hva, ← Option.some.inj ha]

/-- With low = 2 and high = 5 the draw `2^32 - 1` makes `fill_rand` write 5; with
low = -16777218 and high = 1 it makes `fill_rand` write 2. -/
theorem fill_rand_top_values :
    (⟨1, 1, [0]⟩ : Matrix ℚ).fill_rand (fun _ => U32_MAX) 0 2 5 = some ⟨1, 1, [5]⟩ ∧
    (⟨1, 1, [0]⟩ : Matrix ℚ).fill_rand (fun _ => U32_MAX) 0 (-16777218) 1
      = some ⟨1, 1, [2]⟩ := by
  have h1 : fill_rand_value U32_MAX 2 5 = some 5 := by
    obtain ⟨v, hv, _, _, h⟩ := fill_rand_value_spec U32_MAX u32_max_lt.1 2 5 3 5
      f32_round_two (by norm_num)
      (by unfold f32_sub; norm_num; exact f32_round_three)
      (by unfold f32_add; norm_num; exact f32_round_five)
    rw [hv, h u32_max_lt.2]
  have h2 : fill_rand_value U32_MAX (-16777218) 1 = some 2 := by
    obtain ⟨v, hv, _, _, h⟩ := fill_rand_value_spec U32_MAX u32_max_lt.1 (-16777218) 1
      16777220 2 f32_wide_operands.1 (by norm_num) f32_wide_operands.2.1
      f32_wide_operands.2.2
    rw [hv, h u32_max_lt.2]
  constructor
  · simp [Matrix.fill_rand, List.range_succ, h1]
  · simp [Matrix.fill_rand, List.range_succ, h2]

end RandomFacts

end Autograd

/-! ## Softmax followed by cross-entropy, backwards -/

namespace Autograd

section SoftmaxCrossEntropy

variable {α : Type} [LinearOrderedField α]

/-- Shape and entries of the `q_grad` half of `cross_entropy_add_grad` on matching shapes. -/
theorem MatOps.cross_entropy_add_grad_q_get (q_grad p q grad : Matrix α)
    (hr : q_grad.rows = q.rows) (hc : q_grad.cols = q.cols) :
    (MatOps.cross_entropy_add_grad_q q_grad p q grad).1 = true ∧
    (MatOps.cross_entropy_add_grad_q q_grad p q grad).2.rows = q_grad.rows ∧
    (MatOps.cross_entropy_add_grad_q q_grad p q grad).2.cols = q_grad.cols ∧
    (MatOps.cross_entropy_add_grad_q q_grad p q grad).2.data.length = q_grad.data.length ∧
    ∀ i, i < q_grad.data.length → i < p.size →
      (MatOps.cross_entropy_add_grad_q q_grad p q grad).2.get i
        = q_grad.get i + -(p.get i) / q.get i * grad.get i := by
  unfold MatOps.cross_entropy_add_grad_q
  rw [if_neg (by simp [hr, hc])]
  have h := adds_loop (fun i => -(p.get i) / q.get i * grad.get i) p.size q_grad
  refine ⟨rfl, h.1, h.2.1, h.2.2.1, ?_⟩
  intro i hi hip
  rw [h.2.2.2 i hi]
  congr 1
  beta_reduce
  rw [Finset.sum_ite_eq, if_pos (Finset.mem_range.mpr hip)]

/-- `cross_entropy_add_grad` with a null `p_grad` runs the `q_grad` half alone. -/
theorem MatOps.cross_entropy_add_grad_q_only (flog : α → α) (q_grad p q grad : Matrix α)
    (hpq : p.rows = q.rows ∧ p.cols = q.cols) :
    MatOps.cross_entropy_add_grad flog none (some q_grad) p q grad
      = ((MatOps.cross_entropy_add_grad_q q_grad p q grad).1, none,
          some (MatOps.cross_entropy_add_grad_q q_grad p q grad).2) := by
  unfold MatOps.cross_entropy_add_grad
  rw [if_neg (by simp [hpq.1, hpq.2])]
  simp

/-- One row of the softmax Jacobian against the cross-entropy gradient `-p[j] / q[j]`. -/
theorem softmax_row_times_ce (qv pv : Nat → α) (n i : Nat) (hi : i < n)
    (hq : ∀ j, j < n → qv j ≠ 0) (hp : ∑ j in Finset.range n, pv j = 1) :
    ∑ j in Finset.range n, qv i * ((if i = j then 1 else 0) - qv j) * (-(pv j) / qv j * 1)
      = qv i - pv i := by
  have hterm : ∀ j, j ∈ Finset.range n →
      qv i * ((if i = j then 1 else 0) - qv j) * (-(pv j) / qv j * 1)
        = (if i = j then -(pv j) else 0) + qv i * pv j := by
    intro j hj
    have hqj := hq j (Finset.mem_range.mp hj)
    by_cases hij : i = j
    · subst hij
      rw [if_pos rfl, if_pos rfl]
      field_simp
      ring
    · rw [if_neg hij, if_neg hij]
      field_simp
      ring
  rw [Finset.sum_congr rfl hterm, Finset.sum_add_distrib, Finset.sum_ite_eq,
    if_pos (Finset.mem_range.mpr hi), ← Finset.mul_sum, hp]
  ring

end SoftmaxCrossEntropy

end Autograd

namespace Autograd

section SoftmaxCrossEntropy2

variable {α : Type} [LinearOrderedField α]

/-- The `q_grad` the cross-entropy kernel leaves in a zero buffer for an incoming gradient
of ones: shape, and the entries `-p[j] / q[j]`. -/
theorem ce_q_grad_from_zero (p q : Matrix α) (n : Nat) (hpr : p.rows = n) (hpc : p.cols = 1)
    (hqr : q.rows = n) (hqc : q.cols = 1) :
    (MatOps.cross_entropy_add_grad_q (Matrix.create n 1) p q ((Matrix.create n 1).fill 1)).1
      = true ∧
    (MatOps.cross_entropy_add_grad_q (Matrix.create n 1) p q
      ((Matrix.create n 1).fill 1)).2.rows = n ∧
    (MatOps.cross_entropy_add_grad_q (Matrix.create n 1) p q
      ((Matrix.create n 1).fill 1)).2.cols = 1 ∧
    (MatOps.cross_entropy_add_grad_q (Matrix.create n 1) p q
      ((Matrix.create n 1).fill 1)).2.WF ∧
    ∀ j, j < n →
      (MatOps.cross_entropy_add_grad_q (Matrix.create n 1) p q
        ((Matrix.create n 1).fill 1)).2.get j = -(p.get j) / q.get j * 1 := by
  obtain ⟨h1, h2, h3, h4, h5⟩ := MatOps.cross_entropy_add_grad_q_get (Matrix.create n 1) p q
    ((Matrix.create n 1).fill 1) hqr.symm hqc.symm
  have hlen : (Matrix.create n 1 : Matrix α).data.length = n := by simp [Matrix.create]
  refine ⟨h1, h2, h3, ?_, ?_⟩
  · unfold Matrix.WF
    rw [h2, h3, h4, hlen]
    simp [Matrix.create]
  · intro j hj
    rw [h5 j (hlen.symm ▸ hj) (by unfold Matrix.size; rw [hpr, hpc, Nat.mul_one]; exact hj),
      create_get, zero_add, Matrix.fill_get _ 1 j (hlen.symm ▸ hj)]

/-- For `n * n <= 2^32` the two kernels give the closed form `q[i] - p[i]`. -/
theorem softmax_cross_entropy_grad (flog : α → α) (p q : Matrix α) (n : Nat) (hn : 0 < n)
    (hsz : n * n ≤ U32_MOD) (hpr : p.rows = n) (hpc : p.cols = 1) (hqr : q.rows = n)
    (hqc : q.cols = 1) (hqwf : q.WF) (hq : ∀ j, j < n → q.get j ≠ 0)
    (hp : ∑ j in Finset.range n, p.get j = 1) :
    ∃ qg, MatOps.cross_entropy_add_grad flog none (some (Matrix.create n 1)) p q
        ((Matrix.create n 1).fill 1) = (true, none, some qg) ∧
      (MatOps.softmax_add_grad (Matrix.create n 1) q qg).1 = true ∧
      ∀ i, i < n → (MatOps.softmax_add_grad (Matrix.create n 1) q qg).2.get i
        = q.get i - p.get i := by
  obtain ⟨h1, h2, h3, h4, h5⟩ := ce_q_grad_from_zero p q n hpr hpc hqr hqc
  refine ⟨(MatOps.cross_entropy_add_grad_q (Matrix.create n 1) p q
    ((Matrix.create n 1).fill 1)).2, ?_, ?_, ?_⟩
  · rw [MatOps.cross_entropy_add_grad_q_only flog _ p q _ ⟨hpr.trans hqr.symm,
      hpc.trans hqc.symm⟩, h1]
  · exact (MatOps.softmax_add_grad_get (Matrix.create n 1) q _ n hn hsz hqr hqc h2 h3 rfl rfl
      (create_WF n 1) h4 hqwf 0 hn).1
  · intro i hi
    rw [(MatOps.softmax_add_grad_get (Matrix.create n 1) q _ n hn hsz hqr hqc h2 h3 rfl rfl
      (create_WF n 1) h4 hqwf i hi).2, create_get, zero_add,
      Finset.sum_congr rfl (fun j hj => by rw [h5 j (Finset.mem_range.mp hj)])]
    exact softmax_row_times_ce (fun j => q.get j) (fun j => p.get j) n i hi hq hp

end SoftmaxCrossEntropy2

end Autograd

namespace Autograd

/-- The entries of `uniformVec n` add up to 1. -/
theorem uniformVec_sum (n : Nat) (hn : 0 < n) :
    ∑ j in Finset.range n, (uniformVec n).get j = 1 := by
  rw [Finset.sum_congr rfl (fun j hj => uniformVec_get n j (Finset.mem_range.mp hj)),
    Finset.sum_const, Finset.card_range, nsmul_eq_mul]
  have h : (n : ℚ) ≠ 0 := Nat.cast_ne_zero.mpr (Nat.pos_iff_ne_zero.mp hn)
  field_simp

/-- The entries of `lastUnitVec n` add up to 1. -/
theorem lastUnitVec_sum (n : Nat) (hn : 0 < n) :
    ∑ j in Finset.range n, (lastUnitVec n).get j = 1 := by
  rw [Finset.sum_congr rfl (fun j _ => lastUnitVec_get n j hn), Finset.sum_ite_eq']
  rw [if_pos (Finset.mem_range.mpr (Nat.sub_lt hn Nat.one_pos))]

/-- Every entry of `uniformVec n` is non-zero. -/
theorem uniformVec_ne_zero (n j : Nat) (hj : j < n) : (uniformVec n).get j ≠ 0 := by
  rw [uniformVec_get n j hj]
  have h : (n : ℚ) ≠ 0 := Nat.cast_ne_zero.mpr (by omega)
  exact one_div_ne_zero h

end Autograd

namespace Autograd

section TrainOrderCarried

/-- The order of the first epoch run by `train_epochs` is the shuffle of the order it is
started with. -/
theorem train_epochs_head (rand : Nat → Nat) (n b epochs drawn : Nat) (order : List Nat) :
    ((train_epochs rand n b (epochs + 1) drawn order).map Prod.fst)[0]?
      = some (shuffle_order rand drawn n order) := by
  simp [train_epochs]

/-- The order of an epoch after the first is the shuffle of the order of the epoch before,
with the draws of its own epoch. -/
theorem train_epochs_next (rand : Nat → Nat) (n b : Nat) :
    ∀ (epochs drawn : Nat) (order : List Nat) (e : Nat) (o : List Nat),
      ((train_epochs rand n b epochs drawn order).map Prod.fst)[e]? = some o →
      e + 1 < epochs →
      ((train_epochs rand n b epochs drawn order).map Prod.fst)[e + 1]?
        = some (shuffle_order rand (drawn + 2 * n * (e + 1)) n o) := by
  intro epochs
  induction epochs with
  | zero => intro drawn order e o _ hlt; omega
  | succ k ih =>
    intro drawn order e o he hlt
    cases e with
    | zero =>
      rw [train_epochs_head] at he
      cases he
      obtain ⟨k2, rfl⟩ : ∃ k2, k = k2 + 1 := ⟨k - 1, by omega⟩
      have h := train_epochs_head rand n b k2 (drawn + 2 * n)
        (shuffle_order rand drawn n order)
      simp only [train_epochs, List.map_cons, List.getElem?_cons_succ] at h ⊢
      rw [h]
      simp
    | succ e2 =>
      have he2 : ((train_epochs rand n b k (drawn + 2 * n)
          (shuffle_order rand drawn n order)).map Prod.fst)[e2]? = some o := by
        simpa [train_epochs] using he
      have h := ih (drawn + 2 * n) (shuffle_order rand drawn n order) e2 o he2 (by omega)
      have harith : drawn + 2 * n + 2 * n * (e2 + 1) = drawn + 2 * n * (e2 + 1 + 1) := by ring
      rw [harith] at h
      simpa [train_epochs] using h

end TrainOrderCarried

end Autograd

namespace Autograd

section SchedulerTermination

variable {α : Type} [LinearOrderedField α]

/-- An iteration of the loop of `create_program` either marks one node visited that was not,
or leaves `visited` as it is and removes the back of the stack. -/
theorem create_program_step_cases (ctx : ModelContext α) (st : ProgState)
    (hlen : st.visited.length = ctx.num_vars) (hne : st.stack ≠ []) :
    (∃ k, k < ctx.num_vars ∧ st.visited.getD k false = false ∧
      (create_program_step ctx st).visited = st.visited.set k true ∧
      (create_program_step ctx st).visited.count false + 1 = st.visited.count false) ∨
    ((create_program_step ctx st).visited = st.visited ∧
      (create_program_step ctx st).stack.length + 1 = st.stack.length) := by
  obtain ⟨rest, cur, hs⟩ := stack_back st.stack hne
  unfold create_program_step
  rw [hs, List.getLast?_concat]
  simp only [List.dropLast_concat]
  by_cases h1 : (ctx.var cur).index ≥ ctx.num_vars
  · rw [if_pos h1]
    exact Or.inr ⟨rfl, by simp⟩
  · rw [if_neg h1]
    by_cases h2 : st.visited.getD (ctx.var cur).index false = true
    · rw [if_pos h2]
      exact Or.inr ⟨rfl, by simp⟩
    · rw [if_neg h2]
      refine Or.inl ⟨(ctx.var cur).index, by omega, by simpa using h2, rfl, ?_⟩
      exact count_false_set st.visited (ctx.var cur).index (by omega) h2

theorem push_input_nodup (ctx : ModelContext α) (V : List Bool) (stk : List Nat) (inp : Nat)
    (h : stk.Nodup) : (push_input ctx V stk inp).Nodup := by
  unfold push_input
  split_ifs
  · exact h
  · rw [List.nodup_append]
    refine ⟨h.erase inp, List.nodup_singleton inp, ?_⟩
    intro x hx hx2
    rw [List.mem_singleton] at hx2
    subst hx2
    exact (h.mem_erase_iff.mp hx).1 rfl

theorem push_fold_nodup (ctx : ModelContext α) (V : List Bool) (l stk : List Nat)
    (h : stk.Nodup) : (l.foldl (push_input ctx V) stk).Nodup := by
  induction l generalizing stk with
  | nil => exact h
  | cons y t ih => exact ih _ (push_input_nodup ctx V stk y h)

/-- The erase-then-push step keeps the stack free of repetitions, on any context. -/
theorem create_program_step_nodup (ctx : ModelContext α) (st : ProgState)
    (hnd : st.stack.Nodup) : (create_program_step ctx st).stack.Nodup := by
  by_cases hne : st.stack = []
  · unfold create_program_step
    rw [hne, List.getLast?_nil]
    exact hnd
  · obtain ⟨rest, cur, hs⟩ := stack_back st.stack hne
    have hrest : rest.Nodup := by
      rw [hs] at hnd
      exact (List.nodup_append.mp hnd).1
    unfold create_program_step
    rw [hs, List.getLast?_concat]
    simp only [List.dropLast_concat]
    split_ifs
    · exact hrest
    · exact hrest
    · rw [create_program_inputs_eq]
      exact push_fold_nodup ctx _ _ _ (hs ▸ hnd)

/-- The result of the loop does not depend on the fuel once it is returned. -/
theorem create_program_loop_fuel (ctx : ModelContext α) (fuel k : Nat) (st : ProgState)
    (out : List Nat) (h : create_program_loop ctx fuel st = some out) :
    create_program_loop ctx (fuel + k) st = some out := by
  induction fuel generalizing st with
  | zero => simp [create_program_loop] at h
  | succ f ih =>
    rw [Nat.add_right_comm]
    unfold create_program_loop at h ⊢
    by_cases hne : st.stack = []
    · rw [if_pos hne] at h ⊢
      exact h
    · rw [if_neg hne] at h ⊢
      exact ih _ h

/-- The function `create_program` returns a program for every context and every root. -/
theorem create_program_total (ctx : ModelContext α) (root : Nat) :
    ∃ prog, ctx.create_program root = some prog := by
  have hm : (ProgState.mk (List.replicate ctx.num_vars false) [root] []).measure
      < 3 * ctx.num_vars + 2 := by
    simp only [ProgState.measure, List.count_replicate_self, List.length_singleton]
    omega
  obtain ⟨out, hout⟩ := create_program_loop_total ctx _ _ (by simp) hm
  exact ⟨⟨out⟩, by unfold ModelContext.create_program; rw [hout]; rfl⟩

end SchedulerTermination

end Autograd

namespace Autograd

section CompilePrograms

variable {α : Type} [LinearOrderedField α]

/-- An iteration of `create_program` reads the arena only. -/
theorem create_program_step_congr (c1 c2 : ModelContext α) (h : c1.all_vars = c2.all_vars)
    (st : ProgState) : create_program_step c1 st = create_program_step c2 st := by
  unfold create_program_step create_program_inputs push_input ModelContext.var
    ModelContext.num_vars
  rw [h]

theorem create_program_loop_congr (c1 c2 : ModelContext α) (h : c1.all_vars = c2.all_vars)
    (fuel : Nat) (st : ProgState) :
    create_program_loop c1 fuel st = create_program_loop c2 fuel st := by
  induction fuel generalizing st with
  | zero => rfl
  | succ k ih =>
    unfold create_program_loop
    rw [create_program_step_congr c1 c2 h, ih]

/-- The function `create_program` reads the arena only: the stored programs and the
designated nodes do not matter. -/
theorem create_program_congr (c1 c2 : ModelContext α) (h : c1.all_vars = c2.all_vars)
    (root : Nat) : c1.create_program root = c2.create_program root := by
  unfold ModelContext.create_program ModelContext.num_vars
  rw [create_program_loop_congr c1 c2 h, h]

/-- After `compile`, `forward_prog` is `create_program(output)` and `cost_prog` is
`create_program(cost)`, both computed on the arena of the context. -/
theorem compile_programs (ctx : ModelContext α) :
    (∀ o, ctx.output = some o → ctx.create_program o = some ctx.compile.forward_prog) ∧
    (∀ c, ctx.cost = some c → ctx.create_program c = some ctx.compile.cost_prog) := by
  constructor
  · intro o ho
    obtain ⟨p, hp⟩ := create_program_total ctx o
    unfold ModelContext.compile
    simp only [ho, hp]
    cases hc : ctx.cost with
    | none => rfl
    | some c =>
      obtain ⟨q, hq⟩ := create_program_total ctx c
      have hq2 : ∀ c2 : ModelContext α, c2.all_vars = ctx.all_vars →
          c2.create_program c = some q :=
        fun c2 h2 => (create_program_congr c2 ctx h2 c).trans hq
      simp only [hq2 ⟨ctx.all_vars, ctx.input, some o, ctx.desired_output, some c, p,
        ctx.cost_prog⟩ rfl]
  · intro c hc
    obtain ⟨q, hq⟩ := create_program_total ctx c
    unfold ModelContext.compile
    cases ho : ctx.output with
    | none => simp only [hc, hq]
    | some o =>
      obtain ⟨p, hp⟩ := create_program_total ctx o
      have hq2 : ∀ c2 : ModelContext α, c2.all_vars = ctx.all_vars →
          c2.create_program c = some q :=
        fun c2 h2 => (create_program_congr c2 ctx h2 c).trans hq
      simp only [hp, hc]
      rw [hq2 ⟨ctx.all_vars, ctx.input, some o, ctx.desired_output, some c, p,
        ctx.cost_prog⟩ rfl, hq]

end CompilePrograms

end Autograd

namespace Autograd

section PrefixFixtures

theorem fixOutputFirst_programs :
    fixOutputFirst.output = some 1 ∧ fixOutputFirst.cost = some 3 ∧
    fixOutputFirst.compile.forward_prog = ⟨[0, 1]⟩ ∧
    fixOutputFirst.compile.cost_prog = ⟨[2, 0, 1, 3]⟩ := by
  decide

theorem fixOutputLast_programs :
    fixOutputLast.output = some 1 ∧ fixOutputLast.cost = some 3 ∧
    fixOutputLast.compile.forward_prog = ⟨[0, 1]⟩ ∧
    fixOutputLast.compile.cost_prog = ⟨[0, 1, 2, 3]⟩ := by
  decide

end PrefixFixtures

end Autograd

namespace Autograd

section PrefixSimulation

variable {α : Type} [LinearOrderedField α]

theorem getD_set_true_eq (V : List Bool) (i y : Nat) (hi : i < V.length) :
    (V.set i true).getD y false = if y = i then true else V.getD y false := by
  simp only [List.getD_eq_getElem?_getD, List.getElem?_set]
  by_cases h : i = y
  · subst h
    simp [hi]
  · have h2 : ¬ y = i := fun e => h e.symm
    simp [h, h2]

/-- Pushing an input on a stack with extra pending nodes below gives the same top part. -/
theorem push_input_sim (ctx : ModelContext α) (hwf : ctx.ArenaWF) (Vc Vf : List Bool)
    (B S : List Nat) (inp : Nat) (hinp : inp < ctx.num_vars)
    (hv : Vc.getD inp false = Vf.getD inp false) (hnd : (B ++ S).Nodup) :
    ∃ B2, push_input ctx Vc (B ++ S) inp = B2 ++ push_input ctx Vf S inp := by
  rw [push_input_eq ctx hwf Vc _ inp hinp, push_input_eq ctx hwf Vf _ inp hinp, hv]
  by_cases h : Vf.getD inp false = true
  · rw [if_pos h, if_pos h]
    exact ⟨B, rfl⟩
  · rw [if_neg h, if_neg h, List.erase_append]
    by_cases hB : inp ∈ B
    · rw [if_pos hB]
      have hS : inp ∉ S := fun hS => (List.nodup_append.mp hnd).2.2 hB hS
      rw [List.erase_of_not_mem hS]
      exact ⟨B.erase inp, by rw [List.append_assoc]⟩
    · rw [if_neg hB]
      exact ⟨B, by rw [List.append_assoc]⟩

theorem push_fold_sim (ctx : ModelContext α) (hwf : ctx.ArenaWF) (Vc Vf : List Bool)
    (l : List Nat) (hl : ∀ x, x ∈ l → x < ctx.num_vars ∧ Vc.getD x false = Vf.getD x false) :
    ∀ (B S : List Nat), (B ++ S).Nodup →
      ∃ B2, l.foldl (push_input ctx Vc) (B ++ S) = B2 ++ l.foldl (push_input ctx Vf) S := by
  induction l with
  | nil => intro B S _; exact ⟨B, rfl⟩
  | cons y t ih =>
    intro B S hnd
    obtain ⟨B1, h1⟩ := push_input_sim ctx hwf Vc Vf B S y (hl y (List.mem_cons_self y t)).1
      (hl y (List.mem_cons_self y t)).2 hnd
    have hnd1 := push_input_nodup ctx Vc (B ++ S) y hnd
    rw [h1] at hnd1
    simp only [List.foldl_cons]
    rw [h1]
    exact ih (fun x hx => hl x (List.mem_cons_of_mem y hx)) B1 _ hnd1

theorem push_input_mem (ctx : ModelContext α) (V : List Bool) (stk : List Nat) (inp x : Nat)
    (hx : x ∈ push_input ctx V stk inp) : x ∈ stk ∨ x = inp := by
  unfold push_input at hx
  split_ifs at hx
  · exact Or.inl hx
  · rcases List.mem_append.mp hx with h | h
    · exact Or.inl (List.mem_of_mem_erase h)
    · exact Or.inr (List.mem_singleton.mp h)

theorem push_fold_mem (ctx : ModelContext α) (V : List Bool) (l stk : List Nat) (x : Nat)
    (hx : x ∈ l.foldl (push_input ctx V) stk) : x ∈ stk ∨ x ∈ l := by
  induction l generalizing stk with
  | nil => exact Or.inl hx
  | cons y t ih =>
    simp only [List.foldl_cons] at hx
    rcases ih _ hx with h | h
    · rcases push_input_mem ctx V stk y x h with h2 | h2
      · exact Or.inl h2
      · exact Or.inr (h2 ▸ List.mem_cons_self y t)
    · exact Or.inr (List.mem_cons_of_mem y h)

/-- An iteration of the loop of `create_program` only appends to `out`. -/
theorem step_out_extends (ctx : ModelContext α) (st : ProgState) :
    st.out <+: (create_program_step ctx st).out := by
  unfold create_program_step
  cases st.stack.getLast? with
  | none => exact List.prefix_refl _
  | some cur =>
    simp only
    split_ifs
    · exact List.prefix_refl _
    · exact List.prefix_append _ _
    · exact List.prefix_refl _

/-- The result of the loop of `create_program` starts with the `out` of the state it is
started from. -/
theorem loop_out_extends (ctx : ModelContext α) (fuel : Nat) (st : ProgState) (res : List Nat)
    (h : create_program_loop ctx fuel st = some res) : st.out <+: res := by
  induction fuel generalizing st with
  | zero => simp [create_program_loop] at h
  | succ k ih =>
    unfold create_program_loop at h
    by_cases hne : st.stack = []
    · rw [if_pos hne] at h
      cases h
      exact List.prefix_refl _
    · rw [if_neg hne] at h
      exact (step_out_extends ctx st).trans (ih _ h)

end PrefixSimulation

end Autograd

namespace Autograd

section PrefixSimulation2

variable {α : Type} [LinearOrderedField α]

/-- The simulation is kept by one iteration of both loops. -/
theorem prog_sim_step (ctx : ModelContext α) (hwf : ctx.ArenaWF) (o : Nat)
    (ho : o < ctx.num_vars) (sf sc : ProgState) (sim : ProgSim ctx o sf sc)
    (hne : sf.stack ≠ []) :
    ProgSim ctx o (create_program_step ctx sf) (create_program_step ctx sc) := by
  obtain ⟨rest, cur, hs⟩ := stack_back sf.stack hne
  obtain ⟨B, hB⟩ := sim.stack_eq
  have hsc : sc.stack = (B ++ rest) ++ [cur] := by rw [hB, hs, List.append_assoc]
  have hcur_le : cur ≤ o := sim.stack_le cur (by rw [hs]; simp)
  have hcur : cur < ctx.num_vars := by omega
  have hndc := sim.nodup
  rw [hsc] at hndc
  by_cases hv : sf.visited.getD cur false = true
  · have hvc : sc.visited.getD cur false = true := by rw [sim.vis_eq cur hcur_le]; exact hv
    rw [step_visited ctx hwf sf rest cur hs hcur hv,
      step_visited ctx hwf sc (B ++ rest) cur hsc hcur hvc]
    refine ⟨by simp only [sim.out_eq], ⟨B, rfl⟩, (List.nodup_append.mp hndc).1, sim.vis_eq,
      ?_, sim.vlen_f, sim.vlen_c⟩
    intro x hx
    exact sim.stack_le x (by rw [hs]; exact List.mem_append_left _ hx)
  · have hvc : ¬ sc.visited.getD cur false = true := by rw [sim.vis_eq cur hcur_le]; exact hv
    rw [step_open ctx hwf sf rest cur hs hcur hv,
      step_open ctx hwf sc (B ++ rest) cur hsc hcur hvc]
    have hvis : ∀ y, y ≤ o → (sc.visited.set cur true).getD y false
        = (sf.visited.set cur true).getD y false := by
      intro y hy
      rw [getD_set_true_eq _ _ _ (by rw [sim.vlen_c]; exact hcur),
        getD_set_true_eq _ _ _ (by rw [sim.vlen_f]; exact hcur), sim.vis_eq y hy]
    have hl : ∀ x, x ∈ ctx.operands cur → x < ctx.num_vars ∧
        (sc.visited.set cur true).getD x false = (sf.visited.set cur true).getD x false := by
      intro x hx
      have hlt := operands_lt ctx hwf cur x hcur hx
      exact ⟨by omega, hvis x (by omega)⟩
    have hnd2 : (B ++ (rest ++ [cur])).Nodup := by rw [← List.append_assoc]; exact hndc
    obtain ⟨B2, hB2⟩ := push_fold_sim ctx hwf (sc.visited.set cur true)
      (sf.visited.set cur true) (ctx.operands cur) hl B (rest ++ [cur]) hnd2
    have hfold : (ctx.operands cur).foldl (push_input ctx (sc.visited.set cur true))
        (B ++ rest ++ [cur])
        = B2 ++ (ctx.operands cur).foldl (push_input ctx (sf.visited.set cur true))
          (rest ++ [cur]) := by
      rw [List.append_assoc]
      exact hB2
    refine ⟨sim.out_eq, ⟨B2, hfold⟩, ?_, hvis, ?_, ?_, ?_⟩
    · exact push_fold_nodup ctx _ _ _ hndc
    · intro x hx
      rcases push_fold_mem ctx _ _ _ x hx with h | h
      · exact sim.stack_le x (by rw [hs]; exact h)
      · have hlt := operands_lt ctx hwf cur x hcur h
        omega
    · simp only [List.length_set]
      exact sim.vlen_f
    · simp only [List.length_set]
      exact sim.vlen_c

/-- Under the simulation, the result of the loop on the smaller stack is a prefix of the
result of the loop on the larger one. -/
theorem prog_sim_extends (ctx : ModelContext α) (hwf : ctx.ArenaWF) (o : Nat)
    (ho : o < ctx.num_vars) (fuel_f : Nat) :
    ∀ (sf sc : ProgState), ProgSim ctx o sf sc → ∀ (rf rc : List Nat) (fuel_c : Nat),
      create_program_loop ctx fuel_f sf = some rf →
      create_program_loop ctx fuel_c sc = some rc → rf <+: rc := by
  induction fuel_f with
  | zero => intro sf sc _ rf rc fuel_c hf _; simp [create_program_loop] at hf
  | succ k ih =>
    intro sf sc sim rf rc fuel_c hf hc
    unfold create_program_loop at hf
    by_cases hne : sf.stack = []
    · rw [if_pos hne] at hf
      cases hf
      rw [← sim.out_eq]
      exact loop_out_extends ctx fuel_c sc rc hc
    · rw [if_neg hne] at hf
      obtain ⟨B, hB⟩ := sim.stack_eq
      have hnec : sc.stack ≠ [] := by
        rw [hB]
        intro h
        exact hne (List.append_eq_nil.mp h).2
      cases fuel_c with
      | zero => simp [create_program_loop] at hc
      | succ m =>
        unfold create_program_loop at hc
        rw [if_neg hnec] at hc
        exact ih _ _ (prog_sim_step ctx hwf o ho sf sc sim hne) rf rc m hf hc

end PrefixSimulation2

end Autograd

namespace Autograd

section PrefixChain

variable {α : Type} [LinearOrderedField α]

theorem replicate_getD_false (n y : Nat) : (List.replicate n false).getD y false = false := by
  simp only [List.getD_eq_getElem?_getD, List.getElem?_replicate]
  split_ifs <;> rfl

/-- The last operand is the last entry of the operand list the scheduler follows. -/
theorem operands_last (ctx : ModelContext α) (a b : Nat) (h : ctx.IsLastOperand b a) :
    ∃ l, ctx.operands a = l ++ [b] := by
  obtain ⟨hpos, hb⟩ := h
  obtain ⟨k, hk⟩ : ∃ k, mv_num_inputs (ctx.var a).op = k + 1 := ⟨_, (Nat.sub_add_cancel hpos).symm⟩
  unfold ModelContext.operands
  rw [hk] at hb ⊢
  rw [Nat.add_sub_cancel] at hb
  rw [List.range_succ, List.filterMap_append]
  refine ⟨List.filterMap (fun i => (ctx.var a).inputs i) (List.range k), ?_⟩
  congr 1
  simp [List.filterMap_cons, hb]

/-- From a state with the unvisited node `a` at the back of the stack, one iteration puts the
last operand of `a` at the back of the stack and emits nothing. -/
theorem prog_top_step (ctx : ModelContext α) (hwf : ctx.ArenaWF) (a b : Nat)
    (st : ProgState) (top : ProgTop ctx a st) (hab : ctx.IsLastOperand b a) :
    ProgTop ctx b (create_program_step ctx st) := by
  obtain ⟨B, hB⟩ := top.stack_top
  obtain ⟨l, hl⟩ := operands_last ctx a b hab
  have ha := top.x_lt
  have hv : ¬ st.visited.getD a false = true := by
    rw [top.unvis a (le_refl a)]
    exact Bool.false_ne_true
  have hba : b < a := operands_lt ctx hwf a b ha (by rw [hl]; simp)
  have hun : ∀ y, y ≤ b → (st.visited.set a true).getD y false = false := by
    intro y hy
    rw [getD_set_true_eq _ _ _ (by rw [top.vlen]; exact ha), if_neg (by omega)]
    exact top.unvis y (by omega)
  have hnd := top.nodup
  rw [hB] at hnd
  rw [step_open ctx hwf st B a hB ha hv]
  refine ⟨top.out_nil, ?_, ?_, hun, ?_, by omega⟩
  · rw [hl, List.foldl_append, List.foldl_cons, List.foldl_nil,
      push_input_eq ctx hwf _ _ b (by omega), hun b (le_refl b), if_neg Bool.false_ne_true]
    exact ⟨_, rfl⟩
  · exact push_fold_nodup ctx _ _ _ hnd
  · simp only [List.length_set]
    exact top.vlen

/-- Along a chain of last operands the loop reaches, without emitting anything, a state with
the end of the chain at the back of the stack; the result of the loop is that of this
state. -/
theorem prog_top_chain (ctx : ModelContext α) (hwf : ctx.ArenaWF) (c o : Nat)
    (hchain : ctx.LastChain c o) (st : ProgState) (top : ProgTop ctx c st) :
    ∃ st2, ProgTop ctx o st2 ∧ ∀ (fuel : Nat) (res : List Nat),
      create_program_loop ctx fuel st = some res →
        ∃ fuel2, create_program_loop ctx fuel2 st2 = some res := by
  induction hchain with
  | refl => exact ⟨st, top, fun fuel res h => ⟨fuel, h⟩⟩
  | @tail x y _ hxy ih =>
    obtain ⟨st1, top1, h1⟩ := ih
    refine ⟨create_program_step ctx st1, prog_top_step ctx hwf x y st1 top1 hxy, ?_⟩
    intro fuel res hres
    obtain ⟨fuel1, hf1⟩ := h1 fuel res hres
    obtain ⟨B, hB⟩ := top1.stack_top
    have hne : st1.stack ≠ [] := by
      rw [hB]
      intro h
      exact List.cons_ne_nil _ _ (List.append_eq_nil.mp h).2
    cases fuel1 with
    | zero => simp [create_program_loop] at hf1
    | succ m =>
      unfold create_program_loop at hf1
      rw [if_neg hne] at hf1
      exact ⟨m, hf1⟩

/-- When the output node is reached from the cost node through last operands, the forward
program `compile` stores is a prefix of the cost program it stores. -/
theorem compile_forward_initial_segment (ctx : ModelContext α) (hwf : ctx.ArenaWF) (o c : Nat)
    (hout : ctx.output = some o) (hcost : ctx.cost = some c) (hc : c < ctx.num_vars)
    (hchain : ctx.LastChain c o) :
    ctx.compile.forward_prog.vars <+: ctx.compile.cost_prog.vars := by
  have hf := (compile_programs ctx).1 o hout
  have hcp := (compile_programs ctx).2 c hcost
  unfold ModelContext.create_program at hf hcp
  obtain ⟨rf, hrf, hrf2⟩ := Option.map_eq_some'.mp hf
  obtain ⟨rc, hrc, hrc2⟩ := Option.map_eq_some'.mp hcp
  have htop : ProgTop ctx c
      { visited := List.replicate ctx.num_vars false, stack := [c], out := [] } :=
    ⟨rfl, ⟨[], rfl⟩, List.nodup_singleton c, fun y _ => replicate_getD_false _ y, by simp,
      hc⟩
  obtain ⟨st2, top2, h2⟩ := prog_top_chain ctx hwf c o hchain _ htop
  obtain ⟨fuel2, hres2⟩ := h2 _ rc hrc
  obtain ⟨B, hB⟩ := top2.stack_top
  have sim : ProgSim ctx o
      { visited := List.replicate ctx.num_vars false, stack := [o], out := [] } st2 :=
    ⟨top2.out_nil, ⟨B, hB⟩, top2.nodup,
      fun y hy => (top2.unvis y hy).trans (replicate_getD_false _ y).symm,
      fun x hx => le_of_eq (List.mem_singleton.mp hx), by simp, top2.vlen⟩
  have hpre := prog_sim_extends ctx hwf o top2.x_lt _ _ _ sim rf rc fuel2 hrf hres2
  rw [← hrf2, ← hrc2]
  exact hpre

end PrefixChain

end Autograd

/-! ## The claims -/

namespace Autograd

section Claims

variable {α : Type} [LinearOrderedField α]

/-- C3: when the shapes pass the validation of `mul`, every entry of the result is the base
entry (zero if `zero_out`, the previous content of `out` otherwise) plus the sum over the
inner index of `opA[i][k] * opB[k][j]`, for each of the four transpose combinations. -/
theorem mul_entry_spec (out a b : Matrix α) (zero_out transpose_a transpose_b : Bool)
    (hout : out.WF) (ha : a.WF) (hb : b.WF)
    (hv : (MatOps.mul out a b zero_out transpose_a transpose_b).1 = true)
    (i j : Nat) (hi : i < out.rows) (hj : j < out.cols) :
    (MatOps.mul out a b zero_out transpose_a transpose_b).2.at i j =
      (if zero_out then 0 else out.at i j) +
        ∑ k in Finset.range (if transpose_a then a.rows else a.cols),
          (if transpose_a then a.at k i else a.at i k) *
            (if transpose_b then b.at j k else b.at k j) :=
  MatOps.mul_at out a b zero_out transpose_a transpose_b hout ha hb hv i j hi hj

/-- Witness of C3: a 2-by-3 times a 3-by-2 accumulated into a 2-by-2, entry (1, 0). -/
theorem mul_entry_spec_witness :
    (MatOps.mul fixOut fixA fixB false false false).2.at 1 0 =
      (if false then 0 else fixOut.at 1 0) +
        ∑ k in Finset.range (if false then fixA.rows else fixA.cols),
          (if false then fixA.at k 1 else fixA.at 1 k) *
            (if false then fixB.at 0 k else fixB.at k 0) :=
  mul_entry_spec fixOut fixA fixB false false false (by decide) (by decide) (by decide)
    (by decide) 1 0 (by decide) (by decide)

/-- C8 (failing input): for the 65537-by-1 softmax output with all entries `1 / 65537`, the
incoming gradient `e_65536` and a zero destination, `softmax_add_grad` returns true and
leaves entry 65536 of the destination as it was, although the Jacobian product there is
`1 / 65537 * (1 - 1 / 65537)`: the 32-bit index `j + i * size` has wrapped. -/
theorem softmax_add_grad_index_wraps :
    (MatOps.softmax_add_grad (Matrix.create 65537 1) (uniformVec 65537) (lastUnitVec 65537)).1
      = true ∧
    (MatOps.softmax_add_grad (Matrix.create 65537 1) (uniformVec 65537)
      (lastUnitVec 65537)).2.get 65536 = (Matrix.create 65537 1 : Matrix ℚ).get 65536 ∧
    (MatOps.softmax_add_grad (Matrix.create 65537 1) (uniformVec 65537)
      (lastUnitVec 65537)).2.get 65536 ≠
      (Matrix.create 65537 1 : Matrix ℚ).get 65536 +
        ∑ j in Finset.range 65537, (uniformVec 65537).get 65536 *
          ((if 65536 = j then 1 else 0) - (uniformVec 65537).get j) *
            (lastUnitVec 65537).get j := by
  have hsame := MatOps.softmax_add_grad_high_row (Matrix.create 65537 1) (uniformVec 65537)
    (lastUnitVec 65537) 65537 (by decide) rfl rfl rfl rfl rfl rfl (create_WF _ _)
    (lastUnitVec_WF _ (by decide)) 65536 (by decide) (by decide)
  refine ⟨?_, hsame, ?_⟩
  · rw [MatOps.softmax_add_grad_snd _ _ _ (Or.inr rfl)]
  · rw [hsame, uniform_last_row_sum 65537 (by decide), create_get]
    norm_num


/-- C9 (counterexample): with the 2-by-1 softmax output `[1/2, 1/2]`, incoming gradient
`[0, 1]` and prior destination content `[5, 7]`, entry 0 of the destination after the call is
not the Jacobian product, and the call does not leave what it leaves from a zero
destination. -/
theorem softmax_add_grad_not_overwrite :
    (MatOps.softmax_add_grad fixOut2 (uniformVec 2) (lastUnitVec 2)).2.get 0 ≠
      (∑ j in Finset.range 2, (uniformVec 2).get 0 *
        ((if 0 = j then 1 else 0) - (uniformVec 2).get j) * (lastUnitVec 2).get j) ∧
    (MatOps.softmax_add_grad fixOut2 (uniformVec 2) (lastUnitVec 2)).2 ≠
      (MatOps.softmax_add_grad (Matrix.create 2 1) (uniformVec 2) (lastUnitVec 2)).2 := by
  have h1 := (MatOps.softmax_add_grad_get fixOut2 (uniformVec 2) (lastUnitVec 2) 2 (by decide)
    (by decide) rfl rfl rfl rfl rfl rfl (by decide) (lastUnitVec_WF 2 (by decide))
    (uniformVec_WF 2) 0 (by decide)).2
  have h2 := (MatOps.softmax_add_grad_get (Matrix.create 2 1) (uniformVec 2) (lastUnitVec 2) 2
    (by decide) (by decide) rfl rfl rfl rfl rfl rfl (create_WF 2 1)
    (lastUnitVec_WF 2 (by decide)) (uniformVec_WF 2) 0 (by decide)).2
  have h5 : fixOut2.get 0 = 5 := by decide
  constructor
  · rw [h1, h5]
    intro h
    have : (5 : ℚ) = 0 := by linarith
    norm_num at this
  · intro h
    rw [h, h2, h5, create_get] at h1
    have : (5 : ℚ) = 0 := by linarith
    norm_num at this

/-- C9 (amended): `softmax_add_grad` accumulates. On `n`-by-1 vectors with `1 ≤ n` and
`n * n ≤ 2 ^ 32` it returns true and entry `i` of the destination after the call is its
previous content plus the product of row `i` of the Jacobian
`J[i][j] = s[i] * ((1 if i = j else 0) - s[j])` with the incoming gradient. -/
theorem softmax_add_grad_accumulates (out s grad : Matrix α) (n : Nat) (hn : 0 < n)
    (hsz : n * n ≤ U32_MOD)
    (hsr : s.rows = n) (hsc : s.cols = 1)
    (hgr : grad.rows = n) (hgc : grad.cols = 1)
    (hor : out.rows = n) (hoc : out.cols = 1) (howf : out.WF) (hgwf : grad.WF) (hswf : s.WF)
    (i : Nat) (hi : i < n) :
    (MatOps.softmax_add_grad out s grad).1 = true ∧
    (MatOps.softmax_add_grad out s grad).2.get i =
      out.get i +
        ∑ j in Finset.range n, s.get i * ((if i = j then 1 else 0) - s.get j) * grad.get j :=
  MatOps.softmax_add_grad_get out s grad n hn hsz hsr hsc hgr hgc hor hoc howf hgwf hswf i hi

/-- Witness of amended C9: the 2-by-1 fixture with prior content `[5, 7]`, entry 0. -/
theorem softmax_add_grad_accumulates_witness :
    (MatOps.softmax_add_grad fixOut2 (uniformVec 2) (lastUnitVec 2)).1 = true ∧
    (MatOps.softmax_add_grad fixOut2 (uniformVec 2) (lastUnitVec 2)).2.get 0 =
      fixOut2.get 0 +
        ∑ j in Finset.range 2, (uniformVec 2).get 0 *
          ((if 0 = j then 1 else 0) - (uniformVec 2).get j) * (lastUnitVec 2).get j :=
  softmax_add_grad_accumulates fixOut2 (uniformVec 2) (lastUnitVec 2) 2 (by decide)
    (by decide) rfl rfl rfl rfl rfl rfl (by decide) (lastUnitVec_WF 2 (by decide))
    (uniformVec_WF 2) 0 (by decide)

/-- C10 (failing inputs): `softmax_add_grad` returns true and leaves the destination untouched
(a) for a 2-by-1 softmax output with a 3-by-1 destination, and (b) for a 1-by-2 softmax output
with 1-by-2 gradient and destination: the result of the inner `mul` is discarded. -/
theorem softmax_add_grad_ignores_mul_failure :
    ((MatOps.softmax_add_grad fixOut3 (uniformVec 2) (lastUnitVec 2)).1 = true ∧
      (MatOps.softmax_add_grad fixOut3 (uniformVec 2) (lastUnitVec 2)).2 = fixOut3) ∧
    ((MatOps.softmax_add_grad fixRowOut fixRowS fixRowG).1 = true ∧
      (MatOps.softmax_add_grad fixRowOut fixRowS fixRowG).2 = fixRowOut) :=
  ⟨MatOps.softmax_add_grad_mul_rejected fixOut3 (uniformVec 2) (lastUnitVec 2) (Or.inr rfl)
      (by decide),
    MatOps.softmax_add_grad_mul_rejected fixRowOut fixRowS fixRowG (Or.inl rfl) (by decide)⟩


/-- C1: on every context built through the construction API and every node `root` of it,
`create_program` returns a program in which every operand `m` of a node `n` of the program
(as `inputs[0]` or `inputs[1]`) occurs, and only at positions strictly smaller than the
position of `n`. -/
theorem create_program_operands_before (ctx : ModelContext α) (hb : Built ctx) (root : Nat)
    (hroot : root < ctx.num_vars) :
    ∃ prog, ctx.create_program root = some prog ∧
      ∀ (i n m : Nat), prog.vars[i]? = some n → ctx.IsOperand m n →
        (∃ j : Nat, j < i ∧ prog.vars[j]? = some m) ∧
          (∀ j : Nat, prog.vars[j]? = some m → j < i) := by
  obtain ⟨prog, hprog, hnd, _, htopo, _, _⟩ :=
    create_program_spec ctx (Built.wf ctx hb).arena root hroot
  refine ⟨prog, hprog, ?_⟩
  intro i n m hin hop
  obtain ⟨j, hj, hjm⟩ := htopo i n hin m hop
  refine ⟨⟨j, hj, hjm⟩, ?_⟩
  intro j2 hj2
  rw [nodup_index_unique prog.vars hnd j2 j m hj2 hjm]
  exact hj

/-- Witness of C1: the graph `add(x, relu(x))` with root 2. -/
theorem create_program_operands_before_witness :
    ∃ prog, fixGraph.create_program 2 = some prog ∧
      ∀ (i n m : Nat), prog.vars[i]? = some n → fixGraph.IsOperand m n →
        (∃ j : Nat, j < i ∧ prog.vars[j]? = some m) ∧
          (∀ j : Nat, prog.vars[j]? = some m → j < i) :=
  create_program_operands_before fixGraph
    (Built.add _ 0 1 MV_FLAG_COST
      (Built.relu _ 0 0 (Built.create_var _ 3 1 MV_FLAG_REQUIRES_GRAD Built.empty) (by decide))
      (by decide) (by decide))
    2 (by decide)

/-- C2: on every well-formed context and every node `root` of it, `create_program` returns
a program in which a node occurs if and only if it is reachable from `root` by following
operand references zero or more times. -/
theorem create_program_mem_iff_reachable (ctx : ModelContext α) (hwf : ctx.WF) (root : Nat)
    (hroot : root < ctx.num_vars) :
    ∃ prog, ctx.create_program root = some prog ∧
      ∀ x, x ∈ prog.vars ↔ ctx.Reaches root x := by
  obtain ⟨prog, hprog, _, _, _, hreach, _⟩ := create_program_spec ctx hwf.arena root hroot
  exact ⟨prog, hprog, hreach⟩

/-- Witness of C2: the graph `add(x, relu(x))` with root 1 (node 2 is not reachable). -/
theorem create_program_mem_iff_reachable_witness :
    ∃ prog, fixGraph.create_program 1 = some prog ∧
      ∀ x, x ∈ prog.vars ↔ fixGraph.Reaches 1 x :=
  create_program_mem_iff_reachable fixGraph
    (Built.wf _ (Built.add _ 0 1 MV_FLAG_COST
      (Built.relu _ 0 0 (Built.create_var _ 3 1 MV_FLAG_REQUIRES_GRAD Built.empty) (by decide))
      (by decide) (by decide)))
    1 (by decide)


/-- C4: on a well-formed context, after one forward pass over the program of
`create_program` every leaf (`Create`) node is unchanged, and every non-leaf node of the
program holds the reference value of its operation (`relu_spec`, `add_spec`, `sub_spec`,
`matmul_spec`, `softmax_spec`, `cross_entropy_spec`) on the values its operands hold in the
resulting state, whatever buffer `own` one supposes the node had; a second pass changes
nothing; `feedforward` is the same pass over `forward_prog`. -/
theorem forward_pass_values (fexp flog : α → α) (ctx : ModelContext α) (hwf : ctx.WF)
    (root : Nat) (hroot : root < ctx.num_vars) :
    ∃ prog, ctx.create_program root = some prog ∧
      (∀ q, (ctx.var q).op = .Create → (compute_program fexp flog prog ctx).var q = ctx.var q) ∧
      (∀ p, p ∈ prog.vars → (ctx.var p).op ≠ .Create → ∀ own : Matrix α,
        ((compute_program fexp flog prog ctx).var p).val
          = node_spec fexp flog (ctx.var p).op
              ((ctx.var p).input0.map (fun a => ((compute_program fexp flog prog ctx).var a).val))
              ((ctx.var p).input1.map (fun b => ((compute_program fexp flog prog ctx).var b).val))
              own) ∧
      compute_program fexp flog prog (compute_program fexp flog prog ctx)
        = compute_program fexp flog prog ctx ∧
      (ctx.forward_prog = prog →
        ctx.feedforward fexp flog = compute_program fexp flog prog ctx) :=
  forward_pass fexp flog ctx hwf root hroot

/-- Witness of C4: `fixAddReluStale`, whose leaf holds 2, -1, 0 and whose non-leaf buffers
hold 9, 9, 9 and 7, 7, 7 before the pass; the pass leaves the leaf as it is and writes
2, 0, 0 into the relu node and 4, -1, 0 into the add node. -/
theorem forward_pass_values_witness :
    (fixAddReluStale.create_program 2 = some ⟨[0, 1, 2]⟩ ∧
    (fixAddReluStale.var 0).val.data = [2, -1, 0] ∧
    (fixAddReluStale.var 1).val.data = [9, 9, 9] ∧
    (fixAddReluStale.var 2).val.data = [7, 7, 7] ∧
    ((compute_program id id ⟨[0, 1, 2]⟩ fixAddReluStale).var 0).val.data = [2, -1, 0] ∧
    ((compute_program id id ⟨[0, 1, 2]⟩ fixAddReluStale).var 1).val.data = [2, 0, 0] ∧
    ((compute_program id id ⟨[0, 1, 2]⟩ fixAddReluStale).var 2).val.data = [4, -1, 0]) ∧
    ∃ prog, fixAddReluStale.create_program 2 = some prog ∧
      (∀ q, (fixAddReluStale.var q).op = .Create →
        (compute_program id id prog fixAddReluStale).var q = fixAddReluStale.var q) ∧
      (∀ p, p ∈ prog.vars → (fixAddReluStale.var p).op ≠ .Create → ∀ own : Matrix ℚ,
        ((compute_program id id prog fixAddReluStale).var p).val
          = node_spec id id (fixAddReluStale.var p).op
              ((fixAddReluStale.var p).input0.map
                (fun a => ((compute_program id id prog fixAddReluStale).var a).val))
              ((fixAddReluStale.var p).input1.map
                (fun b => ((compute_program id id prog fixAddReluStale).var b).val))
              own) ∧
      compute_program id id prog (compute_program id id prog fixAddReluStale)
        = compute_program id id prog fixAddReluStale ∧
      (fixAddReluStale.forward_prog = prog →
        fixAddReluStale.feedforward id id = compute_program id id prog fixAddReluStale) :=
  ⟨fixAddReluStale_pass,
    forward_pass_values id id fixAddReluStale fixAddReluStale_wf 2 (by decide)⟩


/-- C5: in a well-formed context of at most `2^32` nodes, let `y = matmul(W, x)` be the
root of the program, `W` a requires-gradient leaf (`m` by `k`) whose gradient buffer holds
zeros, and `x` a one-column leaf without gradient. After a forward pass followed by
`compute_grads`, `W.grad[i][j] = x[j]` for every `i < m` and `j < k`: the derivative of the
sum of the entries of `y` with respect to `W[i][j]`. -/
theorem linear_model_gradient (fexp flog : α → α) (ctx : ModelContext α) (hwf : ctx.WF)
    (hn : ctx.num_vars ≤ U32_MOD) (W x y : Nat) (hy : y < ctx.num_vars)
    (hop : (ctx.var y).op = .Matmul) (h0 : (ctx.var y).input0 = some W)
    (h1 : (ctx.var y).input1 = some x)
    (hWleaf : (ctx.var W).op = .Create) (hxleaf : (ctx.var x).op = .Create)
    (hWreq : has_flag (ctx.var W).flags MV_FLAG_REQUIRES_GRAD = true)
    (hxreq : has_flag (ctx.var x).flags MV_FLAG_REQUIRES_GRAD = false)
    (hxcols : (ctx.var x).val.cols = 1)
    (hWzero : ∀ j, (ctx.grad W).get j = 0) :
    ∃ prog, ctx.create_program y = some prog ∧
      ∀ i j, i < (ctx.var W).val.rows → j < (ctx.var W).val.cols →
        ((compute_grads flog prog (compute_program fexp flog prog ctx)).grad W).at i j
          = (ctx.var x).val.get j := by
  obtain ⟨prog, hp, hwf1, hord1, hlast, hsz, hmem1, hf, hleafs⟩ :=
    forward_state fexp flog ctx hwf hn y hy
  refine ⟨prog, hp, fun i j hi hj => ?_⟩
  have hW1 := hleafs W hWleaf
  have hx1 := hleafs x hxleaf
  have h := linear_model_grad flog prog y _ hwf1 hord1 hlast hsz hmem1 W x
    ((hf y).2.1.trans hop) ((hf y).2.2.1.trans h0) ((hf y).2.2.2.1.trans h1)
    (by rw [hW1]; exact hWleaf) (by rw [hx1]; exact hxleaf) (by rw [hW1]; exact hWreq)
    (by rw [hx1]; exact hxreq) (by rw [hx1]; exact hxcols)
    (by rw [grad_congr _ _ W hW1]; exact hWzero) i j (by rw [hW1]; exact hi)
    (by rw [hW1]; exact hj)
  rw [hx1] at h
  exact h

/-- Witness of C5: the 2-by-3 parameter `W` and the input `x = (7, 8, 9)` of `fixLinear`. -/
theorem linear_model_gradient_witness :
    ((fixLinear.var 0).val.rows = 2 ∧ (fixLinear.var 0).val.cols = 3 ∧
      (fixLinear.var 1).val.data = [7, 8, 9]) ∧
    ∃ prog, fixLinear.create_program 2 = some prog ∧
      ∀ i j, i < (fixLinear.var 0).val.rows → j < (fixLinear.var 0).val.cols →
        ((compute_grads id prog (compute_program id id prog fixLinear)).grad 0).at i j
          = (fixLinear.var 1).val.get j :=
  ⟨by decide,
    linear_model_gradient id id fixLinear
      (wf_of_same_skel _ _ (SameSkel.set_val _ 1 ⟨3, 1, [7, 8, 9]⟩ (by decide) (by decide)
          (by decide))
        (Built.wf _ (Built.matmul _ 0 1 MV_FLAG_OUTPUT
          (Built.create_var _ 3 1 MV_FLAG_INPUT
            (Built.create_var _ 2 3 (MV_FLAG_REQUIRES_GRAD ||| MV_FLAG_PARAMETER) Built.empty))
          (by decide) (by decide))))
      (by decide) 0 1 2 (by decide) (by decide) (by decide) (by decide) (by decide) (by decide)
      (by decide) (by decide) (by decide)
      (fun j => by
        have h : fixLinear.grad 0 = Matrix.create 2 3 := by decide
        rw [h]
        exact create_get 2 3 j)⟩


/-- C6: in a well-formed context of at most `2^32` nodes, with `prog` the program of
`create_program root`. (1) If a requires-gradient node `x` that is not a parameter is an
operand of the two distinct nodes `c1` and `c2` of the program and of no other node of it,
then after `compute_grads` every entry of the gradient of `x` is the sum of what the step
of `c1` and the step of `c2` of the backward loop each leave in a zeroed gradient buffer of
`x`. (2) For the root `r = add(x, relu(x))` on a requires-gradient leaf `x` (neither `x`
nor the `Relu` node a parameter), after a forward and a backward pass
`x.grad[i] = 1 + (1 if x[i] > 0 else 0)` for every `i`. -/
theorem shared_operand_gradient_sum (flog : α → α) (ctx : ModelContext α) (hwf : ctx.WF)
    (hn : ctx.num_vars ≤ U32_MOD) (root : Nat) (hroot : root < ctx.num_vars) :
    ∃ prog, ctx.create_program root = some prog ∧
      (∀ x c1 c2, c1 ∈ prog.vars → c2 ∈ prog.vars → c1 ≠ c2 →
        ctx.IsOperand x c1 → ctx.IsOperand x c2 →
        (∀ c, c ∈ prog.vars → ctx.IsOperand x c → c = c1 ∨ c = c2) →
        has_flag (ctx.var x).flags MV_FLAG_REQUIRES_GRAD = true →
        has_flag (ctx.var x).flags MV_FLAG_PARAMETER = false →
        ∀ i, ((compute_grads flog prog ctx).grad x).get i
          = ((backward_node flog ((compute_grads flog prog ctx).set_grad x
                ((compute_grads flog prog ctx).grad x).clear) c1).grad x).get i
            + ((backward_node flog ((compute_grads flog prog ctx).set_grad x
                ((compute_grads flog prog ctx).grad x).clear) c2).grad x).get i) ∧
      (∀ (fexp : α → α) (x y : Nat), (ctx.var root).op = .Add →
        (ctx.var root).input0 = some x → (ctx.var root).input1 = some y →
        (ctx.var y).op = .Relu → (ctx.var y).input0 = some x → (ctx.var x).op = .Create →
        has_flag (ctx.var x).flags MV_FLAG_REQUIRES_GRAD = true →
        has_flag (ctx.var x).flags MV_FLAG_PARAMETER = false →
        has_flag (ctx.var y).flags MV_FLAG_PARAMETER = false →
        ∀ i, i < (ctx.var x).val.data.length →
          ((compute_grads flog prog (compute_program fexp flog prog ctx)).grad x).get i
            = 1 + (if (ctx.var x).val.get i > 0 then 1 else 0)) := by
  obtain ⟨prog, hp, hord, hlast, hmem⟩ := create_program_order ctx hwf.arena root hroot
  have hsz : prog.size ≤ U32_MOD :=
    le_trans (nodup_length_le prog.vars ctx.num_vars hord.nodup hord.lt) hn
  refine ⟨prog, hp, ?_, ?_⟩
  · intro x c1 c2 hc1 hc2 hne hx1 hx2 honly hreq hnp i
    exact compute_grads_two_consumers flog prog root ctx hwf hord hlast hsz x c1 c2 hc1 hc2 hne
      hx1 hx2 honly hreq hnp i
  · intro fexp x y hop h0 h1 hyop hy0 hxleaf hxreq hxnp hynp i hi
    obtain ⟨prog2, hp2, hwf1, hord1, hlast1, hsz1, hmem1, hf, hleafs⟩ :=
      forward_state fexp flog ctx hwf hn root hroot
    rw [hp] at hp2
    cases hp2
    have hx1 := hleafs x hxleaf
    have h := add_relu_grad flog prog root _ hwf1 hord1 hlast1 hsz1 hmem1 x y
      ((hf root).2.1.trans hop) ((hf root).2.2.1.trans h0) ((hf root).2.2.2.1.trans h1)
      ((hf y).2.1.trans hyop) ((hf y).2.2.1.trans hy0) (by rw [hx1]; exact hxleaf)
      (by rw [hx1]; exact hxreq) (by rw [hx1]; exact hxnp) (by rw [(hf y).1]; exact hynp)
      i (by rw [hx1]; exact hi)
    rw [hx1] at h
    exact h

/-- Witness of C6: `fixAddRelu`, where the leaf 0 (holding 2, -1, 0) is the operand of the
`Relu` node 1 and of the `Add` root 2. -/
theorem shared_operand_gradient_sum_witness :
    (fixAddRelu.var 0).val.data = [2, -1, 0] ∧
    (∀ i, ((compute_grads id ⟨[0, 1, 2]⟩ fixAddRelu).grad 0).get i
      = ((backward_node id ((compute_grads id ⟨[0, 1, 2]⟩ fixAddRelu).set_grad 0
            ((compute_grads id ⟨[0, 1, 2]⟩ fixAddRelu).grad 0).clear) 1).grad 0).get i
        + ((backward_node id ((compute_grads id ⟨[0, 1, 2]⟩ fixAddRelu).set_grad 0
            ((compute_grads id ⟨[0, 1, 2]⟩ fixAddRelu).grad 0).clear) 2).grad 0).get i) ∧
    (∀ i, i < (fixAddRelu.var 0).val.data.length →
      ((compute_grads id ⟨[0, 1, 2]⟩
          (compute_program id id ⟨[0, 1, 2]⟩ fixAddRelu)).grad 0).get i
        = 1 + (if (fixAddRelu.var 0).val.get i > 0 then 1 else 0)) := by
  obtain ⟨prog, hp, hgen, hfam⟩ := shared_operand_gradient_sum id fixAddRelu
    (wf_of_same_skel _ _ (SameSkel.set_val _ 0 ⟨3, 1, [2, -1, 0]⟩ (by decide) (by decide)
        (by decide))
      (Built.wf _ (Built.add _ 0 1 MV_FLAG_COST
        (Built.relu _ 0 0 (Built.create_var _ 3 1 MV_FLAG_REQUIRES_GRAD Built.empty) (by decide))
        (by decide) (by decide))))
    (by decide) 2 (by decide)
  have h2 : fixAddRelu.create_program 2 = some ⟨[0, 1, 2]⟩ := by decide
  rw [h2] at hp
  cases hp
  exact ⟨by decide,
    hgen 0 1 2 (by decide) (by decide) (by decide) (by decide) (by decide) (by decide)
      (by decide) (by decide),
    hfam id 0 1 (by decide) (by decide) (by decide) (by decide) (by decide) (by decide)
      (by decide) (by decide) (by decide)⟩


/-- C7, counterexample: the program of `fixParam` is its single parameter node, which is
also the node `compute_grads` seeds. The first call leaves 1 in its gradient, and so does
the second: not twice the single-pass gradient, and not the gradient before the second call
plus what that call leaves from zero. -/
theorem compute_grads_overwrites_root_parameter :
    fixParam.create_program 0 = some ⟨[0]⟩ ∧
    has_flag (fixParam.var 0).flags MV_FLAG_PARAMETER = true ∧
    (fixParam.grad 0).get 0 = 0 ∧
    ((compute_grads id ⟨[0]⟩ fixParam).grad 0).get 0 = 1 ∧
    ((compute_grads id ⟨[0]⟩ (compute_grads id ⟨[0]⟩ fixParam)).grad 0).get 0 = 1 ∧
    ((compute_grads id ⟨[0]⟩ (compute_grads id ⟨[0]⟩ fixParam)).grad 0).get 0
      ≠ 2 * ((compute_grads id ⟨[0]⟩ fixParam).grad 0).get 0 ∧
    ((compute_grads id ⟨[0]⟩ (compute_grads id ⟨[0]⟩ fixParam)).grad 0).get 0
      ≠ ((compute_grads id ⟨[0]⟩ fixParam).grad 0).get 0
        + ((compute_grads id ⟨[0]⟩ ((compute_grads id ⟨[0]⟩ fixParam).set_grad 0
            ((compute_grads id ⟨[0]⟩ fixParam).grad 0).clear)).grad 0).get 0 := by
  have h1 : ((compute_grads id ⟨[0]⟩ fixParam).grad 0).get 0 = 1 := by decide
  have h2 : ((compute_grads id ⟨[0]⟩ (compute_grads id ⟨[0]⟩ fixParam)).grad 0).get 0 = 1 := by
    decide
  have h3 : ((compute_grads id ⟨[0]⟩ ((compute_grads id ⟨[0]⟩ fixParam).set_grad 0
      ((compute_grads id ⟨[0]⟩ fixParam).grad 0).clear)).grad 0).get 0 = 1 := by decide
  refine ⟨by decide, by decide, by decide, h1, h2, ?_, ?_⟩
  · rw [h2, h1]
    norm_num
  · rw [h2, h1, h3]
    norm_num

/-- C7, as the code has it: in a well-formed context of at most `2^32` nodes, with `prog`
the program of `create_program root`. (1) The clearing loop of `compute_grads` zeroes the
gradient of every requires-gradient node of the program that is not a parameter, and the
state after the call does not depend on what that gradient held before the call. (2) The
clearing loop leaves the gradient of a parameter as it is, and for every parameter `P` of
the program other than its last node `root`, gradient-after = gradient-before + the
gradient the same call leaves in `P` from zero. (3) When every parameter of the program is
a leaf and `root` is not a parameter, a second call over unchanged values leaves, in a
parameter whose gradient was zero before the first call, twice what the first call left. -/
theorem compute_grads_parameter_gradients (flog : α → α) (ctx : ModelContext α)
    (hwf : ctx.WF) (hn : ctx.num_vars ≤ U32_MOD) (root : Nat) (hroot : root < ctx.num_vars) :
    ∃ prog, ctx.create_program root = some prog ∧
      (∀ x, x ∈ prog.vars → has_flag (ctx.var x).flags MV_FLAG_REQUIRES_GRAD = true →
        has_flag (ctx.var x).flags MV_FLAG_PARAMETER = false →
        (prog.vars.foldl clear_grad_node ctx).grad x = (ctx.grad x).clear ∧
        ∀ g2 : Matrix α, g2.rows = (ctx.grad x).rows → g2.cols = (ctx.grad x).cols →
          g2.data.length = (ctx.grad x).data.length →
          ∀ q, (compute_grads flog prog (ctx.set_grad x g2)).var q
            = (compute_grads flog prog ctx).var q) ∧
      (∀ P, P ∈ prog.vars → has_flag (ctx.var P).flags MV_FLAG_PARAMETER = true →
        (prog.vars.foldl clear_grad_node ctx).grad P = ctx.grad P ∧
        (P ≠ root → ∀ i, ((compute_grads flog prog ctx).grad P).get i
          = (ctx.grad P).get i
            + ((compute_grads flog prog (ctx.set_grad P (ctx.grad P).clear)).grad P).get i)) ∧
      ((∀ q, q ∈ prog.vars → has_flag (ctx.var q).flags MV_FLAG_PARAMETER = true →
          (ctx.var q).op = .Create) →
        has_flag (ctx.var root).flags MV_FLAG_PARAMETER = false →
        ∀ P, P ∈ prog.vars → has_flag (ctx.var P).flags MV_FLAG_PARAMETER = true →
          (∀ i, (ctx.grad P).get i = 0) →
          ∀ i, ((compute_grads flog prog (compute_grads flog prog ctx)).grad P).get i
            = 2 * ((compute_grads flog prog ctx).grad P).get i) := by
  obtain ⟨prog, hp, hord, hlast, hmem⟩ := create_program_order ctx hwf.arena root hroot
  have hsz : prog.size ≤ U32_MOD :=
    le_trans (nodup_length_le prog.vars ctx.num_vars hord.nodup hord.lt) hn
  refine ⟨prog, hp, ?_, ?_, ?_⟩
  · intro x hx hreq hnp
    refine ⟨?_, fun g2 hr hc hl q => compute_grads_nonparam_indep flog prog root ctx hwf hord
      hlast hsz x hx hreq hnp g2 hr hc hl q⟩
    rw [(clear_fold_spec prog.vars ctx).2.2 x, if_pos ⟨hx, hreq, hnp⟩]
  · intro P hP hpar
    refine ⟨?_, fun hPr i => compute_grads_param_offset flog prog root ctx hwf hord hlast hsz
      P hP hPr hpar i⟩
    rw [(clear_fold_spec prog.vars ctx).2.2 P, if_neg]
    rintro ⟨_, _, h⟩
    rw [hpar] at h
    cases h
  · intro hleaf hrootnp P hP hpar hzero i
    rw [compute_grads_twice flog prog root ctx hwf hord hlast hsz hleaf hrootnp P hP hpar i,
      hzero i]
    ring

/-- Witness of C7: the parameter `W` (node 0) of `fixLinear`, whose program has the root 2
and the node 2 as its only requires-gradient node that is not a parameter. -/
theorem compute_grads_parameter_gradients_witness :
    (has_flag (fixLinear.var 0).flags MV_FLAG_PARAMETER = true ∧
      has_flag (fixLinear.var 2).flags MV_FLAG_REQUIRES_GRAD = true ∧
      has_flag (fixLinear.var 2).flags MV_FLAG_PARAMETER = false) ∧
    ((⟨[1, 0, 2]⟩ : ModelProgram).vars.foldl clear_grad_node fixLinear).grad 2
      = (fixLinear.grad 2).clear ∧
    (∀ q, (compute_grads id ⟨[1, 0, 2]⟩ (fixLinear.set_grad 2 ⟨2, 1, [5, 6]⟩)).var q
      = (compute_grads id ⟨[1, 0, 2]⟩ fixLinear).var q) ∧
    (∀ i, ((compute_grads id ⟨[1, 0, 2]⟩ fixLinear).grad 0).get i
      = (fixLinear.grad 0).get i
        + ((compute_grads id ⟨[1, 0, 2]⟩
            (fixLinear.set_grad 0 (fixLinear.grad 0).clear)).grad 0).get i) ∧
    (∀ i, ((compute_grads id ⟨[1, 0, 2]⟩ (compute_grads id ⟨[1, 0, 2]⟩ fixLinear)).grad 0).get i
      = 2 * ((compute_grads id ⟨[1, 0, 2]⟩ fixLinear).grad 0).get i) := by
  obtain ⟨prog, hp, hA, hB, hC⟩ := compute_grads_parameter_gradients id fixLinear
    (wf_of_same_skel _ _ (SameSkel.set_val _ 1 ⟨3, 1, [7, 8, 9]⟩ (by decide) (by decide)
        (by decide))
      (Built.wf _ (Built.matmul _ 0 1 MV_FLAG_OUTPUT
        (Built.create_var _ 3 1 MV_FLAG_INPUT
          (Built.create_var _ 2 3 (MV_FLAG_REQUIRES_GRAD ||| MV_FLAG_PARAMETER) Built.empty))
        (by decide) (by decide))))
    (by decide) 2 (by decide)
  have h2 : fixLinear.create_program 2 = some ⟨[1, 0, 2]⟩ := by decide
  rw [h2] at hp
  cases hp
  refine ⟨by decide, (hA 2 (by decide) (by decide) (by decide)).1,
    (hA 2 (by decide) (by decide) (by decide)).2 ⟨2, 1, [5, 6]⟩ (by decide) (by decide)
      (by decide),
    (hB 0 (by decide) (by decide)).2 (by decide),
    hC (by decide) (by decide) 0 (by decide) (by decide) ?_⟩
  intro j
  have h : fixLinear.grad 0 = Matrix.create 2 3 := by decide
  rw [h]
  exact create_get 2 3 j


/-- C11: for every non-empty input `inp` and output `out` of the same shape, with an
exponential that is positive (as the real one is), `softmax` returns true, the result has
the shape of the input, entry `i` is `exp(inp[i])` divided by the sum of the `exp(inp[j])`
and is strictly positive, and the entries sum to exactly 1. -/
theorem softmax_positive_unit_sum (fexp : α → α) (hexp : ∀ x, 0 < fexp x)
    (out inp : Matrix α) (hr : out.rows = inp.rows) (hc : out.cols = inp.cols)
    (hout : out.WF) (hinp : inp.WF) (hne : 0 < inp.size) :
    (MatOps.softmax fexp out inp).1 = true ∧
    (MatOps.softmax fexp out inp).2.rows = inp.rows ∧
    (MatOps.softmax fexp out inp).2.cols = inp.cols ∧
    (MatOps.softmax fexp out inp).2.data.length = inp.size ∧
    (∀ i, i < inp.size →
      (MatOps.softmax fexp out inp).2.get i
        = fexp (inp.get i) / ∑ j in Finset.range inp.size, fexp (inp.get j) ∧
      0 < (MatOps.softmax fexp out inp).2.get i) ∧
    (MatOps.softmax fexp out inp).2.sum = 1 :=
  MatOps.softmax_normalised fexp hexp out inp hr hc hout hne

/-- Witness of C11: the real exponential on the 1-by-2 input `(0, 1)`. -/
theorem softmax_positive_unit_sum_witness :
    (MatOps.softmax Real.exp (⟨1, 2, [5, 7]⟩ : Matrix ℝ) ⟨1, 2, [0, 1]⟩).1 = true ∧
    (MatOps.softmax Real.exp (⟨1, 2, [5, 7]⟩ : Matrix ℝ) ⟨1, 2, [0, 1]⟩).2.rows = 1 ∧
    (MatOps.softmax Real.exp (⟨1, 2, [5, 7]⟩ : Matrix ℝ) ⟨1, 2, [0, 1]⟩).2.cols = 2 ∧
    (MatOps.softmax Real.exp (⟨1, 2, [5, 7]⟩ : Matrix ℝ) ⟨1, 2, [0, 1]⟩).2.data.length = 2 ∧
    (∀ i, i < 2 →
      (MatOps.softmax Real.exp (⟨1, 2, [5, 7]⟩ : Matrix ℝ) ⟨1, 2, [0, 1]⟩).2.get i
        = Real.exp ((⟨1, 2, [0, 1]⟩ : Matrix ℝ).get i)
          / ∑ j in Finset.range 2, Real.exp ((⟨1, 2, [0, 1]⟩ : Matrix ℝ).get j) ∧
      0 < (MatOps.softmax Real.exp (⟨1, 2, [5, 7]⟩ : Matrix ℝ) ⟨1, 2, [0, 1]⟩).2.get i) ∧
    (MatOps.softmax Real.exp (⟨1, 2, [5, 7]⟩ : Matrix ℝ) ⟨1, 2, [0, 1]⟩).2.sum = 1 :=
  softmax_positive_unit_sum Real.exp Real.exp_pos ⟨1, 2, [5, 7]⟩ ⟨1, 2, [0, 1]⟩ rfl rfl rfl rfl
    (by decide)


/-- C12: for every non-empty matrix, `argmax` returns an index `i < size` with
`data[j] <= data[i]` for every `j < size` and `data[j] < data[i]` for every `j < i`: the
lowest index at which the maximum occurs. -/
theorem argmax_lowest_maximum (m : Matrix α) (hwf : m.WF) (hne : 0 < m.size) :
    m.argmax < m.size ∧ (∀ j, j < m.size → m.get j ≤ m.get m.argmax) ∧
      (∀ j, j < m.argmax → m.get j < m.get m.argmax) := by
  unfold Matrix.WF at hwf
  unfold Matrix.size at *
  rw [← hwf] at hne ⊢
  exact Matrix.argmax_first_max m hne

/-- Witness of C12: `[0.1, 0.9, 0.9, 0.2]` gives 1. -/
theorem argmax_lowest_maximum_witness :
    fixArgmax.argmax = 1 ∧
    (fixArgmax.argmax < fixArgmax.size ∧
      (∀ j, j < fixArgmax.size → fixArgmax.get j ≤ fixArgmax.get fixArgmax.argmax) ∧
      (∀ j, j < fixArgmax.argmax → fixArgmax.get j < fixArgmax.get fixArgmax.argmax)) :=
  ⟨by norm_num [Matrix.argmax, fixArgmax, Matrix.get, List.range_succ],
    argmax_lowest_maximum fixArgmax (by decide) (by decide)⟩


/-- C13: for matrices `a`, `b` and outputs `t`, `r` of one common shape, `add(t, a, b)`
succeeds, then `sub(r, t, b)` succeeds and leaves `a` in `r`; the same holds for the
subtraction done in place, `sub(t, t, b)`. -/
theorem add_then_sub_recovers (t r a b : Matrix α) (hab : a.rows = b.rows ∧ a.cols = b.cols)
    (htr : t.rows = a.rows) (htc : t.cols = a.cols) (hrr : r.rows = a.rows)
    (hrc : r.cols = a.cols) (ha : a.WF) (hb : b.WF) (ht : t.WF) (hr : r.WF) :
    (MatOps.add t a b).1 = true ∧
    (MatOps.sub r (MatOps.add t a b).2 b).1 = true ∧
    (MatOps.sub r (MatOps.add t a b).2 b).2 = a ∧
    (MatOps.sub (MatOps.add t a b).2 (MatOps.add t a b).2 b).1 = true ∧
    (MatOps.sub (MatOps.add t a b).2 (MatOps.add t a b).2 b).2 = a :=
  MatOps.add_then_sub t r a b hab htr htc hrr hrc ha ht hr

/-- Witness of C13: 2-by-2 matrices. -/
theorem add_then_sub_recovers_witness :
    (MatOps.add fixOut (⟨2, 2, [1, 2, 3, 4]⟩ : Matrix ℚ) ⟨2, 2, [5, 6, 7, 8]⟩).1 = true ∧
    (MatOps.sub ⟨2, 2, [0, 0, 0, 0]⟩
      (MatOps.add fixOut (⟨2, 2, [1, 2, 3, 4]⟩ : Matrix ℚ) ⟨2, 2, [5, 6, 7, 8]⟩).2
      ⟨2, 2, [5, 6, 7, 8]⟩).1 = true ∧
    (MatOps.sub ⟨2, 2, [0, 0, 0, 0]⟩
      (MatOps.add fixOut (⟨2, 2, [1, 2, 3, 4]⟩ : Matrix ℚ) ⟨2, 2, [5, 6, 7, 8]⟩).2
      ⟨2, 2, [5, 6, 7, 8]⟩).2 = ⟨2, 2, [1, 2, 3, 4]⟩ ∧
    (MatOps.sub (MatOps.add fixOut (⟨2, 2, [1, 2, 3, 4]⟩ : Matrix ℚ) ⟨2, 2, [5, 6, 7, 8]⟩).2
      (MatOps.add fixOut (⟨2, 2, [1, 2, 3, 4]⟩ : Matrix ℚ) ⟨2, 2, [5, 6, 7, 8]⟩).2
      ⟨2, 2, [5, 6, 7, 8]⟩).1 = true ∧
    (MatOps.sub (MatOps.add fixOut (⟨2, 2, [1, 2, 3, 4]⟩ : Matrix ℚ) ⟨2, 2, [5, 6, 7, 8]⟩).2
      (MatOps.add fixOut (⟨2, 2, [1, 2, 3, 4]⟩ : Matrix ℚ) ⟨2, 2, [5, 6, 7, 8]⟩).2
      ⟨2, 2, [5, 6, 7, 8]⟩).2 = ⟨2, 2, [1, 2, 3, 4]⟩ :=
  add_then_sub_recovers fixOut ⟨2, 2, [0, 0, 0, 0]⟩ ⟨2, 2, [1, 2, 3, 4]⟩ ⟨2, 2, [5, 6, 7, 8]⟩
    (by decide) (by decide) (by decide) (by decide) (by decide) (by decide) (by decide)
    (by decide) (by decide)


/-- C14: `add`, `sub` and `cross_entropy` return the null sentinel exactly when the value
shapes of the two operands differ, `matmul` exactly when `a.cols != b.rows`; when the
sentinel is returned the context (arena, role designations, programs) is unchanged; on
success the returned node is the single node appended to the arena, the existing nodes are
unchanged, and the new node has the shape of the operands (`a.rows` by `b.cols` for
`matmul`). -/
theorem composers_reject_or_append (ctx : ModelContext α) (a b flags : Nat) :
    (((ctx.add a b flags).2 = none ↔
        ((ctx.var a).val.rows ≠ (ctx.var b).val.rows ∨
          (ctx.var a).val.cols ≠ (ctx.var b).val.cols)) ∧
      ((ctx.add a b flags).2 = none → (ctx.add a b flags).1 = ctx) ∧
      (∀ p, (ctx.add a b flags).2 = some p → p = ctx.num_vars ∧
        (ctx.add a b flags).1.num_vars = ctx.num_vars + 1 ∧
        (∀ q, q < ctx.num_vars → (ctx.add a b flags).1.var q = ctx.var q) ∧
        ((ctx.add a b flags).1.var p).val.rows = (ctx.var a).val.rows ∧
        ((ctx.add a b flags).1.var p).val.cols = (ctx.var a).val.cols)) ∧
    (((ctx.sub a b flags).2 = none ↔
        ((ctx.var a).val.rows ≠ (ctx.var b).val.rows ∨
          (ctx.var a).val.cols ≠ (ctx.var b).val.cols)) ∧
      ((ctx.sub a b flags).2 = none → (ctx.sub a b flags).1 = ctx) ∧
      (∀ p, (ctx.sub a b flags).2 = some p → p = ctx.num_vars ∧
        (ctx.sub a b flags).1.num_vars = ctx.num_vars + 1 ∧
        (∀ q, q < ctx.num_vars → (ctx.sub a b flags).1.var q = ctx.var q) ∧
        ((ctx.sub a b flags).1.var p).val.rows = (ctx.var a).val.rows ∧
        ((ctx.sub a b flags).1.var p).val.cols = (ctx.var a).val.cols)) ∧
    (((ctx.cross_entropy a b flags).2 = none ↔
        ((ctx.var a).val.rows ≠ (ctx.var b).val.rows ∨
          (ctx.var a).val.cols ≠ (ctx.var b).val.cols)) ∧
      ((ctx.cross_entropy a b flags).2 = none → (ctx.cross_entropy a b flags).1 = ctx) ∧
      (∀ p, (ctx.cross_entropy a b flags).2 = some p → p = ctx.num_vars ∧
        (ctx.cross_entropy a b flags).1.num_vars = ctx.num_vars + 1 ∧
        (∀ q, q < ctx.num_vars → (ctx.cross_entropy a b flags).1.var q = ctx.var q) ∧
        ((ctx.cross_entropy a b flags).1.var p).val.rows = (ctx.var a).val.rows ∧
        ((ctx.cross_entropy a b flags).1.var p).val.cols = (ctx.var a).val.cols)) ∧
    (((ctx.matmul a b flags).2 = none ↔ (ctx.var a).val.cols ≠ (ctx.var b).val.rows) ∧
      ((ctx.matmul a b flags).2 = none → (ctx.matmul a b flags).1 = ctx) ∧
      (∀ p, (ctx.matmul a b flags).2 = some p → p = ctx.num_vars ∧
        (ctx.matmul a b flags).1.num_vars = ctx.num_vars + 1 ∧
        (∀ q, q < ctx.num_vars → (ctx.matmul a b flags).1.var q = ctx.var q) ∧
        ((ctx.matmul a b flags).1.var p).val.rows = (ctx.var a).val.rows ∧
        ((ctx.matmul a b flags).1.var p).val.cols = (ctx.var b).val.cols)) :=
  ⟨composer_outcome ctx a b _ _ flags .Add _ _ rfl,
    composer_outcome ctx a b _ _ flags .Sub _ _ rfl,
    composer_outcome ctx a b _ _ flags .CrossEntropy _ _ rfl,
    composer_outcome ctx a b _ _ flags .Matmul _ _ rfl⟩


/-- Witness of C14: in `fixLinear` (node 0 is 2-by-3, node 1 is 3-by-1) `add` is rejected
and leaves the context as it is, and `matmul` appends the 2-by-1 node 3. -/
theorem composers_reject_or_append_witness :
    (fixLinear.add 0 1 0).2 = none ∧ (fixLinear.add 0 1 0).1 = fixLinear ∧
    (fixLinear.matmul 0 1 0).2 = some 3 ∧
    (3 = fixLinear.num_vars ∧ (fixLinear.matmul 0 1 0).1.num_vars = fixLinear.num_vars + 1 ∧
      (∀ q, q < fixLinear.num_vars → (fixLinear.matmul 0 1 0).1.var q = fixLinear.var q) ∧
      ((fixLinear.matmul 0 1 0).1.var 3).val.rows = (fixLinear.var 0).val.rows ∧
      ((fixLinear.matmul 0 1 0).1.var 3).val.cols = (fixLinear.var 1).val.cols) :=
  ⟨(composers_reject_or_append fixLinear 0 1 0).1.1.mpr (Or.inr (by decide)),
    (composers_reject_or_append fixLinear 0 1 0).1.2.1
      ((composers_reject_or_append fixLinear 0 1 0).1.1.mpr (Or.inr (by decide))),
    by decide,
    (composers_reject_or_append fixLinear 0 1 0).2.2.2.2.2 3 (by decide)⟩

/-- C15, counterexample: `relu` called with `MV_FLAG_REQUIRES_GRAD` on the leaf of
`fixNoGrad`, which has no requires-gradient flag, creates a node with the flag set. -/
theorem composer_flag_from_caller :
    (fixNoGrad.relu 0 MV_FLAG_REQUIRES_GRAD).2 = some 1 ∧
    has_flag (fixNoGrad.var 0).flags MV_FLAG_REQUIRES_GRAD = false ∧
    has_flag ((fixNoGrad.relu 0 MV_FLAG_REQUIRES_GRAD).1.var 1).flags MV_FLAG_REQUIRES_GRAD
      = true := by
  decide

/-- C15, as the code has it: for every successful call of a composer, the
requires-gradient flag of the created node is set exactly when the `flags` argument has it
set or at least one operand has it set. -/
theorem composer_flag_propagation (ctx : ModelContext α) (a b flags p : Nat) :
    ((ctx.relu a flags).2 = some p →
      has_flag ((ctx.relu a flags).1.var p).flags MV_FLAG_REQUIRES_GRAD
        = (has_flag flags MV_FLAG_REQUIRES_GRAD ||
            has_flag (ctx.var a).flags MV_FLAG_REQUIRES_GRAD)) ∧
    ((ctx.softmax a flags).2 = some p →
      has_flag ((ctx.softmax a flags).1.var p).flags MV_FLAG_REQUIRES_GRAD
        = (has_flag flags MV_FLAG_REQUIRES_GRAD ||
            has_flag (ctx.var a).flags MV_FLAG_REQUIRES_GRAD)) ∧
    ((ctx.add a b flags).2 = some p →
      has_flag ((ctx.add a b flags).1.var p).flags MV_FLAG_REQUIRES_GRAD
        = (has_flag flags MV_FLAG_REQUIRES_GRAD ||
            (has_flag (ctx.var a).flags MV_FLAG_REQUIRES_GRAD ||
              has_flag (ctx.var b).flags MV_FLAG_REQUIRES_GRAD))) ∧
    ((ctx.sub a b flags).2 = some p →
      has_flag ((ctx.sub a b flags).1.var p).flags MV_FLAG_REQUIRES_GRAD
        = (has_flag flags MV_FLAG_REQUIRES_GRAD ||
            (has_flag (ctx.var a).flags MV_FLAG_REQUIRES_GRAD ||
              has_flag (ctx.var b).flags MV_FLAG_REQUIRES_GRAD))) ∧
    ((ctx.matmul a b flags).2 = some p →
      has_flag ((ctx.matmul a b flags).1.var p).flags MV_FLAG_REQUIRES_GRAD
        = (has_flag flags MV_FLAG_REQUIRES_GRAD ||
            (has_flag (ctx.var a).flags MV_FLAG_REQUIRES_GRAD ||
              has_flag (ctx.var b).flags MV_FLAG_REQUIRES_GRAD))) ∧
    ((ctx.cross_entropy a b flags).2 = some p →
      has_flag ((ctx.cross_entropy a b flags).1.var p).flags MV_FLAG_REQUIRES_GRAD
        = (has_flag flags MV_FLAG_REQUIRES_GRAD ||
            (has_flag (ctx.var a).flags MV_FLAG_REQUIRES_GRAD ||
              has_flag (ctx.var b).flags MV_FLAG_REQUIRES_GRAD))) :=
  ⟨unary_composer_flag ctx a _ _ flags .Relu _ rfl p,
    unary_composer_flag ctx a _ _ flags .Softmax _ rfl p,
    binary_composer_flag ctx a b _ _ flags .Add _ _ rfl p,
    binary_composer_flag ctx a b _ _ flags .Sub _ _ rfl p,
    binary_composer_flag ctx a b _ _ flags .Matmul _ _ rfl p,
    binary_composer_flag ctx a b _ _ flags .CrossEntropy _ _ rfl p⟩

/-- Witness of C15: in `fixGraph` (node 0 requires a gradient) `relu` with no flag creates
a node with the flag, and in `fixNoGrad` `add` with no flag creates a node without it. -/
theorem composer_flag_propagation_witness :
    has_flag ((fixGraph.relu 0 0).1.var 3).flags MV_FLAG_REQUIRES_GRAD
      = (has_flag 0 MV_FLAG_REQUIRES_GRAD ||
          has_flag (fixGraph.var 0).flags MV_FLAG_REQUIRES_GRAD) ∧
    has_flag ((fixGraph.relu 0 0).1.var 3).flags MV_FLAG_REQUIRES_GRAD = true ∧
    has_flag ((fixNoGrad.add 0 0 0).1.var 1).flags MV_FLAG_REQUIRES_GRAD
      = (has_flag 0 MV_FLAG_REQUIRES_GRAD ||
          (has_flag (fixNoGrad.var 0).flags MV_FLAG_REQUIRES_GRAD ||
            has_flag (fixNoGrad.var 0).flags MV_FLAG_REQUIRES_GRAD)) ∧
    has_flag ((fixNoGrad.add 0 0 0).1.var 1).flags MV_FLAG_REQUIRES_GRAD = false :=
  ⟨(composer_flag_propagation fixGraph 0 0 0 3).1 (by decide), by decide,
    (composer_flag_propagation fixNoGrad 0 0 0 1).2.2.1 (by decide), by decide⟩


/-- C16: in every context built by `create_var` and the composers, with any flags, every
node has a gradient matrix exactly when its requires-gradient flag is set, and a gradient
matrix that is present has the rows and cols of the node's value matrix. -/
theorem built_grad_iff_requires_grad (ctx : ModelContext α) (h : Built ctx) (p : Nat)
    (hp : p < ctx.num_vars) :
    ((ctx.var p).grad ≠ none ↔ has_flag (ctx.var p).flags MV_FLAG_REQUIRES_GRAD = true) ∧
      ∀ g, (ctx.var p).grad = some g →
        g.rows = (ctx.var p).val.rows ∧ g.cols = (ctx.var p).val.cols :=
  wf_grad_iff ctx (Built.wf ctx h) p hp

/-- Witness of C16: the `Relu` node 1 of `fixGraph`, which inherits the flag of its
operand. -/
theorem built_grad_iff_requires_grad_witness :
    (fixGraph.var 1).grad = some ⟨3, 1, [0, 0, 0]⟩ ∧
    (((fixGraph.var 1).grad ≠ none ↔
        has_flag (fixGraph.var 1).flags MV_FLAG_REQUIRES_GRAD = true) ∧
      ∀ g, (fixGraph.var 1).grad = some g →
        g.rows = (fixGraph.var 1).val.rows ∧ g.cols = (fixGraph.var 1).val.cols) :=
  ⟨by decide,
    built_grad_iff_requires_grad fixGraph
      (Built.add _ 0 1 MV_FLAG_COST
        (Built.relu _ 0 0 (Built.create_var _ 3 1 MV_FLAG_REQUIRES_GRAD Built.empty) (by decide))
        (by decide) (by decide))
      1 (by decide)⟩

/-- C17: in every context built by `create_var` and the composers applied to nodes of the
context, the node at arena position `p` has index `p`; every operand recorded in a node is
a node of the arena with a strictly smaller index; no node reaches itself by following
operand references one or more times; and no call of the API changes the index of an
existing node. -/
theorem built_arena_well_formed (ctx : ModelContext α) (h : Built ctx) :
    (∀ p, p < ctx.num_vars → (ctx.var p).index = p) ∧
    (∀ p y, p < ctx.num_vars → ctx.IsOperand y p →
      y < ctx.num_vars ∧ (ctx.var y).index < (ctx.var p).index) ∧
    (∀ x, ¬ Relation.TransGen (fun a b => ctx.IsOperand b a) x x) ∧
    (∀ rows cols flags a b q, q < ctx.num_vars →
      ((ctx.create_var rows cols flags).1.var q).index = (ctx.var q).index ∧
      ((ctx.relu a flags).1.var q).index = (ctx.var q).index ∧
      ((ctx.softmax a flags).1.var q).index = (ctx.var q).index ∧
      ((ctx.add a b flags).1.var q).index = (ctx.var q).index ∧
      ((ctx.sub a b flags).1.var q).index = (ctx.var q).index ∧
      ((ctx.matmul a b flags).1.var q).index = (ctx.var q).index ∧
      ((ctx.cross_entropy a b flags).1.var q).index = (ctx.var q).index) := by
  obtain ⟨h1, h2, h3⟩ := arena_indices ctx (Built.wf ctx h).arena
  refine ⟨h1, h2, h3, ?_⟩
  intro rows cols flags a b q hq
  obtain ⟨k1, k2, k3, k4, k5, k6, k7⟩ := api_keeps_nodes ctx rows cols flags a b q hq
  rw [k1, k2, k3, k4, k5, k6, k7]
  exact ⟨rfl, rfl, rfl, rfl, rfl, rfl, rfl⟩

/-- Witness of C17: `fixGraph`, whose root 2 has the operands 0 and 1. -/
theorem built_arena_well_formed_witness :
    (fixGraph.IsOperand 0 2 ∧ fixGraph.IsOperand 1 2) ∧
    ((∀ p, p < fixGraph.num_vars → (fixGraph.var p).index = p) ∧
    (∀ p y, p < fixGraph.num_vars → fixGraph.IsOperand y p →
      y < fixGraph.num_vars ∧ (fixGraph.var y).index < (fixGraph.var p).index) ∧
    (∀ x, ¬ Relation.TransGen (fun a b => fixGraph.IsOperand b a) x x) ∧
    (∀ rows cols flags a b q, q < fixGraph.num_vars →
      ((fixGraph.create_var rows cols flags).1.var q).index = (fixGraph.var q).index ∧
      ((fixGraph.relu a flags).1.var q).index = (fixGraph.var q).index ∧
      ((fixGraph.softmax a flags).1.var q).index = (fixGraph.var q).index ∧
      ((fixGraph.add a b flags).1.var q).index = (fixGraph.var q).index ∧
      ((fixGraph.sub a b flags).1.var q).index = (fixGraph.var q).index ∧
      ((fixGraph.matmul a b flags).1.var q).index = (fixGraph.var q).index ∧
      ((fixGraph.cross_entropy a b flags).1.var q).index = (fixGraph.var q).index)) :=
  ⟨by decide,
    built_arena_well_formed fixGraph
      (Built.add _ 0 1 MV_FLAG_COST
        (Built.relu _ 0 0 (Built.create_var _ 3 1 MV_FLAG_REQUIRES_GRAD Built.empty) (by decide))
        (by decide) (by decide))⟩


/-- C18: the parameter update at the end of a batch, in a well-formed context with
`batch_size >= 1`: the number of nodes is unchanged; for every node flagged as parameter
(with its gradient buffer `G`, present under the requires-gradient flag) the value keeps
its shape and `value-after[i] = value-before[i] - (learning_rate / batch_size) * G[i]` for
every `i`; every node not flagged as parameter, its value and gradient buffers included, is
unchanged. -/
theorem parameter_update_step (learning_rate : α) (batch_size : Nat) (hb : 1 ≤ batch_size)
    (ctx : ModelContext α) (hwf : ctx.WF) :
    (update_parameters learning_rate batch_size ctx).num_vars = ctx.num_vars ∧
    (∀ p, p < ctx.num_vars → has_flag (ctx.var p).flags MV_FLAG_PARAMETER = true →
      has_flag (ctx.var p).flags MV_FLAG_REQUIRES_GRAD = true →
      ((update_parameters learning_rate batch_size ctx).var p).val.rows
        = (ctx.var p).val.rows ∧
      ((update_parameters learning_rate batch_size ctx).var p).val.cols
        = (ctx.var p).val.cols ∧
      ∀ i, ((update_parameters learning_rate batch_size ctx).var p).val.get i
        = (ctx.var p).val.get i
          - learning_rate / (batch_size : α) * (ctx.grad p).get i) ∧
    (∀ p, has_flag (ctx.var p).flags MV_FLAG_PARAMETER = false →
      (update_parameters learning_rate batch_size ctx).var p = ctx.var p) :=
  update_parameters_spec learning_rate batch_size ctx hwf

/-- Witness of C18: `fixTrained` with learning rate 1 and batch size 2; the parameter 0
holding 1 .. 6 with gradient 7, 8, 9, 7, 8, 9 ends at `1 - 7/2`, `2 - 8/2`, ... -/
theorem parameter_update_step_witness :
    ((update_parameters 1 2 fixTrained).var 0).val.get 0 = 1 - 1 / 2 * 7 ∧
    ((update_parameters 1 2 fixTrained).var 1) = fixTrained.var 1 := by
  obtain ⟨_, hpar, hnon⟩ := parameter_update_step (1 : ℚ) 2 (by decide) fixTrained fixTrained_wf
  have h := (hpar 0 (by decide) (by decide) (by decide)).2.2 0
  have hv : (fixTrained.var 0).val.get 0 = 1 := by decide
  have hg : (fixTrained.grad 0).get 0 = 7 := by decide
  rw [hv, hg] at h
  exact ⟨by rw [h]; norm_num, hnon 1 (by decide)⟩


/-- C19: for `num_examples = n < 2^32` (a `u32`), `batch_size = b >= 1` and any sequence
`rand` of generator outputs, `train` runs `epochs` epochs, and in each of them: the order
used is a permutation of `0 .. n-1`; the positions `batch * b + i` looked up are exactly
`0 .. (n / b) * b - 1` (no `u32` overflow), all inside the vector; the lookups are the first
`(n / b) * b` entries of the order, so the `n mod b` trailing entries are not used; there
are exactly `(n / b) * b` of them, each an index `< n`, and they are pairwise distinct. -/
theorem train_epoch_examples (rand : Nat → Nat) (n b epochs : Nat) (hn : n < U32_MOD)
    (hb : 1 ≤ b) :
    (train_examples rand n b epochs).length = epochs ∧
    n - n / b * b = n % b ∧
    ∀ e, e ∈ train_examples rand n b epochs →
      e.1.Perm (List.range n) ∧
      epoch_order_indices n b = List.range (n / b * b) ∧
      (∀ k, k ∈ epoch_order_indices n b → k < e.1.length) ∧
      e.2 = (e.1.take (n / b * b)).map some ∧
      e.2.length = n / b * b ∧
      (∀ x, x ∈ e.2 → ∃ idx, x = some idx ∧ idx < n) ∧
      e.2.Nodup := by
  refine ⟨?_, ?_, ?_⟩
  · unfold train_examples
    generalize training_order_init n = o
    generalize 0 = d
    induction epochs generalizing d o with
    | zero => rfl
    | succ k ih =>
      unfold train_epochs
      rw [List.length_cons, ih]
  · have h := Nat.div_add_mod n b
    have h2 : b * (n / b) = n / b * b := Nat.mul_comm _ _
    omega
  · intro e he
    obtain ⟨hp, h2⟩ := train_epochs_spec rand n b epochs 0 (training_order_init n)
      (List.Perm.refl _) e he
    obtain ⟨k1, k2, k3, k4⟩ := epoch_examples_spec n b hn e.1 hp
    have hidx := epoch_order_indices_eq n b hn
    refine ⟨hp, hidx, ?_, h2.trans k1, h2 ▸ k2, h2 ▸ k3, h2 ▸ k4⟩
    intro k hk
    rw [hidx] at hk
    rw [hp.length_eq, List.length_range]
    exact lt_of_lt_of_le (List.mem_range.mp hk) (Nat.div_mul_le_self n b)

/-- Witness of C19: five examples in batches of two for two epochs, with the generator
outputs `3, 10, 17, ...`: each epoch trains on four distinct examples and skips the last
entry of its order. -/
theorem train_epoch_examples_witness :
    train_examples (fun k => 7 * k + 3) 5 2 2
      = [([4, 2, 3, 1, 0], [some 4, some 2, some 3, some 1]),
         ([0, 3, 1, 2, 4], [some 0, some 3, some 1, some 2])] ∧
    ((train_examples (fun k => 7 * k + 3) 5 2 2).length = 2 ∧
    5 - 5 / 2 * 2 = 5 % 2 ∧
    ∀ e, e ∈ train_examples (fun k => 7 * k + 3) 5 2 2 →
      e.1.Perm (List.range 5) ∧
      epoch_order_indices 5 2 = List.range (5 / 2 * 2) ∧
      (∀ k, k ∈ epoch_order_indices 5 2 → k < e.1.length) ∧
      e.2 = (e.1.take (5 / 2 * 2)).map some ∧
      e.2.length = 5 / 2 * 2 ∧
      (∀ x, x ∈ e.2 → ∃ idx, x = some idx ∧ idx < 5) ∧
      e.2.Nodup) :=
  ⟨by decide, train_epoch_examples (fun k => 7 * k + 3) 5 2 2 (by decide) (by decide)⟩


/-- C20, counterexample: in `f32` the draws `2^32 - 1` and `2^32 - 128` are both mapped by
`randf` to exactly 1, which is not below 1; with the draw `2^32 - 1`, `fill_rand(2, 5)`
writes 5, the excluded upper bound, and `fill_rand(-16777218, 1)` writes 2, which is above
the upper bound. -/
theorem randf_attains_one :
    U32_MAX < U32_MOD ∧ randf U32_MAX = some 1 ∧
    4294967168 < U32_MOD ∧ randf 4294967168 = some 1 ∧ ¬ ((1 : ℚ) < 1) ∧
    (2 : ℚ) < 5 ∧
    (⟨1, 1, [0]⟩ : Matrix ℚ).fill_rand (fun _ => U32_MAX) 0 2 5 = some ⟨1, 1, [5]⟩ ∧
    (-16777218 : ℚ) < 1 ∧
    (⟨1, 1, [0]⟩ : Matrix ℚ).fill_rand (fun _ => U32_MAX) 0 (-16777218) 1
      = some ⟨1, 1, [2]⟩ ∧ (1 : ℚ) < 2 :=
  ⟨by decide, randf_top_values.1, by decide, randf_top_values.2.1, lt_irrefl 1, by norm_num,
    fill_rand_top_values.1, by norm_num, fill_rand_top_values.2, by norm_num⟩

/-- C20, as the code has it: for every unsigned 32-bit draw `r`, `randf` returns the `f32`
conversion of `r` divided by `2^32` (the `f32` conversion of `2^32 - 1`), a value of the
closed unit interval that is 1 exactly for the draws from `2^32 - 128` on; consequently, for
an `f32` value `lower` below `upper`, with `D` the `f32` difference `upper - lower` and `top`
the `f32` sum `D + lower`, `fill_rand` keeps the shape and every element it writes lies in
the closed interval from `lower` to `top`, and is `top` for the draws from `2^32 - 128`
on. -/
theorem randf_closed_unit_interval (rand : Nat → Nat) (hrand : ∀ k, rand k < U32_MOD)
    (drawn : Nat) (m : Matrix ℚ) (lower upper D top : ℚ)
    (hl : f32_round lower = some lower) (hlu : lower < upper)
    (hD : f32_sub upper lower = some D) (htop : f32_add D lower = some top)
    (r : Nat) (hr : r < U32_MOD) :
    f32_of_u32 U32_MAX = some 4294967296 ∧
    (∃ a v, f32_of_u32 r = some a ∧ randf r = some v ∧ v = a / 4294967296 ∧
      0 ≤ v ∧ v ≤ 1 ∧ (v = 1 ↔ U32_MOD - 128 ≤ r)) ∧
    ∃ m2, m.fill_rand rand drawn lower upper = some m2 ∧ m2.rows = m.rows ∧
      m2.cols = m.cols ∧ m2.data.length = m.data.length ∧
      ∀ i, i < m.data.length →
        fill_rand_value (rand (drawn + i)) lower upper = some (m2.get i) ∧
        lower ≤ m2.get i ∧ m2.get i ≤ top ∧
        (U32_MOD - 128 ≤ rand (drawn + i) → m2.get i = top) :=
  ⟨f32_of_u32_max, randf_spec r hr,
    Matrix.fill_rand_spec rand hrand drawn m lower upper D top hl (le_of_lt hlu) hD htop⟩

/-- Witness of C20: a 1-by-2 matrix filled from the draws 6 and `2^32 - 1`, with
`lower = 2` and `upper = 5`, for which the `f32` difference is 3 and the `f32` sum `3 + 2`
is 5. -/
theorem randf_closed_unit_interval_witness :
    f32_of_u32 U32_MAX = some 4294967296 ∧
    (∃ a v, f32_of_u32 U32_MAX = some a ∧ randf U32_MAX = some v ∧ v = a / 4294967296 ∧
      0 ≤ v ∧ v ≤ 1 ∧ (v = 1 ↔ U32_MOD - 128 ≤ U32_MAX)) ∧
    ∃ m2, (⟨1, 2, [0, 0]⟩ : Matrix ℚ).fill_rand (fun k => if k = 0 then 6 else U32_MAX) 0 2 5
        = some m2 ∧
      m2.rows = (⟨1, 2, [0, 0]⟩ : Matrix ℚ).rows ∧
      m2.cols = (⟨1, 2, [0, 0]⟩ : Matrix ℚ).cols ∧
      m2.data.length = (⟨1, 2, [0, 0]⟩ : Matrix ℚ).data.length ∧
      ∀ i, i < (⟨1, 2, [0, 0]⟩ : Matrix ℚ).data.length →
        fill_rand_value ((fun k => if k = 0 then 6 else U32_MAX) (0 + i)) 2 5
          = some (m2.get i) ∧
        2 ≤ m2.get i ∧ m2.get i ≤ 5 ∧
        (U32_MOD - 128 ≤ (fun k => if k = 0 then 6 else U32_MAX) (0 + i) → m2.get i = 5) :=
  randf_closed_unit_interval (fun k => if k = 0 then 6 else U32_MAX)
    (fun k => by beta_reduce; split_ifs <;> decide) 0 ⟨1, 2, [0, 0]⟩ 2 5 3 5
    f32_round_two (by norm_num)
    (by unfold f32_sub; norm_num; exact f32_round_three)
    (by unfold f32_add; norm_num; exact f32_round_five)
    U32_MAX (by decide)

/-- C21 (failing input): `q` the 65537-by-1 vector with all entries `1 / 65537`, `p` the
65537-by-1 vector `e_65536`, incoming gradient all ones, zero `q_grad` and zero destination.
`q` has no zero entry, `q` and `p` each sum to 1, both kernels return true, and entry 65536
of the destination is left at 0, which is not `q[65536] - p[65536] = 1 / 65537 - 1`. -/
theorem softmax_cross_entropy_grad_wraps (flog : ℚ → ℚ) :
    (∀ j, j < 65537 → (uniformVec 65537).get j ≠ 0) ∧
    ∑ j in Finset.range 65537, (uniformVec 65537).get j = 1 ∧
    ∑ j in Finset.range 65537, (lastUnitVec 65537).get j = 1 ∧
    ∃ qg, MatOps.cross_entropy_add_grad flog none (some (Matrix.create 65537 1))
        (lastUnitVec 65537) (uniformVec 65537) ((Matrix.create 65537 1).fill 1)
          = (true, none, some qg) ∧
      (MatOps.softmax_add_grad (Matrix.create 65537 1) (uniformVec 65537) qg).1 = true ∧
      (MatOps.softmax_add_grad (Matrix.create 65537 1) (uniformVec 65537) qg).2.get 65536
        = 0 ∧
      (MatOps.softmax_add_grad (Matrix.create 65537 1) (uniformVec 65537) qg).2.get 65536
        ≠ (uniformVec 65537).get 65536 - (lastUnitVec 65537).get 65536 := by
  obtain ⟨h1, h2, h3, h4, _⟩ := ce_q_grad_from_zero (lastUnitVec 65537) (uniformVec 65537)
    65537 rfl rfl rfl rfl
  have hsame := MatOps.softmax_add_grad_high_row (Matrix.create 65537 1) (uniformVec 65537)
    (MatOps.cross_entropy_add_grad_q (Matrix.create 65537 1) (lastUnitVec 65537)
      (uniformVec 65537) ((Matrix.create 65537 1).fill 1)).2 65537 (by decide) rfl rfl h2 h3
    rfl rfl (create_WF _ _) h4 65536 (by decide) (by decide)
  rw [create_get] at hsame
  refine ⟨fun j hj => uniformVec_ne_zero 65537 j hj, uniformVec_sum 65537 (by decide),
    lastUnitVec_sum 65537 (by decide),
    (MatOps.cross_entropy_add_grad_q (Matrix.create 65537 1) (lastUnitVec 65537)
      (uniformVec 65537) ((Matrix.create 65537 1).fill 1)).2, ?_, ?_, hsame, ?_⟩
  · rw [MatOps.cross_entropy_add_grad_q_only flog (Matrix.create 65537 1) (lastUnitVec 65537)
      (uniformVec 65537) ((Matrix.create 65537 1).fill 1) ⟨rfl, rfl⟩, h1]
  · rw [MatOps.softmax_add_grad_snd _ _ _ (Or.inr rfl)]
  · rw [hsame, uniformVec_get 65537 65536 (by decide), lastUnitVec_get 65537 65536 (by decide)]
    norm_num


/-- C22 (counterexample): two examples, two epochs. The generators `fixRandSwap` and
`fixRandZero` give the same outputs from output 4 on, that is in the whole second epoch,
yet the second epoch runs on the order `[1, 0]` with the first and on `[0, 1]` with the
second; and `[1, 0]` is not what the second epoch's swaps make of the identity. -/
theorem train_second_epoch_order_depends_on_first :
    (∀ k, 4 ≤ k → fixRandSwap k = fixRandZero k) ∧
    (train_examples fixRandSwap 2 1 2).map Prod.fst = [[1, 0], [1, 0]] ∧
    (train_examples fixRandZero 2 1 2).map Prod.fst = [[0, 1], [0, 1]] ∧
    shuffle_order fixRandSwap 4 2 (training_order_init 2) = [0, 1] := by
  refine ⟨?_, by decide, by decide, by decide⟩
  intro k hk
  have h : k ≠ 1 := by omega
  simp [fixRandSwap, fixRandZero, h]

/-- C22 (amended): the first epoch of `train` uses the order its swaps make of the identity
permutation, and every later epoch uses the order its own `num_examples` swaps make of the
order used by the epoch before. -/
theorem train_epoch_order_carried_over (rand : Nat → Nat) (n b epochs e : Nat)
    (o : List Nat)
    (he : ((train_examples rand n b epochs).map Prod.fst)[e]? = some o)
    (hlt : e + 1 < epochs) :
    ((train_examples rand n b epochs).map Prod.fst)[0]?
      = some (shuffle_order rand 0 n (training_order_init n)) ∧
    ((train_examples rand n b epochs).map Prod.fst)[e + 1]?
      = some (shuffle_order rand (2 * n * (e + 1)) n o) := by
  constructor
  · obtain ⟨k, rfl⟩ : ∃ k, epochs = k + 1 := ⟨epochs - 1, by omega⟩
    exact train_epochs_head rand n b k 0 (training_order_init n)
  · have h := train_epochs_next rand n b epochs 0 (training_order_init n) e o he hlt
    rw [Nat.zero_add] at h
    exact h

/-- C22 (witness): two examples, two epochs, generator `fixRandSwap`; the first epoch uses
`[1, 0]` and the second the shuffle of `[1, 0]`. -/
theorem train_epoch_order_carried_over_witness :
    ((train_examples fixRandSwap 2 1 2).map Prod.fst)[0]? = some [1, 0] ∧
    0 + 1 < 2 ∧
    (((train_examples fixRandSwap 2 1 2).map Prod.fst)[0]?
      = some (shuffle_order fixRandSwap 0 2 (training_order_init 2)) ∧
    ((train_examples fixRandSwap 2 1 2).map Prod.fst)[0 + 1]?
      = some (shuffle_order fixRandSwap (2 * 2 * (0 + 1)) 2 [1, 0])) :=
  ⟨by decide, by decide,
    train_epoch_order_carried_over fixRandSwap 2 1 2 0 [1, 0] (by decide) (by decide)⟩


/-- C23 (counterexample): in the graph `cost = add(out, y)` with `out = relu(x)`, built
through the API, the cost node depends on the output node, which is its first operand. After
`compile` the forward program is `[x, out]` and the cost program is `[y, x, out, cost]`: the
forward program is not a prefix of the cost program. -/
theorem compile_forward_not_initial_segment :
    fixOutputFirst.ArenaWF ∧
    fixOutputFirst.output = some 1 ∧ fixOutputFirst.cost = some 3 ∧
    fixOutputFirst.Reaches 3 1 ∧ (fixOutputFirst.var 3).inputs 0 = some 1 ∧
    fixOutputFirst.compile.forward_prog = ⟨[0, 1]⟩ ∧
    fixOutputFirst.compile.cost_prog = ⟨[2, 0, 1, 3]⟩ ∧
    ¬ fixOutputFirst.compile.forward_prog.vars <+: fixOutputFirst.compile.cost_prog.vars ∧
    fixOutputFirst.compile.cost_prog.vars.take fixOutputFirst.compile.forward_prog.size
      ≠ fixOutputFirst.compile.forward_prog.vars := by
  have hop : fixOutputFirst.IsOperand 1 3 := by decide
  obtain ⟨h1, h2, h3, h4⟩ := fixOutputFirst_programs
  refine ⟨(Built.wf _ (Built.add _ 1 2 MV_FLAG_COST
      (Built.create_var _ 1 1 MV_FLAG_DESIRED_OUTPUT
        (Built.relu _ 0 MV_FLAG_OUTPUT
          (Built.create_var _ 1 1 MV_FLAG_REQUIRES_GRAD Built.empty) (by decide)))
      (by decide) (by decide))).arena,
    h1, h2, Relation.ReflTransGen.single hop, by decide, h3, h4, ?_, ?_⟩
  · rw [h3, h4]
    decide
  · rw [h3, h4]
    decide

/-- C23 (amended): on a well-formed arena, when the designated output node is reached from
the designated cost node by following last operands only (`inputs[1]` of a binary node,
`inputs[0]` of a unary one), after `compile` the forward program is a prefix of the cost
program: it equals the initial segment of the cost program of the same length. -/
theorem compile_forward_prefix_last_operand (ctx : ModelContext α) (hwf : ctx.ArenaWF)
    (o c : Nat) (hout : ctx.output = some o) (hcost : ctx.cost = some c)
    (hc : c < ctx.num_vars) (hchain : ctx.LastChain c o) :
    ctx.compile.forward_prog.vars <+: ctx.compile.cost_prog.vars ∧
    ctx.compile.cost_prog.vars.take ctx.compile.forward_prog.size
      = ctx.compile.forward_prog.vars := by
  have h := compile_forward_initial_segment ctx hwf o c hout hcost hc hchain
  exact ⟨h, (List.prefix_iff_eq_take.mp h).symm⟩

/-- C23 (witness): the graph `cost = add(y, out)` with `out = relu(x)`, where the output
node is the last operand of the cost node. -/
theorem compile_forward_prefix_last_operand_witness :
    fixOutputLast.output = some 1 ∧ fixOutputLast.cost = some 3 ∧
    fixOutputLast.LastChain 3 1 ∧
    (fixOutputLast.compile.forward_prog.vars <+: fixOutputLast.compile.cost_prog.vars ∧
    fixOutputLast.compile.cost_prog.vars.take fixOutputLast.compile.forward_prog.size
      = fixOutputLast.compile.forward_prog.vars) :=
  ⟨by decide, by decide,
    Relation.ReflTransGen.single (by decide : fixOutputLast.IsLastOperand 1 3),
    compile_forward_prefix_last_operand fixOutputLast
      (Built.wf _ (Built.add _ 2 1 MV_FLAG_COST
        (Built.create_var _ 1 1 MV_FLAG_DESIRED_OUTPUT
          (Built.relu _ 0 MV_FLAG_OUTPUT
            (Built.create_var _ 1 1 MV_FLAG_REQUIRES_GRAD Built.empty) (by decide)))
        (by decide) (by decide))).arena
      1 3 (by decide) (by decide) (by decide)
      (Relation.ReflTransGen.single (by decide : fixOutputLast.IsLastOperand 1 3))⟩

/-- C24: on a well-formed arena, for every node `root`, `create_program(root)` has no
repeated node: every node reachable from `root` occurs exactly once in the program and
exactly once in its reverse, and no other node occurs. The forward executor folds over the
program and the backward executor over its reverse, so each handles every reachable node
once per pass. -/
theorem create_program_each_node_once (fexp flog : α → α) (ctx : ModelContext α)
    (hwf : ctx.ArenaWF) (root : Nat) (hroot : root < ctx.num_vars) :
    ∃ prog, ctx.create_program root = some prog ∧ prog.vars.Nodup ∧
      (∀ x, ctx.Reaches root x → prog.vars.count x = 1 ∧ prog.vars.reverse.count x = 1) ∧
      (∀ x, ¬ ctx.Reaches root x → prog.vars.count x = 0) ∧
      ∀ c : ModelContext α,
        compute_program fexp flog prog c = prog.vars.foldl (forward_node fexp flog) c ∧
        compute_grads flog prog c
          = prog.vars.reverse.foldl (backward_node flog) (compute_grads_seed prog c) := by
  obtain ⟨prog, hprog, hnd, _, _, hmem, _⟩ := create_program_spec ctx hwf root hroot
  refine ⟨prog, hprog, hnd, ?_, ?_, fun c => ⟨rfl, rfl⟩⟩
  · intro x hx
    have h1 := List.count_eq_one_of_mem hnd ((hmem x).mpr hx)
    exact ⟨h1, by rw [List.count_reverse]; exact h1⟩
  · intro x hx
    exact List.count_eq_zero_of_not_mem (fun h => hx ((hmem x).mp h))

/-- C24 (witness): the graph `add(a, a)`, whose node 0 is both operands of node 1; the
program of node 1 is `[0, 1]`. -/
theorem create_program_each_node_once_witness :
    (fixAddSelf.var 1).inputs 0 = some 0 ∧ (fixAddSelf.var 1).inputs 1 = some 0 ∧
    fixAddSelf.create_program 1 = some ⟨[0, 1]⟩ ∧
    ∃ prog, fixAddSelf.create_program 1 = some prog ∧ prog.vars.Nodup ∧
      (∀ x, fixAddSelf.Reaches 1 x →
        prog.vars.count x = 1 ∧ prog.vars.reverse.count x = 1) ∧
      (∀ x, ¬ fixAddSelf.Reaches 1 x → prog.vars.count x = 0) ∧
      ∀ c : ModelContext ℚ,
        compute_program (fun x => x) (fun x => x) prog c
          = prog.vars.foldl (forward_node (fun x => x) (fun x => x)) c ∧
        compute_grads (fun x => x) prog c
          = prog.vars.reverse.foldl (backward_node (fun x => x))
              (compute_grads_seed prog c) :=
  ⟨by decide, by decide, by decide,
    create_program_each_node_once (fun x => x) (fun x => x) fixAddSelf
      (Built.wf _ (Built.add _ 0 0 MV_FLAG_COST
        (Built.create_var _ 1 1 MV_FLAG_REQUIRES_GRAD Built.empty) (by decide)
        (by decide))).arena 1 (by decide)⟩

/-- C25: on a well-formed arena of at most `2^32` nodes, for every node `root`,
`create_program(root)` is non-empty and ends with `root`; the 32-bit index
`prog.size() - 1` does not wrap and selects `root`, so `compute_grads` fills the gradient of
`root` with ones; and when `root` is the designated cost node, the program is the
`cost_prog` that `compile` stores. -/
theorem create_program_ends_with_root (ctx : ModelContext α) (hwf : ctx.ArenaWF) (root : Nat)
    (hroot : root < ctx.num_vars) (hsz : ctx.num_vars ≤ U32_MOD) :
    ∃ prog, ctx.create_program root = some prog ∧ prog.vars ≠ [] ∧
      prog.vars.getLast? = some root ∧ 1 ≤ prog.size ∧
      (prog.size + U32_MOD - 1) % U32_MOD = prog.size - 1 ∧
      prog.vars[(prog.size + U32_MOD - 1) % U32_MOD]? = some root ∧
      (∀ c : ModelContext α, compute_grads_seed prog c
        = (prog.vars.foldl clear_grad_node c).set_grad root
            (((prog.vars.foldl clear_grad_node c).grad root).fill 1)) ∧
      (ctx.cost = some root → ctx.compile.cost_prog = prog) := by
  obtain ⟨prog, hprog, hnd, hlt, _, _, hlast⟩ := create_program_spec ctx hwf root hroot
  have hne : prog.vars ≠ [] := by
    intro h
    rw [h] at hlast
    cases hlast
  have hpos : 1 ≤ prog.size := List.length_pos.mpr hne
  have hle : prog.size ≤ U32_MOD := le_trans (nodup_length_le prog.vars _ hnd hlt) hsz
  refine ⟨prog, hprog, hne, hlast, hpos, ?_, seed_index prog root hlast hle,
    fun c => compute_grads_seed_eq prog c root hlast hle, ?_⟩
  · have h1 : prog.size + U32_MOD - 1 = prog.size - 1 + U32_MOD := by omega
    rw [h1, Nat.add_mod_right]
    exact Nat.mod_eq_of_lt (by omega)
  · intro hc
    have h2 := (compile_programs ctx).2 root hc
    rw [hprog] at h2
    exact (Option.some.inj h2).symm

/-- C25 (witness): the graph `r = add(x, relu(x))`, whose designated cost node is node 2. -/
theorem create_program_ends_with_root_witness :
    fixGraph.cost = some 2 ∧
    ∃ prog, fixGraph.create_program 2 = some prog ∧ prog.vars ≠ [] ∧
      prog.vars.getLast? = some 2 ∧ 1 ≤ prog.size ∧
      (prog.size + U32_MOD - 1) % U32_MOD = prog.size - 1 ∧
      prog.vars[(prog.size + U32_MOD - 1) % U32_MOD]? = some 2 ∧
      (∀ c : ModelContext ℚ, compute_grads_seed prog c
        = (prog.vars.foldl clear_grad_node c).set_grad 2
            (((prog.vars.foldl clear_grad_node c).grad 2).fill 1)) ∧
      (fixGraph.cost = some 2 → fixGraph.compile.cost_prog = prog) :=
  ⟨by decide,
    create_program_ends_with_root fixGraph
      (Built.wf _ (Built.add _ 0 1 MV_FLAG_COST
        (Built.relu _ 0 0 (Built.create_var _ 3 1 MV_FLAG_REQUIRES_GRAD Built.empty)
          (by decide)) (by decide) (by decide))).arena 2 (by decide) (by decide)⟩


/-- C26: `create_program` returns a program for every context and every root. Its loop is
total by a decreasing measure: from a state whose `visited` has one entry per node and whose
stack is non-empty and free of repetitions, an iteration either marks one unvisited node
visited, or leaves `visited` unchanged and shortens the stack by one; it decreases
`3 * (number of unvisited nodes) + (stack length)`, keeps the stack free of repetitions, and
with fuel above the measure the loop returns a result that more fuel does not change. -/
theorem create_program_terminates (ctx : ModelContext α) (root : Nat) (st : ProgState)
    (fuel : Nat) (hlen : st.visited.length = ctx.num_vars) (hne : st.stack ≠ [])
    (hnd : st.stack.Nodup) (hfuel : st.measure < fuel) :
    (∃ prog, ctx.create_program root = some prog) ∧
    ((∃ k, k < ctx.num_vars ∧ st.visited.getD k false = false ∧
        (create_program_step ctx st).visited = st.visited.set k true ∧
        (create_program_step ctx st).visited.count false + 1 = st.visited.count false) ∨
      ((create_program_step ctx st).visited = st.visited ∧
        (create_program_step ctx st).stack.length + 1 = st.stack.length)) ∧
    (create_program_step ctx st).measure < st.measure ∧
    (create_program_step ctx st).visited.length = ctx.num_vars ∧
    (create_program_step ctx st).stack.Nodup ∧
    ∃ out, create_program_loop ctx fuel st = some out ∧
      ∀ k, create_program_loop ctx (fuel + k) st = some out := by
  obtain ⟨out, hout⟩ := create_program_loop_total ctx fuel st hlen hfuel
  exact ⟨create_program_total ctx root, create_program_step_cases ctx st hlen hne,
    (create_program_step_measure ctx st hlen hne).1,
    (create_program_step_measure ctx st hlen hne).2,
    create_program_step_nodup ctx st hnd,
    out, hout, fun k => create_program_loop_fuel ctx fuel k st out hout⟩

/-- C26 (witness): the graph `r = add(x, relu(x))` from the initial state of
`create_program(2)`, with fuel 11. -/
theorem create_program_terminates_witness :
    (ProgState.mk (List.replicate 3 false) [2] []).visited.length = fixGraph.num_vars ∧
    (ProgState.mk (List.replicate 3 false) [2] []).measure < 11 ∧
    ((∃ prog, fixGraph.create_program 2 = some prog) ∧
    ((∃ k, k < fixGraph.num_vars ∧
        (ProgState.mk (List.replicate 3 false) [2] []).visited.getD k false = false ∧
        (create_program_step fixGraph (ProgState.mk (List.replicate 3 false) [2] [])).visited
          = (ProgState.mk (List.replicate 3 false) [2] []).visited.set k true ∧
        (create_program_step fixGraph
          (ProgState.mk (List.replicate 3 false) [2] [])).visited.count false + 1
          = (ProgState.mk (List.replicate 3 false) [2] []).visited.count false) ∨
      ((create_program_step fixGraph (ProgState.mk (List.replicate 3 false) [2] [])).visited
          = (ProgState.mk (List.replicate 3 false) [2] []).visited ∧
        (create_program_step fixGraph
          (ProgState.mk (List.replicate 3 false) [2] [])).stack.length + 1
          = (ProgState.mk (List.replicate 3 false) [2] []).stack.length)) ∧
    (create_program_step fixGraph (ProgState.mk (List.replicate 3 false) [2] [])).measure
      < (ProgState.mk (List.replicate 3 false) [2] []).measure ∧
    (create_program_step fixGraph
      (ProgState.mk (List.replicate 3 false) [2] [])).visited.length = fixGraph.num_vars ∧
    (create_program_step fixGraph (ProgState.mk (List.replicate 3 false) [2] [])).stack.Nodup ∧
    ∃ out, create_program_loop fixGraph 11 (ProgState.mk (List.replicate 3 false) [2] [])
        = some out ∧
      ∀ k, create_program_loop fixGraph (11 + k)
        (ProgState.mk (List.replicate 3 false) [2] []) = some out) :=
  ⟨by decide, by decide,
    create_program_terminates fixGraph 2 (ProgState.mk (List.replicate 3 false) [2] []) 11
      (by decide) (by decide) (by decide) (by decide)⟩

end Claims

end Autograd
